import Mathlib

/-!
dtree: the tree renderers, the statistics pass, the sort pass, the exporters, the walker
and the browser.

A shallow embedding of `internal/tree/node.go`, `internal/tree/renderer.go`,
`internal/tree/renderer_stats.go`, `internal/tree/renderer_color.go`,
`internal/tree/walker.go`, `internal/stats/stats.go`, `internal/color/theme.go`,
`internal/export/plain.go`, `internal/export/markdown.go`, `internal/export/json.go` and
`internal/tui/app.go`.

* A `*Node` is a value of the recursive structure `Node`; the `Parent`
  back-reference is not stored (depth is the length of the path from the root).
* An `io.Writer` is the list of the lines written to it: every
  `fmt.Fprintf(w, "...\n", ...)` appends one element (the text before the `\n`).
  A `strings.Builder` is the text written to it.
* A Go `string` is a `String`; `<` on strings is the lexicographic order of the code
  points, which is the byte order of UTF-8.
* `int64` sizes and counters are `Int` values; the sums that `calculateDirSize`,
  `AddFile`, `AddDir` and `RenderTreeWithStats` take of them go through `wrap64`, which
  wraps around as the machine does. `time.Time` is an `Int` offset from the zero
  instant, so `IsZero` is `= 0`, `After` is `>` and `Before` is `<`.
* The renderers return `nil` on every path, so only the written lines are returned.
* The file system is the finite tree of the answers of `os.ReadDir`, `DirEntry.Info`,
  `filepath.EvalSymlinks` and `os.Stat`; the functions of `path/filepath` on path texts
  are parameters. A second embedding of the walker takes the calls of the operating
  system as functions of the path and bounds the depth of the recursion, so that it
  also runs on a file system with a symbolic link that leads back to an ancestor.
* The methods of the packages `fatih/color` and `lipgloss` that decorate a text, and
  `strings.ToLower`, `strings.Contains` and `filepath.Ext`, are parameters.
-/

namespace Dtree

/-! ## node.go -/

/-- Node represents a file or directory in the tree. -/
structure Node where
  Name : String
  Path : String
  IsDir : Bool
  IsSymlink : Bool
  Children : List Node
  Size : Int
  ModTime : Int
  Mode : Nat

/-! ## renderer.go -/

def TreeBranch : String := "├── "
def TreeLast : String := "└── "
def TreePipe : String := "│   "
def TreeSpace : String := "    "

mutual
/-- The method `Renderer.renderNode`: the line of the node unless `skipRoot`, then the
children. `renderNode.loop` is the `for i, child := range children` loop from index `i`
on, `n` being `len(children)`. -/
def Renderer.renderNode (node : Node) (pfx : String) (isLast : Bool) (skipRoot : Bool) :
    List String :=
  match node with
  | ⟨name, _, _, _, children, _, _, _⟩ =>
    (if !skipRoot then
      let connector := if !isLast then TreeBranch else TreeLast
      [pfx ++ connector ++ name]
    else [])
    ++ Renderer.renderNode.loop children 0 children.length pfx isLast skipRoot
def Renderer.renderNode.loop (rest : List Node) (i n : Nat) (pfx : String) (isLast : Bool)
    (skipRoot : Bool) : List String :=
  match rest with
  | [] => []
  | child :: tl =>
    let isLastChild := i == n - 1
    let childPfx :=
      if !skipRoot then (if isLast then pfx ++ TreeSpace else pfx ++ TreePipe) else pfx
    Renderer.renderNode child childPfx isLastChild false
      ++ Renderer.renderNode.loop tl (i + 1) n pfx isLast skipRoot
end

/-- The prefix `renderNode` hands to the children of a node. -/
def childPfxOf (pfx : String) (isLast skipRoot : Bool) : String :=
  if !skipRoot then (if isLast then pfx ++ TreeSpace else pfx ++ TreePipe) else pfx

/-- The method `Renderer.RenderTree`. -/
def Renderer.RenderTree (root : Node) (showRoot : Bool) : List String :=
  (if showRoot then [root.Name] else []) ++ Renderer.renderNode root "" true showRoot

/-- The text a `strings.Builder` holds after the given lines were written to it. -/
def written (lines : List String) : String :=
  lines.foldr (fun l acc => l ++ "\n" ++ acc) ""

/-- The function `GetTreeString`. -/
def GetTreeString (root : Node) (showRoot : Bool) : String :=
  written (Renderer.RenderTree root showRoot)

/-! ## Positions in a tree

A position is the list of child indices leading from the root to a node; its length
is the depth of the node. These definitions follow the wording of the specification
and are what the renderers are compared with. -/

/-- The node at a position, if the position exists. -/
def nodeAt : Node → List Nat → Option Node
  | node, [] => some node
  | node, i :: rest =>
    match node.Children[i]? with
    | some c => nodeAt c rest
    | none => none

mutual
/-- The positions of all proper descendants of a node in depth-first pre-order,
following `Children` order. -/
def positions (node : Node) : List (List Nat) :=
  match node with
  | ⟨_, _, _, _, children, _, _, _⟩ => positions.from children 0
def positions.from (rest : List Node) (i : Nat) : List (List Nat) :=
  match rest with
  | [] => []
  | child :: tl => ([i] :: (positions child).map (fun p => i :: p)) ++ positions.from tl (i + 1)
end

/-- Whether the node at position `p` is the last child of its parent. The root is not a
child, so the empty position gives `false`. -/
def isLastChild (root : Node) (p : List Nat) : Bool :=
  match p.getLast?, nodeAt root p.dropLast with
  | some i, some parent => i + 1 == parent.Children.length
  | _, _ => false

/-- The name of the node at a position (empty when the position does not exist). -/
def nameAt (root : Node) (p : List Nat) : String :=
  match nodeAt root p with
  | some n => n.Name
  | none => ""

/-- The proper ancestors of position `p` at depths `1 .. d-1`, from the top down. -/
def ancestorsOf (p : List Nat) : List (List Nat) :=
  (List.range' 1 (p.length - 1)).map (fun k => p.take k)

/-- Concatenation of a list of strings. -/
def concatAll (l : List String) : String := l.foldr (fun s acc => s ++ acc) ""

/-- The indentation the specification gives the node at position `p`: one four-character
group per proper ancestor below the root. -/
def indentAt (root : Node) (p : List Nat) : String :=
  concatAll ((ancestorsOf p).map (fun a => if isLastChild root a then TreeSpace else TreePipe))

/-- The connector the specification gives the node at position `p`. -/
def connectorAt (root : Node) (p : List Nat) : String :=
  if isLastChild root p then TreeLast else TreeBranch

/-- The line the specification gives the node at position `p`. -/
def lineAt (root : Node) (p : List Nat) : String :=
  indentAt root p ++ connectorAt root p ++ nameAt root p

/-- The four characters of a line that follow an indentation of `4 * (d - 1)` characters:
the connector column of a line at depth `d`. -/
def connectorColumn (d : Nat) (line : String) : List Char :=
  (line.data.drop (4 * (d - 1))).take 4

/-- The tree `root/{a.txt (10), sub/{b.txt (2048)}}`. -/
def exampleTree : Node :=
  ⟨"root", "/tmp", true, false,
    [⟨"a.txt", "/tmp/root", false, false, [], 10, 1, 420⟩,
     ⟨"sub", "/tmp/root", true, false,
       [⟨"b.txt", "/tmp/root/sub", false, false, [], 2048, 2, 420⟩], 4096, 3, 493⟩],
    4096, 4, 493⟩


/-! ## stats.go -/

/-- The value an `int64` holds after an arithmetic result `x`: the number in
`[-2^63, 2^63)` that is `x` modulo `2^64`. -/
def wrap64 (x : Int) : Int := (x + 2 ^ 63) % 2 ^ 64 - 2 ^ 63

/-- FileStats contains statistics about files. -/
structure FileStats where
  TotalFiles : Int
  TotalDirs : Int
  TotalSize : Int
  LargestFile : Int
  OldestFile : Int
  NewestFile : Int
deriving DecidableEq, Repr

/-- The function `NewStats`; `now` is the reading of `time.Now()`. -/
def NewStats (now : Int) : FileStats :=
  { TotalFiles := 0, TotalDirs := 0, TotalSize := 0, LargestFile := 0,
    OldestFile := now, NewestFile := 0 }

/-- The method `FileStats.AddFile`. The counters are `int64` fields: `++` and `+=` wrap
around. -/
def FileStats.AddFile (s : FileStats) (size : Int) (modTime : Int) : FileStats :=
  let s := { s with TotalFiles := wrap64 (s.TotalFiles + 1) }
  let s := { s with TotalSize := wrap64 (s.TotalSize + size) }
  let s := if size > s.LargestFile then { s with LargestFile := size } else s
  let s := if modTime < s.OldestFile then { s with OldestFile := modTime } else s
  let s := if modTime > s.NewestFile then { s with NewestFile := modTime } else s
  s

/-- The method `FileStats.AddDir`. -/
def FileStats.AddDir (s : FileStats) : FileStats :=
  { s with TotalDirs := wrap64 (s.TotalDirs + 1) }

/-- The unit-selection loop `for n := bytes / unit; n >= unit; n /= unit` shared by
`FormatSize` and `FormatSizeCompact`; it returns `(div, exp)`. Every iteration with
`n >= 1024` makes `n` smaller, so `n.toNat` iterations always reach the exit test. -/
def unitLoop : Nat → Int → Int → Nat → Int × Nat
  | 0, _, div, exp => (div, exp)
  | fuel + 1, n, div, exp =>
    if n ≥ 1024 then unitLoop fuel (Int.tdiv n 1024) (div * 1024) (exp + 1) else (div, exp)

/-- The conversion `float64(bytes)` for `bytes ≥ 0`, as the exact value of the resulting
float: values below `2^53` are kept, larger ones are rounded to 53 significant bits, ties
to even. -/
def toFloat64 (bytes : Int) : Int :=
  if bytes < 2 ^ 53 then bytes
  else
    let e := ((List.range 12).find? (fun e => decide (bytes < 2 ^ (53 + e)))).getD 11
    let q := bytes / 2 ^ e
    let r := bytes % 2 ^ e
    let q := if 2 * r > 2 ^ e ∨ (2 * r = 2 ^ e ∧ q % 2 = 1) then q + 1 else q
    q * 2 ^ e

/-- The verb `%.1f` applied to the quotient `num / den` of two non-negative floats whose
quotient is exact (`den` is a power of two): the decimal expansion rounded to one
fractional digit, ties to even. -/
def formatFixed1 (num den : Int) : String :=
  let q := (10 * num) / den
  let r := (10 * num) % den
  let t := if 2 * r > den ∨ (2 * r = den ∧ q % 2 = 1) then q + 1 else q
  toString (t / 10) ++ "." ++ toString (t % 10)

/-- The byte `"KMGTPE"[exp]` as a character. An index above 5 is a run-time panic in Go;
the unit loop never produces one for an `int64` argument. -/
def unitLetter (exp : Nat) : Char :=
  ("KMGTPE".data[exp]?).getD ' '

/-- The function `FormatSize`. -/
def FormatSize (bytes : Int) : String :=
  if bytes < 1024 then toString bytes ++ " B"
  else
    let r := unitLoop bytes.toNat (Int.tdiv bytes 1024) 1024 0
    formatFixed1 (toFloat64 bytes) r.1 ++ " " ++ String.singleton (unitLetter r.2) ++ "B"

/-- The function `FormatSizeCompact`. -/
def FormatSizeCompact (bytes : Int) : String :=
  if bytes < 1024 then toString bytes ++ "B"
  else
    let r := unitLoop bytes.toNat (Int.tdiv bytes 1024) 1024 0
    formatFixed1 (toFloat64 bytes) r.1 ++ String.singleton (unitLetter r.2) ++ "B"

/-- The function `FormatDate`; `Format` is the method `time.Time.Format` of the standard
library, taking the layout and the time. -/
def FormatDate (Format : String → Int → String) (t : Int) : String :=
  if t = 0 then "" else Format "Jan 02" t

/-- The function `FormatDateLong`. -/
def FormatDateLong (Format : String → Int → String) (t : Int) : String :=
  if t = 0 then "" else Format "Jan 02 15:04" t

/-- The unit-selection loop on the machine: `div *= unit` is an `int64` product that wraps
around, and `none` is a loop that has not reached its exit test within `fuel` rounds. -/
def unitLoop64 : Nat → Int → Int → Nat → Option (Int × Nat)
  | 0, _, _, _ => none
  | fuel + 1, n, div, exp =>
    if n ≥ 1024 then unitLoop64 fuel (Int.tdiv n 1024) (wrap64 (div * 1024)) (exp + 1)
    else some (div, exp)

/-! ## sort.Slice

`sortNode` calls `sort.Slice` of the Go standard library. Its documented contract is
`SliceContract`: the slice is permuted and ends up ordered by `less`; the sort is not
guaranteed to be stable. The functions below follow the implementation the standard
library has had since Go 1.19 (`sort/zsortfunc.go`, pattern-defeating quicksort), on a
slice held as a list; `Less` and `Swap` are the two fields of `lessSwap`. The generator
`xorshift.Next` used by `breakPatterns_func` is the parameter `next`. -/

/-- A comparison that is a strict weak ordering, as `sort.Slice` requires of `less`. -/
def StrictWeak {α : Type} (less : α → α → Bool) : Prop :=
  (∀ a, less a a = false) ∧
  (∀ a b c, less a b = true → less b c = true → less a c = true) ∧
  (∀ a b c, less a b = false → less b c = false → less a c = false)

/-- A sort only permutes the slice. -/
def Permutes (Slice : (Node → Node → Bool) → List Node → List Node) : Prop :=
  ∀ (less : Node → Node → Bool) (l : List Node), (Slice less l).Perm l

/-- The documented contract of `sort.Slice`: the result is a permutation of the slice and,
for a strict weak ordering, no element is `less` than its predecessor. -/
def SliceContract (Slice : (Node → Node → Bool) → List Node → List Node) : Prop :=
  ∀ (less : Node → Node → Bool) (l : List Node),
    (Slice less l).Perm l ∧
    (StrictWeak less → List.Chain' (fun a b => less b a = false) (Slice less l))

/-- The call `data.Less(i, j)`. -/
def Less {α : Type} (less : α → α → Bool) (data : List α) (i j : Nat) : Bool :=
  match data[i]?, data[j]? with
  | some x, some y => less x y
  | _, _ => false

/-- The call `data.Swap(i, j)`. -/
def Swap {α : Type} (data : List α) (i j : Nat) : List α :=
  match data[i]?, data[j]? with
  | some x, some y => (data.set i y).set j x
  | _, _ => data

/-- The loop `for j := i; j > a && data.Less(j, j-1); j-- { data.Swap(j, j-1) }`. -/
def insertionSort_func.inner {α : Type} (less : α → α → Bool) (a : Nat) :
    Nat → List α → List α
  | 0, data => data
  | j + 1, data =>
    if j + 1 > a && Less less data (j + 1) j then
      insertionSort_func.inner less a j (Swap data (j + 1) j)
    else data

/-- The loop `for i := a + 1; i < b; i++` of `insertionSort_func`. -/
def insertionSort_func.outer {α : Type} (less : α → α → Bool) (a b : Nat) :
    Nat → Nat → List α → List α
  | 0, _, data => data
  | fuel + 1, i, data =>
    if i < b then
      insertionSort_func.outer less a b fuel (i + 1) (insertionSort_func.inner less a i data)
    else data

/-- The function `insertionSort_func`: sorts `data[a:b]` using insertion sort. -/
def insertionSort_func {α : Type} (less : α → α → Bool) (data : List α) (a b : Nat) : List α :=
  insertionSort_func.outer less a b (b - a) (a + 1) data

/-- The function `siftDown_func(data, lo, hi, first)`; the second argument counts the
remaining iterations and the third is `root`, which starts as `lo`. -/
def siftDown_func {α : Type} (less : α → α → Bool) (hi first : Nat) :
    Nat → Nat → List α → List α
  | 0, _, data => data
  | fuel + 1, root, data =>
    let child := 2 * root + 1
    if child ≥ hi then data
    else
      let child :=
        if child + 1 < hi && Less less data (first + child) (first + child + 1) then child + 1
        else child
      if !Less less data (first + root) (first + child) then data
      else siftDown_func less hi first fuel child (Swap data (first + root) (first + child))

/-- The loop `for i := (hi - 1) / 2; i >= 0; i--` of `heapSort_func`, at `i = k - 1`. -/
def heapSort_func.build {α : Type} (less : α → α → Bool) (hi first : Nat) :
    Nat → List α → List α
  | 0, data => data
  | i + 1, data => heapSort_func.build less hi first i (siftDown_func less hi first hi i data)

/-- The loop `for i := hi - 1; i >= 0; i--` of `heapSort_func`, at `i = k - 1`. -/
def heapSort_func.pop {α : Type} (less : α → α → Bool) (first : Nat) : Nat → List α → List α
  | 0, data => data
  | i + 1, data =>
    heapSort_func.pop less first i (siftDown_func less i first i 0 (Swap data first (first + i)))

/-- The function `heapSort_func`. -/
def heapSort_func {α : Type} (less : α → α → Bool) (data : List α) (a b : Nat) : List α :=
  let first := a
  let hi := b - a
  let data := heapSort_func.build less hi first ((hi - 1) / 2 + 1) data
  heapSort_func.pop less first hi data

/-- The type `sortedHint`. -/
inductive sortedHint where
  | unknownHint
  | increasingHint
  | decreasingHint
deriving DecidableEq

/-- The function `order2_func`, returning the two indices and the new `swaps`. -/
def order2_func {α : Type} (less : α → α → Bool) (data : List α) (a b swaps : Nat) :
    Nat × Nat × Nat :=
  if Less less data b a then (b, a, swaps + 1) else (a, b, swaps)

/-- The function `median_func`, returning the index and the new `swaps`. -/
def median_func {α : Type} (less : α → α → Bool) (data : List α) (a b c swaps : Nat) :
    Nat × Nat :=
  let (a, b, swaps) := order2_func less data a b swaps
  let (b, _, swaps) := order2_func less data b c swaps
  let (_, b, swaps) := order2_func less data a b swaps
  (b, swaps)

/-- The function `medianAdjacent_func`. -/
def medianAdjacent_func {α : Type} (less : α → α → Bool) (data : List α) (a swaps : Nat) :
    Nat × Nat :=
  median_func less data (a - 1) a (a + 1) swaps

/-- The function `choosePivot_func`. -/
def choosePivot_func {α : Type} (less : α → α → Bool) (data : List α) (a b : Nat) :
    Nat × sortedHint :=
  let l := b - a
  let swaps := 0
  let i := a + l / 4 * 1
  let j := a + l / 4 * 2
  let k := a + l / 4 * 3
  let (j, swaps) :=
    if l ≥ 8 then
      let (i, j, k, swaps) :=
        if l ≥ 50 then
          let (i, swaps) := medianAdjacent_func less data i swaps
          let (j, swaps) := medianAdjacent_func less data j swaps
          let (k, swaps) := medianAdjacent_func less data k swaps
          (i, j, k, swaps)
        else (i, j, k, swaps)
      median_func less data i j k swaps
    else (j, swaps)
  if swaps = 0 then (j, sortedHint.increasingHint)
  else if swaps = 4 * 3 then (j, sortedHint.decreasingHint)
  else (j, sortedHint.unknownHint)

/-- The function `reverseRange_func`: the loop `for i < j` from `i = a`, `j = b - 1`. -/
def reverseRange_func.loop {α : Type} : Nat → Nat → Nat → List α → List α
  | 0, _, _, data => data
  | fuel + 1, i, j, data =>
    if i < j then reverseRange_func.loop fuel (i + 1) (j - 1) (Swap data i j) else data

/-- The function `reverseRange_func`. -/
def reverseRange_func {α : Type} (data : List α) (a b : Nat) : List α :=
  reverseRange_func.loop (b - a) a (b - 1) data

/-- The loop `for i < b && !data.Less(i, i-1) { i++ }`; it returns `i`. -/
def partialInsertionSort_func.scan {α : Type} (less : α → α → Bool) (data : List α) (b : Nat) :
    Nat → Nat → Nat
  | 0, i => i
  | fuel + 1, i =>
    if i < b && !Less less data i (i - 1) then
      partialInsertionSort_func.scan less data b fuel (i + 1)
    else i

/-- The loop `for j := i - 1; j >= 1; j--` that shifts the smaller element to the left. -/
def partialInsertionSort_func.left {α : Type} (less : α → α → Bool) : Nat → List α → List α
  | 0, data => data
  | j + 1, data =>
    if !Less less data (j + 1) j then data
    else partialInsertionSort_func.left less j (Swap data (j + 1) j)

/-- The loop `for j := i + 1; j < b; j++` that shifts the greater element to the right. -/
def partialInsertionSort_func.right {α : Type} (less : α → α → Bool) (b : Nat) :
    Nat → Nat → List α → List α
  | 0, _, data => data
  | fuel + 1, j, data =>
    if j < b then
      if !Less less data j (j - 1) then data
      else partialInsertionSort_func.right less b fuel (j + 1) (Swap data j (j - 1))
    else data

/-- The loop `for j := 0; j < maxSteps; j++` of `partialInsertionSort_func`; the first
argument is the number of steps left. -/
def partialInsertionSort_func.steps {α : Type} (less : α → α → Bool) (a b : Nat) :
    Nat → Nat → List α → List α × Bool
  | 0, _, data => (data, false)
  | steps + 1, i, data =>
    let i := partialInsertionSort_func.scan less data b (b - i) i
    if i = b then (data, true)
    else if b - a < 50 then (data, false)
    else
      let data := Swap data i (i - 1)
      let data :=
        if i - a ≥ 2 then partialInsertionSort_func.left less (i - 1) data else data
      let data :=
        if b - i ≥ 2 then partialInsertionSort_func.right less b (b - i) (i + 1) data else data
      partialInsertionSort_func.steps less a b steps i data

/-- The function `partialInsertionSort_func`: partially sorts a slice, returns true if the
slice is sorted at the end. -/
def partialInsertionSort_func {α : Type} (less : α → α → Bool) (data : List α) (a b : Nat) :
    List α × Bool :=
  partialInsertionSort_func.steps less a b 5 (a + 1) data

/-- The function `bits.Len`. -/
def bitsLen : Nat → Nat → Nat
  | 0, _ => 0
  | fuel + 1, x => if x = 0 then 0 else 1 + bitsLen fuel (x / 2)

/-- The method `xorshift.Next` (shifts 13, 7, 17 on a `uint64`). -/
def xorshiftNext (r : Nat) : Nat :=
  let r := Nat.xor r ((r <<< 13) % 2 ^ 64)
  let r := Nat.xor r (r >>> 7)
  let r := Nat.xor r ((r <<< 17) % 2 ^ 64)
  r

/-- The loop `for i := 0; i < 3; i++` of `breakPatterns_func`; `random` is the state of
the generator. -/
def breakPatterns_func.loop {α : Type} (next : Nat → Nat) (a length modulus idx : Nat) :
    Nat → Nat → Nat → List α → List α
  | 0, _, _, data => data
  | fuel + 1, i, random, data =>
    if i < 3 then
      let random := next random
      let other := Nat.land random (modulus - 1)
      let other := if other ≥ length then other - length else other
      breakPatterns_func.loop next a length modulus idx fuel (i + 1) random
        (Swap data (idx - 1 + i) (a + other))
    else data

/-- The function `breakPatterns_func`. -/
def breakPatterns_func {α : Type} (next : Nat → Nat) (data : List α) (a b : Nat) : List α :=
  let length := b - a
  if length ≥ 8 then
    let random := length
    let modulus := 2 ^ bitsLen length length
    let idx := a + (length / 4) * 2 - 1
    breakPatterns_func.loop next a length modulus idx 3 0 random data
  else data

/-- The loop `for i <= j && data.Less(i, a) { i++ }` of `partition_func`; returns `i`. -/
def partition_func.up {α : Type} (less : α → α → Bool) (data : List α) (a j : Nat) :
    Nat → Nat → Nat
  | 0, i => i
  | fuel + 1, i =>
    if i ≤ j && Less less data i a then partition_func.up less data a j fuel (i + 1) else i

/-- The loop `for i <= j && !data.Less(j, a) { j-- }` of `partition_func`; returns `j`. -/
def partition_func.down {α : Type} (less : α → α → Bool) (data : List α) (a i : Nat) :
    Nat → Nat
  | 0 => 0
  | j + 1 =>
    if i ≤ j + 1 && !Less less data (j + 1) a then partition_func.down less data a i j
    else j + 1

/-- The unconditional `for` loop of `partition_func`; returns the slice and `j`. -/
def partition_func.loop {α : Type} (less : α → α → Bool) (a : Nat) :
    Nat → Nat → Nat → List α → List α × Nat
  | 0, _, j, data => (data, j)
  | fuel + 1, i, j, data =>
    let i := partition_func.up less data a j (j + 1 - i) i
    let j := partition_func.down less data a i j
    if i > j then (data, j)
    else partition_func.loop less a fuel (i + 1) (j - 1) (Swap data i j)

/-- The function `partition_func`; returns the slice, `newpivot` and
`alreadyPartitioned`. -/
def partition_func {α : Type} (less : α → α → Bool) (data : List α) (a b pivot : Nat) :
    List α × Nat × Bool :=
  let data := Swap data a pivot
  let i := a + 1
  let j := b - 1
  let i := partition_func.up less data a j (j + 1 - i) i
  let j := partition_func.down less data a i j
  if i > j then (Swap data j a, j, true)
  else
    let data := Swap data i j
    let r := partition_func.loop less a (b - a) (i + 1) (j - 1) data
    (Swap r.1 r.2 a, r.2, false)

/-- The loop `for i <= j && !data.Less(a, i) { i++ }` of `partitionEqual_func`. -/
def partitionEqual_func.up {α : Type} (less : α → α → Bool) (data : List α) (a j : Nat) :
    Nat → Nat → Nat
  | 0, i => i
  | fuel + 1, i =>
    if i ≤ j && !Less less data a i then partitionEqual_func.up less data a j fuel (i + 1)
    else i

/-- The loop `for i <= j && data.Less(a, j) { j-- }` of `partitionEqual_func`. -/
def partitionEqual_func.down {α : Type} (less : α → α → Bool) (data : List α) (a i : Nat) :
    Nat → Nat
  | 0 => 0
  | j + 1 =>
    if i ≤ j + 1 && Less less data a (j + 1) then partitionEqual_func.down less data a i j
    else j + 1

/-- The `for` loop of `partitionEqual_func`; returns the slice and `i`. -/
def partitionEqual_func.loop {α : Type} (less : α → α → Bool) (a : Nat) :
    Nat → Nat → Nat → List α → List α × Nat
  | 0, i, _, data => (data, i)
  | fuel + 1, i, j, data =>
    let i := partitionEqual_func.up less data a j (j + 1 - i) i
    let j := partitionEqual_func.down less data a i j
    if i > j then (data, i)
    else partitionEqual_func.loop less a fuel (i + 1) (j - 1) (Swap data i j)

/-- The function `partitionEqual_func`; returns the slice and `newpivot`. -/
def partitionEqual_func {α : Type} (less : α → α → Bool) (data : List α) (a b pivot : Nat) :
    List α × Nat :=
  let data := Swap data a pivot
  partitionEqual_func.loop less a (b - a + 1) (a + 1) (b - 1) data

/-- The function `pdqsort_func`: its `for` loop with the loop variables `a`, `b`, `limit`,
`wasBalanced`, `wasPartitioned` as arguments. Each iteration and each recursive call
works on a shorter range, so `b - a + 1` rounds finish the sort. -/
def pdqsort_func.loop {α : Type} (next : Nat → Nat) (less : α → α → Bool) :
    Nat → List α → Nat → Nat → Nat → Bool → Bool → List α
  | 0, data, _, _, _, _, _ => data
  | fuel + 1, data, a, b, limit, wasBalanced, wasPartitioned =>
    let length := b - a
    if length ≤ 12 then insertionSort_func less data a b
    else if limit = 0 then heapSort_func less data a b
    else
      let data := if !wasBalanced then breakPatterns_func next data a b else data
      let limit := if !wasBalanced then limit - 1 else limit
      let ph := choosePivot_func less data a b
      let reversed := decide (ph.2 = sortedHint.decreasingHint)
      let data := if reversed then reverseRange_func data a b else data
      let pivot := if reversed then (b - 1) - (ph.1 - a) else ph.1
      let hint := if reversed then sortedHint.increasingHint else ph.2
      let tried := wasBalanced && wasPartitioned && decide (hint = sortedHint.increasingHint)
      let pis := if tried then partialInsertionSort_func less data a b else (data, false)
      if pis.2 then pis.1
      else
        let data := pis.1
        if a > 0 && !Less less data (a - 1) pivot then
          let pe := partitionEqual_func less data a b pivot
          pdqsort_func.loop next less fuel pe.1 pe.2 b limit wasBalanced wasPartitioned
        else
          let pt := partition_func less data a b pivot
          let data := pt.1
          let mid := pt.2.1
          let wasPartitioned := pt.2.2
          let leftLen := mid - a
          let rightLen := b - mid
          let balanceThreshold := length / 8
          if leftLen < rightLen then
            let wasBalanced := decide (leftLen ≥ balanceThreshold)
            let data := pdqsort_func.loop next less fuel data a mid limit true true
            pdqsort_func.loop next less fuel data (mid + 1) b limit wasBalanced wasPartitioned
          else
            let wasBalanced := decide (rightLen ≥ balanceThreshold)
            let data := pdqsort_func.loop next less fuel data (mid + 1) b limit true true
            pdqsort_func.loop next less fuel data a mid limit wasBalanced wasPartitioned

/-- The function `pdqsort_func`. -/
def pdqsort_func {α : Type} (next : Nat → Nat) (less : α → α → Bool) (data : List α)
    (a b limit : Nat) : List α :=
  pdqsort_func.loop next less (b - a + 1) data a b limit true true

/-- The function `sort.Slice`, with `less` given on the elements. -/
def sortSlice {α : Type} (next : Nat → Nat) (less : α → α → Bool) (x : List α) : List α :=
  let length := x.length
  let limit := bitsLen length length
  pdqsort_func next less x 0 length limit

/-- The function `strings.ToLower` on ASCII letters. -/
def asciiToLower (s : String) : String := s.map Char.toLower


/-! ## renderer_stats.go

Three functions of the Go standard library are parameters of the embedding:
`Format` (`time.Time.Format`), `ToLower` (`strings.ToLower`) and `Slice` (`sort.Slice`,
which receives the slice and the comparison of two of its elements). -/

/-- RendererStats extends Renderer with statistics support. -/
structure RendererStats where
  showSize : Bool
  showDate : Bool
  showLong : Bool
  sortBy : String
  collectStats : Bool

/-- The function `NewRendererStats`. -/
def NewRendererStats (showSize showDate showLong : Bool) (sortBy : String)
    (collectStats : Bool) : RendererStats :=
  { showSize := showSize || showLong,
    showDate := showDate || showLong,
    showLong := showLong,
    sortBy := sortBy,
    collectStats := collectStats }

/-- The function `strings.Join`. -/
def Join : List String → String → String
  | [], _ => ""
  | [s], _ => s
  | s :: t :: rest, sep => s ++ sep ++ Join (t :: rest) sep

mutual
/-- The method `RendererStats.calculateDirSize`; `calculateDirSize.loop` is its
`for _, child := range node.Children` loop, with the running `size`, an `int64` on which
`+=` wraps around. -/
def RendererStats.calculateDirSize (node : Node) : Int :=
  match node with
  | ⟨_, _, _, _, children, _, _, _⟩ => RendererStats.calculateDirSize.loop children 0
def RendererStats.calculateDirSize.loop (rest : List Node) (size : Int) : Int :=
  match rest with
  | [] => size
  | child :: tl =>
    match child with
    | ⟨nm, pa, isDir, sl, ch, sz, mt, mo⟩ =>
      if isDir then
        RendererStats.calculateDirSize.loop tl
          (wrap64 (size + RendererStats.calculateDirSize ⟨nm, pa, isDir, sl, ch, sz, mt, mo⟩))
      else
        RendererStats.calculateDirSize.loop tl (wrap64 (size + sz))
end

/-- The line `renderNodeWithStats` builds for a node: `pfx ++ connector ++ Name`, then the
optional size and date parts. -/
def RendererStats.statsLine (Format : String → Int → String) (r : RendererStats)
    (node : Node) (pfx : String) (isLast : Bool) : String :=
  let connector := if !isLast then TreeBranch else TreeLast
  let line := pfx ++ connector ++ node.Name
  if r.showSize || r.showDate then
    let parts : List String := []
    let parts :=
      if r.showSize && !node.IsDir then
        parts ++ [FormatSizeCompact node.Size]
      else if r.showSize && node.IsDir then
        let dirSize := RendererStats.calculateDirSize node
        parts ++ ["[" ++ FormatSizeCompact dirSize ++ "]"]
      else parts
    let parts :=
      if r.showDate then
        let dateStr := FormatDate Format node.ModTime
        let dateStr := if r.showLong then FormatDateLong Format node.ModTime else dateStr
        if dateStr != "" then parts ++ [dateStr] else parts
      else parts
    if parts.length > 0 then line ++ ("  " ++ Join parts "  ") else line
  else line

mutual
/-- The method `RendererStats.renderNodeWithStats`. Its `fileStats` argument is only
handed on to the recursive calls and never read, so it is left out. -/
def RendererStats.renderNodeWithStats (Format : String → Int → String) (r : RendererStats)
    (node : Node) (pfx : String) (isLast : Bool) (skipRoot : Bool) : List String :=
  match node with
  | ⟨nm, pa, isDir, sl, children, sz, mt, mo⟩ =>
    (if !skipRoot then
      [RendererStats.statsLine Format r ⟨nm, pa, isDir, sl, children, sz, mt, mo⟩ pfx isLast]
    else [])
    ++ RendererStats.renderNodeWithStats.loop Format r children 0 children.length pfx isLast
        skipRoot
def RendererStats.renderNodeWithStats.loop (Format : String → Int → String)
    (r : RendererStats) (rest : List Node) (i n : Nat) (pfx : String) (isLast : Bool)
    (skipRoot : Bool) : List String :=
  match rest with
  | [] => []
  | child :: tl =>
    let isLastChild := i == n - 1
    let childPfx :=
      if !skipRoot then (if isLast then pfx ++ TreeSpace else pfx ++ TreePipe) else pfx
    RendererStats.renderNodeWithStats Format r child childPfx isLastChild false
      ++ RendererStats.renderNodeWithStats.loop Format r tl (i + 1) n pfx isLast skipRoot
end

mutual
/-- The method `RendererStats.collectNodeStats`, returning the updated `FileStats`. -/
def RendererStats.collectNodeStats (node : Node) (fileStats : FileStats) (skipRoot : Bool) :
    FileStats :=
  match node with
  | ⟨_, _, isDir, _, children, sz, mt, _⟩ =>
    let fileStats :=
      if !skipRoot then
        (if isDir then fileStats.AddDir else fileStats.AddFile sz mt)
      else fileStats
    RendererStats.collectNodeStats.loop children fileStats
def RendererStats.collectNodeStats.loop (rest : List Node) (fileStats : FileStats) : FileStats :=
  match rest with
  | [] => fileStats
  | child :: tl =>
    RendererStats.collectNodeStats.loop tl (RendererStats.collectNodeStats child fileStats false)
end

/-- The comparison `sortNode` hands to `sort.Slice`, on two elements of `Children`. -/
def RendererStats.less (ToLower : String → String) (sortBy : String) (x y : Node) : Bool :=
  if sortBy == "size" then decide (x.Size > y.Size)
  else if sortBy == "date" then decide (x.ModTime > y.ModTime)
  else decide (ToLower x.Name < ToLower y.Name)

mutual
/-- The number of levels below a node. -/
def height (node : Node) : Nat :=
  match node with
  | ⟨_, _, _, _, children, _, _, _⟩ => height.max children
def height.max (rest : List Node) : Nat :=
  match rest with
  | [] => 0
  | child :: tl => Nat.max (height child + 1) (height.max tl)
end

/-- The method `RendererStats.sortNode` with a bound on the recursion depth: `sort.Slice`
on `node.Children`, then `sortNode` on every child. The result is the tree after the
in-place update. -/
def RendererStats.sortNode.go (Slice : (Node → Node → Bool) → List Node → List Node)
    (ToLower : String → String) (r : RendererStats) : Nat → Node → Node
  | 0, node => node
  | fuel + 1, node =>
    if r.sortBy == "" then node
    else
      let children := Slice (RendererStats.less ToLower r.sortBy) node.Children
      { node with
        Children := children.map (RendererStats.sortNode.go Slice ToLower r fuel) }

/-- The method `RendererStats.sortNode`. `sort.Slice` only permutes the slice, so the
recursion is as deep as the tree is high. -/
def RendererStats.sortNode (Slice : (Node → Node → Bool) → List Node → List Node)
    (ToLower : String → String) (r : RendererStats) (node : Node) : Node :=
  RendererStats.sortNode.go Slice ToLower r (height node + 1) node

/-- The method `RendererStats.RenderTreeWithStats`: the written lines together with the
collected `FileStats` (`nil` when `collectStats` is off). -/
def RendererStats.RenderTreeWithStats (Slice : (Node → Node → Bool) → List Node → List Node)
    (ToLower : String → String) (Format : String → Int → String) (now : Int)
    (r : RendererStats) (root : Node) (showRoot : Bool) : List String × Option FileStats :=
  let fileStats : Option FileStats :=
    if r.collectStats then some (RendererStats.collectNodeStats root (NewStats now) showRoot)
    else none
  let root := RendererStats.sortNode Slice ToLower r root
  let header : List String :=
    match fileStats with
    | some fs =>
      if showRoot then
        let totalItems := wrap64 (fs.TotalFiles + fs.TotalDirs)
        [root.Name ++ " (" ++ toString totalItems ++ " items, " ++ FormatSize fs.TotalSize ++ ")"]
      else []
    | none => if showRoot then [root.Name] else []
  let body := RendererStats.renderNodeWithStats Format r root "" true showRoot
  let footer : List String :=
    match fileStats with
    | some fs =>
      if r.collectStats then
        ["", "Total: " ++ toString fs.TotalFiles ++ " files, " ++ toString fs.TotalDirs
          ++ " directories, " ++ FormatSize fs.TotalSize]
      else []
    | none => []
  (header ++ body ++ footer, fileStats)


/-! ## The specification's view of sizes and statistics -/

mutual
/-- All proper descendants of a node, at any depth, in pre-order. -/
def descendants (node : Node) : List Node :=
  match node with
  | ⟨_, _, _, _, children, _, _, _⟩ => descendants.of children
def descendants.of (rest : List Node) : List Node :=
  match rest with
  | [] => []
  | child :: tl => (child :: descendants child) ++ descendants.of tl
end

/-- The sum of `Size` over the non-directory descendants of a node. -/
def descendantFileSize (node : Node) : Int :=
  (((descendants node).filter (fun d => !d.IsDir)).map (fun d => d.Size)).sum

mutual
/-- The data-model invariant that only directories have children. -/
def onlyDirsHaveChildren (node : Node) : Bool :=
  match node with
  | ⟨_, _, isDir, _, children, _, _, _⟩ =>
    (isDir || children.isEmpty) && onlyDirsHaveChildren.all children
def onlyDirsHaveChildren.all (rest : List Node) : Bool :=
  match rest with
  | [] => true
  | child :: tl => onlyDirsHaveChildren child && onlyDirsHaveChildren.all tl
end

/-- The size annotation: a non-directory shows its own size, a directory shows in brackets
the sum of the sizes of its descendant files as an `int64` holds it. -/
def sizeNote (n : Node) : String :=
  if n.IsDir then "[" ++ FormatSizeCompact (wrap64 (descendantFileSize n)) ++ "]"
  else FormatSizeCompact n.Size

/-- The tree `top/{r/{a (2^63 - 1), b (1)}}`: the sizes of the two files of `r` add up to
`2^63`, one more than the largest `int64`. -/
def overflowTree : Node :=
  ⟨"top", "/tmp", true, false,
    [⟨"r", "/tmp/top", true, false,
      [⟨"a", "/tmp/top/r", false, false, [], 2 ^ 63 - 1, 1, 420⟩,
       ⟨"b", "/tmp/top/r", false, false, [], 1, 2, 420⟩],
      4096, 3, 493⟩],
    4096, 4, 493⟩

/-- The date annotation: the short or long date, left out when it is empty. -/
def dateNote (Format : String → Int → String) (r : RendererStats) (n : Node) :
    List String :=
  if r.showDate then
    let d := if r.showLong then FormatDateLong Format n.ModTime else FormatDate Format n.ModTime
    if d = "" then [] else [d]
  else []

/-- The annotated line of the node at position `p` when sizes are shown. -/
def sizeLineAt (Format : String → Int → String) (r : RendererStats) (root : Node)
    (p : List Nat) : String :=
  match nodeAt root p with
  | some n => lineAt root p ++ "  " ++ Join (sizeNote n :: dateNote Format r n) "  "
  | none => ""

/-- One step of the statistics pass: a directory is counted, a file is added. -/
def addNode (fs : FileStats) (n : Node) : FileStats :=
  if n.IsDir then fs.AddDir else fs.AddFile n.Size n.ModTime

/-- The sizes of the non-directories of a list of nodes. -/
def fileSizes (l : List Node) : List Int :=
  (l.filter (fun d => !d.IsDir)).map (fun d => d.Size)

/-! ## The specification's view of sorting -/

/-- The tree `b` is the tree `a` with the `Children` list of every node permuted: at
every node all fields but `Children` agree, and the children of `b` are, in some order,
the children of `a`, each reordered in the same sense. -/
inductive Reordered : Node → Node → Prop
  | mk (a b : Node) (l : List Node) (hName : b.Name = a.Name) (hPath : b.Path = a.Path)
      (hIsDir : b.IsDir = a.IsDir) (hIsSymlink : b.IsSymlink = a.IsSymlink)
      (hSize : b.Size = a.Size) (hModTime : b.ModTime = a.ModTime) (hMode : b.Mode = a.Mode)
      (hperm : l.Perm a.Children) (hch : List.Forall₂ Reordered l b.Children) : Reordered a b

/-- The slice is ordered by `less`: no element is `less` than its predecessor. -/
def Ordered {α : Type} (less : α → α → Bool) (l : List α) : Prop :=
  List.Chain' (fun a b => less b a = false) l

/-- A sort leaves a slice that is already ordered as it is. -/
def KeepsOrdered (Slice : (Node → Node → Bool) → List Node → List Node) : Prop :=
  ∀ (less : Node → Node → Bool) (l : List Node),
    StrictWeak less → Ordered less l → Slice less l = l

/-- The size by which the specification compares two children: the aggregated size of
the descendant files for a directory, the own size otherwise. -/
def comparisonSize (n : Node) : Int :=
  if n.IsDir then RendererStats.calculateDirSize n else n.Size

/-- One exchange of two neighbours `u`, `v` of which the second is `less` than the first. -/
inductive SwapStep {α : Type} (less : α → α → Bool) : List α → List α → Prop
  | mk (pre post : List α) (u v : α) (h : less v u = true) :
      SwapStep less (pre ++ u :: v :: post) (pre ++ v :: u :: post)

/-- Stability of `sortNode` at a node: two children that compare equal under the key and
of which `x` stands before `y` keep that relative order. -/
def StableAt (Slice : (Node → Node → Bool) → List Node → List Node)
    (ToLower : String → String) (r : RendererStats) (node : Node) : Prop :=
  ∀ x y : Node,
    RendererStats.less ToLower r.sortBy x y = false →
    RendererStats.less ToLower r.sortBy y x = false →
    List.Sublist [x, y] node.Children →
    List.Sublist [RendererStats.sortNode Slice ToLower r x, RendererStats.sortNode Slice ToLower r y]
      (RendererStats.sortNode Slice ToLower r node).Children

/-- A file node. -/
def fileNode (name : String) (size modTime : Int) : Node :=
  ⟨name, "/tmp/root", false, false, [], size, modTime, 420⟩

/-- The tree `root/{a.txt (100), d/{x.bin (10)}}`; the directory `d` has the size 4096 of
its own directory entry. -/
def dirFirstTree : Node :=
  ⟨"root", "/tmp", true, false,
    [fileNode "a.txt" 100 1,
     ⟨"d", "/tmp/root", true, false, [⟨"x.bin", "/tmp/root/d", false, false, [], 10, 2, 420⟩],
       4096, 3, 493⟩],
    4096, 4, 493⟩

/-- A directory with thirteen files: `small` of size 1, then `f01` .. `f12` of size 5. -/
def thirteenTree : Node :=
  ⟨"root", "/tmp", true, false,
    [fileNode "small" 1 1, fileNode "f01" 5 1, fileNode "f02" 5 1, fileNode "f03" 5 1,
     fileNode "f04" 5 1, fileNode "f05" 5 1, fileNode "f06" 5 1, fileNode "f07" 5 1,
     fileNode "f08" 5 1, fileNode "f09" 5 1, fileNode "f10" 5 1, fileNode "f11" 5 1,
     fileNode "f12" 5 1],
    4096, 4, 493⟩

/-- The renderer options `--sort size`. -/
def bySize : RendererStats := NewRendererStats false false false "size" true


/-- The renderer options `--sort name`. -/
def byName : RendererStats := NewRendererStats false false false "name" true

/-- A sort that meets the documented contract of `sort.Slice` and reverses equal elements,
as its documentation allows ("equal elements may be reversed from their original
order"): the insertion sort of the reversed slice. -/
def reversingSlice (less : Node → Node → Bool) (l : List Node) : List Node :=
  List.insertionSort (fun a b => less b a = false) l.reverse

/-- The tree `root/{README, readme}`: two files of the same size and modification time whose
names differ in case only, so that they compare equal under each of the three keys. -/
def tiedTree : Node :=
  ⟨"root", "/tmp", true, false, [fileNode "README" 5 1, fileNode "readme" 5 1], 4096, 4, 493⟩

/-- The renderer options `--sort date`. -/
def byDate : RendererStats := NewRendererStats false false false "date" true

/-! ## Predicates for the correctness proof of the `sort.Slice` model -/

/-- The slice `data'` is `data` with elements exchanged inside `[a, b)` only: the length
and every element outside the range are kept, and every element now in the range was in
the range before. -/
def Within {α : Type} (a b : Nat) (data data' : List α) : Prop :=
  data'.length = data.length ∧
  (∀ k, k < a ∨ b ≤ k → data'[k]? = data[k]?) ∧
  (∀ k, a ≤ k → k < b → ∃ k', a ≤ k' ∧ k' < b ∧ data'[k]? = data[k']?)

/-- The range `[a, b)` of the slice is sorted: no later element is `less` than an earlier
one. -/
def SortedOn {α : Type} (less : α → α → Bool) (a b : Nat) (data : List α) : Prop :=
  ∀ i j x y, a ≤ i → i < j → j < b → data[i]? = some x → data[j]? = some y → less y x = false

/-- Every element of the range `[a, b)` of the slice has the property `P`. -/
def AllOn {α : Type} (P : α → Prop) (a b : Nat) (data : List α) : Prop :=
  ∀ k x, a ≤ k → k < b → data[k]? = some x → P x

/-- The invariant of `pdqsort_func`: the element in front of the range, if there is one,
is not greater than any element of the range. -/
def LowerBound {α : Type} (less : α → α → Bool) (a b : Nat) (data : List α) : Prop :=
  ∀ x, 0 < a → data[a - 1]? = some x → AllOn (fun y => less y x = false) a b data

/-- The element at index `i` of the slice is not `less` than the one at index `j`. -/
def NotLess {α : Type} (less : α → α → Bool) (d : List α) (i j : Nat) : Prop :=
  ∀ x y, d[i]? = some x → d[j]? = some y → less x y = false

/-- The heap condition of `heapSort_func` at node `r` of a heap of `hi` elements that
starts at index `first`: the node is not `less` than its children. -/
def HeapAt {α : Type} (less : α → α → Bool) (first hi : Nat) (d : List α) (r : Nat) : Prop :=
  ∀ c, c = 2 * r + 1 ∨ c = 2 * r + 2 → c < hi → NotLess less d (first + r) (first + c)

/-! ## export/plain.go

A `strings.Builder` is the text written to it so far; the exporters hand that text to the
`io.Writer` in one call, and their error result is the one of that call. -/

mutual
/-- The function `renderPlainNode` of `export/plain.go`: the text it appends to the
builder. `renderPlainNode.loop` is the `for _, child := range node.Children` loop. -/
def renderPlainNode (node : Node) (pfx : String) (skipRoot : Bool) : String :=
  match node with
  | ⟨name, _, _, _, children, _, _, _⟩ =>
    (if !skipRoot then pfx ++ name ++ "\n" else "") ++ renderPlainNode.loop children pfx
def renderPlainNode.loop (rest : List Node) (pfx : String) : String :=
  match rest with
  | [] => ""
  | child :: tl =>
    let childPrefix := pfx ++ "  "
    renderPlainNode child childPrefix false ++ renderPlainNode.loop tl pfx
end

/-- The function `ExportToPlain`: the text handed to `writer.Write`. -/
def ExportToPlain (root : Node) : String :=
  renderPlainNode root "" true

/-! ## export/markdown.go -/

mutual
/-- The function `renderMarkdownNode`: the text it appends to the builder.
`renderMarkdownNode.loop` is the `for i, child := range children` loop from index `i`
on, `n` being `len(children)`. -/
def renderMarkdownNode (node : Node) (pfx : String) (isLast : Bool) (skipRoot : Bool) :
    String :=
  match node with
  | ⟨name, _, _, _, children, _, _, _⟩ =>
    (if !skipRoot then
      let connector := if !isLast then "├── " else "└── "
      pfx ++ connector ++ name ++ "\n"
    else "")
    ++ renderMarkdownNode.loop children 0 children.length pfx isLast skipRoot
def renderMarkdownNode.loop (rest : List Node) (i n : Nat) (pfx : String) (isLast : Bool)
    (skipRoot : Bool) : String :=
  match rest with
  | [] => ""
  | child :: tl =>
    let isLastChild := i == n - 1
    let childPrefix :=
      if !skipRoot then (if isLast then pfx ++ "    " else pfx ++ "│   ") else pfx
    renderMarkdownNode child childPrefix isLastChild false
      ++ renderMarkdownNode.loop tl (i + 1) n pfx isLast skipRoot
end

/-- The function `ExportToMarkdown`: the text of its four writes to the writer, in order.
It returns `nil` on every path. -/
def ExportToMarkdown (root : Node) : String :=
  "# Directory Tree: " ++ root.Name ++ "\n\n"
    ++ "```\n"
    ++ renderMarkdownNode root "" true true
    ++ "```\n"

/-! ## export/json.go -/

/-- JSONNode represents a node in JSON format. The field `Type` of the source is
`Type_` here; a `nil` slice of children is `none`. -/
structure JSONNode where
  Name : String
  Path : String
  Type_ : String
  Size : Int
  ModTime : String
  Children : Option (List JSONNode)

/-- The layout constant `time.RFC3339`. -/
def RFC3339 : String := "2006-01-02T15:04:05Z07:00"

mutual
/-- The function `nodeToJSON`; `Format` is the method `time.Time.Format`, taking the
layout and the time. `nodeToJSON.loop` is the loop that appends the converted children. -/
def nodeToJSON (Format : String → Int → String) (node : Node) : JSONNode :=
  match node with
  | ⟨name, path, isDir, isSymlink, children, size, modTime, _⟩ =>
    let jsonNode : JSONNode :=
      { Name := name, Path := path, Type_ := "", Size := 0, ModTime := "", Children := none }
    let jsonNode :=
      if isSymlink then { jsonNode with Type_ := "symlink" }
      else if isDir then { jsonNode with Type_ := "directory" }
      else { jsonNode with Type_ := "file", Size := size, ModTime := Format RFC3339 modTime }
    if children.length > 0 then
      { jsonNode with Children := some (nodeToJSON.loop Format children) }
    else jsonNode
def nodeToJSON.loop (Format : String → Int → String) (rest : List Node) : List JSONNode :=
  match rest with
  | [] => []
  | child :: tl => nodeToJSON Format child :: nodeToJSON.loop Format tl
end

/-- The keys of the object that `encoding/json` writes for a `JSONNode`, after its struct
tags: `name`, `path` and `type` always, and each field tagged `omitempty` unless it is
empty, that is `0`, the empty string, or a `nil` or empty slice. -/
def JSONNode.keys (j : JSONNode) : List String :=
  ["name", "path", "type"]
    ++ (if j.Size = 0 then [] else ["size"])
    ++ (if j.ModTime = "" then [] else ["modTime"])
    ++ (match j.Children with
        | some (_ :: _) => ["children"]
        | _ => [])

/-- The node of a JSON tree at a position, following the `children` lists. -/
def jsonAt : JSONNode → List Nat → Option JSONNode
  | j, [] => some j
  | j, i :: rest =>
    match j.Children with
    | some cs =>
      match cs[i]? with
      | some c => jsonAt c rest
      | none => none
    | none => none

/-! ## The specification's view of the exports -/

/-- A run of `n` space characters. -/
def spaces (n : Nat) : String := String.mk (List.replicate n ' ')

/-- The line the specification gives the node at position `p` in the plain-text export:
two spaces per depth level, then the name. -/
def plainLineAt (root : Node) (p : List Nat) : String :=
  spaces (2 * p.length) ++ nameAt root p

/-- A regular file of size `0`. -/
def emptyFile : Node := ⟨"empty.txt", "/tmp/root", false, false, [], 0, 1700000000, 420⟩

/-- A symbolic link to a regular file of 10 bytes, as the walker builds it. -/
def linkToFile : Node := ⟨"link", "/tmp/root", false, true, [], 10, 1700000000, 134218239⟩

/-- A reading of `time.Time.Format` for concrete evaluations: every instant is printed
as the same RFC3339 text. -/
def fixedFormat : String → Int → String := fun _ _ => "2023-11-14T22:13:20Z"

/-! ## walker.go

The file system is what the calls of the walker answer. `os.ReadDir` of a directory either
fails or lists entries, and every entry carries the answers of `entry.Name`, `entry.Type`,
`entry.Info`, `filepath.EvalSymlinks` and `os.Stat` for it and the directory the walk
enters from it. So the file system is a finite tree; a symbolic link that leads back into
its own ancestors, on which the walk does not end, has no such tree and is the subject of
the second embedding, `walkDirectoryOn` below. A call repeated on the same path gives the
same answer. An `error` is an `Option String`, `nil` being `none`; of
the library calls whose error is only tested, `none` is the failure.

The walker returns a `Node` value; the `Parent` pointer that `AddChild` sets is the
position of the node in the returned tree. A run-time panic is the result `none`. -/

/-- The answers of an `os.FileInfo`. -/
structure FileInfo where
  Name : String
  IsDir : Bool
  Mode : Nat
  Size : Int
  ModTime : Int

/-- The mode bit `os.ModeSymlink`. -/
def ModeSymlink : Nat := 2 ^ 27

mutual
/-- The answer of `os.ReadDir` for a directory. -/
inductive Dir where
  | failed
  | listing (entries : List Entry)
/-- One `os.DirEntry` with the answers of `entry.Name()`, `entry.Type()`, `entry.Info()`,
of `filepath.EvalSymlinks(fullPath)` and `os.Stat(resolved)`, and the directory that
`os.ReadDir` reads when the walk descends from the entry. -/
inductive Entry where
  | mk (Name : String) (Type_ : Nat) (Info : Option FileInfo) (EvalSymlinks : Option String)
      (Stat : Option FileInfo) (Dir : Dir)
end

/-- The functions of the package `path/filepath` that depend on the path text only. -/
structure Filepath where
  Join : String → String → String
  Dir : String → String
  Base : String → String

/-- WalkerOptions contains options for directory walking. -/
structure WalkerOptions where
  ShowHidden : Bool
  MaxDepth : Int
  RootPath : String

/-- The function `NewNode`. -/
def NewNode (path : String) (info : FileInfo) : Node :=
  { Name := info.Name, Path := path, IsDir := info.IsDir,
    IsSymlink := (info.Mode &&& ModeSymlink) != 0, Size := info.Size,
    ModTime := info.ModTime, Mode := info.Mode, Children := [] }

/-- The method `Node.AddChild`. -/
def Node.AddChild (n : Node) (child : Node) : Node :=
  { n with Children := n.Children ++ [child] }

/-- The method `Node.IsHidden`. -/
def Node.IsHidden (n : Node) : Bool :=
  decide (n.Name.length > 0) && n.Name.data.head? == some '.'

/-- The byte `s[0]` of a string, `none` being the panic on an empty string. The walker
compares it with `'.'` only, and the first byte of a string is that of `'.'` exactly when
its first character is `'.'`. -/
def firstByte (s : String) : Option Char := s.data.head?

/-- The body of the loop of `walkDirectory` for one entry from `NewNode` up to
`parent.AddChild(node)`: the node with the symbolic link resolved. -/
def entryNode (dirPath : String) (type_ : Nat) (info : FileInfo)
    (evalSymlinks : Option String) (stat : Option FileInfo) : Node :=
  let node := NewNode dirPath info
  if (type_ &&& ModeSymlink) != 0 then
    let node := { node with IsSymlink := true }
    match evalSymlinks with
    | some _ =>
      match stat with
      | some info => { node with IsDir := info.IsDir, Size := info.Size, ModTime := info.ModTime }
      | none => node
    | none => { node with IsDir := false }
  else node

/-- The end of the body of the loop of `walkDirectory`: the path of the recursive call
`walkDirectory(node, path, options, currentDepth+1)`, which is `fullPath` for a directory
that is no symbolic link and `resolved` for a symbolic link that resolves to a directory;
`none` when there is no call. -/
def descendPath (node : Node) (fullPath : String) (evalSymlinks : Option String)
    (stat : Option FileInfo) : Option String :=
  if node.IsDir && !node.IsSymlink then some fullPath
  else if node.IsDir && node.IsSymlink then
    match evalSymlinks with
    | some resolved =>
      match stat with
      | some info => if info.IsDir then some resolved else none
      | none => none
    | none => none
  else none

/-- The condition `!options.ShowHidden && entry.Name()[0] == '.'`; the index is evaluated
only when hidden entries are not shown. -/
def skipHidden (options : WalkerOptions) (name : String) : Option Bool :=
  if !options.ShowHidden then
    match firstByte name with
    | some b => some (b == '.')
    | none => none
  else some false

mutual
/-- The function `walkDirectory`: the children it adds to `parent`, in order, and the
error it returns. Each child is given with the children its own call has added to it. -/
def walkDirectory (filepath : Filepath) (options : WalkerOptions) (dir : Dir)
    (dirPath : String) (currentDepth : Nat) : Option (List Node × Option String) :=
  if options.MaxDepth > 0 ∧ (currentDepth : Int) ≥ options.MaxDepth then some ([], none)
  else
    match dir with
    | Dir.failed => some ([], none)
    | Dir.listing entries =>
      match walkDirectory.loop filepath options entries dirPath currentDepth with
      | some children => some (children, none)
      | none => none
/-- The loop `for _, entry := range entries` of `walkDirectory`: the children added to
`parent`. The error of a recursive call is only tested, and the loop goes on to the next
entry either way. -/
def walkDirectory.loop (filepath : Filepath) (options : WalkerOptions)
    (entries : List Entry) (dirPath : String) (currentDepth : Nat) : Option (List Node) :=
  match entries with
  | [] => some []
  | Entry.mk name type_ info? evalSymlinks stat dir :: rest =>
    match skipHidden options name with
    | none => none
    | some true => walkDirectory.loop filepath options rest dirPath currentDepth
    | some false =>
      match info? with
      | none => walkDirectory.loop filepath options rest dirPath currentDepth
      | some info =>
        let fullPath := filepath.Join dirPath name
        let node := entryNode dirPath type_ info evalSymlinks stat
        let sub : Option (List Node × Option String) :=
          match descendPath node fullPath evalSymlinks stat with
          | some path => walkDirectory filepath options dir path (currentDepth + 1)
          | none => some ([], none)
        match sub with
        | none => none
        | some (children, _) =>
          match walkDirectory.loop filepath options rest dirPath currentDepth with
          | some nodes => some ({ node with Children := node.Children ++ children } :: nodes)
          | none => none
end

/-- The file system as `WalkTree` sees it: the answers of `filepath.Abs` and of `os.Stat`
for the root, and the directory `os.ReadDir` reads at the absolute root path. -/
structure FS where
  Abs : String → Except String String
  Stat : String → Except String FileInfo
  Root : Dir

/-- The function `WalkTree`: the pair of the node and the error it returns. -/
def WalkTree (filepath : Filepath) (fs : FS) (rootPath : String) (options : WalkerOptions) :
    Option (Option Node × Option String) :=
  match fs.Abs rootPath with
  | Except.error err => some (none, some err)
  | Except.ok absPath =>
    match fs.Stat absPath with
    | Except.error err => some (none, some err)
    | Except.ok info =>
      let root := NewNode (filepath.Dir absPath) info
      let root := { root with Name := filepath.Base absPath }
      let root := { root with Path := filepath.Dir absPath }
      match walkDirectory filepath options fs.Root absPath 0 with
      | none => none
      | some (children, err) =>
        let root := { root with Children := root.Children ++ children }
        match err with
        | some err => some (none, some err)
        | none => some (some root, none)

/-- The `Parent` pointer of the node at position `p` of a tree: the position of its
parent, `none` for the root. -/
def parentAt (p : List Nat) : Option (List Nat) :=
  match p with
  | [] => none
  | _ :: _ => some p.dropLast

/-- The loop of `Node.GetDepth` from the pointer `parent` on. It ends because every step
moves one node closer to the root. -/
def GetDepth.loop : Nat → Option (List Nat) → Nat → Nat
  | 0, _, depth => depth
  | _ + 1, none, depth => depth
  | fuel + 1, some q, depth => GetDepth.loop fuel (parentAt q) (depth + 1)

/-- The method `Node.GetDepth` of the node at position `p`. -/
def GetDepth (p : List Nat) : Nat :=
  GetDepth.loop p.length (parentAt p) 0

/-! ## The specification's view of the walk -/

mutual
/-- Every entry of the file system has a name that is not empty, and the `FileInfo` of an
entry has the name of the entry: what `os.ReadDir` and `DirEntry.Info` promise. -/
def Dir.wellFormed : Dir → Bool
  | Dir.failed => true
  | Dir.listing entries => Dir.wellFormed.all entries
def Dir.wellFormed.all : List Entry → Bool
  | [] => true
  | Entry.mk name _ info? _ _ dir :: rest =>
    name != "" &&
    (match info? with
     | some info => info.Name == name
     | none => true) &&
    Dir.wellFormed dir && Dir.wellFormed.all rest
end

mutual
/-- The file system without its hidden entries, and so without everything below a hidden
directory. -/
def Dir.dropHidden : Dir → Dir
  | Dir.failed => Dir.failed
  | Dir.listing entries => Dir.listing (Dir.dropHidden.all entries)
def Dir.dropHidden.all : List Entry → List Entry
  | [] => []
  | Entry.mk name type_ info? evalSymlinks stat dir :: rest =>
    if firstByte name == some '.' then Dir.dropHidden.all rest
    else Entry.mk name type_ info? evalSymlinks stat (Dir.dropHidden dir)
      :: Dir.dropHidden.all rest
end

/-- The tree cut below depth `k`: the nodes at depth `k` lose their children. -/
def truncate : Nat → Node → Node
  | 0, n => { n with Children := [] }
  | k + 1, n => { n with Children := n.Children.map (truncate k) }

/-- A reading of `filepath.Join`, `filepath.Dir` and `filepath.Base` for clean absolute
paths of at least two elements and element names without a separator. -/
def slashPath : Filepath :=
  { Join := fun a b => a ++ "/" ++ b,
    Dir := fun p => String.mk ((p.data.reverse.dropWhile (fun c => c != '/')).drop 1).reverse,
    Base := fun p => String.mk (p.data.reverse.takeWhile (fun c => c != '/')).reverse }

/-- A regular file as `os.FileInfo` describes it. -/
def fileInfo (name : String) (size : Int) : FileInfo := ⟨name, false, 420, size, 1700000000⟩

/-- A directory as `os.FileInfo` describes it. -/
def dirInfo (name : String) : FileInfo := ⟨name, true, 2 ^ 31 + 493, 4096, 1700000000⟩

/-- The entry of a regular file. -/
def fileEntry (name : String) (size : Int) : Entry :=
  Entry.mk name 0 (some (fileInfo name size)) (some name) (some (fileInfo name size)) Dir.failed

/-- The entry of a directory with the given listing. -/
def dirEntry (name : String) (dir : Dir) : Entry :=
  Entry.mk name (2 ^ 31) (some (dirInfo name)) (some name) (some (dirInfo name)) dir

/-- The file system `/home/u/proj` with a hidden directory `.git/{config}`, a file `a.txt`,
an entry `gone` whose `Info` fails, a directory `locked` that cannot be read, and
`sub/{b.txt, deep/{c.txt}}`. -/
def sampleFS : FS :=
  { Abs := fun p => Except.ok ("/home/u/" ++ p),
    Stat := fun _ => Except.ok (dirInfo "proj"),
    Root := Dir.listing
      [dirEntry ".git" (Dir.listing [fileEntry "config" 92]),
       fileEntry "a.txt" 10,
       Entry.mk "gone" 0 none none none Dir.failed,
       dirEntry "locked" Dir.failed,
       dirEntry "sub" (Dir.listing
         [fileEntry "b.txt" 2048,
          dirEntry "deep" (Dir.listing [fileEntry "c.txt" 1])])] }

/-- The root node `WalkTree` returns for the absolute path `absPath` with `FileInfo`
`info`, once `walkDirectory` has added `children`. -/
def rootNode (filepath : Filepath) (absPath : String) (info : FileInfo)
    (children : List Node) : Node :=
  { Name := filepath.Base absPath, Path := filepath.Dir absPath, IsDir := info.IsDir,
    IsSymlink := (info.Mode &&& ModeSymlink) != 0, Children := children, Size := info.Size,
    ModTime := info.ModTime, Mode := info.Mode }

/-- The node the walk builds for a regular file. -/
def fileNodeAt (path name : String) (size : Int) : Node :=
  ⟨name, path, false, false, [], size, 1700000000, 420⟩

/-- The node the walk builds for a directory. -/
def dirNodeAt (path name : String) (children : List Node) : Node :=
  ⟨name, path, true, false, children, 4096, 1700000000, 2 ^ 31 + 493⟩

/-- The tree of `sampleFS` without hidden entries, down to depth 2. -/
def sampleTree2 : Node :=
  dirNodeAt "/home/u" "proj"
    [fileNodeAt "/home/u/proj" "a.txt" 10,
     dirNodeAt "/home/u/proj" "locked" [],
     dirNodeAt "/home/u/proj" "sub"
       [fileNodeAt "/home/u/proj/sub" "b.txt" 2048,
        dirNodeAt "/home/u/proj/sub" "deep" []]]

/-- The tree of `sampleFS` without hidden entries. -/
def sampleTree : Node :=
  dirNodeAt "/home/u" "proj"
    [fileNodeAt "/home/u/proj" "a.txt" 10,
     dirNodeAt "/home/u/proj" "locked" [],
     dirNodeAt "/home/u/proj" "sub"
       [fileNodeAt "/home/u/proj/sub" "b.txt" 2048,
        dirNodeAt "/home/u/proj/sub" "deep"
          [fileNodeAt "/home/u/proj/sub/deep" "c.txt" 1]]]

/-- The file system `/home/u/.config` whose root is hidden, with a hidden directory
`.cache/{x}` and a file `app.conf`. -/
def hiddenRootFS : FS :=
  { Abs := fun p => Except.ok ("/home/u/" ++ p),
    Stat := fun _ => Except.ok (dirInfo ".config"),
    Root := Dir.listing
      [dirEntry ".cache" (Dir.listing [fileEntry "x" 1]),
       fileEntry "app.conf" 20] }

/-- The tree of `hiddenRootFS` without hidden entries. -/
def hiddenRootTree : Node :=
  dirNodeAt "/home/u" ".config" [fileNodeAt "/home/u/.config" "app.conf" 20]

/-- A symbolic link as `DirEntry.Info` describes it. -/
def linkInfo (name : String) : FileInfo := ⟨name, false, ModeSymlink + 511, 4, 1700000000⟩

/-- The file system `/home/u/proj` with a hidden directory `.git/{config}` and a symbolic
link `link` to it: `filepath.EvalSymlinks` resolves `link` to `/home/u/proj/.git`, and
`os.ReadDir` of that path lists `config`. -/
def linkFS : FS :=
  { Abs := fun p => Except.ok ("/home/u/" ++ p),
    Stat := fun _ => Except.ok (dirInfo "proj"),
    Root := Dir.listing
      [dirEntry ".git" (Dir.listing [fileEntry "config" 92]),
       Entry.mk "link" ModeSymlink (some (linkInfo "link")) (some "/home/u/proj/.git")
         (some (dirInfo ".git")) (Dir.listing [fileEntry "config" 92])] }

/-- The tree of `linkFS` without hidden entries: the link with the file of the hidden
directory below it. -/
def linkTree : Node :=
  dirNodeAt "/home/u" "proj"
    [⟨"link", "/home/u/proj", true, true, [fileNodeAt "/home/u/proj/.git" "config" 92], 4096,
      1700000000, ModeSymlink + 511⟩]

/-! ## walker.go on a file system that may have cycles

The second embedding of the walker. The calls of the operating system are functions of
the path they are given, so that a symbolic link may lead back to a directory the walk is
in, and the depth of the recursion of `walkDirectory` is bounded by a number `fuel`. A run
ends in one of three ways: it returns, it panics, or it is cut off at the bound; a walk
that is cut off at every bound is a walk that does not end. -/

/-- The end of a run under a bound on the depth of the recursion. -/
inductive Run (α : Type) where
  | returns (a : α)
  | panics
  | unfinished

/-- One `os.DirEntry`: the answers of `entry.Name()`, `entry.Type()` and `entry.Info()`. -/
structure DirEntry where
  Name : String
  Type_ : Nat
  Info : Option FileInfo

/-- The calls `filepath.Abs`, `os.Stat`, `os.ReadDir` and `filepath.EvalSymlinks`, each as
a function of the path it is given; of `os.ReadDir` and `filepath.EvalSymlinks` the error
is only tested, and `none` is the failure. -/
structure OS where
  Abs : String → Except String String
  Stat : String → Except String FileInfo
  ReadDir : String → Option (List DirEntry)
  EvalSymlinks : String → Option String

/-- The pair `info, err := os.Stat(resolved)` after `resolved, err :=
filepath.EvalSymlinks(fullPath)`, which the body of the loop of `walkDirectory` reads
where `err == nil`: the `FileInfo` of the target, `none` when either call fails. -/
def OS.statResolved (os : OS) (fullPath : String) : Option FileInfo :=
  match os.EvalSymlinks fullPath with
  | some resolved =>
    match os.Stat resolved with
    | Except.ok info => some info
    | Except.error _ => none
  | none => none

/-- The body of the loop of `walkDirectory` for one entry from `NewNode` up to
`parent.AddChild(node)`, on the answers of the calls for the entry. -/
def OS.node (filepath : Filepath) (os : OS) (dirPath : String) (entry : DirEntry)
    (info : FileInfo) : Node :=
  let fullPath := filepath.Join dirPath entry.Name
  entryNode dirPath entry.Type_ info (os.EvalSymlinks fullPath) (os.statResolved fullPath)

/-- The path of the recursive call that the body of the loop of `walkDirectory` makes for
an entry with the `FileInfo` `info`, `none` when it makes none. -/
def OS.descend (filepath : Filepath) (os : OS) (dirPath : String) (entry : DirEntry)
    (info : FileInfo) : Option String :=
  let fullPath := filepath.Join dirPath entry.Name
  descendPath (os.node filepath dirPath entry info) fullPath (os.EvalSymlinks fullPath)
    (os.statResolved fullPath)

/-- The end of the body of the loop of `walkDirectory`: the recursive call
`walkDirectory(node, path, options, currentDepth+1)`, as `call path (currentDepth + 1)`,
for an entry that has one. -/
def walkDirectoryOn.sub (filepath : Filepath) (os : OS)
    (call : String → Nat → Run (List Node × Option String)) (dirPath : String)
    (currentDepth : Nat) (entry : DirEntry) (info : FileInfo) :
    Run (List Node × Option String) :=
  match os.descend filepath dirPath entry info with
  | some path => call path (currentDepth + 1)
  | none => Run.returns ([], none)

/-- The loop `for _, entry := range entries` of `walkDirectory`, with the recursive call
given as `call`: the children added to `parent`. The error of a recursive call is only
tested, and the loop goes on to the next entry either way. -/
def walkDirectoryOn.loop (filepath : Filepath) (os : OS) (options : WalkerOptions)
    (call : String → Nat → Run (List Node × Option String)) (dirPath : String)
    (currentDepth : Nat) : List DirEntry → Run (List Node)
  | [] => Run.returns []
  | entry :: rest =>
    match skipHidden options entry.Name with
    | none => Run.panics
    | some true => walkDirectoryOn.loop filepath os options call dirPath currentDepth rest
    | some false =>
      match entry.Info with
      | none => walkDirectoryOn.loop filepath os options call dirPath currentDepth rest
      | some info =>
        let node := os.node filepath dirPath entry info
        match walkDirectoryOn.sub filepath os call dirPath currentDepth entry info with
        | Run.panics => Run.panics
        | Run.unfinished => Run.unfinished
        | Run.returns (children, _) =>
          match walkDirectoryOn.loop filepath os options call dirPath currentDepth rest with
          | Run.returns nodes =>
            Run.returns ({ node with Children := node.Children ++ children } :: nodes)
          | Run.panics => Run.panics
          | Run.unfinished => Run.unfinished

/-- The function `walkDirectory` with at most `fuel` calls nested in each other: the
children it adds to `parent`, in order, and the error it returns. -/
def walkDirectoryOn (filepath : Filepath) (os : OS) (options : WalkerOptions) :
    Nat → String → Nat → Run (List Node × Option String)
  | 0, _, _ => Run.unfinished
  | fuel + 1, dirPath, currentDepth =>
    if options.MaxDepth > 0 ∧ (currentDepth : Int) ≥ options.MaxDepth then Run.returns ([], none)
    else
      match os.ReadDir dirPath with
      | none => Run.returns ([], none)
      | some entries =>
        match walkDirectoryOn.loop filepath os options (walkDirectoryOn filepath os options fuel)
            dirPath currentDepth entries with
        | Run.returns children => Run.returns (children, none)
        | Run.panics => Run.panics
        | Run.unfinished => Run.unfinished

/-- The function `WalkTree` with at most `fuel` calls of `walkDirectory` nested in each
other: the pair of the node and the error it returns. -/
def WalkTreeOn (filepath : Filepath) (os : OS) (options : WalkerOptions) (fuel : Nat)
    (rootPath : String) : Run (Option Node × Option String) :=
  match os.Abs rootPath with
  | Except.error err => Run.returns (none, some err)
  | Except.ok absPath =>
    match os.Stat absPath with
    | Except.error err => Run.returns (none, some err)
    | Except.ok info =>
      let root := NewNode (filepath.Dir absPath) info
      let root := { root with Name := filepath.Base absPath }
      let root := { root with Path := filepath.Dir absPath }
      match walkDirectoryOn filepath os options fuel absPath 0 with
      | Run.panics => Run.panics
      | Run.unfinished => Run.unfinished
      | Run.returns (children, err) =>
        let root := { root with Children := root.Children ++ children }
        match err with
        | some err => Run.returns (none, some err)
        | none => Run.returns (some root, none)

/-- Every name that `os.ReadDir` lists is not empty. -/
def OS.namesNotEmpty (os : OS) : Prop :=
  ∀ dirPath entries, os.ReadDir dirPath = some entries → ∀ entry ∈ entries, entry.Name ≠ ""

/-- The number `rank` gets smaller with every directory the walk enters from another
one: no directory is entered again from below itself. -/
def OS.descends (filepath : Filepath) (os : OS) (rank : String → Nat) : Prop :=
  ∀ dirPath entries entry info path, os.ReadDir dirPath = some entries → entry ∈ entries →
    entry.Info = some info → os.descend filepath dirPath entry info = some path →
    rank path < rank dirPath

/-- The file system `/home/u/ring` whose only entry is the symbolic link `again` to the
directory `/home/u/ring` itself. -/
def ringOS : OS :=
  { Abs := fun p => Except.ok ("/home/u/" ++ p),
    Stat := fun p =>
      if p = "/home/u/ring" then Except.ok (dirInfo "ring") else Except.error "no such file",
    ReadDir := fun p =>
      if p = "/home/u/ring" then some [⟨"again", ModeSymlink, some (linkInfo "again")⟩]
      else none,
    EvalSymlinks := fun p => if p = "/home/u/ring/again" then some "/home/u/ring" else none }

/-- The file system of `sampleFS` by its calls. -/
def sampleOS : OS :=
  { Abs := fun p => Except.ok ("/home/u/" ++ p),
    Stat := fun _ => Except.ok (dirInfo "proj"),
    ReadDir := fun p =>
      if p = "/home/u/proj" then
        some [⟨".git", 2 ^ 31, some (dirInfo ".git")⟩, ⟨"a.txt", 0, some (fileInfo "a.txt" 10)⟩,
          ⟨"gone", 0, none⟩, ⟨"locked", 2 ^ 31, some (dirInfo "locked")⟩,
          ⟨"sub", 2 ^ 31, some (dirInfo "sub")⟩]
      else if p = "/home/u/proj/.git" then some [⟨"config", 0, some (fileInfo "config" 92)⟩]
      else if p = "/home/u/proj/sub" then
        some [⟨"b.txt", 0, some (fileInfo "b.txt" 2048)⟩, ⟨"deep", 2 ^ 31, some (dirInfo "deep")⟩]
      else if p = "/home/u/proj/sub/deep" then some [⟨"c.txt", 0, some (fileInfo "c.txt" 1)⟩]
      else none,
    EvalSymlinks := fun p => some p }

/-- A rank of the directories of `sampleOS` that gets smaller on the way down. -/
def sampleRank (path : String) : Nat :=
  if path = "/home/u/proj" then 3
  else if path = "/home/u/proj/sub" then 2
  else if path = "/home/u/proj/sub/deep" then 1
  else 0

/-! ## tui/app.go

The `model` of the browser with the fields the methods read and write. The map `expanded`
is the function that reads it, a missing key reading `false`. A `nil` slice and an empty
slice are both the empty list. -/

/-- Theme manages color output (`color/theme.go`). -/
structure Theme where
  enabled : Bool

/-- The fields `Width` and `Height` of the `viewport.Model`. -/
structure Viewport where
  Width : Int
  Height : Int

/-- The struct `model`. -/
structure model where
  treeRoot : Node
  currentPath : String
  expanded : String → Bool
  selected : String
  viewport : Viewport
  theme : Option Theme
  searchMode : Bool
  searchQuery : String
  filtered : List Node
  height : Int
  width : Int

/-- The assignment `m[key] = value` on a `map[string]bool`. -/
def mapSet (m : String → Bool) (key : String) (value : Bool) : String → Bool :=
  fun k => if k = key then value else m k

/-- The function `initialModel`. -/
def initialModel (root : Node) (theme : Option Theme) : model :=
  let expanded : String → Bool := fun _ => false
  let expanded := mapSet expanded root.Path true
  { treeRoot := root, currentPath := root.Path, expanded := expanded, selected := root.Path,
    viewport := ⟨0, 0⟩, theme := theme, searchMode := false, searchQuery := "",
    filtered := [root], height := 0, width := 0 }

mutual
/-- The method `model.flattenTree`. `flattenTree.loop` is the loop
`for _, child := range node.Children`. -/
def model.flattenTree (filepath : Filepath) (m : model) (node : Node) (pfx : String) :
    List Node :=
  match node with
  | ⟨name, path, isDir, isSymlink, children, size, modTime, mode⟩ =>
    let result : List Node := [⟨name, path, isDir, isSymlink, children, size, modTime, mode⟩]
    if isDir then
      let key := filepath.Join path name
      if m.expanded key then result ++ model.flattenTree.loop filepath m children pfx
      else result
    else result
def model.flattenTree.loop (filepath : Filepath) (m : model) (rest : List Node)
    (pfx : String) : List Node :=
  match rest with
  | [] => []
  | child :: tl =>
    model.flattenTree filepath m child (pfx ++ "  ")
      ++ model.flattenTree.loop filepath m tl pfx
end

/-- The method `model.getVisibleNodes`. -/
def model.getVisibleNodes (filepath : Filepath) (m : model) : List Node :=
  if m.filtered.length > 0 then m.filtered
  else m.flattenTree filepath m.treeRoot ""

/-- The loop of `moveSelection` that looks for the selected node from index `i` on:
the index of the first node whose `Path` is `selected`, or `-1`. -/
def model.moveSelection.find (selected : String) : List Node → Nat → Int
  | [], _ => -1
  | node :: rest, i =>
    if node.Path = selected then (i : Int) else model.moveSelection.find selected rest (i + 1)

/-- The expression `nodes[i].Path`; the index is in range wherever the methods use it. -/
def pathAt (nodes : List Node) (i : Int) : String :=
  match nodes[i.toNat]? with
  | some node => node.Path
  | none => ""

/-- The method `model.moveSelection`. -/
def model.moveSelection (filepath : Filepath) (m : model) (delta : Int) : model :=
  let nodes := m.getVisibleNodes filepath
  if nodes.length = 0 then m
  else
    let currentIdx := model.moveSelection.find m.selected nodes 0
    if currentIdx = -1 then { m with selected := pathAt nodes 0 }
    else
      let newIdx := currentIdx + delta
      let newIdx :=
        if newIdx < 0 then 0
        else if newIdx ≥ nodes.length then (nodes.length : Int) - 1
        else newIdx
      { m with selected := pathAt nodes newIdx }

/-! ## The specification's view of the browser -/

/-- The index of the selected entry in the visible set, as the methods of the browser
find it: the first visible node whose `Path` is `selected`, or `-1`. -/
def selectedIndex (filepath : Filepath) (m : model) : Int :=
  model.moveSelection.find m.selected (m.getVisibleNodes filepath) 0

/-- The visible nodes that `renderTree` marks as selected. -/
def highlighted (filepath : Filepath) (m : model) : List Node :=
  (m.getVisibleNodes filepath).filter (fun node => node.Path == m.selected)

/-- The tree `proj/{a.txt, b.txt, c.txt}` in `/home/u`. -/
def flatTree : Node :=
  dirNodeAt "/home/u" "proj"
    [fileNodeAt "/home/u/proj" "a.txt" 10,
     fileNodeAt "/home/u/proj" "b.txt" 20,
     fileNodeAt "/home/u/proj" "c.txt" 30]

/-- The browser on `flatTree` with the root expanded, no filter, and the selection on the
directory that holds the three files. -/
def flatModel : model :=
  { treeRoot := flatTree, currentPath := "/home/u",
    expanded := mapSet (fun _ => false) "/home/u/proj" true, selected := "/home/u/proj",
    viewport := ⟨80, 20⟩, theme := none, searchMode := false, searchQuery := "",
    filtered := [], height := 24, width := 80 }

/-! ## color/theme.go and tree/renderer_color.go -/

/-- The method `Sprint` of the colour values `DirColor`, `ExecColor`, ... of
`color/theme.go`, which are values of the package `fatih/color`. -/
structure Colors where
  DirColor : String → String
  ExecColor : String → String
  SymlinkColor : String → String
  ImageColor : String → String
  ArchiveColor : String → String
  CodeColor : String → String
  DocColor : String → String
  DefaultColor : String → String

/-- The function `NewTheme`. -/
def NewTheme (enabled : Bool) : Theme := { enabled := enabled }

/-- The method `Theme.IsEnabled`. -/
def Theme.IsEnabled (t : Theme) : Bool := t.enabled

/-- The method `Theme.Colorize`; `ToLower` is `strings.ToLower` and `Ext` is
`filepath.Ext`. -/
def Theme.Colorize (colors : Colors) (ToLower : String → String) (Ext : String → String)
    (t : Theme) (name : String) (isDir : Bool) (isSymlink : Bool) (mode : Nat) : String :=
  if !t.enabled then name
  else if isSymlink then colors.SymlinkColor name
  else if isDir then colors.DirColor name
  else if (mode &&& 0o111) != 0 then colors.ExecColor name
  else
    let ext := ToLower (Ext name)
    if ext ∈ [".jpg", ".jpeg", ".png", ".gif", ".bmp", ".svg", ".webp", ".ico"] then
      colors.ImageColor name
    else if ext ∈ [".zip", ".tar", ".gz", ".bz2", ".xz", ".rar", ".7z"] then
      colors.ArchiveColor name
    else if ext ∈ [".go", ".js", ".ts", ".py", ".java", ".cpp", ".c", ".h", ".rs", ".rb",
        ".php", ".swift", ".kt"] then
      colors.CodeColor name
    else if ext ∈ [".md", ".txt", ".doc", ".docx", ".pdf", ".rtf"] then
      colors.DocColor name
    else name

/-- The method `Theme.DisableColors`, on the theme. -/
def Theme.DisableColors (_t : Theme) : Theme := { enabled := false }

/-- The method `Theme.EnableColors`, on the theme. -/
def Theme.EnableColors (_t : Theme) : Theme := { enabled := true }

mutual
/-- The method `RendererColor.renderNode` of the renderer with theme `t`.
`RendererColor.renderNode.loop` is the loop over the children from index `i` on, `n` being
`len(children)`. -/
def RendererColor.renderNode (colors : Colors) (ToLower : String → String)
    (Ext : String → String) (t : Theme) (node : Node) (pfx : String) (isLast : Bool)
    (skipRoot : Bool) : List String :=
  match node with
  | ⟨name, _, isDir, isSymlink, children, _, _, mode⟩ =>
    (if !skipRoot then
      let connector := if !isLast then TreeBranch else TreeLast
      let coloredName := t.Colorize colors ToLower Ext name isDir isSymlink mode
      [pfx ++ connector ++ coloredName]
    else [])
    ++ RendererColor.renderNode.loop colors ToLower Ext t children 0 children.length pfx isLast
        skipRoot
def RendererColor.renderNode.loop (colors : Colors) (ToLower : String → String)
    (Ext : String → String) (t : Theme) (rest : List Node) (i n : Nat) (pfx : String)
    (isLast : Bool) (skipRoot : Bool) : List String :=
  match rest with
  | [] => []
  | child :: tl =>
    let isLastChild := i == n - 1
    let childPfx :=
      if !skipRoot then (if isLast then pfx ++ TreeSpace else pfx ++ TreePipe) else pfx
    RendererColor.renderNode colors ToLower Ext t child childPfx isLastChild false
      ++ RendererColor.renderNode.loop colors ToLower Ext t tl (i + 1) n pfx isLast skipRoot
end

/-- The method `RendererColor.RenderTree` of the renderer with theme `t`. -/
def RendererColor.RenderTree (colors : Colors) (ToLower : String → String)
    (Ext : String → String) (t : Theme) (root : Node) (showRoot : Bool) : List String :=
  (if showRoot then
    [t.Colorize colors ToLower Ext root.Name root.IsDir root.IsSymlink root.Mode]
  else [])
  ++ RendererColor.renderNode colors ToLower Ext t root "" true showRoot

mutual
/-- The tree with every `Name` replaced by its coloured form. -/
def colorizeTree (colors : Colors) (ToLower : String → String) (Ext : String → String)
    (t : Theme) (node : Node) : Node :=
  match node with
  | ⟨name, path, isDir, isSymlink, children, size, modTime, mode⟩ =>
    ⟨t.Colorize colors ToLower Ext name isDir isSymlink mode, path, isDir, isSymlink,
      colorizeTree.all colors ToLower Ext t children, size, modTime, mode⟩
def colorizeTree.all (colors : Colors) (ToLower : String → String) (Ext : String → String)
    (t : Theme) (rest : List Node) : List Node :=
  match rest with
  | [] => []
  | child :: tl =>
    colorizeTree colors ToLower Ext t child :: colorizeTree.all colors ToLower Ext t tl
end

/-! ## tui/app.go: the events -/

/-- The loop of `toggleExpand` over the visible nodes: the first node whose `Path` is
`selected` ends the loop, and the key of a directory is toggled. -/
def model.toggleExpand.loop (filepath : Filepath) (m : model) : List Node → model
  | [] => m
  | node :: rest =>
    if node.Path = m.selected then
      if node.IsDir then
        let key := filepath.Join node.Path node.Name
        { m with expanded := mapSet m.expanded key (!m.expanded key) }
      else m
    else model.toggleExpand.loop filepath m rest

/-- The method `model.toggleExpand`. -/
def model.toggleExpand (filepath : Filepath) (m : model) : model :=
  model.toggleExpand.loop filepath m (m.getVisibleNodes filepath)

/-- The method `model.moveToTop`. -/
def model.moveToTop (filepath : Filepath) (m : model) : model :=
  let nodes := m.getVisibleNodes filepath
  if nodes.length > 0 then { m with selected := pathAt nodes 0 } else m

/-- The method `model.moveToBottom`. -/
def model.moveToBottom (filepath : Filepath) (m : model) : model :=
  let nodes := m.getVisibleNodes filepath
  if nodes.length > 0 then { m with selected := pathAt nodes ((nodes.length : Int) - 1) }
  else m

mutual
/-- The closure `search` of `filterTree`: the slice `m.filtered` after the call on `node`;
`ToLower` is `strings.ToLower` and `Contains` is `strings.Contains`. `search.loop` is the
loop over the children. -/
def model.filterTree.search (ToLower : String → String) (Contains : String → String → Bool)
    (query : String) (node : Node) (filtered : List Node) : List Node :=
  match node with
  | ⟨name, path, isDir, isSymlink, children, size, modTime, mode⟩ =>
    let filtered :=
      if Contains (ToLower name) query then
        filtered ++ [⟨name, path, isDir, isSymlink, children, size, modTime, mode⟩]
      else filtered
    model.filterTree.search.loop ToLower Contains query children filtered
def model.filterTree.search.loop (ToLower : String → String)
    (Contains : String → String → Bool) (query : String) (rest : List Node)
    (filtered : List Node) : List Node :=
  match rest with
  | [] => filtered
  | child :: tl =>
    model.filterTree.search.loop ToLower Contains query tl
      (model.filterTree.search ToLower Contains query child filtered)
end

/-- The method `model.filterTree`. -/
def model.filterTree (ToLower : String → String) (Contains : String → String → Bool)
    (m : model) : model :=
  if m.searchQuery = "" then { m with filtered := [] }
  else
    let query := ToLower m.searchQuery
    { m with filtered := model.filterTree.search ToLower Contains query m.treeRoot [] }

/-- The messages `Update` tells apart: a `tea.WindowSizeMsg`, a `tea.KeyMsg` with its
`String()`, and every other message. -/
inductive Msg where
  | WindowSizeMsg (Width Height : Int)
  | KeyMsg (key : String)
  | other

/-- The commands `Update` returns besides `nil`. -/
inductive Cmd where
  | Quit
deriving DecidableEq

/-- The slice `s[:len(s)-1]` of a string whose last character is one byte: the string
without its last character. The browser takes it of the query, to which it appends keys of
one byte only. -/
def dropLastByte (s : String) : String := String.mk s.data.dropLast

/-- The method `model.Update`: the new state and the command. -/
def model.Update (filepath : Filepath) (ToLower : String → String)
    (Contains : String → String → Bool) (m : model) (msg : Msg) : model × Option Cmd :=
  match msg with
  | Msg.WindowSizeMsg msgWidth msgHeight =>
    ({ m with height := msgHeight, width := msgWidth,
              viewport := { Width := msgWidth, Height := msgHeight - 4 } }, none)
  | Msg.KeyMsg key =>
    if key = "q" ∨ key = "ctrl+c" ∨ key = "esc" then
      if m.searchMode then ({ m with searchMode := false, searchQuery := "" }, none)
      else (m, some Cmd.Quit)
    else if key = "/" then ({ m with searchMode := true, searchQuery := "" }, none)
    else if key = "enter" then
      if m.searchMode then
        (model.filterTree ToLower Contains { m with searchMode := false }, none)
      else (m.toggleExpand filepath, none)
    else if key = "j" ∨ key = "down" then (m.moveSelection filepath 1, none)
    else if key = "k" ∨ key = "up" then (m.moveSelection filepath (-1), none)
    else if key = "gg" then (m.moveToTop filepath, none)
    else if key = "G" then (m.moveToBottom filepath, none)
    else if m.searchMode then
      let m :=
        if key = "backspace" then
          if m.searchQuery.utf8ByteSize > 0 then
            { m with searchQuery := dropLastByte m.searchQuery }
          else m
        else if key.utf8ByteSize = 1 then { m with searchQuery := m.searchQuery ++ key }
        else m
      (model.filterTree ToLower Contains m, none)
    else (m, none)
  | Msg.other => (m, none)

/-- The method `Render` of the styles `itemStyle` and `selectedItemStyle`, which are
values of the package `lipgloss`. -/
structure Styles where
  itemStyle : String → String
  selectedItemStyle : String → String

mutual
/-- The method `model.renderNode` of `tui/app.go`. `renderNode.loop` is the loop over the
children from index `i` on, `n` being `len(children)`, with the running `line`. -/
def model.renderNode (filepath : Filepath) (colors : Colors) (ToLower : String → String)
    (Ext : String → String) (styles : Styles) (m : model) (node : Node) (pfx : String)
    (isLast : Bool) (skipRoot : Bool) (isSelected : Bool) : String :=
  match node with
  | ⟨nodeName, path, isDir, isSymlink, children, _, _, mode⟩ =>
    let line : String :=
      if !skipRoot then
        let connector := if !isLast then TreeBranch else TreeLast
        let name :=
          match m.theme with
          | some theme =>
            if theme.IsEnabled then
              theme.Colorize colors ToLower Ext nodeName isDir isSymlink mode
            else nodeName
          | none => nodeName
        if isSelected then styles.selectedItemStyle (pfx ++ connector ++ name)
        else styles.itemStyle (pfx ++ connector ++ name)
      else ""
    if isDir then
      let key := filepath.Join path nodeName
      if m.expanded key then
        model.renderNode.loop filepath colors ToLower Ext styles m children 0 children.length
          pfx isLast skipRoot line
      else line
    else line
def model.renderNode.loop (filepath : Filepath) (colors : Colors)
    (ToLower : String → String) (Ext : String → String) (styles : Styles) (m : model)
    (rest : List Node) (i n : Nat) (pfx : String) (isLast : Bool) (skipRoot : Bool)
    (line : String) : String :=
  match rest with
  | [] => line
  | child :: tl =>
    let isLastChild := i == n - 1
    let childPrefix :=
      if !skipRoot then (if isLast then pfx ++ TreeSpace else pfx ++ TreePipe) else pfx
    let childLine := model.renderNode filepath colors ToLower Ext styles m child childPrefix
      isLastChild false (child.Path == m.selected)
    let line := if line ≠ "" then line ++ "\n" ++ childLine else childLine
    model.renderNode.loop filepath colors ToLower Ext styles m tl (i + 1) n pfx isLast
      skipRoot line
end

/-- The method `model.renderTree`. -/
def model.renderTree (filepath : Filepath) (colors : Colors) (ToLower : String → String)
    (Ext : String → String) (styles : Styles) (m : model) (nodes : List Node) : String :=
  Join (nodes.map (fun node =>
    let isSelected := node.Path == m.selected
    model.renderNode filepath colors ToLower Ext styles m node "" true true isSelected)) "\n"

/-! ## The specification's view of the events -/

/-- The node key: the `Path` of the containing directory joined with the `Name`. -/
def nodeKey (filepath : Filepath) (node : Node) : String :=
  filepath.Join node.Path node.Name

mutual
/-- The depth-first pre-order sequence of every node of a tree. -/
def preorder (node : Node) : List Node :=
  match node with
  | ⟨name, path, isDir, isSymlink, children, size, modTime, mode⟩ =>
    ⟨name, path, isDir, isSymlink, children, size, modTime, mode⟩ :: preorder.all children
def preorder.all (rest : List Node) : List Node :=
  match rest with
  | [] => []
  | child :: tl => preorder child ++ preorder.all tl
end

/-- The positions of all nodes of a tree, the root first. -/
def allPositions (root : Node) : List (List Nat) := [] :: positions root

/-- Whether every proper ancestor of the node at position `p` is a directory whose key is
expanded. -/
def shown (filepath : Filepath) (m : model) : Node → List Nat → Bool
  | _, [] => true
  | node, i :: rest =>
    node.IsDir && m.expanded (nodeKey filepath node) &&
      match node.Children[i]? with
      | some c => shown filepath m c rest
      | none => false

/-- The state after the key of the directory `d` is set to expanded. -/
def expand (filepath : Filepath) (m : model) (d : Node) : model :=
  { m with expanded := mapSet m.expanded (nodeKey filepath d) true }

/-- Whether the name of a node contains the query, letter case ignored. -/
def nameMatches (ToLower : String → String) (Contains : String → String → Bool)
    (query : String) (node : Node) : Bool :=
  Contains (ToLower node.Name) (ToLower query)

/-- A reading of the styles on a terminal without colours: the left padding of two
spaces that both styles have. -/
def paddedStyles : Styles :=
  { itemStyle := fun s => "  " ++ s, selectedItemStyle := fun s => "  " ++ s }

/-- A reading of the colour values that marks a name with the letter of its colour. -/
def letterColors : Colors :=
  { DirColor := fun s => "D:" ++ s, ExecColor := fun s => "X:" ++ s,
    SymlinkColor := fun s => "L:" ++ s, ImageColor := fun s => "I:" ++ s,
    ArchiveColor := fun s => "A:" ++ s, CodeColor := fun s => "C:" ++ s,
    DocColor := fun s => "T:" ++ s, DefaultColor := fun s => s }

/-- A reading of `strings.ToLower` on lists of characters, for ASCII letters. -/
def lowerText (s : String) : String := String.mk (s.data.map Char.toLower)

/-- A reading of `strings.Contains` on lists of characters. -/
def containsText (s sub : String) : Bool :=
  (List.range (s.length + 1)).any (fun k => (s.data.drop k).take sub.length == sub.data)

/-- The browser on `flatTree` in SearchInput mode with the query `ab`. -/
def searchModel : model :=
  { flatModel with searchMode := true, searchQuery := "ab" }

/-- The browser on `flatTree` with the filtered result `a.txt`. -/
def filteredModel : model :=
  { flatModel with filtered := [fileNodeAt "/home/u/proj" "a.txt" 10] }

/-- The browser on `root/{a.txt, sub/{b.txt}}` with the root expanded, `sub` collapsed, no
filter and the root selected. -/
def exampleModel : model :=
  { treeRoot := exampleTree, currentPath := "/tmp",
    expanded := mapSet (fun _ => false) "/tmp/root" true, selected := "/tmp",
    viewport := ⟨80, 20⟩, theme := none, searchMode := false, searchQuery := "",
    filtered := [], height := 24, width := 80 }

/-- The directory `sub` of `exampleTree`. -/
def exampleSub : Node :=
  ⟨"sub", "/tmp/root", true, false,
    [⟨"b.txt", "/tmp/root/sub", false, false, [], 2048, 2, 420⟩], 4096, 3, 493⟩

/-! ## The renderer against the specification's line rule -/

theorem concatAll_cons (s : String) (l : List String) : concatAll (s :: l) = s ++ concatAll l := rfl

theorem str_empty_append (s : String) : "" ++ s = s := by
  apply String.ext; simp

theorem str_append_empty (s : String) : s ++ "" = s := by
  apply String.ext; simp

theorem positions_from_ne_nil (rest : List Node) (i : Nat) (p : List Nat)
    (h : p ∈ positions.from rest i) : p ≠ [] := by
  induction rest generalizing i with
  | nil => simp [positions.from] at h
  | cons c tl ih =>
    simp only [positions.from, List.cons_append, List.mem_cons, List.mem_append,
      List.mem_map] at h
    rcases h with h | h | h
    · simp [h]
    · obtain ⟨q, _, rfl⟩ := h; simp
    · exact ih _ h

theorem positions_ne_nil (node : Node) (p : List Nat) (h : p ∈ positions node) : p ≠ [] := by
  cases node
  exact positions_from_ne_nil _ _ _ (by simpa [positions] using h)

theorem nodeAt_cons (node c : Node) (i : Nat) (q : List Nat) (h : node.Children[i]? = some c) :
    nodeAt node (i :: q) = nodeAt c q := by
  simp [nodeAt, h]

theorem isLastChild_single (node c : Node) (i : Nat) (_h : node.Children[i]? = some c) :
    isLastChild node [i] = (i + 1 == node.Children.length) := by
  simp [isLastChild, nodeAt]

theorem isLastChild_cons (node c : Node) (i j : Nat) (q : List Nat)
    (h : node.Children[i]? = some c) :
    isLastChild node (i :: j :: q) = isLastChild c (j :: q) := by
  simp only [isLastChild]
  have h1 : (i :: j :: q).getLast? = (j :: q).getLast? := by
    simp [List.getLast?_cons_cons]
  have h2 : (i :: j :: q).dropLast = i :: (j :: q).dropLast := by
    simp [List.dropLast]
  rw [h1, h2, nodeAt_cons node c i _ h]

theorem ancestorsOf_single (i : Nat) : ancestorsOf [i] = [] := rfl

theorem ancestorsOf_cons (i j : Nat) (q : List Nat) :
    ancestorsOf (i :: j :: q) = [i] :: (ancestorsOf (j :: q)).map (fun a => i :: a) := by
  simp only [ancestorsOf, List.length_cons, Nat.add_sub_cancel]
  rw [List.range'_succ, List.map_cons, ← List.map_add_range' 1 1 q.length 1]
  simp [List.map_map, Function.comp_def, Nat.add_comm]

theorem indentAt_cons (node c : Node) (i j : Nat) (q : List Nat)
    (h : node.Children[i]? = some c) :
    indentAt node (i :: j :: q)
      = (if i + 1 == node.Children.length then TreeSpace else TreePipe) ++ indentAt c (j :: q) := by
  have hmem : ∀ a ∈ ancestorsOf (j :: q), ∃ k r, a = k :: r := by
    intro a ha
    simp only [ancestorsOf, List.mem_map, List.mem_range'_1] at ha
    obtain ⟨k, ⟨hk, _⟩, rfl⟩ := ha
    obtain ⟨k, rfl⟩ : ∃ m, k = m + 1 := ⟨k - 1, by omega⟩
    exact ⟨j, q.take k, by simp⟩
  simp only [indentAt, ancestorsOf_cons, List.map_cons, concatAll_cons, List.map_map,
    isLastChild_single node c i h]
  congr 2
  apply List.map_congr_left
  intro a ha
  obtain ⟨k, r, rfl⟩ := hmem a ha
  simp [isLastChild_cons node c i k r h]

theorem lineAt_single (node c : Node) (i : Nat) (h : node.Children[i]? = some c) :
    lineAt node [i]
      = (if i + 1 == node.Children.length then TreeLast else TreeBranch) ++ c.Name := by
  simp [lineAt, indentAt, ancestorsOf_single, concatAll, connectorAt,
    isLastChild_single node c i h, nameAt, nodeAt, h, str_empty_append]

theorem lineAt_cons (node c : Node) (i j : Nat) (q : List Nat)
    (h : node.Children[i]? = some c) :
    lineAt node (i :: j :: q)
      = (if i + 1 == node.Children.length then TreeSpace else TreePipe) ++ lineAt c (j :: q) := by
  simp only [lineAt, indentAt_cons node c i j q h, connectorAt, isLastChild_cons node c i j q h,
    nameAt, nodeAt_cons node c i (j :: q) h, String.append_assoc]

theorem renderNode_eq (node : Node) (pfx : String) (isLast skipRoot : Bool) :
    Renderer.renderNode node pfx isLast skipRoot
      = (if skipRoot then [] else [pfx ++ (if isLast then TreeLast else TreeBranch) ++ node.Name])
        ++ Renderer.renderNode.loop node.Children 0 node.Children.length pfx isLast skipRoot := by
  cases node
  cases skipRoot <;> cases isLast <;> simp [Renderer.renderNode]

theorem renderNode_loop_cons (child : Node) (tl : List Node) (i n : Nat) (pfx : String)
    (isLast skipRoot : Bool) :
    Renderer.renderNode.loop (child :: tl) i n pfx isLast skipRoot
      = Renderer.renderNode child (childPfxOf pfx isLast skipRoot) (i == n - 1) false
        ++ Renderer.renderNode.loop tl (i + 1) n pfx isLast skipRoot := by
  rw [Renderer.renderNode.loop]; rfl

mutual
theorem renderNode_loop_all (node : Node) (pfx : String) (isLast skipRoot : Bool) :
    Renderer.renderNode.loop node.Children 0 node.Children.length pfx isLast skipRoot
      = (positions node).map (fun p => childPfxOf pfx isLast skipRoot ++ lineAt node p) :=
  match node with
  | ⟨nm, pa, d, sl, children, sz, mt, mo⟩ => by
    have := renderNode_loop_from children ⟨nm, pa, d, sl, children, sz, mt, mo⟩ 0 pfx isLast
      skipRoot (by simp)
    simpa [positions] using this
theorem renderNode_loop_from (rest : List Node) (node : Node) (i : Nat) (pfx : String)
    (isLast skipRoot : Bool) (h : node.Children.drop i = rest) :
    Renderer.renderNode.loop rest i node.Children.length pfx isLast skipRoot
      = (positions.from rest i).map
          (fun p => childPfxOf pfx isLast skipRoot ++ lineAt node p) :=
  match rest with
  | [] => by simp [Renderer.renderNode.loop, positions.from]
  | child :: tl => by
    have hi : node.Children[i]? = some child := by
      rw [← List.head?_drop, h]; rfl
    have htl : node.Children.drop (i + 1) = tl := by
      rw [← List.drop_drop, h]; rfl
    have hlt : i < node.Children.length := by
      by_contra hc
      rw [List.drop_eq_nil_of_le (by omega)] at h
      exact List.noConfusion h
    have hlast : (i == node.Children.length - 1) = (i + 1 == node.Children.length) := by
      rw [Bool.eq_iff_iff]; simp; omega
    have ih1 := renderNode_loop_all child (childPfxOf pfx isLast skipRoot)
      (i == node.Children.length - 1) false
    have ih2 := renderNode_loop_from tl node (i + 1) pfx isLast skipRoot htl
    rw [renderNode_loop_cons, positions.from, ih2, renderNode_eq, ih1]
    simp only [List.map_append, List.map_cons, List.map_map, Bool.false_eq_true, if_false,
      List.singleton_append, List.cons_append]
    congr 1
    · rw [lineAt_single node _ i hi, hlast]
      simp only [childPfxOf, String.append_assoc]
    · congr 1
      apply List.map_congr_left
      intro q hq
      have hne := positions_ne_nil _ q hq
      obtain ⟨j, r, rfl⟩ : ∃ j r, q = j :: r := by
        cases q with
        | nil => exact absurd rfl hne
        | cons j r => exact ⟨j, r, rfl⟩
      simp only [Function.comp, lineAt_cons node _ i j r hi, hlast]
      cases (i + 1 == node.Children.length) <;>
        simp [childPfxOf, String.append_assoc]
end

/-- The lines `renderNode` writes for a subtree whose root line is skipped. -/
theorem renderNode_skip (node : Node) (pfx : String) (isLast : Bool) :
    Renderer.renderNode node pfx isLast true = (positions node).map (fun p => pfx ++ lineAt node p) := by
  rw [renderNode_eq, renderNode_loop_all]
  simp [childPfxOf]

theorem RenderTree_showRoot (root : Node) :
    Renderer.RenderTree root true = root.Name :: (positions root).map (lineAt root) := by
  simp [Renderer.RenderTree, renderNode_skip, str_empty_append]

theorem TreeSpace_length : TreeSpace.length = 4 := by decide
theorem TreePipe_length : TreePipe.length = 4 := by decide

theorem indentAt_length (root : Node) (p : List Nat) :
    (indentAt root p).length = 4 * (p.length - 1) := by
  have key : ∀ (l : List (List Nat)),
      (concatAll (l.map (fun a => if isLastChild root a then TreeSpace else TreePipe))).length
        = 4 * l.length := by
    intro l
    induction l with
    | nil => rfl
    | cons a t ih =>
      rw [List.map_cons, concatAll_cons, String.length_append, ih]
      cases isLastChild root a <;> simp [TreeSpace_length, TreePipe_length] <;> omega
  rw [indentAt, key]
  simp [ancestorsOf]

theorem mem_positions_from (rest : List Node) (k i : Nat) (r : List Nat) :
    (i :: r) ∈ positions.from rest k
      ↔ ∃ c, k ≤ i ∧ rest[i - k]? = some c ∧ (r = [] ∨ r ∈ positions c) := by
  induction rest generalizing k with
  | nil => simp [positions.from]
  | cons c tl ih =>
    simp only [positions.from, List.cons_append, List.mem_cons, List.mem_append, List.mem_map,
      List.cons.injEq, ih]
    constructor
    · rintro (⟨rfl, rfl⟩ | ⟨q, hq, rfl, rfl⟩ | ⟨d, hk, hd, hr⟩)
      · exact ⟨c, Nat.le_refl _, by simp, Or.inl rfl⟩
      · exact ⟨c, Nat.le_refl _, by simp, Or.inr hq⟩
      · refine ⟨d, by omega, ?_, hr⟩
        rw [show i - k = (i - (k + 1)) + 1 by omega]
        simpa using hd
    · rintro ⟨d, hk, hd, hr⟩
      by_cases hik : i = k
      · subst hik
        simp only [Nat.sub_self, List.getElem?_cons_zero, Option.some.injEq] at hd
        subst hd
        rcases hr with rfl | hr
        · exact Or.inl ⟨rfl, rfl⟩
        · exact Or.inr (Or.inl ⟨r, hr, rfl, rfl⟩)
      · refine Or.inr (Or.inr ⟨d, by omega, ?_, hr⟩)
        rw [show i - k = (i - (k + 1)) + 1 by omega] at hd
        simpa using hd

/-- The list `positions root` holds exactly the positions of the non-root nodes. -/
theorem mem_positions (root : Node) (p : List Nat) :
    p ∈ positions root ↔ p ≠ [] ∧ (nodeAt root p).isSome := by
  induction p generalizing root with
  | nil =>
    constructor
    · intro h; exact absurd rfl (positions_ne_nil root [] h)
    · intro h; exact absurd rfl h.1
  | cons i r ih =>
    have hpos : positions root = positions.from root.Children 0 := by
      cases root; simp [positions]
    rw [hpos, mem_positions_from]
    simp only [Nat.zero_le, Nat.sub_zero, true_and, ne_eq, not_false_eq_true, nodeAt,
      reduceCtorEq]
    constructor
    · rintro ⟨c, hc, hr⟩
      rw [hc]
      rcases hr with rfl | hr
      · simp [nodeAt]
      · exact ((ih c).1 hr).2
    · intro h
      cases hc : root.Children[i]? with
      | none => simp [hc] at h
      | some c =>
        refine ⟨c, rfl, ?_⟩
        rw [hc] at h
        by_cases hr : r = []
        · exact Or.inl hr
        · exact Or.inr ((ih c).2 ⟨hr, h⟩)

/-! ## Claims on `Renderer.RenderTree` -/

theorem isLastChild_snoc (root parent : Node) (q : List Nat) (i : Nat)
    (hq : nodeAt root q = some parent) :
    isLastChild root (q ++ [i]) = (i + 1 == parent.Children.length) := by
  simp [isLastChild, hq]

theorem connectorColumn_lineAt (root : Node) (p : List Nat) :
    connectorColumn p.length (lineAt root p) = (connectorAt root p).data := by
  have hlen : (indentAt root p).data.length = 4 * (p.length - 1) := indentAt_length root p
  have hc : (connectorAt root p).data.length = 4 := by
    unfold connectorAt
    cases isLastChild root p <;> decide
  simp only [connectorColumn, lineAt, String.data_append, List.append_assoc]
  rw [← hlen, List.drop_left, List.take_left' hc]

theorem TreeLast_ne_TreeBranch : TreeLast.data ≠ TreeBranch.data := by decide

/-- C1: in the output of `RenderTree root true`, for a node `parent` (at position `q`) with
at least one child, the line written for its child number `i` exists and its connector
column holds the terminal connector `└── ` exactly when `i` is the last index of
`Children`; the line of every earlier child holds the branch connector `├── `. -/
theorem connector_last_child_only (root parent : Node) (q : List Nat) (i : Nat)
    (hq : nodeAt root q = some parent) (hi : i < parent.Children.length) :
    (∃ k : Nat, (positions root)[k]? = some (q ++ [i])) ∧
    ∀ k : Nat, (positions root)[k]? = some (q ++ [i]) →
      ∃ line, (Renderer.RenderTree root true)[k + 1]? = some line ∧
        (connectorColumn (q.length + 1) line = TreeLast.data ↔ i + 1 = parent.Children.length) ∧
        (i + 1 ≠ parent.Children.length → connectorColumn (q.length + 1) line = TreeBranch.data) := by
  constructor
  · apply List.getElem?_of_mem
    rw [mem_positions]
    refine ⟨by simp, ?_⟩
    have hnode : ∀ (r : Node) (q : List Nat) (par : Node), nodeAt r q = some par →
        i < par.Children.length → (nodeAt r (q ++ [i])).isSome := by
      intro r q
      induction q generalizing r with
      | nil =>
        intro par h hlt
        simp only [nodeAt, Option.some.injEq] at h
        subst h
        simp [nodeAt, List.getElem?_eq_getElem hlt]
      | cons j t ih =>
        intro par h hlt
        simp only [nodeAt, List.cons_append] at h ⊢
        cases hc : r.Children[j]? with
        | none => simp [hc] at h
        | some c =>
          rw [hc] at h
          exact ih c par h hlt
    exact hnode root q parent hq hi
  · intro k hk
    refine ⟨lineAt root (q ++ [i]), ?_, ?_, ?_⟩
    · rw [RenderTree_showRoot, List.getElem?_cons_succ, List.getElem?_map, hk]; rfl
    · have := connectorColumn_lineAt root (q ++ [i])
      rw [List.length_append, List.length_singleton] at this
      rw [this, connectorAt, isLastChild_snoc root parent q i hq]
      by_cases h : i + 1 = parent.Children.length
      · simp [h]
      · simp [h, Ne.symm TreeLast_ne_TreeBranch]
    · intro h
      have := connectorColumn_lineAt root (q ++ [i])
      rw [List.length_append, List.length_singleton] at this
      rw [this, connectorAt, isLastChild_snoc root parent q i hq]
      simp [h]

/-- Witness for C1: the root of `root/{a.txt, sub/{b.txt}}` and its last child `sub`. -/
theorem connector_last_child_only_witness :
    (∃ k : Nat, (positions exampleTree)[k]? = some ([] ++ [1])) ∧
    ∀ k : Nat, (positions exampleTree)[k]? = some ([] ++ [1]) →
      ∃ line, (Renderer.RenderTree exampleTree true)[k + 1]? = some line ∧
        (connectorColumn (([] : List Nat).length + 1) line = TreeLast.data
          ↔ 1 + 1 = exampleTree.Children.length) ∧
        (1 + 1 ≠ exampleTree.Children.length →
          connectorColumn (([] : List Nat).length + 1) line = TreeBranch.data) :=
  connector_last_child_only exampleTree exampleTree [] 1 rfl (by decide)

/-- C2: `RenderTree root true` writes the root name and then, for every non-root node in
pre-order, the line `indent ++ connector ++ name`, where `indent` is the concatenation
over the node's proper ancestors at depths `1 .. d-1`, top down, of four spaces for an
ancestor that is the last child of its parent and of `│   ` otherwise; direct children
of the root have the empty indent and every indent is `4 * (d - 1)` characters long. -/
theorem RenderTree_lines (root : Node) :
    Renderer.RenderTree root true
      = root.Name :: (positions root).map
          (fun p => indentAt root p ++ connectorAt root p ++ nameAt root p) ∧
    (∀ p, p ∈ positions root ↔ p ≠ [] ∧ (nodeAt root p).isSome) ∧
    (∀ p, indentAt root p = concatAll ((ancestorsOf p).map
          (fun a => if isLastChild root a then TreeSpace else TreePipe))) ∧
    (∀ i, indentAt root [i] = "") ∧
    (∀ p, (indentAt root p).length = 4 * (p.length - 1)) :=
  ⟨RenderTree_showRoot root, mem_positions root, fun _ => rfl, fun _ => rfl,
    indentAt_length root⟩

/-- C3: for `root/{a.txt (10), sub/{b.txt (2048)}}`, `RenderTree` with `showRoot = true`
writes the root line and then exactly `├── a.txt`, `└── sub`, `    └── b.txt`. -/
theorem RenderTree_exampleTree :
    Renderer.RenderTree exampleTree true = ["root", "├── a.txt", "└── sub", "    └── b.txt"] ∧
    GetTreeString exampleTree true = "root\n├── a.txt\n└── sub\n    └── b.txt\n" := by
  constructor <;> decide

/-- With `showRoot = false` the value passed as `skipRoot` is `false`, so `renderNode`
writes the root as a last child and indents everything below it by four spaces. -/
theorem RenderTree_hideRoot (root : Node) :
    Renderer.RenderTree root false
      = (TreeLast ++ root.Name) :: (positions root).map (fun p => TreeSpace ++ lineAt root p) := by
  rw [Renderer.RenderTree, renderNode_eq, renderNode_loop_all]
  simp [childPfxOf, str_empty_append]

/-- C4 fails on the code: `RenderTree exampleTree false` still writes a line for the root
(`└── root`) and the root's children carry a four-space indent, so the output is not the
`showRoot = true` output without its first line. -/
theorem RenderTree_hideRoot_exampleTree :
    Renderer.RenderTree exampleTree false
      = ["└── root", "    ├── a.txt", "    └── sub", "        └── b.txt"] ∧
    Renderer.RenderTree exampleTree false ≠ (Renderer.RenderTree exampleTree true).tail := by
  constructor <;> decide

/-! ## Claims on `RendererStats` -/

theorem wrap64_id (x : Int) (h1 : -2 ^ 63 ≤ x) (h2 : x < 2 ^ 63) : wrap64 x = x := by
  unfold wrap64
  norm_num at h1 h2 ⊢
  omega

theorem wrap64_wrap64 (a : Int) : wrap64 (wrap64 a) = wrap64 a := by
  unfold wrap64
  norm_num

theorem wrap64_add_wrap64 (a b : Int) : wrap64 (a + wrap64 b) = wrap64 (a + b) := by
  unfold wrap64
  norm_num
  omega

theorem wrap64_wrap64_add (a b : Int) : wrap64 (wrap64 a + b) = wrap64 (a + b) := by
  unfold wrap64
  norm_num
  omega

theorem descendants_eq (node : Node) : descendants node = descendants.of node.Children := by
  cases node; simp [descendants]

theorem onlyDirsHaveChildren_eq (node : Node) :
    onlyDirsHaveChildren node
      = ((node.IsDir || node.Children.isEmpty) && onlyDirsHaveChildren.all node.Children) := by
  cases node; simp [onlyDirsHaveChildren]

theorem calculateDirSize_eq (node : Node) :
    RendererStats.calculateDirSize node = RendererStats.calculateDirSize.loop node.Children 0 := by
  cases node; simp [RendererStats.calculateDirSize]

theorem calculateDirSize_loop_cons (child : Node) (tl : List Node) (size : Int) :
    RendererStats.calculateDirSize.loop (child :: tl) size
      = RendererStats.calculateDirSize.loop tl
          (wrap64
            (size + if child.IsDir then RendererStats.calculateDirSize child else child.Size)) := by
  obtain ⟨nm, pa, isDir, sl, ch, sz, mt, mo⟩ := child
  rw [RendererStats.calculateDirSize.loop]
  cases isDir <;> simp

/-- The sum of `Size` over the non-directories of a list of nodes. -/
theorem fileSize_append (l₁ l₂ : List Node) :
    (((l₁ ++ l₂).filter (fun d => !d.IsDir)).map (fun d => d.Size)).sum
      = ((l₁.filter (fun d => !d.IsDir)).map (fun d => d.Size)).sum
        + ((l₂.filter (fun d => !d.IsDir)).map (fun d => d.Size)).sum := by
  simp [List.filter_append]

mutual
/-- The value `calculateDirSize` returns is the sum of the sizes of the descendant files as
an `int64` holds it. -/
theorem calculateDirSize_spec (node : Node) (h : onlyDirsHaveChildren node = true) :
    RendererStats.calculateDirSize node = wrap64 (descendantFileSize node) :=
  match node with
  | ⟨nm, pa, d, sl, children, sz, mt, mo⟩ => by
    have hall : onlyDirsHaveChildren.all children = true := by
      rw [onlyDirsHaveChildren_eq] at h
      simp only [Bool.and_eq_true] at h
      exact h.2
    have := calculateDirSize_loop_spec children 0 hall (by decide)
    rw [calculateDirSize_eq, this, descendantFileSize, descendants_eq]
    simp
theorem calculateDirSize_loop_spec (rest : List Node) (size : Int)
    (h : onlyDirsHaveChildren.all rest = true) (hsize : wrap64 size = size) :
    RendererStats.calculateDirSize.loop rest size
      = wrap64
          (size + (((descendants.of rest).filter (fun d => !d.IsDir)).map (fun d => d.Size)).sum) :=
  match rest with
  | [] => by simp [RendererStats.calculateDirSize.loop, descendants.of, hsize]
  | child :: tl => by
    rw [onlyDirsHaveChildren.all, Bool.and_eq_true] at h
    have ih1 := calculateDirSize_spec child h.1
    have ih2 := calculateDirSize_loop_spec tl
      (wrap64 (size + if child.IsDir then RendererStats.calculateDirSize child else child.Size))
      h.2 (wrap64_wrap64 _)
    rw [calculateDirSize_loop_cons, ih2, descendants.of, fileSize_append]
    rw [List.filter_cons]
    cases hd : child.IsDir
    · have hch : child.Children = [] := by
        have := h.1
        rw [onlyDirsHaveChildren_eq, hd] at this
        simp only [Bool.false_or, Bool.and_eq_true, List.isEmpty_iff] at this
        exact this.1
      have hdesc : descendants child = [] := by
        rw [descendants_eq, hch]; rfl
      simp [hdesc, wrap64_wrap64_add, Int.add_assoc]
    · simp only [Bool.not_true, Bool.false_eq_true, if_false, if_true]
      rw [ih1, wrap64_add_wrap64, wrap64_wrap64_add, descendantFileSize, Int.add_assoc]
end

theorem statsLine_showSize (Format : String → Int → String) (r : RendererStats) (node : Node)
    (pfx : String) (isLast : Bool) (hsize : r.showSize = true)
    (hwf : onlyDirsHaveChildren node = true) :
    RendererStats.statsLine Format r node pfx isLast
      = pfx ++ ((if isLast then TreeLast else TreeBranch) ++ (node.Name ++ ("  " ++
          Join (sizeNote node :: dateNote Format r node) "  "))) := by
  have hcalc := calculateDirSize_spec node hwf
  have hjoin : ∀ (s : String) (l : List String), l.length ≤ 1 →
      Join ([s] ++ l) "  " = Join (s :: l) "  " := fun _ _ _ => rfl
  unfold RendererStats.statsLine sizeNote dateNote
  simp only [hsize, Bool.true_or, if_true, Bool.true_and, List.nil_append, hcalc]
  cases hd : node.IsDir <;> cases hsd : r.showDate <;> cases hl : r.showLong <;>
    cases isLast <;>
    simp [String.append_assoc] <;>
    split <;> simp_all [String.append_assoc]

theorem renderNodeWithStats_eq (Format : String → Int → String) (r : RendererStats)
    (node : Node) (pfx : String) (isLast skipRoot : Bool) :
    RendererStats.renderNodeWithStats Format r node pfx isLast skipRoot
      = (if skipRoot then [] else [RendererStats.statsLine Format r node pfx isLast])
        ++ RendererStats.renderNodeWithStats.loop Format r node.Children 0 node.Children.length
            pfx isLast skipRoot := by
  cases node
  cases skipRoot <;> simp [RendererStats.renderNodeWithStats]

theorem renderNodeWithStats_loop_cons (Format : String → Int → String) (r : RendererStats)
    (child : Node) (tl : List Node) (i n : Nat) (pfx : String) (isLast skipRoot : Bool) :
    RendererStats.renderNodeWithStats.loop Format r (child :: tl) i n pfx isLast skipRoot
      = RendererStats.renderNodeWithStats Format r child (childPfxOf pfx isLast skipRoot)
          (i == n - 1) false
        ++ RendererStats.renderNodeWithStats.loop Format r tl (i + 1) n pfx isLast skipRoot := by
  rw [RendererStats.renderNodeWithStats.loop]; rfl

theorem sizeLineAt_single (Format : String → Int → String) (r : RendererStats)
    (node c : Node) (i : Nat) (h : node.Children[i]? = some c) :
    sizeLineAt Format r node [i]
      = (if i + 1 == node.Children.length then TreeLast else TreeBranch) ++ (c.Name ++ ("  " ++
          Join (sizeNote c :: dateNote Format r c) "  ")) := by
  simp [sizeLineAt, nodeAt, h, lineAt_single node c i h, String.append_assoc]

theorem sizeLineAt_cons (Format : String → Int → String) (r : RendererStats)
    (node c : Node) (i j : Nat) (q : List Nat) (h : node.Children[i]? = some c)
    (hq : (nodeAt c (j :: q)).isSome) :
    sizeLineAt Format r node (i :: j :: q)
      = (if i + 1 == node.Children.length then TreeSpace else TreePipe)
          ++ sizeLineAt Format r c (j :: q) := by
  obtain ⟨n, hn⟩ := Option.isSome_iff_exists.1 hq
  simp only [sizeLineAt, nodeAt_cons node c i (j :: q) h, hn, lineAt_cons node c i j q h,
    String.append_assoc]

mutual
theorem renderNodeWithStats_loop_all (Format : String → Int → String) (r : RendererStats)
    (node : Node) (pfx : String) (isLast skipRoot : Bool) (hsize : r.showSize = true)
    (hwf : onlyDirsHaveChildren.all node.Children = true) :
    RendererStats.renderNodeWithStats.loop Format r node.Children 0 node.Children.length pfx
        isLast skipRoot
      = (positions node).map
          (fun p => childPfxOf pfx isLast skipRoot ++ sizeLineAt Format r node p) :=
  match node with
  | ⟨nm, pa, d, sl, children, sz, mt, mo⟩ => by
    have := renderNodeWithStats_loop_from Format r children ⟨nm, pa, d, sl, children, sz, mt, mo⟩
      0 pfx isLast skipRoot hsize hwf (by simp)
    simpa [positions] using this
theorem renderNodeWithStats_loop_from (Format : String → Int → String) (r : RendererStats)
    (rest : List Node) (node : Node) (i : Nat) (pfx : String) (isLast skipRoot : Bool)
    (hsize : r.showSize = true) (hwf : onlyDirsHaveChildren.all rest = true)
    (h : node.Children.drop i = rest) :
    RendererStats.renderNodeWithStats.loop Format r rest i node.Children.length pfx isLast
        skipRoot
      = (positions.from rest i).map
          (fun p => childPfxOf pfx isLast skipRoot ++ sizeLineAt Format r node p) :=
  match rest with
  | [] => by simp [RendererStats.renderNodeWithStats.loop, positions.from]
  | child :: tl => by
    have hi : node.Children[i]? = some child := by
      rw [← List.head?_drop, h]; rfl
    have htl : node.Children.drop (i + 1) = tl := by
      rw [← List.drop_drop, h]; rfl
    have hlt : i < node.Children.length := by
      by_contra hc
      rw [List.drop_eq_nil_of_le (by omega)] at h
      exact List.noConfusion h
    have hlast : (i == node.Children.length - 1) = (i + 1 == node.Children.length) := by
      rw [Bool.eq_iff_iff]; simp; omega
    rw [onlyDirsHaveChildren.all, Bool.and_eq_true] at hwf
    have hwfc : onlyDirsHaveChildren.all child.Children = true := by
      have := hwf.1
      rw [onlyDirsHaveChildren_eq, Bool.and_eq_true] at this
      exact this.2
    have ih1 := renderNodeWithStats_loop_all Format r child (childPfxOf pfx isLast skipRoot)
      (i == node.Children.length - 1) false hsize hwfc
    have ih2 := renderNodeWithStats_loop_from Format r tl node (i + 1) pfx isLast skipRoot hsize
      hwf.2 htl
    rw [renderNodeWithStats_loop_cons, positions.from, ih2, renderNodeWithStats_eq, ih1,
      statsLine_showSize Format r child _ _ hsize hwf.1]
    simp only [List.map_append, List.map_cons, List.map_map, Bool.false_eq_true, if_false,
      List.singleton_append, List.cons_append]
    congr 1
    · rw [sizeLineAt_single Format r node _ i hi, hlast]
    · congr 1
      apply List.map_congr_left
      intro q hq
      have hne := positions_ne_nil _ q hq
      obtain ⟨j, t, rfl⟩ : ∃ j t, q = j :: t := by
        cases q with
        | nil => exact absurd rfl hne
        | cons j t => exact ⟨j, t, rfl⟩
      have hsome := ((mem_positions child (j :: t)).1 hq).2
      simp only [Function.comp, sizeLineAt_cons Format r node _ i j t hi hsome, hlast]
      cases (i + 1 == node.Children.length) <;>
        simp [childPfxOf, String.append_assoc]
end

/-- What `renderNodeWithStats` writes where the sum of the file sizes is no `int64`: in
`top/{r/{a (2^63 - 1), b (1)}}` the sizes of the files of `r` add up to `2^63`, whose
annotation would be `[8.0EB]`, and the line of `r` carries `[-9223372036854775808B]`. -/
theorem renderNodeWithStats_overflowTree :
    (RendererStats.RenderTreeWithStats (fun _ l => l) id (fun _ _ => "") 0
        (NewRendererStats true false false "" false) overflowTree true).1
      = ["top", "└── r  [-9223372036854775808B]", "    ├── a  8.0EB", "    └── b  1B"] ∧
    (nodeAt overflowTree [0]).map
        (fun n => (((descendants n).filter (fun d => !d.IsDir)).map (fun d => d.Size)).sum)
      = some (2 ^ 63) ∧
    "[" ++ FormatSizeCompact (2 ^ 63) ++ "]" = "[8.0EB]" ∧
    (nodeAt overflowTree [0]).map
        (fun n => RendererStats.statsLine (fun _ _ => "")
          (NewRendererStats true false false "" false) n "" true)
      ≠ (nodeAt overflowTree [0]).map
        (fun n => "└── " ++ n.Name ++ "  " ++ "[" ++ FormatSizeCompact
          (((descendants n).filter (fun d => !d.IsDir)).map (fun d => d.Size)).sum ++ "]") := by
  refine ⟨?_, by decide, by decide, ?_⟩
  · set_option maxRecDepth 100000 in decide
  · set_option maxRecDepth 100000 in decide

/-- C5 as amended: with the size annotation on, `renderNodeWithStats` writes for every node
below the root (a tree in which only directories have children) its line followed by two
spaces and the size annotation: `FormatSizeCompact` of its own `Size` for a
non-directory, and in square brackets `FormatSizeCompact` of the sum of `Size` over all
its non-directory descendants for a directory, the sum being taken in `int64`: it is the
sum itself when that lies in `[-2^63, 2^63)` and the sum wrapped around into this range
otherwise. For `root/{a.txt (10), sub/{b.txt (2048)}}` the `a.txt` line ends with `10B`
and the `sub` line with `[2.0KB]`. -/
theorem size_note (Slice : (Node → Node → Bool) → List Node → List Node)
    (ToLower : String → String) (Format : String → Int → String) (now : Int)
    (r : RendererStats) (root : Node) (pfx : String) (isLast : Bool)
    (hsize : r.showSize = true) (hwf : onlyDirsHaveChildren root = true) :
    RendererStats.renderNodeWithStats Format r root pfx isLast true
      = (positions root).map (fun p => pfx ++ sizeLineAt Format r root p) ∧
    (∀ p n, nodeAt root p = some n →
      sizeLineAt Format r root p
        = lineAt root p ++ "  " ++ Join (sizeNote n :: dateNote Format r n) "  " ∧
      (r.showDate = false → sizeLineAt Format r root p = lineAt root p ++ "  " ++ sizeNote n) ∧
      sizeNote n
        = (if n.IsDir then
            "[" ++ FormatSizeCompact
              (wrap64 (((descendants n).filter (fun d => !d.IsDir)).map (fun d => d.Size)).sum)
              ++ "]"
          else FormatSizeCompact n.Size) ∧
      (n.IsDir = true →
        -2 ^ 63 ≤ (((descendants n).filter (fun d => !d.IsDir)).map (fun d => d.Size)).sum →
        (((descendants n).filter (fun d => !d.IsDir)).map (fun d => d.Size)).sum < 2 ^ 63 →
        sizeNote n
          = "[" ++ FormatSizeCompact
              (((descendants n).filter (fun d => !d.IsDir)).map (fun d => d.Size)).sum
              ++ "]")) ∧
    (RendererStats.RenderTreeWithStats Slice ToLower Format now
        (NewRendererStats true false false "" false) exampleTree true).1
      = ["root", "├── a.txt  10B", "└── sub  [2.0KB]", "    └── b.txt  2.0KB"] := by
  refine ⟨?_, ?_, ?_⟩
  · have hall : onlyDirsHaveChildren.all root.Children = true := by
      rw [onlyDirsHaveChildren_eq, Bool.and_eq_true] at hwf
      exact hwf.2
    rw [renderNodeWithStats_eq, renderNodeWithStats_loop_all Format r root pfx isLast true hsize hall]
    simp [childPfxOf]
  · intro p n hn
    refine ⟨by simp [sizeLineAt, hn], ?_, rfl, ?_⟩
    · intro hd
      simp [sizeLineAt, hn, dateNote, hd, Join]
    · intro hdir h1 h2
      have hw := wrap64_id _ h1 h2
      simp only [sizeNote, descendantFileSize, hdir, if_true, hw]
  · rfl

/-- Witness for C5: the tree `root/{a.txt (10), sub/{b.txt (2048)}}` with sizes shown. -/
theorem size_note_witness :
    RendererStats.renderNodeWithStats (fun _ _ => "") (NewRendererStats true false false "" false)
        exampleTree "" true true
      = ["├── a.txt  10B", "└── sub  [2.0KB]", "    └── b.txt  2.0KB"] := by
  have h := (size_note (fun _ l => l) id (fun _ _ => "") 0
    (NewRendererStats true false false "" false) exampleTree "" true rfl (by decide)).1
  rw [h]
  decide

theorem collectNodeStats_eq (node : Node) (fs : FileStats) (skipRoot : Bool) :
    RendererStats.collectNodeStats node fs skipRoot
      = RendererStats.collectNodeStats.loop node.Children
          (if skipRoot then fs else addNode fs node) := by
  cases node
  cases skipRoot <;> simp [RendererStats.collectNodeStats, addNode]

mutual
theorem collectNodeStats_spec (node : Node) (fs : FileStats) (skipRoot : Bool) :
    RendererStats.collectNodeStats node fs skipRoot
      = (descendants node).foldl addNode (if skipRoot then fs else addNode fs node) :=
  match node with
  | ⟨nm, pa, d, sl, children, sz, mt, mo⟩ => by
    rw [collectNodeStats_eq, descendants_eq]
    exact collectNodeStats_loop_spec children _
theorem collectNodeStats_loop_spec (rest : List Node) (fs : FileStats) :
    RendererStats.collectNodeStats.loop rest fs = (descendants.of rest).foldl addNode fs :=
  match rest with
  | [] => by simp [RendererStats.collectNodeStats.loop, descendants.of]
  | child :: tl => by
    rw [RendererStats.collectNodeStats.loop, collectNodeStats_spec child fs false,
      collectNodeStats_loop_spec tl, descendants.of]
    simp [List.foldl_append]
end

theorem foldl_addNode_counts (l : List Node) (fs : FileStats)
    (hf : wrap64 fs.TotalFiles = fs.TotalFiles) (hd : wrap64 fs.TotalDirs = fs.TotalDirs)
    (hs : wrap64 fs.TotalSize = fs.TotalSize) :
    (l.foldl addNode fs).TotalFiles
      = wrap64 (fs.TotalFiles + (l.filter (fun d => !d.IsDir)).length) ∧
    (l.foldl addNode fs).TotalDirs
      = wrap64 (fs.TotalDirs + (l.filter (fun d => d.IsDir)).length) ∧
    (l.foldl addNode fs).TotalSize = wrap64 (fs.TotalSize + (fileSizes l).sum) ∧
    (l.foldl addNode fs).LargestFile = (fileSizes l).foldl max fs.LargestFile := by
  induction l generalizing fs with
  | nil => simp [fileSizes, hf, hd, hs]
  | cons n t ih =>
    cases hdir : n.IsDir
    · have hmax : (addNode fs n).LargestFile = max fs.LargestFile n.Size := by
        simp only [addNode, hdir, FileStats.AddFile, Bool.false_eq_true, if_false]
        by_cases hlt : n.Size > fs.LargestFile
        · rw [if_pos hlt, max_eq_right (le_of_lt hlt)]
          split <;> split <;> rfl
        · rw [if_neg hlt, max_eq_left (not_lt.1 hlt)]
          split <;> split <;> rfl
      have hfiles : (addNode fs n).TotalFiles = wrap64 (fs.TotalFiles + 1) := by
        simp only [addNode, hdir, FileStats.AddFile, Bool.false_eq_true, if_false]
        split <;> split <;> split <;> rfl
      have hdirs : (addNode fs n).TotalDirs = fs.TotalDirs := by
        simp only [addNode, hdir, FileStats.AddFile, Bool.false_eq_true, if_false]
        split <;> split <;> split <;> rfl
      have hsize : (addNode fs n).TotalSize = wrap64 (fs.TotalSize + n.Size) := by
        simp only [addNode, hdir, FileStats.AddFile, Bool.false_eq_true, if_false]
        split <;> split <;> split <;> rfl
      obtain ⟨h1, h2, h3, h4⟩ := ih (addNode fs n) (by rw [hfiles, wrap64_wrap64])
        (by rw [hdirs, hd]) (by rw [hsize, wrap64_wrap64])
      rw [List.foldl_cons, h1, h2, h3, h4, hmax, hfiles, hdirs, hsize, wrap64_wrap64_add,
        wrap64_wrap64_add]
      simp only [fileSizes, List.filter_cons, hdir, Bool.not_false, if_true, Bool.false_eq_true,
        if_false, List.length_cons, List.map_cons, List.sum_cons, List.foldl_cons, Nat.cast_add,
        Nat.cast_one]
      refine ⟨?_, trivial, ?_, trivial⟩
      · congr 1; omega
      · congr 1; omega
    · have hfiles : (addNode fs n).TotalFiles = fs.TotalFiles := by
        simp only [addNode, hdir, FileStats.AddDir, if_true]
      have hdirs : (addNode fs n).TotalDirs = wrap64 (fs.TotalDirs + 1) := by
        simp only [addNode, hdir, FileStats.AddDir, if_true]
      have hsize : (addNode fs n).TotalSize = fs.TotalSize := by
        simp only [addNode, hdir, FileStats.AddDir, if_true]
      have hmax : (addNode fs n).LargestFile = fs.LargestFile := by
        simp only [addNode, hdir, FileStats.AddDir, if_true]
      obtain ⟨h1, h2, h3, h4⟩ := ih (addNode fs n) (by rw [hfiles, hf])
        (by rw [hdirs, wrap64_wrap64]) (by rw [hsize, hs])
      rw [List.foldl_cons, h1, h2, h3, h4, hmax, hfiles, hdirs, hsize, wrap64_wrap64_add]
      simp only [fileSizes, List.filter_cons, hdir, Bool.not_true, if_true, Bool.false_eq_true,
        if_false, List.length_cons, Nat.cast_add, Nat.cast_one]
      refine ⟨trivial, ?_, trivial, trivial⟩
      congr 1; omega

/-- With `showRoot = true` the statistics pass leaves the root out: the counters are the
numbers of non-directories and directories among the proper descendants, the total is
the sum of the file sizes, each as an `int64` holds it, and `LargestFile` is the maximum
of the file sizes (0 if none is positive). -/
theorem collectNodeStats_showRoot (root : Node) (now : Int) :
    let fs := RendererStats.collectNodeStats root (NewStats now) true
    fs.TotalFiles = wrap64 ((descendants root).filter (fun d => !d.IsDir)).length ∧
    fs.TotalDirs = wrap64 ((descendants root).filter (fun d => d.IsDir)).length ∧
    fs.TotalSize = wrap64 (fileSizes (descendants root)).sum ∧
    fs.LargestFile = (fileSizes (descendants root)).foldl max 0 := by
  intro fs
  have h0 : wrap64 0 = 0 := by decide
  have h := foldl_addNode_counts (descendants root) (NewStats now) h0 h0 h0
  have hfs : fs = (descendants root).foldl addNode (NewStats now) := by
    simp only [fs, collectNodeStats_spec, if_true]
  rw [hfs]
  simpa [NewStats] using h

/-- C10 fails on the code for `showRoot = false`: the value handed to `collectNodeStats`
as `skipRoot` is then `false`, so the root itself is counted. For
`root/{a.txt, sub/{b.txt}}` the pass reports 2 directories although only one directory
lies below the root. -/
theorem collectNodeStats_hideRoot_exampleTree :
    (RendererStats.collectNodeStats exampleTree (NewStats 100) false).TotalDirs = 2 ∧
    ((descendants exampleTree).filter (fun d => d.IsDir)).length = 1 ∧
    (RendererStats.collectNodeStats exampleTree (NewStats 100) true).TotalDirs = 1 ∧
    (RendererStats.RenderTreeWithStats (fun _ l => l) id (fun _ _ => "") 100
        (NewRendererStats false false false "" true) exampleTree false).2
      = some { TotalFiles := 2, TotalDirs := 2, TotalSize := 2058, LargestFile := 2048,
               OldestFile := 1, NewestFile := 2 } := by
  refine ⟨by decide, by decide, by decide, by decide⟩

/-! ## `RendererStats.sortNode` -/

theorem strictWeak_of_key {α β : Type} [LinearOrder β] (key : α → β) (less : α → α → Bool)
    (h : ∀ a b, less a b = true ↔ key a < key b) : StrictWeak less := by
  have hf : ∀ a b, less a b = false ↔ key b ≤ key a := by
    intro a b
    rw [← not_lt, ← h, Bool.not_eq_true]
  refine ⟨fun a => ?_, fun a b c => ?_, fun a b c => ?_⟩
  · rw [hf]
  · rw [h, h, h]
    exact lt_trans
  · rw [hf, hf, hf]
    exact fun h h' => le_trans h' h

theorem less_strictWeak (ToLower : String → String) (sortBy : String) :
    StrictWeak (RendererStats.less ToLower sortBy) := by
  by_cases h1 : (sortBy == "size") = true
  · apply strictWeak_of_key (fun n : Node => OrderDual.toDual n.Size)
    intro a b
    simp [RendererStats.less, h1]
  · by_cases h2 : (sortBy == "date") = true
    · apply strictWeak_of_key (fun n : Node => OrderDual.toDual n.ModTime)
      intro a b
      simp [RendererStats.less, h1, h2]
    · apply strictWeak_of_key (fun n : Node => ToLower n.Name)
      intro a b
      simp [RendererStats.less, h1, h2]

theorem notLess_trans {α : Type} (less : α → α → Bool) (hsw : StrictWeak less) :
    IsTrans α (fun a b => less b a = false) :=
  ⟨fun _ _ _ hab hbc => hsw.2.2 _ _ _ hbc hab⟩

theorem notLess_total {α : Type} (less : α → α → Bool) (hsw : StrictWeak less) :
    IsTotal α (fun a b => less b a = false) := by
  refine ⟨fun a b => ?_⟩
  by_cases h : less b a = true
  · right
    by_contra h'
    have := hsw.2.1 a b a (by simpa using h') h
    rw [hsw.1 a] at this
    exact absurd this (by simp)
  · left; simpa using h

theorem height_eq (node : Node) : height node = height.max node.Children := by
  cases node; simp [height]

theorem height_max_eq (l : List Node) :
    height.max l = (l.map (fun c => height c + 1)).foldr Nat.max 0 := by
  induction l with
  | nil => simp [height.max]
  | cons c t ih => simp [height.max, ih]

theorem height_max_perm (l₁ l₂ : List Node) (h : l₁.Perm l₂) : height.max l₁ = height.max l₂ := by
  rw [height_max_eq, height_max_eq]
  apply List.Perm.foldr_eq' (h.map _)
  intro a _ b _ c
  show Nat.max b (Nat.max a c) = Nat.max a (Nat.max b c)
  exact Nat.max_left_comm b a c

theorem height_lt_max (l : List Node) (c : Node) (h : c ∈ l) : height c < height.max l := by
  induction l with
  | nil => simp at h
  | cons d t ih =>
    simp only [height.max]
    rcases List.mem_cons.1 h with rfl | h
    · exact Nat.lt_of_lt_of_le (Nat.lt_succ_self _) (Nat.le_max_left _ _)
    · exact Nat.lt_of_lt_of_le (ih h) (Nat.le_max_right _ _)

theorem height_child_lt (node c : Node) (h : c ∈ node.Children) : height c < height node := by
  rw [height_eq node]; exact height_lt_max _ _ h

theorem sortNode_go_succ (Slice : (Node → Node → Bool) → List Node → List Node)
    (ToLower : String → String) (r : RendererStats) (fuel : Nat) (node : Node) :
    RendererStats.sortNode.go Slice ToLower r (fuel + 1) node
      = if r.sortBy == "" then node
        else { node with
          Children := (Slice (RendererStats.less ToLower r.sortBy) node.Children).map
            (RendererStats.sortNode.go Slice ToLower r fuel) } := rfl

/-- Once the recursion bound exceeds the height of the tree it no longer matters. -/
theorem sortNode_go_fuel (Slice : (Node → Node → Bool) → List Node → List Node)
    (ToLower : String → String) (r : RendererStats) (hp : Permutes Slice)
    (f₁ f₂ : Nat) (node : Node) (h₁ : height node < f₁) (h₂ : height node < f₂) :
    RendererStats.sortNode.go Slice ToLower r f₁ node
      = RendererStats.sortNode.go Slice ToLower r f₂ node := by
  induction f₁ generalizing f₂ node with
  | zero => omega
  | succ f₁ ih =>
    obtain ⟨f₂, rfl⟩ : ∃ k, f₂ = k + 1 := ⟨f₂ - 1, by omega⟩
    rw [sortNode_go_succ, sortNode_go_succ]
    split
    · rfl
    · congr 1
      apply List.map_congr_left
      intro c hcm
      have hmem : c ∈ node.Children := ((hp _ _).mem_iff).1 hcm
      have := height_child_lt node c hmem
      exact ih f₂ c (by omega) (by omega)

/-- The method `sortNode` without the recursion bound. -/
theorem sortNode_eq (Slice : (Node → Node → Bool) → List Node → List Node)
    (ToLower : String → String) (r : RendererStats) (hp : Permutes Slice) (node : Node) :
    RendererStats.sortNode Slice ToLower r node
      = if r.sortBy == "" then node
        else { node with
          Children := (Slice (RendererStats.less ToLower r.sortBy) node.Children).map
            (RendererStats.sortNode Slice ToLower r) } := by
  unfold RendererStats.sortNode
  rw [sortNode_go_succ]
  split
  · rfl
  · congr 1
    apply List.map_congr_left
    intro c hcm
    have hmem : c ∈ node.Children := ((hp _ _).mem_iff).1 hcm
    have := height_child_lt node c hmem
    exact sortNode_go_fuel Slice ToLower r hp _ _ c (by omega) (by omega)

theorem sortNode_fields (Slice : (Node → Node → Bool) → List Node → List Node)
    (ToLower : String → String) (r : RendererStats) (node : Node) :
    let s := RendererStats.sortNode Slice ToLower r node
    s.Name = node.Name ∧ s.Path = node.Path ∧ s.IsDir = node.IsDir ∧
      s.IsSymlink = node.IsSymlink ∧ s.Size = node.Size ∧ s.ModTime = node.ModTime ∧
      s.Mode = node.Mode := by
  intro s
  have : s = RendererStats.sortNode.go Slice ToLower r (height node + 1) node := rfl
  rw [this, sortNode_go_succ]
  split <;> simp

theorem sortNode_less (Slice : (Node → Node → Bool) → List Node → List Node)
    (ToLower : String → String) (r : RendererStats) (sortBy : String) (a b : Node) :
    RendererStats.less ToLower sortBy (RendererStats.sortNode Slice ToLower r a)
        (RendererStats.sortNode Slice ToLower r b)
      = RendererStats.less ToLower sortBy a b := by
  obtain ⟨ha, _, _, _, ha', ha'', _⟩ := sortNode_fields Slice ToLower r a
  obtain ⟨hb, _, _, _, hb', hb'', _⟩ := sortNode_fields Slice ToLower r b
  simp only [RendererStats.less, ha, ha', ha'', hb, hb', hb'']

theorem sortNode_children (Slice : (Node → Node → Bool) → List Node → List Node)
    (ToLower : String → String) (r : RendererStats) (hp : Permutes Slice) (node : Node)
    (hs : (r.sortBy == "") = false) :
    (RendererStats.sortNode Slice ToLower r node).Children
      = (Slice (RendererStats.less ToLower r.sortBy) node.Children).map
          (RendererStats.sortNode Slice ToLower r) := by
  rw [sortNode_eq Slice ToLower r hp node, hs]
  simp

/-- After `sortNode` the children of every node of the tree are ordered by the
comparison of the chosen key. -/
theorem sortNode_ordered (Slice : (Node → Node → Bool) → List Node → List Node)
    (ToLower : String → String) (r : RendererStats) (hc : SliceContract Slice)
    (hs : (r.sortBy == "") = false) (p : List Nat) :
    ∀ (root n : Node), nodeAt (RendererStats.sortNode Slice ToLower r root) p = some n →
      Ordered (RendererStats.less ToLower r.sortBy) n.Children := by
  induction p with
  | nil =>
    intro root n hn
    simp only [nodeAt, Option.some.injEq] at hn
    subst hn
    rw [sortNode_children Slice ToLower r (fun l x => (hc l x).1) root hs, Ordered, List.chain'_map]
    have := (hc (RendererStats.less ToLower r.sortBy) root.Children).2
      (less_strictWeak ToLower r.sortBy)
    refine List.Chain'.imp ?_ this
    intro a b hab
    rw [sortNode_less]; exact hab
  | cons i q ih =>
    intro root n hn
    simp only [nodeAt] at hn
    rw [sortNode_children Slice ToLower r (fun l x => (hc l x).1) root hs, List.getElem?_map] at hn
    cases hget : (Slice (RendererStats.less ToLower r.sortBy) root.Children)[i]? with
    | none => simp [hget] at hn
    | some c =>
      simp only [hget, Option.map_some'] at hn
      exact ih c n hn

theorem Reordered.refl (n : Nat) : ∀ (a : Node), height a < n → Reordered a a := by
  induction n with
  | zero => intro a h; omega
  | succ n ih =>
    intro a h
    refine Reordered.mk a a a.Children rfl rfl rfl rfl rfl rfl rfl (List.Perm.refl _) ?_
    rw [List.forall₂_same]
    intro c hcm
    have := height_child_lt a c hcm
    exact ih c (by omega)

/-- The method `sortNode` only permutes the `Children` lists. -/
theorem sortNode_reordered (Slice : (Node → Node → Bool) → List Node → List Node)
    (ToLower : String → String) (r : RendererStats) (hp : Permutes Slice) (n : Nat) :
    ∀ (root : Node), height root < n →
      Reordered root (RendererStats.sortNode Slice ToLower r root) := by
  induction n with
  | zero => intro a h; omega
  | succ n ih =>
    intro root h
    cases hs : (r.sortBy == "")
    · obtain ⟨h1, h2, h3, h4, h5, h6, h7⟩ := sortNode_fields Slice ToLower r root
      refine Reordered.mk root _ (Slice (RendererStats.less ToLower r.sortBy) root.Children)
        h1 h2 h3 h4 h5 h6 h7 (hp _ _) ?_
      rw [sortNode_children Slice ToLower r hp root hs, List.forall₂_map_right_iff,
        List.forall₂_same]
      intro c hcm
      have hmem : c ∈ root.Children := ((hp _ _).mem_iff).1 hcm
      have := height_child_lt root c hmem
      exact ih c (by omega)
    · rw [sortNode_eq Slice ToLower r hp root, hs, if_pos rfl]
      exact Reordered.refl _ root h

/-- C6: after `sortNode` with `sortBy = "name"` (for every `sort.Slice` that meets its
contract, as the shipped implementation does, `sortSlice_contract`) the `Children` list of every node of the whole tree is in ascending order of
the lower-cased `Name`, each child's key being at most that of its successor, and the
sorted tree is the original one with every `Children` list permuted. -/
theorem sortNode_name_sorted (Slice : (Node → Node → Bool) → List Node → List Node)
    (ToLower : String → String) (r : RendererStats) (root : Node)
    (hc : SliceContract Slice) (hname : r.sortBy = "name") :
    (∀ p n, nodeAt (RendererStats.sortNode Slice ToLower r root) p = some n →
      List.Chain' (fun a b => ToLower a.Name ≤ ToLower b.Name) n.Children) ∧
    Reordered root (RendererStats.sortNode Slice ToLower r root) := by
  have hs : (r.sortBy == "") = false := by rw [hname]; decide
  refine ⟨?_, sortNode_reordered Slice ToLower r (fun l x => (hc l x).1) _ root (Nat.lt_succ_self _)⟩
  intro p n hn
  have := sortNode_ordered Slice ToLower r hc hs p root n hn
  refine List.Chain'.imp ?_ this
  intro a b hab
  have h1 : (r.sortBy == "size") = false := by rw [hname]; decide
  have h2 : (r.sortBy == "date") = false := by rw [hname]; decide
  simpa [RendererStats.less, h1, h2] using hab

/-! ## The model of `sort.Slice` only permutes the slice -/

theorem set_perm_aux {α : Type} (t : List α) (k : Nat) (a y : α) (h : t[k]? = some y) :
    (y :: t.set k a).Perm (a :: t) := by
  induction t generalizing k with
  | nil => simp at h
  | cons b t ih =>
    cases k with
    | zero =>
      simp only [List.getElem?_cons_zero, Option.some.injEq] at h
      subst h
      exact List.Perm.swap _ _ _
    | succ k =>
      simp only [List.getElem?_cons_succ] at h
      simp only [List.set_cons_succ]
      exact (List.Perm.swap _ _ _).trans (((ih k h).cons b).trans (List.Perm.swap _ _ _))

theorem set_set_perm {α : Type} (data : List α) (i j : Nat) (x y : α)
    (hi : data[i]? = some x) (hj : data[j]? = some y) :
    ((data.set i y).set j x).Perm data := by
  induction data generalizing i j with
  | nil => simp at hi
  | cons a t ih =>
    cases i with
    | zero =>
      simp only [List.getElem?_cons_zero, Option.some.injEq] at hi
      subst hi
      cases j with
      | zero =>
        simp only [List.getElem?_cons_zero, Option.some.injEq] at hj
        subst hj
        simp
      | succ j =>
        simp only [List.getElem?_cons_succ] at hj
        simp only [List.set_cons_zero, List.set_cons_succ]
        exact set_perm_aux t j a y hj
    | succ i =>
      simp only [List.getElem?_cons_succ] at hi
      cases j with
      | zero =>
        simp only [List.getElem?_cons_zero, Option.some.injEq] at hj
        subst hj
        simp only [List.set_cons_zero, List.set_cons_succ]
        exact set_perm_aux t i a x hi
      | succ j =>
        simp only [List.getElem?_cons_succ] at hj
        simp only [List.set_cons_succ]
        exact (ih i j hi hj).cons a

theorem Swap_perm {α : Type} (data : List α) (i j : Nat) : (Swap data i j).Perm data := by
  unfold Swap
  cases hi : data[i]? with
  | none => exact List.Perm.refl _
  | some x =>
    cases hj : data[j]? with
    | none => exact List.Perm.refl _
    | some y => exact set_set_perm data i j x y hi hj

theorem insertionSort_inner_perm {α : Type} (less : α → α → Bool) (a j : Nat) (data : List α) :
    (insertionSort_func.inner less a j data).Perm data := by
  induction j generalizing data with
  | zero => exact List.Perm.refl _
  | succ j ih =>
    rw [insertionSort_func.inner]
    split
    · exact (ih _).trans (Swap_perm _ _ _)
    · exact List.Perm.refl _

theorem insertionSort_outer_perm {α : Type} (less : α → α → Bool) (a b fuel i : Nat)
    (data : List α) : (insertionSort_func.outer less a b fuel i data).Perm data := by
  induction fuel generalizing i data with
  | zero => exact List.Perm.refl _
  | succ fuel ih =>
    rw [insertionSort_func.outer]
    split
    · exact (ih _ _).trans (insertionSort_inner_perm _ _ _ _)
    · exact List.Perm.refl _

theorem insertionSort_perm {α : Type} (less : α → α → Bool) (data : List α) (a b : Nat) :
    (insertionSort_func less data a b).Perm data :=
  insertionSort_outer_perm _ _ _ _ _ _

theorem siftDown_perm {α : Type} (less : α → α → Bool) (hi first fuel root : Nat)
    (data : List α) : (siftDown_func less hi first fuel root data).Perm data := by
  induction fuel generalizing root data with
  | zero => exact List.Perm.refl _
  | succ fuel ih =>
    rw [siftDown_func]
    dsimp only
    split_ifs <;>
      first
      | exact List.Perm.refl _
      | exact (ih _ _).trans (Swap_perm _ _ _)

theorem heapSort_build_perm {α : Type} (less : α → α → Bool) (hi first k : Nat)
    (data : List α) : (heapSort_func.build less hi first k data).Perm data := by
  induction k generalizing data with
  | zero => exact List.Perm.refl _
  | succ k ih =>
    rw [heapSort_func.build]
    exact (ih _).trans (siftDown_perm _ _ _ _ _ _)

theorem heapSort_pop_perm {α : Type} (less : α → α → Bool) (first k : Nat)
    (data : List α) : (heapSort_func.pop less first k data).Perm data := by
  induction k generalizing data with
  | zero => exact List.Perm.refl _
  | succ k ih =>
    rw [heapSort_func.pop]
    exact (ih _).trans ((siftDown_perm _ _ _ _ _ _).trans (Swap_perm _ _ _))

theorem heapSort_perm {α : Type} (less : α → α → Bool) (data : List α) (a b : Nat) :
    (heapSort_func less data a b).Perm data :=
  (heapSort_pop_perm _ _ _ _).trans (heapSort_build_perm _ _ _ _ _)

theorem reverseRange_loop_perm {α : Type} (fuel i j : Nat) (data : List α) :
    (reverseRange_func.loop fuel i j data).Perm data := by
  induction fuel generalizing i j data with
  | zero => exact List.Perm.refl _
  | succ fuel ih =>
    rw [reverseRange_func.loop]
    split
    · exact (ih _ _ _).trans (Swap_perm _ _ _)
    · exact List.Perm.refl _

theorem reverseRange_perm {α : Type} (data : List α) (a b : Nat) :
    (reverseRange_func data a b).Perm data :=
  reverseRange_loop_perm _ _ _ _

theorem partialInsertionSort_left_perm {α : Type} (less : α → α → Bool) (j : Nat)
    (data : List α) : (partialInsertionSort_func.left less j data).Perm data := by
  induction j generalizing data with
  | zero => exact List.Perm.refl _
  | succ j ih =>
    rw [partialInsertionSort_func.left]
    split
    · exact List.Perm.refl _
    · exact (ih _).trans (Swap_perm _ _ _)

theorem partialInsertionSort_right_perm {α : Type} (less : α → α → Bool) (b fuel j : Nat)
    (data : List α) : (partialInsertionSort_func.right less b fuel j data).Perm data := by
  induction fuel generalizing j data with
  | zero => exact List.Perm.refl _
  | succ fuel ih =>
    rw [partialInsertionSort_func.right]
    split
    · split
      · exact List.Perm.refl _
      · exact (ih _ _).trans (Swap_perm _ _ _)
    · exact List.Perm.refl _

theorem partialInsertionSort_steps_perm {α : Type} (less : α → α → Bool) (a b steps i : Nat)
    (data : List α) : (partialInsertionSort_func.steps less a b steps i data).1.Perm data := by
  induction steps generalizing i data with
  | zero => exact List.Perm.refl _
  | succ steps ih =>
    rw [partialInsertionSort_func.steps]
    dsimp only
    have h1 := Swap_perm data
      (partialInsertionSort_func.scan less data b (b - i) i)
      (partialInsertionSort_func.scan less data b (b - i) i - 1)
    split_ifs <;>
      first
      | exact List.Perm.refl _
      | exact (ih _ _).trans ((partialInsertionSort_right_perm _ _ _ _ _).trans
          ((partialInsertionSort_left_perm _ _ _).trans h1))
      | exact (ih _ _).trans ((partialInsertionSort_left_perm _ _ _).trans h1)
      | exact (ih _ _).trans ((partialInsertionSort_right_perm _ _ _ _ _).trans h1)
      | exact (ih _ _).trans h1

theorem partialInsertionSort_perm {α : Type} (less : α → α → Bool) (data : List α) (a b : Nat) :
    (partialInsertionSort_func less data a b).1.Perm data :=
  partialInsertionSort_steps_perm _ _ _ _ _ _

theorem breakPatterns_loop_perm {α : Type} (next : Nat → Nat) (a length modulus idx fuel i
    random : Nat) (data : List α) :
    (breakPatterns_func.loop next a length modulus idx fuel i random data).Perm data := by
  induction fuel generalizing i random data with
  | zero => exact List.Perm.refl _
  | succ fuel ih =>
    rw [breakPatterns_func.loop]
    split
    · exact (ih _ _ _).trans (Swap_perm _ _ _)
    · exact List.Perm.refl _

theorem breakPatterns_perm {α : Type} (next : Nat → Nat) (data : List α) (a b : Nat) :
    (breakPatterns_func next data a b).Perm data := by
  unfold breakPatterns_func
  simp only
  split
  · exact breakPatterns_loop_perm _ _ _ _ _ _ _ _ _
  · exact List.Perm.refl _

theorem partition_loop_perm {α : Type} (less : α → α → Bool) (a fuel i j : Nat)
    (data : List α) : (partition_func.loop less a fuel i j data).1.Perm data := by
  induction fuel generalizing i j data with
  | zero => exact List.Perm.refl _
  | succ fuel ih =>
    rw [partition_func.loop]
    split
    · exact List.Perm.refl _
    · exact (ih _ _ _).trans (Swap_perm _ _ _)

theorem partition_perm {α : Type} (less : α → α → Bool) (data : List α) (a b pivot : Nat) :
    (partition_func less data a b pivot).1.Perm data := by
  unfold partition_func
  simp only
  split
  · exact (Swap_perm _ _ _).trans (Swap_perm _ _ _)
  · exact (Swap_perm _ _ _).trans ((partition_loop_perm _ _ _ _ _ _).trans
      ((Swap_perm _ _ _).trans (Swap_perm _ _ _)))

theorem partitionEqual_loop_perm {α : Type} (less : α → α → Bool) (a fuel i j : Nat)
    (data : List α) : (partitionEqual_func.loop less a fuel i j data).1.Perm data := by
  induction fuel generalizing i j data with
  | zero => exact List.Perm.refl _
  | succ fuel ih =>
    rw [partitionEqual_func.loop]
    split
    · exact List.Perm.refl _
    · exact (ih _ _ _).trans (Swap_perm _ _ _)

theorem partitionEqual_perm {α : Type} (less : α → α → Bool) (data : List α) (a b pivot : Nat) :
    (partitionEqual_func less data a b pivot).1.Perm data :=
  (partitionEqual_loop_perm _ _ _ _ _ _).trans (Swap_perm _ _ _)

theorem pdqsort_loop_perm {α : Type} (next : Nat → Nat) (less : α → α → Bool) (fuel : Nat)
    (data : List α) (a b limit : Nat) (wb wp : Bool) :
    (pdqsort_func.loop next less fuel data a b limit wb wp).Perm data := by
  induction fuel generalizing data a b limit wb wp with
  | zero => exact List.Perm.refl _
  | succ fuel ih =>
    rw [pdqsort_func.loop]
    have hbp : ∀ c : Bool, (if c = true then breakPatterns_func next data a b else data).Perm
        data := by
      intro c
      split
      · exact breakPatterns_perm _ _ _ _
      · exact List.Perm.refl _
    have hpre : ∀ (c : Bool) (d : List α), d.Perm data →
        (if c = true then reverseRange_func d a b else d).Perm data := by
      intro c d hd
      split
      · exact (reverseRange_perm _ _ _).trans hd
      · exact hd
    have hpis : ∀ (c : Bool) (d : List α), d.Perm data →
        (if c = true then partialInsertionSort_func less d a b else (d, false)).1.Perm data := by
      intro c d hd
      split
      · exact (partialInsertionSort_perm _ _ _ _).trans hd
      · exact hd
    by_cases h12 : b - a ≤ 12
    · rw [if_pos h12]; exact insertionSort_perm _ _ _ _
    · rw [if_neg h12]
      by_cases hl : limit = 0
      · rw [if_pos hl]; exact heapSort_perm _ _ _ _
      · rw [if_neg hl]
        lift_lets
        intros
        have h3 : (if (wb && wp && decide ((if decide ((choosePivot_func less
              (if (!wb) = true then breakPatterns_func next data a b else data) a b).2
                = sortedHint.decreasingHint) = true then sortedHint.increasingHint
              else (choosePivot_func less
                (if (!wb) = true then breakPatterns_func next data a b else data) a b).2)
              = sortedHint.increasingHint)) = true then
            partialInsertionSort_func less
              (if decide ((choosePivot_func less
                  (if (!wb) = true then breakPatterns_func next data a b else data) a b).2
                    = sortedHint.decreasingHint) = true then
                reverseRange_func (if (!wb) = true then breakPatterns_func next data a b
                  else data) a b
              else (if (!wb) = true then breakPatterns_func next data a b else data)) a b
            else ((if decide ((choosePivot_func less
                  (if (!wb) = true then breakPatterns_func next data a b else data) a b).2
                    = sortedHint.decreasingHint) = true then
                reverseRange_func (if (!wb) = true then breakPatterns_func next data a b
                  else data) a b
              else (if (!wb) = true then breakPatterns_func next data a b else data)),
              false)).1.Perm data :=
          hpis _ _ (hpre _ _ (hbp (!wb)))
        split
        · exact h3
        · split
          · exact (ih _ _ _ _ _ _).trans ((partitionEqual_perm _ _ _ _ _).trans h3)
          · split
            · exact (ih _ _ _ _ _ _).trans ((ih _ _ _ _ _ _).trans
                ((partition_perm _ _ _ _ _).trans h3))
            · exact (ih _ _ _ _ _ _).trans ((ih _ _ _ _ _ _).trans
                ((partition_perm _ _ _ _ _).trans h3))

/-- The model of `sort.Slice` returns a permutation of the slice, for every comparison. -/
theorem sortSlice_perm {α : Type} (next : Nat → Nat) (less : α → α → Bool) (x : List α) :
    (sortSlice next less x).Perm x :=
  pdqsort_loop_perm _ _ _ _ _ _ _ _ _

/-! ## Insertion sort in the model of `sort.Slice` is stable -/

theorem Swap_cons_succ {α : Type} (a : α) (t : List α) (i j : Nat) :
    Swap (a :: t) (i + 1) (j + 1) = a :: Swap t i j := by
  unfold Swap
  simp only [List.getElem?_cons_succ]
  cases t[i]? <;> cases t[j]? <;> simp

theorem Swap_adjacent {α : Type} (data : List α) (j : Nat) (u v : α)
    (hu : data[j]? = some u) (hv : data[j + 1]? = some v) :
    ∃ pre post, data = pre ++ u :: v :: post ∧ Swap data (j + 1) j = pre ++ v :: u :: post := by
  induction j generalizing data with
  | zero =>
    match data, hu, hv with
    | a :: b :: t, hu, hv =>
      simp only [List.getElem?_cons_zero, Option.some.injEq, zero_add,
        List.getElem?_cons_succ] at hu hv
      subst hu; subst hv
      exact ⟨[], t, rfl, by simp [Swap]⟩
  | succ j ih =>
    match data, hu, hv with
    | a :: t, hu, hv =>
      simp only [List.getElem?_cons_succ] at hu hv
      obtain ⟨pre, post, h1, h2⟩ := ih t hu hv
      exact ⟨a :: pre, post, by rw [h1]; rfl, by rw [Swap_cons_succ, h2]; rfl⟩

theorem Less_true {α : Type} (less : α → α → Bool) (data : List α) (i j : Nat)
    (h : Less less data i j = true) :
    ∃ x y, data[i]? = some x ∧ data[j]? = some y ∧ less x y = true := by
  unfold Less at h
  cases hi : data[i]? with
  | none => simp [hi] at h
  | some x =>
    cases hj : data[j]? with
    | none => simp [hi, hj] at h
    | some y => exact ⟨x, y, rfl, rfl, by simpa [hi, hj] using h⟩

theorem insertionSort_inner_steps {α : Type} (less : α → α → Bool) (a j : Nat)
    (data : List α) :
    Relation.ReflTransGen (SwapStep less) data (insertionSort_func.inner less a j data) := by
  induction j generalizing data with
  | zero => exact Relation.ReflTransGen.refl
  | succ j ih =>
    rw [insertionSort_func.inner]
    split
    · rename_i hcond
      simp only [Bool.and_eq_true] at hcond
      obtain ⟨x, y, hx, hy, hxy⟩ := Less_true less data (j + 1) j hcond.2
      obtain ⟨pre, post, h1, h2⟩ := Swap_adjacent data j y x hy hx
      refine Relation.ReflTransGen.head ?_ (ih _)
      rw [h2]
      conv => lhs; rw [h1]
      exact SwapStep.mk pre post y x hxy
    · exact Relation.ReflTransGen.refl

theorem insertionSort_outer_steps {α : Type} (less : α → α → Bool) (a b fuel i : Nat)
    (data : List α) :
    Relation.ReflTransGen (SwapStep less) data
      (insertionSort_func.outer less a b fuel i data) := by
  induction fuel generalizing i data with
  | zero => exact Relation.ReflTransGen.refl
  | succ fuel ih =>
    rw [insertionSort_func.outer]
    split
    · exact (insertionSort_inner_steps less a i data).trans (ih _ _)
    · exact Relation.ReflTransGen.refl

theorem SwapStep_pair {α : Type} (less : α → α → Bool) (l l' : List α) (h : SwapStep less l l')
    (x y : α) (hyx : less y x = false) (hs : List.Sublist [x, y] l) : List.Sublist [x, y] l' := by
  obtain ⟨pre, post, u, v, huv⟩ := h
  obtain ⟨l₁, l₂, hsplit, h₁, h₂⟩ := List.sublist_append_iff.1 hs
  have key : ∀ m, List.Sublist m (u :: v :: post) → m.length ≤ 1 ∨ m = [x, y] →
      List.Sublist m (v :: u :: post) := by
    intro m hm hcase
    rcases hcase with hlen | rfl
    · match m, hlen with
      | [], _ => exact List.nil_sublist _
      | [z], _ =>
        rw [List.singleton_sublist] at hm ⊢
        simp only [List.mem_cons] at hm ⊢
        tauto
    · cases hm with
      | cons _ hm' =>
        cases hm' with
        | cons _ hm'' => exact (hm''.cons _).cons _
        | cons₂ _ hm'' => exact List.Sublist.cons₂ _ (hm''.cons _)
      | cons₂ _ hm' =>
        rw [List.singleton_sublist] at hm'
        rcases List.mem_cons.1 hm' with rfl | hpost
        · rw [huv] at hyx; exact absurd hyx (by simp)
        · exact List.Sublist.cons _ (List.Sublist.cons₂ _ (List.singleton_sublist.2 hpost))
  match l₁, l₂, hsplit, h₁, h₂ with
  | [], l₂, hsplit, _, h₂ =>
    simp only [List.nil_append] at hsplit
    subst hsplit
    exact (key _ h₂ (Or.inr rfl)).trans (List.sublist_append_right _ _)
  | [a], l₂, hsplit, h₁, h₂ =>
    simp only [List.singleton_append, List.cons.injEq] at hsplit
    obtain ⟨rfl, rfl⟩ := hsplit
    have := List.Sublist.append h₁ (key _ h₂ (Or.inl (by simp)))
    simpa using this
  | [a, b], l₂, hsplit, h₁, _ =>
    simp only [List.cons_append, List.nil_append, List.cons.injEq] at hsplit
    obtain ⟨rfl, rfl, _⟩ := hsplit
    exact h₁.trans (List.sublist_append_left _ _)
  | a :: b :: c :: t, l₂, hsplit, _, _ =>
    simp at hsplit

theorem SwapSteps_pair {α : Type} (less : α → α → Bool) (l l' : List α)
    (h : Relation.ReflTransGen (SwapStep less) l l') (x y : α) (hyx : less y x = false)
    (hs : List.Sublist [x, y] l) : List.Sublist [x, y] l' := by
  induction h with
  | refl => exact hs
  | tail _ hstep ih => exact SwapStep_pair less _ _ hstep x y hyx ih

theorem bitsLen_pos (fuel n : Nat) (hf : 0 < fuel) (hn : 0 < n) : 0 < bitsLen fuel n := by
  obtain ⟨f, rfl⟩ : ∃ f, fuel = f + 1 := ⟨fuel - 1, by omega⟩
  rw [bitsLen, if_neg (by omega)]
  omega

/-- On a slice of at most 12 elements `sort.Slice` is the insertion sort. -/
theorem sortSlice_small {α : Type} (next : Nat → Nat) (less : α → α → Bool) (x : List α)
    (h : x.length ≤ 12) : sortSlice next less x = insertionSort_func less x 0 x.length := by
  unfold sortSlice pdqsort_func
  dsimp only
  rw [pdqsort_func.loop, if_pos (by simpa using h)]

/-- On a slice of at most 12 elements `sort.Slice` keeps the relative order of two
elements of which the later one is not `less` than the earlier one. -/
theorem sortSlice_small_stable {α : Type} (next : Nat → Nat) (less : α → α → Bool) (l : List α)
    (h : l.length ≤ 12) (x y : α) (hyx : less y x = false) (hs : List.Sublist [x, y] l) :
    List.Sublist [x, y] (sortSlice next less l) := by
  rw [sortSlice_small next less l h]
  exact SwapSteps_pair less _ _ (insertionSort_outer_steps less _ _ _ _ _) x y hyx hs

/-! ## The model of `sort.Slice` leaves an ordered slice as it is -/

theorem Less_ordered {α : Type} (less : α → α → Bool) (hsw : StrictWeak less) (l : List α)
    (ho : Ordered less l) (i j : Nat) (hij : i ≤ j) : Less less l j i = false := by
  haveI := notLess_trans less hsw
  have hp : l.Pairwise (fun a b => less b a = false) := List.chain'_iff_pairwise.1 ho
  unfold Less
  cases hj : l[j]? with
  | none => rfl
  | some y =>
    cases hi : l[i]? with
    | none => rfl
    | some x =>
      simp only
      rcases Nat.lt_or_eq_of_le hij with hlt | rfl
      · obtain ⟨hi', hxi⟩ := List.getElem?_eq_some.1 hi
        obtain ⟨hj', hyj⟩ := List.getElem?_eq_some.1 hj
        have := List.pairwise_iff_getElem.1 hp i j hi' hj' hlt
        rw [hxi, hyj] at this
        exact this
      · rw [hi] at hj
        cases hj
        exact hsw.1 _

theorem insertionSort_inner_ordered {α : Type} (less : α → α → Bool) (hsw : StrictWeak less)
    (l : List α) (ho : Ordered less l) (a j : Nat) :
    insertionSort_func.inner less a j l = l := by
  cases j with
  | zero => rfl
  | succ j =>
    rw [insertionSort_func.inner, Less_ordered less hsw l ho j (j + 1) (Nat.le_succ j)]
    simp

theorem insertionSort_outer_ordered {α : Type} (less : α → α → Bool) (hsw : StrictWeak less)
    (l : List α) (ho : Ordered less l) (a b fuel i : Nat) :
    insertionSort_func.outer less a b fuel i l = l := by
  induction fuel generalizing i with
  | zero => rfl
  | succ fuel ih =>
    rw [insertionSort_func.outer, insertionSort_inner_ordered less hsw l ho, ih]
    simp

theorem order2_ordered {α : Type} (less : α → α → Bool) (hsw : StrictWeak less)
    (l : List α) (ho : Ordered less l) (a b swaps : Nat) (hab : a ≤ b) :
    order2_func less l a b swaps = (a, b, swaps) := by
  rw [order2_func, Less_ordered less hsw l ho a b hab]
  simp

theorem median_ordered {α : Type} (less : α → α → Bool) (hsw : StrictWeak less)
    (l : List α) (ho : Ordered less l) (a b c swaps : Nat) (hab : a ≤ b) (hbc : b ≤ c) :
    median_func less l a b c swaps = (b, swaps) := by
  simp only [median_func, order2_ordered less hsw l ho a b swaps hab,
    order2_ordered less hsw l ho b c swaps hbc]

theorem choosePivot_ordered {α : Type} (less : α → α → Bool) (hsw : StrictWeak less)
    (l : List α) (ho : Ordered less l) (a b : Nat) :
    (choosePivot_func less l a b).2 = sortedHint.increasingHint := by
  have hadj : ∀ t s, medianAdjacent_func less l t s = (t, s) :=
    fun t s => median_ordered less hsw l ho _ _ _ s (Nat.sub_le _ 1) (Nat.le_succ _)
  have hm3 : median_func less l (a + (b - a) / 4 * 1) (a + (b - a) / 4 * 2)
      (a + (b - a) / 4 * 3) 0 = (a + (b - a) / 4 * 2, 0) :=
    median_ordered less hsw l ho _ _ _ 0 (by omega) (by omega)
  unfold choosePivot_func
  dsimp only
  by_cases h8 : b - a ≥ 8
  · by_cases h50 : b - a ≥ 50
    · rw [if_pos h8, if_pos h50, hadj, hadj, hadj]
      dsimp only
      rw [hm3]
      rfl
    · rw [if_pos h8, if_neg h50]
      dsimp only
      rw [hm3]
      rfl
  · rw [if_neg h8]
    rfl

theorem scan_ordered {α : Type} (less : α → α → Bool) (hsw : StrictWeak less)
    (l : List α) (ho : Ordered less l) (b fuel i : Nat) (hi : 1 ≤ i) (hib : i ≤ b)
    (hf : b - i ≤ fuel) : partialInsertionSort_func.scan less l b fuel i = b := by
  induction fuel generalizing i with
  | zero =>
    rw [partialInsertionSort_func.scan]; omega
  | succ fuel ih =>
    rw [partialInsertionSort_func.scan, Less_ordered less hsw l ho (i - 1) i (Nat.sub_le _ _)]
    by_cases hlt : i < b
    · simp only [hlt, decide_True, Bool.not_false, Bool.and_self, if_true]
      exact ih (i + 1) (by omega) (by omega) (by omega)
    · simp only [hlt, decide_False, Bool.false_and, Bool.false_eq_true, if_false]
      omega

theorem partialInsertionSort_ordered {α : Type} (less : α → α → Bool) (hsw : StrictWeak less)
    (l : List α) (ho : Ordered less l) (a b : Nat) (hab : a < b) :
    partialInsertionSort_func less l a b = (l, true) := by
  unfold partialInsertionSort_func
  rw [partialInsertionSort_func.steps]
  simp only [scan_ordered less hsw l ho b (b - (a + 1)) (a + 1) (by omega) (by omega)
    (Nat.le_refl _), if_true]

/-- The model of `sort.Slice` returns an ordered slice unchanged: up to 12 elements the
insertion sort exchanges nothing, above that `choosePivot_func` counts no swap and
`partialInsertionSort_func` finds the slice sorted. -/
theorem sortSlice_ordered {α : Type} (next : Nat → Nat) (less : α → α → Bool)
    (hsw : StrictWeak less) (l : List α) (ho : Ordered less l) : sortSlice next less l = l := by
  unfold sortSlice pdqsort_func
  dsimp only
  rw [pdqsort_func.loop]
  by_cases h12 : l.length - 0 ≤ 12
  · rw [if_pos h12]
    exact insertionSort_outer_ordered less hsw l ho _ _ _ _
  · rw [if_neg h12]
    have hlim : bitsLen l.length l.length ≠ 0 :=
      Nat.pos_iff_ne_zero.1 (bitsLen_pos _ _ (by omega) (by omega))
    rw [if_neg hlim]
    lift_lets
    intro d1 lim1 ph reversed d2 pivot hint tried pis
    intros
    have hd1 : d1 = l := rfl
    have hph : ph.2 = sortedHint.increasingHint := choosePivot_ordered less hsw l ho 0 l.length
    have hrev : reversed = false := by
      show decide (ph.2 = sortedHint.decreasingHint) = false
      rw [hph]; rfl
    have hd2 : d2 = l := by
      show (if reversed = true then reverseRange_func d1 0 l.length else d1) = l
      rw [hrev]; rfl
    have hhint : hint = sortedHint.increasingHint := by
      show (if reversed = true then sortedHint.increasingHint else ph.2) = _
      rw [hrev]; exact hph
    have htried : tried = true := by
      show (true && true && decide (hint = sortedHint.increasingHint)) = true
      rw [hhint]; rfl
    have hpis : pis = (l, true) := by
      show (if tried = true then partialInsertionSort_func less d2 0 l.length else (d2, false))
        = (l, true)
      rw [htried, hd2, if_pos rfl]
      exact partialInsertionSort_ordered less hsw l ho 0 l.length (by omega)
    rw [hpis]
    rfl

theorem sortSlice_keepsOrdered (next : Nat → Nat) : KeepsOrdered (sortSlice next) :=
  fun less l hsw ho => sortSlice_ordered next less hsw l ho

/-! ## The `sort.Slice` model orders the slice -/

theorem Within.same {α : Type} (a b : Nat) (data : List α) : Within a b data data :=
  ⟨rfl, fun _ _ => rfl, fun k h1 h2 => ⟨k, h1, h2, rfl⟩⟩

theorem Within.andThen {α : Type} {a b : Nat} {d₁ d₂ d₃ : List α} (h₁ : Within a b d₁ d₂)
    (h₂ : Within a b d₂ d₃) : Within a b d₁ d₃ := by
  refine ⟨h₂.1.trans h₁.1, fun k hk => (h₂.2.1 k hk).trans (h₁.2.1 k hk), fun k hk1 hk2 => ?_⟩
  obtain ⟨k', hk1', hk2', he⟩ := h₂.2.2 k hk1 hk2
  obtain ⟨k'', hk1'', hk2'', he'⟩ := h₁.2.2 k' hk1' hk2'
  exact ⟨k'', hk1'', hk2'', he.trans he'⟩

theorem Within.widen {α : Type} {a b a' b' : Nat} {d₁ d₂ : List α} (h : Within a' b' d₁ d₂)
    (ha : a ≤ a') (hb : b' ≤ b) : Within a b d₁ d₂ := by
  refine ⟨h.1, fun k hk => h.2.1 k (by omega), fun k hk1 hk2 => ?_⟩
  by_cases hin : a' ≤ k ∧ k < b'
  · obtain ⟨k', h1, h2, he⟩ := h.2.2 k hin.1 hin.2
    exact ⟨k', by omega, by omega, he⟩
  · exact ⟨k, hk1, hk2, h.2.1 k (by omega)⟩

theorem Within.allOn {α : Type} {a b : Nat} {d₁ d₂ : List α} (h : Within a b d₁ d₂)
    {P : α → Prop} (hP : AllOn P a b d₁) : AllOn P a b d₂ := by
  intro k x hk1 hk2 hx
  obtain ⟨k', h1, h2, he⟩ := h.2.2 k hk1 hk2
  exact hP k' x h1 h2 (he ▸ hx)

theorem AllOn.narrow {α : Type} {P : α → Prop} {a b a' b' : Nat} {d : List α}
    (h : AllOn P a b d) (ha : a ≤ a') (hb : b' ≤ b) : AllOn P a' b' d :=
  fun k x h1 h2 hx => h k x (by omega) (by omega) hx

theorem Swap_length {α : Type} (data : List α) (i j : Nat) :
    (Swap data i j).length = data.length := (Swap_perm data i j).length_eq

theorem Swap_get {α : Type} (data : List α) (i j k : Nat) (hi : i < data.length)
    (hj : j < data.length) :
    (Swap data i j)[k]? = if k = j then data[i]? else if k = i then data[j]? else data[k]? := by
  unfold Swap
  rw [List.getElem?_eq_getElem hi, List.getElem?_eq_getElem hj]
  simp only [List.getElem?_set]
  by_cases h1 : k = j
  · subst h1
    simp [hj]
  · by_cases h2 : k = i
    · subst h2
      simp [h1, hi, Ne.symm h1]
    · simp [h1, h2, Ne.symm h1, Ne.symm h2]

theorem Within_Swap {α : Type} (data : List α) (a b i j : Nat) (hb : b ≤ data.length)
    (hi1 : a ≤ i) (hi2 : i < b) (hj1 : a ≤ j) (hj2 : j < b) :
    Within a b data (Swap data i j) := by
  refine ⟨Swap_length data i j, fun k hk => ?_, fun k hk1 hk2 => ?_⟩
  · rw [Swap_get data i j k (by omega) (by omega), if_neg (by omega), if_neg (by omega)]
  · rw [Swap_get data i j k (by omega) (by omega)]
    by_cases h1 : k = j
    · exact ⟨i, hi1, hi2, by rw [if_pos h1]⟩
    · by_cases h2 : k = i
      · exact ⟨j, hj1, hj2, by rw [if_neg h1, if_pos h2]⟩
      · exact ⟨k, hk1, hk2, by rw [if_neg h1, if_neg h2]⟩

theorem Less_eq {α : Type} (less : α → α → Bool) (data : List α) (i j : Nat) (x y : α)
    (hi : data[i]? = some x) (hj : data[j]? = some y) : Less less data i j = less x y := by
  simp [Less, hi, hj]

theorem get_some {α : Type} (data : List α) (k : Nat) (h : k < data.length) :
    ∃ x, data[k]? = some x := ⟨data[k], List.getElem?_eq_getElem h⟩

theorem less_asymm {α : Type} (less : α → α → Bool) (hsw : StrictWeak less) (x y : α)
    (h : less x y = true) : less y x = false := by
  by_contra h'
  have := hsw.2.1 x y x h (by simpa using h')
  rw [hsw.1 x] at this
  exact absurd this (by simp)

theorem LowerBound.within {α : Type} {less : α → α → Bool} {a b : Nat} {d₁ d₂ : List α}
    (h : LowerBound less a b d₁) (hw : Within a b d₁ d₂) : LowerBound less a b d₂ := by
  intro x ha hx
  rw [hw.2.1 (a - 1) (by omega)] at hx
  exact hw.allOn (h x ha hx)

theorem insertionSort_inner_sorted {α : Type} (less : α → α → Bool) (hsw : StrictWeak less)
    (a i : Nat) : ∀ (j : Nat) (d : List α), a ≤ j → j ≤ i → i < d.length →
    (∀ k m x y, a ≤ k → k < m → m ≤ i → k ≠ j → m ≠ j → d[k]? = some x → d[m]? = some y →
      less y x = false) →
    (∀ m x y, j < m → m ≤ i → d[j]? = some x → d[m]? = some y → less x y = true) →
    Within a (i + 1) d (insertionSort_func.inner less a j d) ∧
      SortedOn less a (i + 1) (insertionSort_func.inner less a j d) := by
  intro j
  induction j with
  | zero =>
    intro d _ _ _ h1 h2
    refine ⟨Within.same _ _ _, ?_⟩
    intro p q x y hp hpq hq hx hy
    by_cases hp0 : p = 0
    · subst hp0
      exact less_asymm less hsw _ _ (h2 q x y (by omega) (by omega) hx hy)
    · exact h1 p q x y hp hpq (by omega) hp0 (by omega) hx hy
  | succ j ih =>
    intro d haj hji hlen h1 h2
    obtain ⟨x, hx⟩ := get_some d (j + 1) (by omega)
    obtain ⟨u, hu⟩ := get_some d j (by omega)
    rw [insertionSort_func.inner, Less_eq less d (j + 1) j x u hx hu]
    by_cases hcond : (decide (j + 1 > a) && less x u) = true
    · rw [if_pos hcond]
      simp only [Bool.and_eq_true, decide_eq_true_eq] at hcond
      have hget := fun k => Swap_get d (j + 1) j k (by omega) (by omega)
      have hw := Within_Swap d a (i + 1) (j + 1) j (by omega) (by omega) (by omega) (by omega)
        (by omega)
      have := ih (Swap d (j + 1) j) (by omega) (by omega) (by rw [Swap_length]; exact hlen)
        (by
          intro k m x' y' hk hkm hm hkj hmj hx' hy'
          rw [hget k, if_neg hkj] at hx'
          rw [hget m, if_neg hmj] at hy'
          by_cases hk1 : k = j + 1
          · rw [if_pos hk1] at hx'
            rw [if_neg (by omega)] at hy'
            exact h1 j m x' y' (by omega) (by omega) hm (by omega) (by omega) hx' hy'
          · rw [if_neg hk1] at hx'
            by_cases hm1 : m = j + 1
            · rw [if_pos hm1] at hy'
              exact h1 k j x' y' hk (by omega) (by omega) hk1 (by omega) hx' hy'
            · rw [if_neg hm1] at hy'
              exact h1 k m x' y' hk hkm hm hk1 hm1 hx' hy')
        (by
          intro m x' y' hjm hm hx' hy'
          rw [hget j, if_pos rfl, hx] at hx'
          cases hx'
          by_cases hm1 : m = j + 1
          · rw [hget m, if_neg (by omega), if_pos hm1, hu] at hy'
            cases hy'
            exact hcond.2
          · rw [hget m, if_neg (by omega), if_neg hm1] at hy'
            exact h2 m _ y' (by omega) hm hx hy')
      exact ⟨hw.andThen this.1, this.2⟩
    · rw [if_neg hcond]
      refine ⟨Within.same _ _ _, ?_⟩
      intro p q x' y' hp hpq hq hx' hy'
      by_cases hp1 : p = j + 1
      · subst hp1
        exact less_asymm less hsw _ _ (h2 q x' y' (by omega) (by omega) hx' hy')
      · by_cases hq1 : q = j + 1
        · subst hq1
          rw [hx] at hy'
          cases hy'
          have hxu : less x u = false := by
            have : (decide (j + 1 > a)) = true := by simp; omega
            simpa [this] using hcond
          by_cases hpj : p = j
          · subst hpj
            rw [hu] at hx'
            cases hx'
            exact hxu
          · have := h1 p j x' u hp (by omega) (by omega) hp1 (by omega) hx' hu
            exact hsw.2.2 _ _ _ hxu this
        · exact h1 p q x' y' hp hpq (by omega) hp1 hq1 hx' hy'

theorem SortedOn.subrange {α : Type} {less : α → α → Bool} {a b a' b' : Nat} {d : List α}
    (h : SortedOn less a b d) (ha : a ≤ a') (hb : b' ≤ b) : SortedOn less a' b' d :=
  fun i j x y h1 h2 h3 hx hy => h i j x y (by omega) h2 (by omega) hx hy

theorem insertionSort_outer_sorted {α : Type} (less : α → α → Bool) (hsw : StrictWeak less)
    (a b : Nat) : ∀ (fuel i : Nat) (d : List α), a < i → b ≤ d.length → b - i ≤ fuel →
    SortedOn less a i d →
    Within a b d (insertionSort_func.outer less a b fuel i d) ∧
      SortedOn less a b (insertionSort_func.outer less a b fuel i d) := by
  intro fuel
  induction fuel with
  | zero =>
    intro i d _ _ hf hs
    exact ⟨Within.same _ _ _, hs.subrange (Nat.le_refl _) (by omega)⟩
  | succ fuel ih =>
    intro i d hai hb hf hs
    rw [insertionSort_func.outer]
    by_cases hib : i < b
    · rw [if_pos hib]
      have hin := insertionSort_inner_sorted less hsw a i i d (by omega) (Nat.le_refl _)
        (by omega)
        (fun k m x y hk hkm hm _ hmi hx hy => hs k m x y hk hkm (by omega) hx hy)
        (fun m x y h1 h2 _ _ => by omega)
      have := ih (i + 1) _ (by omega) (by rw [hin.1.1]; exact hb) (by omega) hin.2
      exact ⟨(hin.1.widen (Nat.le_refl _) (by omega)).andThen this.1, this.2⟩
    · rw [if_neg hib]
      exact ⟨Within.same _ _ _, hs.subrange (Nat.le_refl _) (by omega)⟩

/-- `insertionSort_func` sorts the range `[a, b)` and touches nothing else. -/
theorem insertionSort_sorted {α : Type} (less : α → α → Bool) (hsw : StrictWeak less)
    (data : List α) (a b : Nat) (hb : b ≤ data.length) :
    Within a b data (insertionSort_func less data a b) ∧
      SortedOn less a b (insertionSort_func less data a b) :=
  insertionSort_outer_sorted less hsw a b (b - a) (a + 1) data (by omega) hb (by omega)
    (fun i j x y h1 h2 h3 _ _ => by omega)

theorem partition_up_spec {α : Type} (less : α → α → Bool) (d : List α) (a j : Nat) :
    ∀ (fuel i : Nat), i ≤ j + 1 → j + 1 - i ≤ fuel →
      i ≤ partition_func.up less d a j fuel i ∧
      partition_func.up less d a j fuel i ≤ j + 1 ∧
      (∀ k, i ≤ k → k < partition_func.up less d a j fuel i → Less less d k a = true) ∧
      (partition_func.up less d a j fuel i ≤ j →
        Less less d (partition_func.up less d a j fuel i) a = false) := by
  intro fuel
  induction fuel with
  | zero =>
    intro i h1 h2
    rw [partition_func.up]
    exact ⟨Nat.le_refl _, h1, fun k hk1 hk2 => by omega, fun h => by omega⟩
  | succ fuel ih =>
    intro i h1 h2
    rw [partition_func.up]
    by_cases hcond : (decide (i ≤ j) && Less less d i a) = true
    · rw [if_pos hcond]
      simp only [Bool.and_eq_true, decide_eq_true_eq] at hcond
      obtain ⟨g1, g2, g3, g4⟩ := ih (i + 1) (by omega) (by omega)
      refine ⟨by omega, g2, fun k hk1 hk2 => ?_, g4⟩
      by_cases hki : k = i
      · subst hki; exact hcond.2
      · exact g3 k (by omega) hk2
    · rw [if_neg hcond]
      refine ⟨Nat.le_refl _, h1, fun k hk1 hk2 => by omega, fun h => ?_⟩
      have : decide (i ≤ j) = true := by simpa using h
      simpa [this] using hcond

theorem partition_down_spec {α : Type} (less : α → α → Bool) (d : List α) (a i : Nat)
    (hi : 1 ≤ i) : ∀ (j : Nat), i ≤ j + 1 →
      partition_func.down less d a i j ≤ j ∧
      i ≤ partition_func.down less d a i j + 1 ∧
      (∀ k, partition_func.down less d a i j < k → k ≤ j → Less less d k a = false) ∧
      (i ≤ partition_func.down less d a i j →
        Less less d (partition_func.down less d a i j) a = true) := by
  intro j
  induction j with
  | zero =>
    intro h1
    rw [partition_func.down]
    exact ⟨Nat.le_refl _, by omega, fun k hk1 hk2 => by omega, fun h => by omega⟩
  | succ j ih =>
    intro h1
    rw [partition_func.down]
    by_cases hcond : (decide (i ≤ j + 1) && !Less less d (j + 1) a) = true
    · rw [if_pos hcond]
      simp only [Bool.and_eq_true, decide_eq_true_eq, Bool.not_eq_true'] at hcond
      by_cases hij : i ≤ j
      · obtain ⟨g1, g2, g3, g4⟩ := ih (by omega)
        refine ⟨by omega, g2, fun k hk1 hk2 => ?_, g4⟩
        by_cases hkj : k = j + 1
        · subst hkj; exact hcond.2
        · exact g3 k hk1 (by omega)
      · -- `i = j + 1`: the scan stops below `i`
        have hij' : i = j + 1 := by omega
        have hstop : partition_func.down less d a i j = j := by
          cases j with
          | zero => rfl
          | succ j' =>
            rw [partition_func.down, if_neg]
            simp only [Bool.and_eq_true, decide_eq_true_eq, not_and]
            intro h; omega
        rw [hstop]
        refine ⟨by omega, by omega, fun k hk1 hk2 => ?_, fun h => by omega⟩
        have : k = j + 1 := by omega
        subst this; exact hcond.2
    · rw [if_neg hcond]
      refine ⟨Nat.le_refl _, by omega, fun k hk1 hk2 => by omega, fun h => ?_⟩
      have : decide (i ≤ j + 1) = true := by simpa using h
      simpa [this] using hcond

theorem partition_loop_spec {α : Type} (less : α → α → Bool) (a b : Nat) (p : α) :
    ∀ (fuel i j : Nat) (d : List α), a < i → i ≤ j + 1 → j < b → b ≤ d.length →
      j + 1 - i ≤ fuel → d[a]? = some p →
      (∀ k x, a < k → k < i → d[k]? = some x → less x p = true) →
      (∀ k x, j < k → k < b → d[k]? = some x → less x p = false) →
      Within (a + 1) b d (partition_func.loop less a fuel i j d).1 ∧
      a ≤ (partition_func.loop less a fuel i j d).2 ∧
      (partition_func.loop less a fuel i j d).2 < b ∧
      (∀ k x, a < k → k ≤ (partition_func.loop less a fuel i j d).2 →
        (partition_func.loop less a fuel i j d).1[k]? = some x → less x p = true) ∧
      (∀ k x, (partition_func.loop less a fuel i j d).2 < k → k < b →
        (partition_func.loop less a fuel i j d).1[k]? = some x → less x p = false) := by
  intro fuel
  induction fuel with
  | zero =>
    intro i j d h1 h2 h3 h4 h5 hp hlo hhi
    rw [partition_func.loop]
    exact ⟨Within.same _ _ _, by omega, h3, fun k x hk1 hk2 hx => hlo k x hk1 (by omega) hx,
      hhi⟩
  | succ fuel ih =>
    intro i j d h1 h2 h3 h4 h5 hp hlo hhi
    rw [partition_func.loop]
    obtain ⟨u1, u2, u3, u4⟩ := partition_up_spec less d a j (j + 1 - i) i h2 (Nat.le_refl _)
    generalize partition_func.up less d a j (j + 1 - i) i = i' at u1 u2 u3 u4 ⊢
    obtain ⟨w1, w2, w3, w4⟩ := partition_down_spec less d a i' (by omega) j u2
    generalize partition_func.down less d a i' j = j' at w1 w2 w3 w4 ⊢
    have hval : ∀ k x, k < b → d[k]? = some x → Less less d k a = less x p :=
      fun k x _ hx => Less_eq less d k a x p hx hp
    by_cases hcross : i' > j'
    · rw [if_pos hcross]
      refine ⟨Within.same _ _ _, by omega, by omega, fun k x hk1 hk2 hx => ?_,
        fun k x hk1 hk2 hx => ?_⟩
      · by_cases hki : k < i
        · exact hlo k x hk1 hki hx
        · rw [← hval k x (by omega) hx]; exact u3 k (by omega) (by omega)
      · by_cases hkj : j < k
        · exact hhi k x hkj hk2 hx
        · rw [← hval k x (by omega) hx]; exact w3 k hk1 (by omega)
    · rw [if_neg hcross]
      have hi'f := u4 (by omega)
      have hj't := w4 (by omega)
      have hne : i' ≠ j' := by
        intro h; rw [h, hj't] at hi'f; exact absurd hi'f (by simp)
      have hget := fun k => Swap_get d i' j' k (by omega) (by omega)
      obtain ⟨xi, hxi⟩ := get_some d i' (by omega)
      obtain ⟨xj, hxj⟩ := get_some d j' (by omega)
      have hwsw := Within_Swap d (a + 1) b i' j' h4 (by omega) (by omega) (by omega) (by omega)
      have := ih (i' + 1) (j' - 1) (Swap d i' j') (by omega) (by omega) (by omega)
        (by rw [Swap_length]; exact h4) (by omega)
        (by rw [hget a, if_neg (by omega), if_neg (by omega)]; exact hp)
        (by
          intro k x hk1 hk2 hx
          rw [hget k, if_neg (by omega)] at hx
          by_cases hki : k = i'
          · rw [if_pos hki, hxj] at hx
            cases hx
            rw [← hval j' _ (by omega) hxj]; exact hj't
          · rw [if_neg hki] at hx
            by_cases hki2 : k < i
            · exact hlo k x hk1 hki2 hx
            · rw [← hval k x (by omega) hx]; exact u3 k (by omega) (by omega))
        (by
          intro k x hk1 hk2 hx
          by_cases hkj : k = j'
          · rw [hget k, if_pos hkj, hxi] at hx
            cases hx
            rw [← hval i' _ (by omega) hxi]; exact hi'f
          · rw [hget k, if_neg hkj, if_neg (by omega)] at hx
            by_cases hkj2 : j < k
            · exact hhi k x hkj2 hk2 hx
            · rw [← hval k x (by omega) hx]; exact w3 k (by omega) (by omega))
      exact ⟨hwsw.andThen this.1, this.2⟩

theorem partition_func_eq {α : Type} (less : α → α → Bool) (data : List α) (a b pivot : Nat) :
    (partition_func less data a b pivot).1
      = Swap (partition_func.loop less a (b - a + 1) (a + 1) (b - 1) (Swap data a pivot)).1
          (partition_func.loop less a (b - a + 1) (a + 1) (b - 1) (Swap data a pivot)).2 a ∧
    (partition_func less data a b pivot).2.1
      = (partition_func.loop less a (b - a + 1) (a + 1) (b - 1) (Swap data a pivot)).2 := by
  unfold partition_func
  rw [partition_func.loop]
  dsimp only
  split <;> exact ⟨rfl, rfl⟩

/-- `partition_func` moves the pivot to `newpivot`, the smaller elements in front of it and
the others behind it. -/
theorem partition_spec {α : Type} (less : α → α → Bool) (data : List α) (a b pivot : Nat)
    (p : α) (hab : a < b) (hb : b ≤ data.length) (hp1 : a ≤ pivot) (hp2 : pivot < b)
    (hp : data[pivot]? = some p) :
    Within a b data (partition_func less data a b pivot).1 ∧
    a ≤ (partition_func less data a b pivot).2.1 ∧
    (partition_func less data a b pivot).2.1 < b ∧
    (partition_func less data a b pivot).1[(partition_func less data a b pivot).2.1]? = some p ∧
    AllOn (fun x => less x p = true) a (partition_func less data a b pivot).2.1
      (partition_func less data a b pivot).1 ∧
    AllOn (fun x => less x p = false) ((partition_func less data a b pivot).2.1 + 1) b
      (partition_func less data a b pivot).1 := by
  obtain ⟨e1, e2⟩ := partition_func_eq less data a b pivot
  rw [e1, e2]
  have hw0 := Within_Swap data a b a pivot hb (Nat.le_refl _) hab hp1 hp2
  have hp0 : (Swap data a pivot)[a]? = some p := by
    rw [Swap_get data a pivot a (by omega) (by omega)]
    by_cases h : a = pivot
    · rw [if_pos h, h]; exact hp
    · rw [if_neg h, if_pos rfl]; exact hp
  obtain ⟨l1, l2, l3, l4, l5⟩ := partition_loop_spec less a b p (b - a + 1) (a + 1) (b - 1)
    (Swap data a pivot) (by omega) (by omega) (by omega) (by rw [Swap_length]; exact hb)
    (by omega) hp0 (fun k x h1 h2 _ => by omega) (fun k x h1 h2 _ => by omega)
  generalize partition_func.loop less a (b - a + 1) (a + 1) (b - 1) (Swap data a pivot) = r
    at l1 l2 l3 l4 l5 ⊢
  have hlen : b ≤ r.1.length := by rw [l1.1, Swap_length]; exact hb
  have hra : r.1[a]? = some p := by rw [l1.2.1 a (by omega)]; exact hp0
  have hget := fun k => Swap_get r.1 r.2 a k (by omega) (by omega)
  obtain ⟨xj, hxj⟩ := get_some r.1 r.2 (by omega)
  refine ⟨hw0.andThen ((l1.widen (by omega) (Nat.le_refl _)).andThen
    (Within_Swap r.1 a b r.2 a hlen l2 l3 (Nat.le_refl _) hab)), l2, l3, ?_, ?_, ?_⟩
  · by_cases h : r.2 = a
    · rw [hget, if_pos h, h]; exact hra
    · rw [hget, if_neg h, if_pos rfl]; exact hra
  · intro k x hk1 hk2 hx
    rw [hget] at hx
    by_cases hka : k = a
    · rw [if_pos hka, hxj] at hx
      cases hx
      exact l4 r.2 _ (by omega) (Nat.le_refl _) hxj
    · rw [if_neg hka, if_neg (by omega)] at hx
      exact l4 k x (by omega) (by omega) hx
  · intro k x hk1 hk2 hx
    rw [hget, if_neg (by omega), if_neg (by omega)] at hx
    exact l5 k x (by omega) hk2 hx

theorem partitionEqual_up_spec {α : Type} (less : α → α → Bool) (d : List α) (a j : Nat) :
    ∀ (fuel i : Nat), i ≤ j + 1 → j + 1 - i ≤ fuel →
      i ≤ partitionEqual_func.up less d a j fuel i ∧
      partitionEqual_func.up less d a j fuel i ≤ j + 1 ∧
      (∀ k, i ≤ k → k < partitionEqual_func.up less d a j fuel i → Less less d a k = false) ∧
      (partitionEqual_func.up less d a j fuel i ≤ j →
        Less less d a (partitionEqual_func.up less d a j fuel i) = true) := by
  intro fuel
  induction fuel with
  | zero =>
    intro i h1 h2
    rw [partitionEqual_func.up]
    exact ⟨Nat.le_refl _, h1, fun k hk1 hk2 => by omega, fun h => by omega⟩
  | succ fuel ih =>
    intro i h1 h2
    rw [partitionEqual_func.up]
    by_cases hcond : (decide (i ≤ j) && !Less less d a i) = true
    · rw [if_pos hcond]
      simp only [Bool.and_eq_true, decide_eq_true_eq, Bool.not_eq_true'] at hcond
      obtain ⟨g1, g2, g3, g4⟩ := ih (i + 1) (by omega) (by omega)
      refine ⟨by omega, g2, fun k hk1 hk2 => ?_, g4⟩
      by_cases hki : k = i
      · subst hki; exact hcond.2
      · exact g3 k (by omega) hk2
    · rw [if_neg hcond]
      refine ⟨Nat.le_refl _, h1, fun k hk1 hk2 => by omega, fun h => ?_⟩
      have : decide (i ≤ j) = true := by simpa using h
      simpa [this] using hcond

theorem partitionEqual_down_spec {α : Type} (less : α → α → Bool) (d : List α) (a i : Nat)
    (hi : 1 ≤ i) : ∀ (j : Nat), i ≤ j + 1 →
      partitionEqual_func.down less d a i j ≤ j ∧
      i ≤ partitionEqual_func.down less d a i j + 1 ∧
      (∀ k, partitionEqual_func.down less d a i j < k → k ≤ j → Less less d a k = true) ∧
      (i ≤ partitionEqual_func.down less d a i j →
        Less less d a (partitionEqual_func.down less d a i j) = false) := by
  intro j
  induction j with
  | zero =>
    intro h1
    rw [partitionEqual_func.down]
    exact ⟨Nat.le_refl _, by omega, fun k hk1 hk2 => by omega, fun h => by omega⟩
  | succ j ih =>
    intro h1
    rw [partitionEqual_func.down]
    by_cases hcond : (decide (i ≤ j + 1) && Less less d a (j + 1)) = true
    · rw [if_pos hcond]
      simp only [Bool.and_eq_true, decide_eq_true_eq] at hcond
      by_cases hij : i ≤ j
      · obtain ⟨g1, g2, g3, g4⟩ := ih (by omega)
        refine ⟨by omega, g2, fun k hk1 hk2 => ?_, g4⟩
        by_cases hkj : k = j + 1
        · subst hkj; exact hcond.2
        · exact g3 k hk1 (by omega)
      · have hstop : partitionEqual_func.down less d a i j = j := by
          cases j with
          | zero => rfl
          | succ j' =>
            rw [partitionEqual_func.down, if_neg]
            simp only [Bool.and_eq_true, decide_eq_true_eq, not_and]
            intro h; omega
        rw [hstop]
        refine ⟨by omega, by omega, fun k hk1 hk2 => ?_, fun h => by omega⟩
        have : k = j + 1 := by omega
        subst this; exact hcond.2
    · rw [if_neg hcond]
      refine ⟨Nat.le_refl _, by omega, fun k hk1 hk2 => by omega, fun h => ?_⟩
      have : decide (i ≤ j + 1) = true := by simpa using h
      simpa [this] using hcond

theorem partitionEqual_loop_spec {α : Type} (less : α → α → Bool) (a b : Nat) (p : α) :
    ∀ (fuel i j : Nat) (d : List α), a < i → i ≤ j + 1 → j < b → b ≤ d.length →
      j + 1 - i ≤ fuel → d[a]? = some p →
      (∀ k x, a < k → k < i → d[k]? = some x → less p x = false) →
      (∀ k x, j < k → k < b → d[k]? = some x → less p x = true) →
      Within (a + 1) b d (partitionEqual_func.loop less a fuel i j d).1 ∧
      a < (partitionEqual_func.loop less a fuel i j d).2 ∧
      (partitionEqual_func.loop less a fuel i j d).2 ≤ b ∧
      (∀ k x, a < k → k < (partitionEqual_func.loop less a fuel i j d).2 →
        (partitionEqual_func.loop less a fuel i j d).1[k]? = some x → less p x = false) ∧
      (∀ k x, (partitionEqual_func.loop less a fuel i j d).2 ≤ k → k < b →
        (partitionEqual_func.loop less a fuel i j d).1[k]? = some x → less p x = true) := by
  intro fuel
  induction fuel with
  | zero =>
    intro i j d h1 h2 h3 h4 h5 hp hlo hhi
    rw [partitionEqual_func.loop]
    exact ⟨Within.same _ _ _, h1, by omega, hlo,
      fun k x hk1 hk2 hx => hhi k x (by omega) hk2 hx⟩
  | succ fuel ih =>
    intro i j d h1 h2 h3 h4 h5 hp hlo hhi
    rw [partitionEqual_func.loop]
    obtain ⟨u1, u2, u3, u4⟩ := partitionEqual_up_spec less d a j (j + 1 - i) i h2 (Nat.le_refl _)
    generalize partitionEqual_func.up less d a j (j + 1 - i) i = i' at u1 u2 u3 u4 ⊢
    obtain ⟨w1, w2, w3, w4⟩ := partitionEqual_down_spec less d a i' (by omega) j u2
    generalize partitionEqual_func.down less d a i' j = j' at w1 w2 w3 w4 ⊢
    have hval : ∀ k x, k < b → d[k]? = some x → Less less d a k = less p x :=
      fun k x _ hx => Less_eq less d a k p x hp hx
    by_cases hcross : i' > j'
    · rw [if_pos hcross]
      refine ⟨Within.same _ _ _, by omega, by omega, fun k x hk1 hk2 hx => ?_,
        fun k x hk1 hk2 hx => ?_⟩
      · by_cases hki : k < i
        · exact hlo k x hk1 hki hx
        · rw [← hval k x (by omega) hx]; exact u3 k (by omega) (by omega)
      · by_cases hkj : j < k
        · exact hhi k x hkj hk2 hx
        · rw [← hval k x (by omega) hx]; exact w3 k (by omega) (by omega)
    · rw [if_neg hcross]
      have hi't := u4 (by omega)
      have hj'f := w4 (by omega)
      have hne : i' ≠ j' := by
        intro h; rw [h, hj'f] at hi't; exact absurd hi't (by simp)
      have hget := fun k => Swap_get d i' j' k (by omega) (by omega)
      obtain ⟨xi, hxi⟩ := get_some d i' (by omega)
      obtain ⟨xj, hxj⟩ := get_some d j' (by omega)
      have hwsw := Within_Swap d (a + 1) b i' j' h4 (by omega) (by omega) (by omega) (by omega)
      have := ih (i' + 1) (j' - 1) (Swap d i' j') (by omega) (by omega) (by omega)
        (by rw [Swap_length]; exact h4) (by omega)
        (by rw [hget a, if_neg (by omega), if_neg (by omega)]; exact hp)
        (by
          intro k x hk1 hk2 hx
          rw [hget k, if_neg (by omega)] at hx
          by_cases hki : k = i'
          · rw [if_pos hki, hxj] at hx
            cases hx
            rw [← hval j' _ (by omega) hxj]; exact hj'f
          · rw [if_neg hki] at hx
            by_cases hki2 : k < i
            · exact hlo k x hk1 hki2 hx
            · rw [← hval k x (by omega) hx]; exact u3 k (by omega) (by omega))
        (by
          intro k x hk1 hk2 hx
          by_cases hkj : k = j'
          · rw [hget k, if_pos hkj, hxi] at hx
            cases hx
            rw [← hval i' _ (by omega) hxi]; exact hi't
          · rw [hget k, if_neg hkj, if_neg (by omega)] at hx
            by_cases hkj2 : j < k
            · exact hhi k x hkj2 hk2 hx
            · rw [← hval k x (by omega) hx]; exact w3 k (by omega) (by omega))
      exact ⟨hwsw.andThen this.1, this.2⟩

/-- `partitionEqual_func` puts the elements that are not greater than the pivot in front
of `newpivot` and the greater ones from `newpivot` on. -/
theorem partitionEqual_spec {α : Type} (less : α → α → Bool) (hsw : StrictWeak less)
    (data : List α) (a b pivot : Nat) (p : α) (hab : a < b) (hb : b ≤ data.length)
    (hp1 : a ≤ pivot) (hp2 : pivot < b) (hp : data[pivot]? = some p) :
    Within a b data (partitionEqual_func less data a b pivot).1 ∧
    a < (partitionEqual_func less data a b pivot).2 ∧
    (partitionEqual_func less data a b pivot).2 ≤ b ∧
    AllOn (fun x => less p x = false) a (partitionEqual_func less data a b pivot).2
      (partitionEqual_func less data a b pivot).1 ∧
    AllOn (fun x => less p x = true) (partitionEqual_func less data a b pivot).2 b
      (partitionEqual_func less data a b pivot).1 := by
  unfold partitionEqual_func
  have hw0 := Within_Swap data a b a pivot hb (Nat.le_refl _) hab hp1 hp2
  have hp0 : (Swap data a pivot)[a]? = some p := by
    rw [Swap_get data a pivot a (by omega) (by omega)]
    by_cases h : a = pivot
    · rw [if_pos h, h]; exact hp
    · rw [if_neg h, if_pos rfl]; exact hp
  obtain ⟨l1, l2, l3, l4, l5⟩ := partitionEqual_loop_spec less a b p (b - a + 1) (a + 1) (b - 1)
    (Swap data a pivot) (by omega) (by omega) (by omega) (by rw [Swap_length]; exact hb)
    (by omega) hp0 (fun k x h1 h2 _ => by omega) (fun k x h1 h2 _ => by omega)
  refine ⟨hw0.andThen (l1.widen (by omega) (Nat.le_refl _)), l2, l3, ?_, ?_⟩
  · intro k x hk1 hk2 hx
    by_cases hka : k = a
    · subst hka
      rw [l1.2.1 k (by omega), hp0] at hx
      cases hx
      exact hsw.1 _
    · exact l4 k x (by omega) hk2 hx
  · exact fun k x hk1 hk2 hx => l5 k x hk1 hk2 hx

theorem bitsLen_le (fuel x : Nat) (hx : 0 < x) : 2 ^ bitsLen fuel x ≤ 2 * x := by
  induction fuel generalizing x with
  | zero => rw [bitsLen]; simp; omega
  | succ fuel ih =>
    rw [bitsLen, if_neg (by omega)]
    by_cases h2 : x / 2 = 0
    · have hb : bitsLen fuel (x / 2) = 0 := by
        rw [h2]; cases fuel <;> simp [bitsLen]
      rw [hb]; simp; omega
    · have := ih (x / 2) (by omega)
      rw [Nat.pow_add, Nat.pow_one]
      omega

theorem breakPatterns_loop_within {α : Type} (next : Nat → Nat) (a b length modulus idx : Nat)
    (hlen : 0 < length) (hab : a + length = b) (hmod : modulus ≤ 2 * length)
    (hidx1 : a + 1 ≤ idx) (hidx2 : idx + 1 < b) :
    ∀ (fuel i random : Nat) (data : List α), b ≤ data.length →
      Within a b data (breakPatterns_func.loop next a length modulus idx fuel i random data) := by
  intro fuel
  induction fuel with
  | zero => intro i random data _; exact Within.same _ _ _
  | succ fuel ih =>
    intro i random data hb
    rw [breakPatterns_func.loop]
    by_cases hi : i < 3
    · rw [if_pos hi]
      dsimp only
      have hland : Nat.land (next random) (modulus - 1) ≤ modulus - 1 := Nat.and_le_right
      have hother : (if Nat.land (next random) (modulus - 1) ≥ length then
          Nat.land (next random) (modulus - 1) - length
          else Nat.land (next random) (modulus - 1)) < length := by
        split <;> omega
      have hw := Within_Swap data a b (idx - 1 + i)
        (a + if Nat.land (next random) (modulus - 1) ≥ length then
          Nat.land (next random) (modulus - 1) - length
          else Nat.land (next random) (modulus - 1)) hb (by omega) (by omega) (by omega)
        (by omega)
      exact hw.andThen (ih _ _ _ (by rw [Swap_length]; exact hb))
    · rw [if_neg hi]; exact Within.same _ _ _

theorem breakPatterns_within {α : Type} (next : Nat → Nat) (data : List α) (a b : Nat)
    (hab : a ≤ b) (hb : b ≤ data.length) : Within a b data (breakPatterns_func next data a b) := by
  unfold breakPatterns_func
  dsimp only
  by_cases h8 : b - a ≥ 8
  · rw [if_pos h8]
    have hdiv : (b - a) / 4 * 2 ≤ (b - a) / 2 := by omega
    have hdiv2 : 2 ≤ (b - a) / 4 := by omega
    exact breakPatterns_loop_within next a b (b - a) _ _ (by omega) (by omega)
      (bitsLen_le _ _ (by omega)) (by omega) (by omega) _ _ _ _ hb
  · rw [if_neg h8]; exact Within.same _ _ _

theorem reverseRange_loop_within {α : Type} (a b : Nat) :
    ∀ (fuel i j : Nat) (data : List α), a ≤ i → j < b → b ≤ data.length →
      Within a b data (reverseRange_func.loop fuel i j data) := by
  intro fuel
  induction fuel with
  | zero => intro i j data _ _ _; exact Within.same _ _ _
  | succ fuel ih =>
    intro i j data hi hj hb
    rw [reverseRange_func.loop]
    by_cases hij : i < j
    · rw [if_pos hij]
      exact (Within_Swap data a b i j hb hi (by omega) (by omega) hj).andThen
        (ih _ _ _ (by omega) (by omega) (by rw [Swap_length]; exact hb))
    · rw [if_neg hij]; exact Within.same _ _ _

theorem reverseRange_within {α : Type} (data : List α) (a b : Nat) (hab : a < b)
    (hb : b ≤ data.length) : Within a b data (reverseRange_func data a b) :=
  reverseRange_loop_within a b _ _ _ _ (Nat.le_refl _) (by omega) hb

theorem order2_mem {α : Type} (less : α → α → Bool) (d : List α) (x y s : Nat) :
    ((order2_func less d x y s).1 = x ∧ (order2_func less d x y s).2.1 = y) ∨
    ((order2_func less d x y s).1 = y ∧ (order2_func less d x y s).2.1 = x) := by
  unfold order2_func
  split
  · exact Or.inr ⟨rfl, rfl⟩
  · exact Or.inl ⟨rfl, rfl⟩

theorem median_mem {α : Type} (less : α → α → Bool) (d : List α) (x y z s : Nat) :
    (median_func less d x y z s).1 = x ∨ (median_func less d x y z s).1 = y ∨
      (median_func less d x y z s).1 = z := by
  unfold median_func
  dsimp only
  rcases order2_mem less d x y s with ⟨h1, h2⟩ | ⟨h1, h2⟩ <;>
    generalize order2_func less d x y s = r1 at h1 h2 ⊢ <;>
    obtain ⟨p1, q1, s1⟩ := r1 <;>
    simp only at h1 h2 <;> subst h1 <;> subst h2 <;> dsimp only <;>
    (rcases order2_mem less d _ z s1 with ⟨h3, h4⟩ | ⟨h3, h4⟩ <;>
      generalize order2_func less d _ z s1 = r2 at h3 h4 ⊢ <;>
      obtain ⟨p2, q2, s2⟩ := r2 <;>
      simp only at h3 h4 <;> subst h3 <;> subst h4 <;> dsimp only <;>
      (rcases order2_mem less d _ _ s2 with ⟨h5, h6⟩ | ⟨h5, h6⟩ <;>
        rw [h6] <;> simp))

theorem choosePivot_range {α : Type} (less : α → α → Bool) (d : List α) (a b : Nat)
    (hab : a < b) :
    a ≤ (choosePivot_func less d a b).1 ∧ (choosePivot_func less d a b).1 < b := by
  have hfst : ∀ q : Nat × Nat,
      (match q with
        | (j, swaps) =>
          if swaps = 0 then (j, sortedHint.increasingHint)
          else if swaps = 4 * 3 then (j, sortedHint.decreasingHint)
          else (j, sortedHint.unknownHint)).1 = q.1 := by
    intro q
    obtain ⟨j, s⟩ := q
    dsimp only
    split_ifs <;> rfl
  unfold choosePivot_func
  dsimp only
  rw [hfst]
  by_cases h8 : b - a ≥ 8
  · rw [if_pos h8]
    have hq : 2 ≤ (b - a) / 4 := by omega
    have hq2 : (b - a) / 4 * 4 ≤ b - a := Nat.div_mul_le_self _ _
    by_cases h50 : b - a ≥ 50
    · rw [if_pos h50]
      have m1 := median_mem less d (a + (b - a) / 4 * 1 - 1) (a + (b - a) / 4 * 1)
        (a + (b - a) / 4 * 1 + 1) 0
      simp only [medianAdjacent_func]
      generalize median_func less d (a + (b - a) / 4 * 1 - 1) (a + (b - a) / 4 * 1)
        (a + (b - a) / 4 * 1 + 1) 0 = r1 at m1 ⊢
      obtain ⟨i1, s1⟩ := r1
      dsimp only at m1 ⊢
      have m2 := median_mem less d (a + (b - a) / 4 * 2 - 1) (a + (b - a) / 4 * 2)
        (a + (b - a) / 4 * 2 + 1) s1
      generalize median_func less d (a + (b - a) / 4 * 2 - 1) (a + (b - a) / 4 * 2)
        (a + (b - a) / 4 * 2 + 1) s1 = r2 at m2 ⊢
      obtain ⟨i2, s2⟩ := r2
      dsimp only at m2 ⊢
      have m3 := median_mem less d (a + (b - a) / 4 * 3 - 1) (a + (b - a) / 4 * 3)
        (a + (b - a) / 4 * 3 + 1) s2
      generalize median_func less d (a + (b - a) / 4 * 3 - 1) (a + (b - a) / 4 * 3)
        (a + (b - a) / 4 * 3 + 1) s2 = r3 at m3 ⊢
      obtain ⟨i3, s3⟩ := r3
      dsimp only at m3 ⊢
      have m4 := median_mem less d i1 i2 i3 s3
      omega
    · rw [if_neg h50]
      dsimp only
      have m4 := median_mem less d (a + (b - a) / 4 * 1) (a + (b - a) / 4 * 2)
        (a + (b - a) / 4 * 3) 0
      omega
  · rw [if_neg h8]
    dsimp only
    omega

theorem SortedOn.agree {α : Type} {less : α → α → Bool} {a b : Nat} {d d' : List α}
    (h : SortedOn less a b d) (he : ∀ k, k < b → d'[k]? = d[k]?) : SortedOn less a b d' := by
  intro i j x y h1 h2 h3 hx hy
  rw [he i (by omega)] at hx
  rw [he j h3] at hy
  exact h i j x y h1 h2 h3 hx hy

/-- A range that is sorted up to `i` and has no descent between neighbours from `i` to
`i'` is sorted up to `i'`. -/
theorem SortedOn.extend {α : Type} {less : α → α → Bool} (hsw : StrictWeak less) {a i : Nat}
    {d : List α} (_hai : a < i) (h : SortedOn less a i d) :
    ∀ (n : Nat), i + n ≤ d.length →
      (∀ k, i ≤ k → k < i + n → Less less d k (k - 1) = false) → SortedOn less a (i + n) d := by
  intro n
  induction n with
  | zero => intro _ _; exact h
  | succ n ih =>
    intro hlen hadj
    have hs := ih (by omega) (fun k h1 h2 => hadj k h1 (by omega))
    intro p q x y hp hpq hq hx hy
    by_cases hqn : q < i + n
    · exact hs p q x y hp hpq hqn hx hy
    · have hq' : q = i + n := by omega
      subst hq'
      obtain ⟨u, hu⟩ := get_some d (i + n - 1) (by omega)
      have h1 := hadj (i + n) (by omega) (by omega)
      rw [Less_eq less d (i + n) (i + n - 1) y u hy hu] at h1
      by_cases hpu : p = i + n - 1
      · subst hpu
        rw [hu] at hx
        cases hx
        exact h1
      · exact hsw.2.2 _ _ _ h1 (hs p (i + n - 1) x u hp (by omega) (by omega) hx hu)

theorem scan_spec {α : Type} (less : α → α → Bool) (d : List α) (b : Nat) :
    ∀ (fuel i : Nat), i ≤ b → b - i ≤ fuel →
      i ≤ partialInsertionSort_func.scan less d b fuel i ∧
      partialInsertionSort_func.scan less d b fuel i ≤ b ∧
      (∀ k, i ≤ k → k < partialInsertionSort_func.scan less d b fuel i →
        Less less d k (k - 1) = false) ∧
      (partialInsertionSort_func.scan less d b fuel i < b →
        Less less d (partialInsertionSort_func.scan less d b fuel i)
          (partialInsertionSort_func.scan less d b fuel i - 1) = true) := by
  intro fuel
  induction fuel with
  | zero =>
    intro i h1 h2
    rw [partialInsertionSort_func.scan]
    exact ⟨Nat.le_refl _, h1, fun k hk1 hk2 => by omega, fun h => by omega⟩
  | succ fuel ih =>
    intro i h1 h2
    rw [partialInsertionSort_func.scan]
    by_cases hcond : (decide (i < b) && !Less less d i (i - 1)) = true
    · rw [if_pos hcond]
      simp only [Bool.and_eq_true, decide_eq_true_eq, Bool.not_eq_true'] at hcond
      obtain ⟨g1, g2, g3, g4⟩ := ih (i + 1) (by omega) (by omega)
      refine ⟨by omega, g2, fun k hk1 hk2 => ?_, g4⟩
      by_cases hki : k = i
      · subst hki; exact hcond.2
      · exact g3 k (by omega) hk2
    · rw [if_neg hcond]
      refine ⟨Nat.le_refl _, h1, fun k hk1 hk2 => by omega, fun h => ?_⟩
      have : decide (i < b) = true := by simpa using h
      simpa [this] using hcond

/-- With the element in front of the range as a lower bound, the left shift of
`partialInsertionSort_func` is the inner loop of the insertion sort on `[a, b)`. -/
theorem left_eq_inner {α : Type} (less : α → α → Bool) (a b : Nat) :
    ∀ (j : Nat) (d : List α), a ≤ j → j < b → b ≤ d.length → LowerBound less a b d →
      partialInsertionSort_func.left less j d = insertionSort_func.inner less a j d := by
  intro j
  induction j with
  | zero => intro d _ _ _ _; rfl
  | succ j ih =>
    intro d h1 h2 h3 hlb
    rw [partialInsertionSort_func.left, insertionSort_func.inner]
    by_cases hja : j + 1 > a
    · have hd : decide (j + 1 > a) = true := by simpa using hja
      rw [hd, Bool.true_and]
      cases hL : Less less d (j + 1) j
      · simp
      · simp only [Bool.not_true, Bool.false_eq_true, if_false, if_true]
        exact ih _ (by omega) (by omega) (by rw [Swap_length]; exact h3)
          (hlb.within (Within_Swap d a b (j + 1) j h3 (by omega) (by omega) (by omega)
            (by omega)))
    · have hd : decide (j + 1 > a) = false := by simpa using hja
      rw [hd, Bool.false_and]
      have ha : a = j + 1 := by omega
      obtain ⟨x, hx⟩ := get_some d j (by omega)
      obtain ⟨y, hy⟩ := get_some d (j + 1) (by omega)
      have := hlb x (by omega) (by rw [ha]; exact hx) (j + 1) y (by omega) (by omega) hy
      rw [Less_eq less d (j + 1) j y x hy hx, this]
      simp

theorem right_within {α : Type} (less : α → α → Bool) (i b : Nat) :
    ∀ (fuel j : Nat) (d : List α), i < j → b ≤ d.length →
      Within i b d (partialInsertionSort_func.right less b fuel j d) := by
  intro fuel
  induction fuel with
  | zero => intro j d _ _; exact Within.same _ _ _
  | succ fuel ih =>
    intro j d hij hb
    rw [partialInsertionSort_func.right]
    by_cases hjb : j < b
    · rw [if_pos hjb]
      split
      · exact Within.same _ _ _
      · exact (Within_Swap d i b j (j - 1) hb (by omega) hjb (by omega) (by omega)).andThen
          (ih _ _ (by omega) (by rw [Swap_length]; exact hb))
    · rw [if_neg hjb]; exact Within.same _ _ _

theorem partialInsertionSort_steps_spec {α : Type} (less : α → α → Bool)
    (hsw : StrictWeak less) (a b : Nat) :
    ∀ (steps i : Nat) (d : List α), a < i → i ≤ b → b ≤ d.length → LowerBound less a b d →
      SortedOn less a i d →
      Within a b d (partialInsertionSort_func.steps less a b steps i d).1 ∧
      ((partialInsertionSort_func.steps less a b steps i d).2 = true →
        SortedOn less a b (partialInsertionSort_func.steps less a b steps i d).1) := by
  intro steps
  induction steps with
  | zero =>
    intro i d _ _ _ _ _
    rw [partialInsertionSort_func.steps]
    exact ⟨Within.same _ _ _, fun h => by simp at h⟩
  | succ steps ih =>
    intro i d hai hib hb hlb hs
    rw [partialInsertionSort_func.steps]
    obtain ⟨s1, s2, s3, s4⟩ := scan_spec less d b (b - i) i hib (Nat.le_refl _)
    generalize partialInsertionSort_func.scan less d b (b - i) i = i' at s1 s2 s3 s4 ⊢
    have hs' : SortedOn less a i' d := by
      have := SortedOn.extend hsw hai hs (i' - i) (by omega)
        (fun k h1 h2 => s3 k h1 (by omega))
      rwa [show i + (i' - i) = i' by omega] at this
    dsimp only
    by_cases hend : i' = b
    · rw [if_pos hend]
      exact ⟨Within.same _ _ _, fun _ => hend ▸ hs'⟩
    · rw [if_neg hend]
      by_cases h50 : b - a < 50
      · rw [if_pos h50]
        exact ⟨Within.same _ _ _, fun h => by simp at h⟩
      · rw [if_neg h50]
        have hw1 := Within_Swap d a b i' (i' - 1) hb (by omega) (by omega) (by omega) (by omega)
        have hlen1 : b ≤ (Swap d i' (i' - 1)).length := by rw [Swap_length]; exact hb
        have hget := fun k => Swap_get d i' (i' - 1) k (by omega) (by omega)
        -- the left shift
        have hleft : Within a b (Swap d i' (i' - 1))
              (if i' - a ≥ 2 then partialInsertionSort_func.left less (i' - 1)
                (Swap d i' (i' - 1)) else Swap d i' (i' - 1)) ∧
            SortedOn less a i'
              (if i' - a ≥ 2 then partialInsertionSort_func.left less (i' - 1)
                (Swap d i' (i' - 1)) else Swap d i' (i' - 1)) := by
          by_cases h2 : i' - a ≥ 2
          · rw [if_pos h2, left_eq_inner less a b (i' - 1) _ (by omega) (by omega) hlen1
              (hlb.within hw1)]
            have := insertionSort_inner_sorted less hsw a (i' - 1) (i' - 1) (Swap d i' (i' - 1))
              (by omega) (Nat.le_refl _) (by omega)
              (by
                intro k m x y hk hkm hm hkj hmj hx hy
                rw [hget k, if_neg hkj, if_neg (by omega)] at hx
                rw [hget m, if_neg hmj, if_neg (by omega)] at hy
                exact hs' k m x y hk hkm (by omega) hx hy)
              (fun m x y h1 h2 _ _ => by omega)
            rw [show i' - 1 + 1 = i' by omega] at this
            exact ⟨this.1.widen (Nat.le_refl _) (by omega), this.2⟩
          · rw [if_neg h2]
            exact ⟨Within.same _ _ _, fun p q x y h1 h2' h3 _ _ => by omega⟩
        generalize (if i' - a ≥ 2 then partialInsertionSort_func.left less (i' - 1)
          (Swap d i' (i' - 1)) else Swap d i' (i' - 1)) = d2 at hleft ⊢
        have hlen2 : b ≤ d2.length := by rw [hleft.1.1]; exact hlen1
        have hright : Within i' b d2
            (if b - i' ≥ 2 then partialInsertionSort_func.right less b (b - i') (i' + 1) d2
              else d2) := by
          split
          · exact right_within less i' b _ _ _ (by omega) hlen2
          · exact Within.same _ _ _
        generalize (if b - i' ≥ 2 then partialInsertionSort_func.right less b (b - i') (i' + 1) d2
          else d2) = d3 at hright ⊢
        have hw : Within a b d d3 :=
          hw1.andThen (hleft.1.andThen (hright.widen (by omega) (Nat.le_refl _)))
        have := ih i' d3 (by omega) s2 (by rw [hw.1]; exact hb) (hlb.within hw)
          (hleft.2.agree (fun k hk => hright.2.1 k (Or.inl hk)))
        exact ⟨hw.andThen this.1, this.2⟩

/-- `partialInsertionSort_func` stays inside the range, and when it reports `true` the
range is sorted. -/
theorem partialInsertionSort_spec {α : Type} (less : α → α → Bool) (hsw : StrictWeak less)
    (data : List α) (a b : Nat) (hab : a < b) (hb : b ≤ data.length)
    (hlb : LowerBound less a b data) :
    Within a b data (partialInsertionSort_func less data a b).1 ∧
    ((partialInsertionSort_func less data a b).2 = true →
      SortedOn less a b (partialInsertionSort_func less data a b).1) :=
  partialInsertionSort_steps_spec less hsw a b 5 (a + 1) data (by omega) (by omega) hb hlb
    (fun i j x y h1 h2 h3 _ _ => by omega)

theorem NotLess.chain {α : Type} {less : α → α → Bool} (hsw : StrictWeak less) {d : List α}
    {i j k : Nat} (h1 : NotLess less d i j) (h2 : NotLess less d j k) (hj : j < d.length) :
    NotLess less d i k := by
  intro x z hx hz
  obtain ⟨y, hy⟩ := get_some d j hj
  exact hsw.2.2 _ _ _ (h1 x y hx hy) (h2 y z hy hz)

theorem NotLess.self {α : Type} {less : α → α → Bool} (hsw : StrictWeak less) (d : List α)
    (i : Nat) : NotLess less d i i := by
  intro x y hx hy
  rw [hx] at hy
  cases hy
  exact hsw.1 x

theorem NotLess.of_Less_false {α : Type} {less : α → α → Bool} {d : List α} {i j : Nat}
    (h : Less less d i j = false) : NotLess less d i j := by
  intro x y hx hy
  rw [Less_eq less d i j x y hx hy] at h
  exact h

theorem NotLess.of_Less_true {α : Type} {less : α → α → Bool} (hsw : StrictWeak less)
    {d : List α} {i j : Nat} (h : Less less d i j = true) : NotLess less d j i := by
  intro x y hx hy
  rw [Less_eq less d i j y x hy hx] at h
  exact less_asymm less hsw _ _ h

theorem NotLess.moved {α : Type} {less : α → α → Bool} {d d' : List α} {i j i' j' : Nat}
    (h : NotLess less d i j) (hi : d'[i']? = d[i]?) (hj : d'[j']? = d[j]?) :
    NotLess less d' i' j' := by
  intro x y hx hy
  exact h x y (hi ▸ hx) (hj ▸ hy)

theorem siftDown_spec {α : Type} (less : α → α → Bool) (hsw : StrictWeak less)
    (hi first root0 : Nat) :
    ∀ (fuel root : Nat) (d : List α), root0 ≤ root → hi ≤ root + fuel →
      first + hi ≤ d.length →
      (∀ r, root0 ≤ r → r ≠ root → HeapAt less first hi d r) →
      (∀ r c, root0 ≤ r → (root = 2 * r + 1 ∨ root = 2 * r + 2) →
        (c = 2 * root + 1 ∨ c = 2 * root + 2) → c < hi →
        NotLess less d (first + r) (first + c)) →
      Within (first + root) (first + hi) d (siftDown_func less hi first fuel root d) ∧
      (∀ r, root0 ≤ r → HeapAt less first hi (siftDown_func less hi first fuel root d) r) := by
  intro fuel
  induction fuel with
  | zero =>
    intro root d h0 hf hlen hA hB
    rw [siftDown_func]
    refine ⟨Within.same _ _ _, fun r hr => ?_⟩
    by_cases hrr : r = root
    · subst hrr
      intro c hc hch
      omega
    · exact hA r hr hrr
  | succ fuel ih =>
    intro root d h0 hf hlen hA hB
    rw [siftDown_func]
    dsimp only
    by_cases hleaf : 2 * root + 1 ≥ hi
    · rw [if_pos hleaf]
      refine ⟨Within.same _ _ _, fun r hr => ?_⟩
      by_cases hrr : r = root
      · subst hrr
        intro c hc hch
        omega
      · exact hA r hr hrr
    · rw [if_neg hleaf]
      -- the greater child
      have hmax : ∃ cm, (cm = 2 * root + 1 ∨ cm = 2 * root + 2) ∧ cm < hi ∧
          (if (decide (2 * root + 1 + 1 < hi) &&
              Less less d (first + (2 * root + 1)) (first + (2 * root + 1) + 1)) = true
            then 2 * root + 1 + 1 else 2 * root + 1) = cm ∧
          ∀ c, c = 2 * root + 1 ∨ c = 2 * root + 2 → c < hi →
            NotLess less d (first + cm) (first + c) := by
        by_cases hc2 : (decide (2 * root + 1 + 1 < hi) &&
            Less less d (first + (2 * root + 1)) (first + (2 * root + 1) + 1)) = true
        · rw [if_pos hc2]
          simp only [Bool.and_eq_true, decide_eq_true_eq] at hc2
          refine ⟨2 * root + 2, Or.inr rfl, by omega, rfl, fun c hc hch => ?_⟩
          rcases hc with rfl | rfl
          · exact NotLess.of_Less_true hsw hc2.2
          · exact NotLess.self hsw _ _
        · rw [if_neg hc2]
          refine ⟨2 * root + 1, Or.inl rfl, by omega, rfl, fun c hc hch => ?_⟩
          rcases hc with rfl | rfl
          · exact NotLess.self hsw _ _
          · have : decide (2 * root + 1 + 1 < hi) = true := by simpa using hch
            rw [this, Bool.true_and] at hc2
            exact NotLess.of_Less_false (by simpa using hc2)
      obtain ⟨cm, hcm, hcmhi, hsel, hmaxc⟩ := hmax
      rw [hsel]
      by_cases hstop : (!Less less d (first + root) (first + cm)) = true
      · rw [if_pos hstop]
        refine ⟨Within.same _ _ _, fun r hr => ?_⟩
        by_cases hrr : r = root
        · subst hrr
          intro c hc hch
          exact (NotLess.of_Less_false (by simpa using hstop)).chain hsw (hmaxc c hc hch)
            (by omega)
        · exact hA r hr hrr
      · rw [if_neg hstop]
        have hlt : Less less d (first + root) (first + cm) = true := by simpa using hstop
        have hget := fun k => Swap_get d (first + root) (first + cm) k (by omega) (by omega)
        have hw := Within_Swap d (first + root) (first + hi) (first + root) (first + cm) hlen
          (Nat.le_refl _) (by omega) (by omega) (by omega)
        have hroot' : (Swap d (first + root) (first + cm))[first + root]? = d[first + cm]? := by
          rw [hget, if_neg (by omega), if_pos rfl]
        have hcm' : (Swap d (first + root) (first + cm))[first + cm]? = d[first + root]? := by
          rw [hget, if_pos rfl]
        have hother : ∀ k, k ≠ root → k ≠ cm →
            (Swap d (first + root) (first + cm))[first + k]? = d[first + k]? := by
          intro k h1 h2
          rw [hget, if_neg (by omega), if_neg (by omega)]
        have := ih cm (Swap d (first + root) (first + cm)) (by omega) (by omega)
          (by rw [Swap_length]; exact hlen)
          (by
            intro r hr hrcm c hc hch
            by_cases hrr : r = root
            · subst hrr
              by_cases hccm : c = cm
              · subst hccm
                exact (NotLess.of_Less_true hsw hlt).moved hroot' hcm'
              · exact (hmaxc c hc hch).moved hroot' (hother c (by omega) hccm)
            · by_cases hcr : c = root
              · subst hcr
                exact (hB r cm hr hc hcm hcmhi).moved (hother r hrr hrcm) hroot'
              · exact (hA r hr hrr c hc hch).moved (hother r hrr hrcm)
                  (hother c hcr (by omega)))
          (by
            intro r c hr hrc hc hch
            have hrr : r = root := by omega
            subst hrr
            exact (hA cm (by omega) (by omega) c hc hch).moved hroot'
              (hother c (by omega) (by omega)))
        exact ⟨hw.andThen (this.1.widen (by omega) (Nat.le_refl _)), this.2⟩

theorem heap_root_max {α : Type} (less : α → α → Bool) (hsw : StrictWeak less)
    (hi first : Nat) (d : List α) (hlen : first + hi ≤ d.length)
    (hH : ∀ r, HeapAt less first hi d r) :
    ∀ (n r : Nat), r < n → r < hi → NotLess less d first (first + r) := by
  intro n
  induction n with
  | zero => intro r h _; omega
  | succ n ih =>
    intro r hr hrhi
    by_cases h0 : r = 0
    · subst h0; exact NotLess.self hsw _ _
    · have hp := ih ((r - 1) / 2) (by omega) (by omega)
      have hc := hH ((r - 1) / 2) r (by omega) hrhi
      exact hp.chain hsw hc (by omega)

theorem heapSort_build_spec {α : Type} (less : α → α → Bool) (hsw : StrictWeak less)
    (hi first : Nat) :
    ∀ (k : Nat) (d : List α), first + hi ≤ d.length →
      (∀ r, k ≤ r → HeapAt less first hi d r) →
      Within first (first + hi) d (heapSort_func.build less hi first k d) ∧
      (∀ r, HeapAt less first hi (heapSort_func.build less hi first k d) r) := by
  intro k
  induction k with
  | zero =>
    intro d _ hH
    rw [heapSort_func.build]
    exact ⟨Within.same _ _ _, fun r => hH r (Nat.zero_le _)⟩
  | succ i ih =>
    intro d hlen hH
    rw [heapSort_func.build]
    by_cases hih : i < hi
    · have hs := siftDown_spec less hsw hi first i hi i d (Nat.le_refl _) (by omega) hlen
        (fun r hr hne => hH r (by omega))
        (fun r c hr hrc _ _ => by omega)
      have := ih _ (by rw [hs.1.1]; exact hlen) hs.2
      exact ⟨(hs.1.widen (by omega) (Nat.le_refl _)).andThen this.1, this.2⟩
    · -- nodes from `hi` on have no children in the heap
      have hs : siftDown_func less hi first hi i d = d := by
        cases hi with
        | zero => rfl
        | succ h => rw [siftDown_func]; dsimp only; rw [if_pos (by omega)]
      rw [hs]
      exact ih d hlen (fun r hr c hc hch => by
        by_cases hri : r = i
        · omega
        · exact hH r (by omega) c hc hch)

theorem heapSort_pop_spec {α : Type} (less : α → α → Bool) (hsw : StrictWeak less)
    (hi first : Nat) :
    ∀ (k : Nat) (d : List α), k ≤ hi → first + hi ≤ d.length →
      (∀ r, HeapAt less first k d r) →
      SortedOn less (first + k) (first + hi) d →
      (∀ p q, p < k → k ≤ q → q < hi → NotLess less d (first + q) (first + p)) →
      Within first (first + hi) d (heapSort_func.pop less first k d) ∧
      SortedOn less first (first + hi) (heapSort_func.pop less first k d) := by
  intro k
  induction k with
  | zero =>
    intro d _ _ _ hS _
    rw [heapSort_func.pop]
    exact ⟨Within.same _ _ _, hS⟩
  | succ i ih =>
    intro d hk hlen hH hS hC
    rw [heapSort_func.pop]
    have hget := fun k => Swap_get d first (first + i) k (by omega) (by omega)
    have hw1 := Within_Swap d first (first + hi) first (first + i) hlen (Nat.le_refl _)
      (by omega) (by omega) (by omega)
    have hlen1 : first + hi ≤ (Swap d first (first + i)).length := by
      rw [Swap_length]; exact hlen
    have hmaxd := heap_root_max less hsw (i + 1) first d (by omega) hH
    have htop : (Swap d first (first + i))[first + i]? = d[first]? := by
      rw [hget, if_pos rfl]
    have hother : ∀ t, t ≠ 0 → t ≠ i →
        (Swap d first (first + i))[first + t]? = d[first + t]? := by
      intro t h1 h2
      rw [hget, if_neg (by omega), if_neg (by omega)]
    have hs := siftDown_spec less hsw i first 0 i 0 (Swap d first (first + i)) (Nat.le_refl _)
      (by omega) (by omega)
      (by
        intro r _ hr0 c hc hch
        exact (hH r c hc (by omega)).moved (hother r hr0 (by omega)) (hother c (by omega)
          (by omega)))
      (fun r c _ hrc _ _ => by omega)
    generalize siftDown_func less i first i 0 (Swap d first (first + i)) = d2 at hs ⊢
    have hlen2 : first + hi ≤ d2.length := by rw [hs.1.1]; exact hlen1
    have hout : ∀ q, i ≤ q → d2[first + q]? = (Swap d first (first + i))[first + q]? :=
      fun q hq => hs.1.2.1 (first + q) (Or.inr (by omega))
    -- every element of the heap `[first, first + i)` of `d2` was in the heap of `d`
    have hheap : ∀ p, p < i → ∃ p', p' < i + 1 ∧ d2[first + p]? = d[first + p']? := by
      intro p hp
      obtain ⟨k', h1, h2, he⟩ := hs.1.2.2 (first + p) (by omega) (by omega)
      by_cases hk0 : k' = first
      · refine ⟨i, by omega, ?_⟩
        rw [he, hk0, hget, if_neg (by omega), if_pos rfl]
      · refine ⟨k' - first, by omega, ?_⟩
        rw [he, hget, if_neg (by omega), if_neg (by omega)]
        congr 1; omega
    have := ih d2 (by omega) hlen2
      (fun r => by
        have := hs.2 r (Nat.zero_le _)
        simpa using this)
      (by
        intro p q x y hp hpq hq hx hy
        rw [show q = first + (q - first) by omega, hout (q - first) (by omega)] at hy
        rw [show p = first + (p - first) by omega, hout (p - first) (by omega)] at hx
        by_cases hpi : p - first = i
        · rw [hpi, htop] at hx
          rw [hother (q - first) (by omega) (by omega)] at hy
          exact hC 0 (q - first) (by omega) (by omega) (by omega) y x hy (by simpa using hx)
        · rw [hother (p - first) (by omega) (by omega)] at hx
          rw [hother (q - first) (by omega) (by omega)] at hy
          exact hS (first + (p - first)) (first + (q - first)) x y (by omega) (by omega)
            (by omega) hx hy)
      (by
        intro p q hp hiq hq x y hx hy
        obtain ⟨p', hp', hep⟩ := hheap p hp
        rw [hep] at hy
        rw [hout q hiq] at hx
        by_cases hqi : q = i
        · rw [hqi, htop] at hx
          exact hmaxd (i + 1) p' hp' hp' x y (by simpa using hx) hy
        · rw [hother q (by omega) hqi] at hx
          exact hC p' q hp' (by omega) hq x y hx hy)
    exact ⟨hw1.andThen ((hs.1.widen (Nat.le_refl _) (by omega)).andThen this.1), this.2⟩

/-- `heapSort_func` sorts the range `[a, b)` and touches nothing else. -/
theorem heapSort_sorted {α : Type} (less : α → α → Bool) (hsw : StrictWeak less)
    (data : List α) (a b : Nat) (hab : a ≤ b) (hb : b ≤ data.length) :
    Within a b data (heapSort_func less data a b) ∧
      SortedOn less a b (heapSort_func less data a b) := by
  unfold heapSort_func
  dsimp only
  have hbuild := heapSort_build_spec less hsw (b - a) a ((b - a - 1) / 2 + 1) data (by omega)
    (fun r hr c hc hch => by omega)
  generalize heapSort_func.build less (b - a) a ((b - a - 1) / 2 + 1) data = d1 at hbuild ⊢
  have hpop := heapSort_pop_spec less hsw (b - a) a (b - a) d1 (Nat.le_refl _)
    (by rw [hbuild.1.1]; omega) hbuild.2
    (fun i j x y h1 h2 h3 _ _ => by omega) (fun p q h1 h2 h3 => by omega)
  rw [show a + (b - a) = b by omega] at hbuild hpop
  exact ⟨hbuild.1.andThen hpop.1, hpop.2⟩

theorem AllOn.carry {α : Type} {P : α → Prop} {a b : Nat} {d d' : List α}
    (h : AllOn P a b d) (he : ∀ k, a ≤ k → k < b → d'[k]? = d[k]?) : AllOn P a b d' :=
  fun k x h1 h2 hx => h k x h1 h2 (he k h1 h2 ▸ hx)

theorem LowerBound.shorten {α : Type} {less : α → α → Bool} {a b b' : Nat} {d : List α}
    (h : LowerBound less a b d) (hb : b' ≤ b) : LowerBound less a b' d :=
  fun x ha hx => (h x ha hx).narrow (Nat.le_refl _) hb

/-- Two sorted halves around a pivot that separates them make a sorted range. -/
theorem SortedOn.combine {α : Type} {less : α → α → Bool} (hsw : StrictWeak less)
    {a mid b : Nat} {r : List α} {p : α} (h1 : SortedOn less a mid r)
    (h2 : SortedOn less (mid + 1) b r) (hp : r[mid]? = some p)
    (hlo : AllOn (fun x => less x p = true) a mid r)
    (hhi : AllOn (fun x => less x p = false) (mid + 1) b r) : SortedOn less a b r := by
  intro i j x y hi hij hj hx hy
  by_cases hjm : j < mid
  · exact h1 i j x y hi hij hjm hx hy
  · by_cases him : mid < i
    · exact h2 i j x y (by omega) hij hj hx hy
    · by_cases hjm' : j = mid
      · subst hjm'
        rw [hp] at hy
        cases hy
        exact less_asymm less hsw _ _ (hlo i x hi (by omega) hx)
      · have hyp := hhi j y (by omega) hj hy
        by_cases him' : i = mid
        · subst him'
          rw [hp] at hx
          cases hx
          exact hyp
        · have hxp := hlo i x hi (by omega) hx
          by_contra hc
          have := hsw.2.1 y x p (by simpa using hc) hxp
          rw [hyp] at this
          exact absurd this (by simp)

/-- The ranges left and right of `newpivot` after `partitionEqual_func` make a sorted
range once the right one is sorted. -/
theorem SortedOn.combineEqual {α : Type} {less : α → α → Bool} (hsw : StrictWeak less)
    {a mid b : Nat} {r : List α} {p : α} (h2 : SortedOn less mid b r)
    (hge : AllOn (fun x => less x p = false) a mid r)
    (hle : AllOn (fun x => less p x = false) a mid r)
    (hhi : AllOn (fun x => less p x = true) mid b r) : SortedOn less a b r := by
  intro i j x y hi hij hj hx hy
  by_cases him : mid ≤ i
  · exact h2 i j x y him hij hj hx hy
  · by_cases hjm : j < mid
    · exact hsw.2.2 _ _ _ (hge j y (by omega) hjm hy) (hle i x hi (by omega) hx)
    · have hyp := hhi j y (by omega) hj hy
      have hxp := hle i x hi (by omega) hx
      by_contra hc
      have := hsw.2.1 p y x hyp (by simpa using hc)
      rw [hxp] at this
      exact absurd this (by simp)

theorem pdqsort_loop_sorted {α : Type} (next : Nat → Nat) (less : α → α → Bool)
    (hsw : StrictWeak less) :
    ∀ (fuel : Nat) (data : List α) (a b limit : Nat) (wb wp : Bool), a ≤ b →
      b ≤ data.length → b - a < fuel → LowerBound less a b data →
      Within a b data (pdqsort_func.loop next less fuel data a b limit wb wp) ∧
      SortedOn less a b (pdqsort_func.loop next less fuel data a b limit wb wp) := by
  intro fuel
  induction fuel with
  | zero => intro data a b limit wb wp _ _ h _; omega
  | succ fuel ih =>
    intro data a b limit wb wp hab hb hf hlb
    rw [pdqsort_func.loop]
    by_cases h12 : b - a ≤ 12
    · rw [if_pos h12]; exact insertionSort_sorted less hsw data a b hb
    · rw [if_neg h12]
      by_cases hl : limit = 0
      · rw [if_pos hl]; exact heapSort_sorted less hsw data a b hab hb
      · rw [if_neg hl]
        lift_lets
        intro d1 lim1 ph reversed d2 pivot hint tried pis d3 pe pt d4 mid wp' leftLen rightLen
          thr wb1 d5 wb2 d6
        have hw1 : Within a b data d1 := by
          show Within a b data (if (!wb) = true then breakPatterns_func next data a b else data)
          split
          · exact breakPatterns_within next data a b hab hb
          · exact Within.same _ _ _
        have hpiv0 : a ≤ ph.1 ∧ ph.1 < b := choosePivot_range less d1 a b (by omega)
        have hw2 : Within a b d1 d2 := by
          show Within a b d1 (if reversed = true then reverseRange_func d1 a b else d1)
          split
          · exact reverseRange_within d1 a b (by omega) (by rw [hw1.1]; exact hb)
          · exact Within.same _ _ _
        have hpiv : a ≤ pivot ∧ pivot < b := by
          show a ≤ (if reversed = true then b - 1 - (ph.1 - a) else ph.1) ∧
            (if reversed = true then b - 1 - (ph.1 - a) else ph.1) < b
          split <;> omega
        have hw12 := hw1.andThen hw2
        have hlen2 : b ≤ d2.length := by rw [hw12.1]; exact hb
        have hpis : Within a b d2 pis.1 ∧ (pis.2 = true → SortedOn less a b pis.1) := by
          show Within a b d2
              (if tried = true then partialInsertionSort_func less d2 a b else (d2, false)).1 ∧
            ((if tried = true then partialInsertionSort_func less d2 a b else (d2, false)).2
              = true →
              SortedOn less a b
                (if tried = true then partialInsertionSort_func less d2 a b else (d2, false)).1)
          split
          · exact partialInsertionSort_spec less hsw d2 a b (by omega) hlen2 (hlb.within hw12)
          · exact ⟨Within.same _ _ _, fun h => by simp at h⟩
        have hw3 : Within a b data d3 := hw12.andThen hpis.1
        have hlen3 : b ≤ d3.length := by rw [hw3.1]; exact hb
        have hlb3 : LowerBound less a b d3 := hlb.within hw3
        obtain ⟨p, hp⟩ := get_some d3 pivot (by omega)
        by_cases hdone : pis.2 = true
        · rw [if_pos hdone]
          exact ⟨hw3, hpis.2 hdone⟩
        · rw [if_neg hdone]
          by_cases heq : (decide (a > 0) && !Less less d3 (a - 1) pivot) = true
          · rw [if_pos heq]
            simp only [Bool.and_eq_true, decide_eq_true_eq, Bool.not_eq_true'] at heq
            obtain ⟨x, hx⟩ := get_some d3 (a - 1) (by omega)
            have hxp : less x p = false := by
              have := heq.2
              rwa [Less_eq less d3 (a - 1) pivot x p hx hp] at this
            obtain ⟨e1, e2, e3, e4, e5⟩ : Within a b d3 pe.1 ∧ a < pe.2 ∧ pe.2 ≤ b ∧
                AllOn (fun x => less p x = false) a pe.2 pe.1 ∧
                AllOn (fun x => less p x = true) pe.2 b pe.1 :=
              partitionEqual_spec less hsw d3 a b pivot p (by omega) hlen3 hpiv.1 hpiv.2 hp
            have hge3 : AllOn (fun y => less y p = false) a b d3 :=
              fun k y h1 h2 hy => hsw.2.2 _ _ _ (hlb3 x heq.1 hx k y h1 h2 hy) hxp
            have hge : AllOn (fun y => less y p = false) a b pe.1 := e1.allOn hge3
            have hlenE : b ≤ pe.1.length := by rw [e1.1]; exact hlen3
            have hrec := ih pe.1 pe.2 b lim1 wb wp e3 hlenE (by omega)
              (by
                intro x' _ hx' k y h1 h2 hy
                have h1' := e4 (pe.2 - 1) x' (by omega) (by omega) hx'
                have h2' := e5 k y h1 h2 hy
                by_contra hc
                have := hsw.2.1 p y x' h2' (by simpa using hc)
                rw [h1'] at this
                exact absurd this (by simp))
            refine ⟨hw3.andThen (e1.andThen (hrec.1.widen (by omega) (Nat.le_refl _))), ?_⟩
            have hsame : ∀ k, a ≤ k → k < pe.2 →
                (pdqsort_func.loop next less fuel pe.1 pe.2 b lim1 wb wp)[k]? = pe.1[k]? :=
              fun k _ h2 => hrec.1.2.1 k (Or.inl h2)
            exact SortedOn.combineEqual hsw hrec.2
              ((hge.narrow (Nat.le_refl _) e3).carry hsame) (e4.carry hsame) (hrec.1.allOn e5)
          · rw [if_neg heq]
            obtain ⟨q1, q2, q3, q4, q5, q6⟩ : Within a b d3 d4 ∧ a ≤ mid ∧ mid < b ∧
                d4[mid]? = some p ∧ AllOn (fun x => less x p = true) a mid d4 ∧
                AllOn (fun x => less x p = false) (mid + 1) b d4 :=
              partition_spec less d3 a b pivot p (by omega) hlen3 hpiv.1 hpiv.2 hp
            have hw4 : Within a b data d4 := hw3.andThen q1
            have hlen4 : b ≤ d4.length := by rw [hw4.1]; exact hb
            have hlb4 : LowerBound less a b d4 := hlb.within hw4
            have hlbR : ∀ d' : List α, d'[mid]? = some p →
                AllOn (fun x => less x p = false) (mid + 1) b d' →
                LowerBound less (mid + 1) b d' := by
              intro d' hm hall x _ hx
              rw [show mid + 1 - 1 = mid by omega, hm] at hx
              cases hx
              exact hall
            by_cases hside : leftLen < rightLen
            · rw [if_pos hside]
              have r1 := ih d4 a mid lim1 true true q2 (by omega) (by omega)
                (hlb4.shorten (by omega))
              have hd5 : ∀ k, mid ≤ k → d5[k]? = d4[k]? := fun k hk => r1.1.2.1 k (Or.inr hk)
              have r2 := ih d5 (mid + 1) b lim1 wb1 wp' (by omega)
                (by rw [r1.1.1]; exact hlen4) (by omega)
                (hlbR d5 ((hd5 mid (Nat.le_refl _)).trans q4)
                  (q6.carry (fun k h1 _ => hd5 k (by omega))))
              have hres : ∀ k, k < mid + 1 →
                  (pdqsort_func.loop next less fuel d5 (mid + 1) b lim1 wb1 wp')[k]? = d5[k]? :=
                fun k hk => r2.1.2.1 k (Or.inl hk)
              refine ⟨hw4.andThen ((r1.1.widen (Nat.le_refl _) (by omega)).andThen
                (r2.1.widen (by omega) (Nat.le_refl _))), ?_⟩
              exact SortedOn.combine hsw (r1.2.agree (fun k hk => hres k (by omega))) r2.2
                ((hres mid (by omega)).trans ((hd5 mid (Nat.le_refl _)).trans q4))
                ((r1.1.allOn q5).carry (fun k _ hk => hres k (by omega)))
                (r2.1.allOn (q6.carry (fun k h1 _ => hd5 k (by omega))))
            · rw [if_neg hside]
              have r1 := ih d4 (mid + 1) b lim1 true true (by omega) hlen4 (by omega)
                (hlbR d4 q4 q6)
              have hd6 : ∀ k, k < mid + 1 → d6[k]? = d4[k]? :=
                fun k hk => r1.1.2.1 k (Or.inl hk)
              have r2 := ih d6 a mid lim1 wb2 wp' q2 (by rw [r1.1.1]; omega) (by omega)
                (by
                  intro x ha hx
                  rw [hd6 (a - 1) (by omega)] at hx
                  exact ((hlb4 x ha hx).narrow (Nat.le_refl _) (by omega)).carry
                    (fun k _ hk => hd6 k (by omega)))
              have hres : ∀ k, mid ≤ k →
                  (pdqsort_func.loop next less fuel d6 a mid lim1 wb2 wp')[k]? = d6[k]? :=
                fun k hk => r2.1.2.1 k (Or.inr hk)
              refine ⟨hw4.andThen ((r1.1.widen (by omega) (Nat.le_refl _)).andThen
                (r2.1.widen (Nat.le_refl _) (by omega))), ?_⟩
              exact SortedOn.combine hsw r2.2
                (fun i j x y h1 h2 h3 hx hy => r1.2 i j x y h1 h2 h3
                  (hres i (by omega) ▸ hx) (hres j (by omega) ▸ hy))
                ((hres mid (Nat.le_refl _)).trans ((hd6 mid (by omega)).trans q4))
                (r2.1.allOn (q5.carry (fun k _ hk => hd6 k (by omega))))
                ((r1.1.allOn q6).carry (fun k hk _ => hres k (by omega)))

/-- The model of `sort.Slice` orders the slice, for every strict weak ordering. -/
theorem sortSlice_sorted {α : Type} (next : Nat → Nat) (less : α → α → Bool)
    (hsw : StrictWeak less) (x : List α) : Ordered less (sortSlice next less x) := by
  have h := pdqsort_loop_sorted next less hsw (x.length - 0 + 1) x 0 x.length
    (bitsLen x.length x.length) true true (Nat.zero_le _) (Nat.le_refl _) (by omega)
    (fun _ h _ => by omega)
  have hs : SortedOn less 0 (sortSlice next less x).length (sortSlice next less x) := by
    have hl : (sortSlice next less x).length = x.length := h.1.1
    rw [hl]
    exact h.2
  have hp : (sortSlice next less x).Pairwise (fun a b => less b a = false) := by
    rw [List.pairwise_iff_getElem]
    intro i j hi hj hij
    exact hs i j _ _ (Nat.zero_le _) hij hj (List.getElem?_eq_getElem hi)
      (List.getElem?_eq_getElem hj)
  exact hp.chain'

/-- The model of `sort.Slice` meets the documented contract of `sort.Slice`. -/
theorem sortSlice_contract (next : Nat → Nat) : SliceContract (sortSlice next) :=
  fun less l => ⟨sortSlice_perm next less l, fun hsw => sortSlice_sorted next less hsw l⟩

/-! ## Claims on sorting -/

/-- Witness for C6: the example tree sorted by name with the model of the shipped
`sort.Slice`. -/
theorem sortNode_name_sorted_witness :
    (∀ p n, nodeAt (RendererStats.sortNode (sortSlice xorshiftNext) asciiToLower byName
        exampleTree) p = some n →
      List.Chain' (fun a b => asciiToLower a.Name ≤ asciiToLower b.Name) n.Children) ∧
    Reordered exampleTree
      (RendererStats.sortNode (sortSlice xorshiftNext) asciiToLower byName exampleTree) :=
  sortNode_name_sorted (sortSlice xorshiftNext) asciiToLower byName exampleTree
    (sortSlice_contract xorshiftNext) rfl

/-- The sort `reversingSlice` meets the contract of `sort.Slice`. -/
theorem reversingSlice_contract : SliceContract reversingSlice := by
  intro less l
  refine ⟨(List.perm_insertionSort _ _).trans (List.reverse_perm l), fun hsw => ?_⟩
  haveI := notLess_total less hsw
  haveI := notLess_trans less hsw
  exact (List.sorted_insertionSort (fun a b => less b a = false) l.reverse).chain'

/-- An ordered slice has every element before all that are not `less` than it. -/
theorem ordered_pairwise {α : Type} (less : α → α → Bool) (hsw : StrictWeak less) (l : List α)
    (h : Ordered less l) : l.Pairwise (fun a b => less b a = false) := by
  haveI := notLess_trans less hsw
  exact List.chain'_iff_pairwise.1 h

/-- Two orderings of the same elements are equal when no two of the elements compare
equal. -/
theorem ordered_perm_unique {α : Type} (less : α → α → Bool) (hsw : StrictWeak less)
    (l₁ l₂ : List α) (hp : l₁.Perm l₂) (h₁ : Ordered less l₁) (h₂ : Ordered less l₂)
    (hd : l₂.Pairwise (fun a b => less a b = true ∨ less b a = true)) : l₁ = l₂ := by
  have hd₁ : l₁.Pairwise (fun a b => less a b = true ∨ less b a = true) :=
    (hp.pairwise_iff (fun {_ _} h => h.symm)).2 hd
  have hstrict : ∀ l : List α, l.Pairwise (fun a b => less b a = false) →
      l.Pairwise (fun a b => less a b = true ∨ less b a = true) →
      l.Pairwise (fun a b => less a b = true) := by
    intro l ha hb
    refine (ha.and hb).imp ?_
    rintro a b ⟨h1, h2 | h2⟩
    · exact h2
    · rw [h1] at h2; exact absurd h2 (by simp)
  haveI : IsAntisymm α (fun a b => less a b = true) :=
    ⟨fun a b hab hba => by
      have := hsw.2.1 a b a hab hba
      rw [hsw.1 a] at this
      exact absurd this (by simp)⟩
  exact List.eq_of_perm_of_sorted hp
    (hstrict l₁ (ordered_pairwise less hsw l₁ h₁) hd₁)
    (hstrict l₂ (ordered_pairwise less hsw l₂ h₂) hd)

/-- In a slice where no element stands before one that is `less` than it, an element that
is `less` than another one stands before it. -/
theorem sublist_of_less {α : Type} (less : α → α → Bool) (hirr : ∀ a, less a a = false)
    (x y : α) (hxy : less x y = true) :
    ∀ l : List α, l.Pairwise (fun a b => less b a = false) → x ∈ l → y ∈ l →
      List.Sublist [x, y] l := by
  intro l
  induction l with
  | nil => intro _ hx; simp at hx
  | cons a t ih =>
    intro hp hx hy
    rw [List.pairwise_cons] at hp
    rcases List.mem_cons.1 hx with hxa | hxt
    · rcases List.mem_cons.1 hy with hya | hyt
      · rw [hxa, hya, hirr] at hxy; exact absurd hxy (by simp)
      · rw [hxa]
        exact List.Sublist.cons₂ _ (List.singleton_sublist.2 hyt)
    · rcases List.mem_cons.1 hy with hya | hyt
      · have := hp.1 x hxt
        rw [← hya, hxy] at this; exact absurd this (by simp)
      · exact List.Sublist.cons _ (ih hp.2 hxt hyt)

theorem descendants_of_mem (c : Node) : ∀ (l : List Node), c ∈ l →
    ∀ n, n ∈ c :: descendants c → n ∈ descendants.of l := by
  intro l
  induction l with
  | nil => intro h; simp at h
  | cons d t ih =>
    intro h n hn
    rw [descendants.of]
    rcases List.mem_cons.1 h with rfl | h
    · exact List.mem_append_left _ hn
    · exact List.mem_append_right _ (ih h n hn)

/-- The nodes of a child's subtree are descendants of the node. -/
theorem descendants_child (node c : Node) (h : c ∈ node.Children) :
    ∀ n, n ∈ c :: descendants c → n ∈ node :: descendants node := by
  intro n hn
  rw [descendants_eq node]
  exact List.mem_cons_of_mem _ (descendants_of_mem c node.Children h n hn)

/-- C8 fails for a `sort.Slice` that reverses equal elements, which its contract allows:
for the two files of `root/{README, readme}`, which compare equal by size and by date,
sorting once gives `readme`, `README` and sorting twice gives `README`, `readme`. -/
theorem sortNode_twice_tiedTree :
    SliceContract reversingSlice ∧
    (RendererStats.sortNode reversingSlice lowerText bySize tiedTree).Children.map
        (fun c => c.Name) = ["readme", "README"] ∧
    (RendererStats.sortNode reversingSlice lowerText bySize
        (RendererStats.sortNode reversingSlice lowerText bySize tiedTree)).Children.map
        (fun c => c.Name) = ["README", "readme"] ∧
    RendererStats.sortNode reversingSlice lowerText bySize
        (RendererStats.sortNode reversingSlice lowerText bySize tiedTree)
      ≠ RendererStats.sortNode reversingSlice lowerText bySize tiedTree ∧
    RendererStats.sortNode reversingSlice lowerText byDate
        (RendererStats.sortNode reversingSlice lowerText byDate tiedTree)
      ≠ RendererStats.sortNode reversingSlice lowerText byDate tiedTree := by
  refine ⟨reversingSlice_contract, by decide, by decide, ?_, ?_⟩
  · intro h
    have := congrArg (fun n : Node => n.Children.map (fun c => c.Name)) h
    revert this
    decide
  · intro h
    have := congrArg (fun n : Node => n.Children.map (fun c => c.Name)) h
    revert this
    decide

/-- C8 as amended: for every `sort.Slice` that meets its contract, every tree in which no
two children of a node compare equal under the key, and every sort key, `sortNode`
applied twice gives the same tree, hence the same `Children` order at every node, as
`sortNode` applied once. -/
theorem sortNode_idempotent (Slice : (Node → Node → Bool) → List Node → List Node)
    (ToLower : String → String) (r : RendererStats) (root : Node)
    (hc : SliceContract Slice)
    (hties : ∀ n ∈ root :: descendants root,
      n.Children.Pairwise (fun a b =>
        RendererStats.less ToLower r.sortBy a b = true ∨
        RendererStats.less ToLower r.sortBy b a = true)) :
    RendererStats.sortNode Slice ToLower r (RendererStats.sortNode Slice ToLower r root)
      = RendererStats.sortNode Slice ToLower r root := by
  have hp : Permutes Slice := fun l x => (hc l x).1
  have hsw := less_strictWeak ToLower r.sortBy
  have main : ∀ n (node : Node), height node < n →
      (∀ m ∈ node :: descendants node,
        m.Children.Pairwise (fun a b =>
          RendererStats.less ToLower r.sortBy a b = true ∨
          RendererStats.less ToLower r.sortBy b a = true)) →
      RendererStats.sortNode Slice ToLower r (RendererStats.sortNode Slice ToLower r node)
        = RendererStats.sortNode Slice ToLower r node := by
    intro n
    induction n with
    | zero => intro node h; omega
    | succ n ih =>
      intro node h hno
      cases hs : (r.sortBy == "")
      · have hch := sortNode_children Slice ToLower r hp node hs
        have hord : Ordered (RendererStats.less ToLower r.sortBy)
            (RendererStats.sortNode Slice ToLower r node).Children :=
          sortNode_ordered Slice ToLower r hc hs [] node _ rfl
        have hd : (RendererStats.sortNode Slice ToLower r node).Children.Pairwise (fun a b =>
            RendererStats.less ToLower r.sortBy a b = true ∨
            RendererStats.less ToLower r.sortBy b a = true) := by
          rw [hch, List.pairwise_map]
          have h0 := hno node (List.mem_cons_self _ _)
          have h1 : (Slice (RendererStats.less ToLower r.sortBy) node.Children).Pairwise
              (fun a b =>
                RendererStats.less ToLower r.sortBy a b = true ∨
                RendererStats.less ToLower r.sortBy b a = true) :=
            ((hp (RendererStats.less ToLower r.sortBy) node.Children).pairwise_iff
              (fun {_ _} h => h.symm)).2 h0
          refine h1.imp ?_
          intro a b hab
          rw [sortNode_less, sortNode_less]
          exact hab
        have hfix : Slice (RendererStats.less ToLower r.sortBy)
            (RendererStats.sortNode Slice ToLower r node).Children
            = (RendererStats.sortNode Slice ToLower r node).Children :=
          ordered_perm_unique _ hsw _ _ (hp _ _) ((hc _ _).2 hsw) hord hd
        rw [sortNode_eq Slice ToLower r hp (RendererStats.sortNode Slice ToLower r node), hs]
        simp only [Bool.false_eq_true, if_false]
        rw [hfix]
        have hmap : (RendererStats.sortNode Slice ToLower r node).Children.map
            (RendererStats.sortNode Slice ToLower r)
            = (RendererStats.sortNode Slice ToLower r node).Children := by
          rw [hch, List.map_map]
          apply List.map_congr_left
          intro c hcm
          have hmem : c ∈ node.Children := ((hp _ _).mem_iff).1 hcm
          have := height_child_lt node c hmem
          exact ih c (by omega) (fun m hm => hno m (descendants_child node c hmem m hm))
        rw [hmap]
        cases RendererStats.sortNode Slice ToLower r node
        rfl
      · rw [sortNode_eq Slice ToLower r hp node, hs, if_pos rfl,
          sortNode_eq Slice ToLower r hp node, hs, if_pos rfl]
  exact main _ root (Nat.lt_succ_self _) hties

/-- Witness for the amended C8: the example tree, whose siblings have different sizes,
sorted twice by size with a sort that reverses equal elements. -/
theorem sortNode_idempotent_witness :
    RendererStats.sortNode reversingSlice lowerText bySize
        (RendererStats.sortNode reversingSlice lowerText bySize exampleTree)
      = RendererStats.sortNode reversingSlice lowerText bySize exampleTree :=
  sortNode_idempotent reversingSlice lowerText bySize exampleTree reversingSlice_contract
    (by decide)

/-- What `sortNode` does with `sortBy = "size"`: at every node the children are in
descending order of their own `Size` field, directories included. -/
theorem sortNode_size_desc (Slice : (Node → Node → Bool) → List Node → List Node)
    (ToLower : String → String) (r : RendererStats) (root : Node)
    (hc : SliceContract Slice) (hsize : r.sortBy = "size") :
    ∀ p n, nodeAt (RendererStats.sortNode Slice ToLower r root) p = some n →
      List.Chain' (fun a b => a.Size ≥ b.Size) n.Children := by
  have hs : (r.sortBy == "") = false := by rw [hsize]; decide
  intro p n hn
  have := sortNode_ordered Slice ToLower r hc hs p root n hn
  refine List.Chain'.imp ?_ this
  intro a b hab
  have h1 : (r.sortBy == "size") = true := by rw [hsize]; decide
  simpa [RendererStats.less, h1] using hab

/-- C7 fails on the code: `sortNode` with `sortBy = "size"` compares the `Size` field of
the children, also for directories. For `root/{a.txt (100), d/{x.bin (10)}}`, where the
directory entry `d` itself has size 4096, the children end up in the order `d`, `a.txt`,
while their comparison sizes 10 and 100 are not in descending order. -/
theorem sortNode_size_dirFirstTree :
    (RendererStats.sortNode (sortSlice xorshiftNext) asciiToLower bySize dirFirstTree).Children.map
        (fun c => c.Name) = ["d", "a.txt"] ∧
    (RendererStats.sortNode (sortSlice xorshiftNext) asciiToLower bySize dirFirstTree).Children.map
        comparisonSize = [10, 100] ∧
    ¬ List.Chain' (fun a b : Int => a ≥ b)
        ((RendererStats.sortNode (sortSlice xorshiftNext) asciiToLower bySize
          dirFirstTree).Children.map comparisonSize) := by
  have h2 : (RendererStats.sortNode (sortSlice xorshiftNext) asciiToLower bySize
      dirFirstTree).Children.map comparisonSize = [10, 100] := by decide
  refine ⟨by decide, h2, ?_⟩
  rw [h2]
  simp

/-- C9 fails on the code: in a directory of thirteen files, `small` (size 1) followed by
`f01` .. `f12` (size 5 each), sorting by size moves `f06` in front of `f01` .. `f05`,
although all twelve compare equal and `f01` stood before `f06`. -/
theorem sortNode_unstable_thirteenTree :
    (RendererStats.sortNode (sortSlice xorshiftNext) asciiToLower bySize thirteenTree).Children.map
        (fun c => c.Name)
      = ["f06", "f01", "f02", "f03", "f04", "f05", "f07", "f08", "f09", "f10", "f11", "f12",
          "small"] ∧
    ¬ StableAt (sortSlice xorshiftNext) asciiToLower bySize thirteenTree := by
  refine ⟨by decide, ?_⟩
  intro h
  have hin : List.Sublist [fileNode "f01" 5 1, fileNode "f06" 5 1] thirteenTree.Children :=
    List.Sublist.cons _ (List.Sublist.cons₂ _ (List.Sublist.cons _ (List.Sublist.cons _
      (List.Sublist.cons _ (List.Sublist.cons _ (List.Sublist.cons₂ _ (List.nil_sublist _)))))))
  have h' := (h (fileNode "f01" 5 1) (fileNode "f06" 5 1) (by decide) (by decide) hin).map
    (fun c => c.Name)
  revert h'
  decide

/-- C9 as amended: `sortNode` places the children by the key alone. For every
`sort.Slice` that meets its contract and each of the keys name, size and date, a child
that is `less` than another child of the same node stands before it after the sort,
whatever their order before; and the children that compare equal to a given node are
after the sort the same children as before, in an order the contract leaves open. -/
theorem sortNode_orders_unequal (Slice : (Node → Node → Bool) → List Node → List Node)
    (ToLower : String → String) (r : RendererStats) (node : Node)
    (hc : SliceContract Slice) (hs : r.sortBy ≠ "") :
    (∀ x y, x ∈ node.Children → y ∈ node.Children →
      RendererStats.less ToLower r.sortBy x y = true →
      List.Sublist
        [RendererStats.sortNode Slice ToLower r x, RendererStats.sortNode Slice ToLower r y]
        (RendererStats.sortNode Slice ToLower r node).Children) ∧
    (∀ x : Node,
      ((RendererStats.sortNode Slice ToLower r node).Children.filter (fun c =>
          !RendererStats.less ToLower r.sortBy x c && !RendererStats.less ToLower r.sortBy c x)).Perm
        ((node.Children.filter (fun c =>
          !RendererStats.less ToLower r.sortBy x c
            && !RendererStats.less ToLower r.sortBy c x)).map
          (RendererStats.sortNode Slice ToLower r))) := by
  have hp : Permutes Slice := fun l x => (hc l x).1
  have hsw := less_strictWeak ToLower r.sortBy
  have hs' : (r.sortBy == "") = false := by simpa using hs
  have hch := sortNode_children Slice ToLower r hp node hs'
  have hord : Ordered (RendererStats.less ToLower r.sortBy)
      (RendererStats.sortNode Slice ToLower r node).Children :=
    sortNode_ordered Slice ToLower r hc hs' [] node _ rfl
  refine ⟨?_, ?_⟩
  · intro x y hx hy hxy
    have hmem : ∀ c, c ∈ node.Children → RendererStats.sortNode Slice ToLower r c
        ∈ (RendererStats.sortNode Slice ToLower r node).Children := by
      intro c hcm
      rw [hch]
      exact List.mem_map_of_mem _ (((hp _ _).mem_iff).2 hcm)
    exact sublist_of_less _ hsw.1 _ _ (by rw [sortNode_less]; exact hxy) _
      (ordered_pairwise _ hsw _ hord) (hmem x hx) (hmem y hy)
  · intro x
    rw [hch, List.filter_map]
    refine List.Perm.map _ ?_
    have hfun : ((fun c => !RendererStats.less ToLower r.sortBy x c
          && !RendererStats.less ToLower r.sortBy c x)
        ∘ RendererStats.sortNode Slice ToLower r)
        = (fun c => !RendererStats.less ToLower r.sortBy x c
          && !RendererStats.less ToLower r.sortBy c x) := by
      funext c
      obtain ⟨h1, _, _, _, h2, h3, _⟩ := sortNode_fields Slice ToLower r c
      simp only [Function.comp, RendererStats.less, h1, h2, h3]
    rw [hfun]
    exact (hp _ _).filter _

/-- Witness for the amended C9: the directory of thirteen files, twelve of which have the
same size, sorted by size with a sort that reverses equal elements: `f01` ends before
`small`, and the files of the size of `f01` are the same twelve. -/
theorem sortNode_orders_unequal_witness :
    List.Sublist
      [RendererStats.sortNode reversingSlice lowerText bySize (fileNode "f01" 5 1),
        RendererStats.sortNode reversingSlice lowerText bySize (fileNode "small" 1 1)]
      (RendererStats.sortNode reversingSlice lowerText bySize thirteenTree).Children ∧
    ((RendererStats.sortNode reversingSlice lowerText bySize thirteenTree).Children.filter
        (fun c => !RendererStats.less lowerText bySize.sortBy (fileNode "f01" 5 1) c
          && !RendererStats.less lowerText bySize.sortBy c (fileNode "f01" 5 1))).Perm
      ((thirteenTree.Children.filter
        (fun c => !RendererStats.less lowerText bySize.sortBy (fileNode "f01" 5 1) c
          && !RendererStats.less lowerText bySize.sortBy c (fileNode "f01" 5 1))).map
        (RendererStats.sortNode reversingSlice lowerText bySize)) :=
  ⟨(sortNode_orders_unequal reversingSlice lowerText bySize thirteenTree
      reversingSlice_contract (by decide)).1 (fileNode "f01" 5 1) (fileNode "small" 1 1)
      (by simp [thirteenTree]) (by simp [thirteenTree]) (by decide),
    (sortNode_orders_unequal reversingSlice lowerText bySize thirteenTree
      reversingSlice_contract (by decide)).2 (fileNode "f01" 5 1)⟩

/-! ## Claims on `FormatSize` -/

/-- The unit loop started with enough fuel multiplies `div` by `1024` and adds one to
`exp` once for every division of `n` by `1024` that leaves at least `1024`. -/
theorem unitLoop_spec : ∀ (fuel : Nat) (n div : Int) (exp : Nat), 0 ≤ n → n.toNat ≤ fuel →
    ∃ k : Nat, unitLoop fuel n div exp = (div * 1024 ^ k, exp + k) ∧
      n < 1024 ^ (k + 1) ∧ (k = 0 ∨ (1024 : Int) ^ k ≤ n) := by
  intro fuel
  induction fuel with
  | zero =>
    intro n div exp h0 hf
    refine ⟨0, by simp [unitLoop], by omega, Or.inl rfl⟩
  | succ fuel ih =>
    intro n div exp h0 hf
    rw [unitLoop]
    by_cases hn : n ≥ 1024
    · rw [if_pos hn, Int.tdiv_eq_ediv h0 (by decide)]
      obtain ⟨k, hk, hlt, hge⟩ := ih (n / 1024) (div * 1024) (exp + 1) (by omega) (by omega)
      refine ⟨k + 1, ?_, ?_, Or.inr ?_⟩
      · rw [hk, pow_succ, Nat.add_assoc, Nat.add_comm 1 k]
        congr 1
        ring
      · rw [pow_succ]
        omega
      · rw [pow_succ]
        rcases hge with hge | hge
        · subst hge
          simpa using hn
        · omega
    · rw [if_neg hn]
      refine ⟨0, by simp, by omega, Or.inl rfl⟩

/-- For an `int64` argument of at least `1024` the unit loop of `FormatSize` and
`FormatSizeCompact` picks the largest power of `1024` that does not exceed the argument,
and an exponent of at most `5`. -/
theorem unitLoop_choice (bytes : Int) (h1 : 1024 ≤ bytes) (h2 : bytes < 2 ^ 63) :
    ∃ e : Nat, e ≤ 5 ∧
      unitLoop bytes.toNat (Int.tdiv bytes 1024) 1024 0 = ((1024 : Int) ^ (e + 1), e) ∧
      (1024 : Int) ^ (e + 1) ≤ bytes ∧ bytes < 1024 ^ (e + 2) := by
  obtain ⟨k, hk, hlt, hge⟩ := unitLoop_spec bytes.toNat (Int.tdiv bytes 1024) 1024 0
    (by rw [Int.tdiv_eq_ediv (by omega) (by decide)]; omega)
    (by rw [Int.tdiv_eq_ediv (by omega) (by decide)]; omega)
  rw [Int.tdiv_eq_ediv (by omega) (by decide)] at hlt hge
  have hlow : (1024 : Int) ^ (k + 1) ≤ bytes := by
    rw [pow_succ]
    rcases hge with hge | hge
    · subst hge
      simpa using h1
    · omega
  have hhigh : bytes < (1024 : Int) ^ (k + 2) := by
    rw [pow_succ]
    omega
  have hk5 : k ≤ 5 := by
    by_contra hc
    have h7 : (1024 : Int) ^ 7 ≤ 1024 ^ (k + 1) :=
      pow_le_pow_right₀ (by decide) (by omega)
    have : (1024 : Int) ^ 7 ≤ bytes := le_trans h7 hlow
    norm_num at this h2
    omega
  refine ⟨k, hk5, ?_, hlow, hhigh⟩
  rw [hk, pow_succ]
  simp [mul_comm]

/-- The verb `%.1f`: the text is a whole part, a point and one digit, and the number it
reads as is a nearest tenth of the quotient. -/
theorem formatFixed1_spec (num den : Int) (hden : 0 < den) (hnum : 0 ≤ num) :
    ∃ w d : Int, 0 ≤ w ∧ 0 ≤ d ∧ d ≤ 9 ∧
      2 * ((10 * w + d) * den - 10 * num) ≤ den ∧
      -den ≤ 2 * ((10 * w + d) * den - 10 * num) ∧
      formatFixed1 num den = toString w ++ "." ++ toString d := by
  have hdm := Int.ediv_add_emod (10 * num) den
  have hr0 := Int.emod_nonneg (10 * num) (ne_of_gt hden)
  have hr1 := Int.emod_lt_of_pos (10 * num) hden
  have hq0 : 0 ≤ (10 * num) / den := Int.ediv_nonneg (by omega) (le_of_lt hden)
  unfold formatFixed1
  dsimp only
  generalize (10 * num) / den = q at *
  generalize (10 * num) % den = r at *
  by_cases hup : 2 * r > den ∨ (2 * r = den ∧ q % 2 = 1)
  · rw [if_pos hup]
    refine ⟨(q + 1) / 10, (q + 1) % 10, by omega, by omega, by omega, ?_, ?_, rfl⟩
    · rw [show 10 * ((q + 1) / 10) + (q + 1) % 10 = q + 1 by omega]
      have : (q + 1) * den = den * q + den := by ring
      rw [this]
      omega
    · rw [show 10 * ((q + 1) / 10) + (q + 1) % 10 = q + 1 by omega]
      have : (q + 1) * den = den * q + den := by ring
      rw [this]
      omega
  · rw [if_neg hup]
    refine ⟨q / 10, q % 10, by omega, by omega, by omega, ?_, ?_, rfl⟩
    · rw [show 10 * (q / 10) + q % 10 = q by omega, mul_comm q den]
      omega
    · rw [show 10 * (q / 10) + q % 10 = q by omega, mul_comm q den]
      omega

/-- The conversion `float64(bytes)` keeps every value below `2^53` and moves a larger
`int64` value by at most `512`. -/
theorem toFloat64_near (bytes : Int) (h0 : 0 ≤ bytes) (h2 : bytes < 2 ^ 63) :
    (bytes < 2 ^ 53 → toFloat64 bytes = bytes) ∧
    toFloat64 bytes - bytes ≤ 512 ∧ bytes - toFloat64 bytes ≤ 512 ∧ 0 ≤ toFloat64 bytes := by
  unfold toFloat64
  by_cases h53 : bytes < 2 ^ 53
  · rw [if_pos h53]
    exact ⟨fun _ => rfl, by omega, by omega, h0⟩
  · rw [if_neg h53]
    refine ⟨fun h => absurd h h53, ?_⟩
    norm_num at h53 h2
    have hfind : ∃ e : Nat, 1 ≤ e ∧ e ≤ 10 ∧
        ((List.range 12).find? (fun e => decide (bytes < 2 ^ (53 + e)))).getD 11 = e := by
      simp only [List.range, List.range.loop, List.find?]
      norm_num only
      repeat' split
      all_goals simp only [decide_eq_true_eq, decide_eq_false_iff_not] at *
      all_goals first
        | (exfalso; omega)
        | (simp only [Option.getD_some]; refine ⟨_, ?_, ?_, rfl⟩ <;> omega)
    obtain ⟨e, he1, he10, hfe⟩ := hfind
    rw [hfe]
    dsimp only
    clear hfe
    interval_cases e <;> norm_num only <;> split_ifs <;> omega

/-- C11: `FormatSize(0) = "0 B"`, `FormatSize(1023) = "1023 B"`, `FormatSize(1024) =
"1.0 KB"` and `FormatSize(1536) = "1.5 KB"`. For every `bytes < 1024` the result is the
decimal byte count followed by `" B"`. For every `int64` value `bytes >= 1024` the result
is a whole part, a point, one digit, a space, the letter `"KMGTPE"[e]` and `"B"`, where
`1024^(e+1)` is the largest power of `1024` not exceeding `bytes` and the printed number
is a nearest tenth of `float64(bytes) / 1024^(e+1)`; `float64(bytes)` is `bytes` below
`2^53` and at most `512` away from it above. -/
theorem FormatSize_units :
    FormatSize 0 = "0 B" ∧ FormatSize 1023 = "1023 B" ∧ FormatSize 1024 = "1.0 KB" ∧
    FormatSize 1536 = "1.5 KB" ∧
    (∀ bytes : Int, bytes < 1024 → FormatSize bytes = toString bytes ++ " B") ∧
    (∀ bytes : Int, 1024 ≤ bytes → bytes < 2 ^ 63 →
      ∃ (e : Nat) (c : Char) (w d : Int),
        "KMGTPE".data[e]? = some c ∧
        (1024 : Int) ^ (e + 1) ≤ bytes ∧ bytes < 1024 ^ (e + 2) ∧
        0 ≤ w ∧ 0 ≤ d ∧ d ≤ 9 ∧
        2 * ((10 * w + d) * 1024 ^ (e + 1) - 10 * toFloat64 bytes) ≤ 1024 ^ (e + 1) ∧
        -(1024 : Int) ^ (e + 1) ≤ 2 * ((10 * w + d) * 1024 ^ (e + 1) - 10 * toFloat64 bytes) ∧
        (bytes < 2 ^ 53 → toFloat64 bytes = bytes) ∧
        toFloat64 bytes - bytes ≤ 512 ∧ bytes - toFloat64 bytes ≤ 512 ∧
        FormatSize bytes
          = toString w ++ "." ++ toString d ++ " " ++ String.singleton c ++ "B") := by
  refine ⟨by decide, by decide, by decide, by decide, ?_, ?_⟩
  · intro bytes h
    rw [FormatSize, if_pos h]
  · intro bytes h1 h2
    obtain ⟨e, he, hloop, hlow, hhigh⟩ := unitLoop_choice bytes h1 h2
    obtain ⟨hexact, hn1, hn2, hn0⟩ := toFloat64_near bytes (by omega) h2
    obtain ⟨w, d, hw, hd0, hd9, hr1, hr2, hfmt⟩ :=
      formatFixed1_spec (toFloat64 bytes) ((1024 : Int) ^ (e + 1)) (by positivity) hn0
    have hc : "KMGTPE".data[e]? = some (unitLetter e) := by
      unfold unitLetter
      interval_cases e <;> rfl
    refine ⟨e, unitLetter e, w, d, hc, hlow, hhigh, hw, hd0, hd9, hr1, hr2, hexact, hn1, hn2,
      ?_⟩
    rw [FormatSize, if_neg (by omega)]
    dsimp only
    rw [hloop, hfmt]

/-- Witness for C11: `1536` bytes are `1.5` units of `1024^1`, letter `K`. -/
theorem FormatSize_units_witness :
    ∃ (e : Nat) (c : Char) (w d : Int),
      "KMGTPE".data[e]? = some c ∧
      (1024 : Int) ^ (e + 1) ≤ 1536 ∧ (1536 : Int) < 1024 ^ (e + 2) ∧
      0 ≤ w ∧ 0 ≤ d ∧ d ≤ 9 ∧
      2 * ((10 * w + d) * 1024 ^ (e + 1) - 10 * toFloat64 1536) ≤ 1024 ^ (e + 1) ∧
      -(1024 : Int) ^ (e + 1) ≤ 2 * ((10 * w + d) * 1024 ^ (e + 1) - 10 * toFloat64 1536) ∧
      ((1536 : Int) < 2 ^ 53 → toFloat64 1536 = 1536) ∧
      toFloat64 1536 - 1536 ≤ 512 ∧ 1536 - toFloat64 1536 ≤ 512 ∧
      FormatSize 1536
        = toString w ++ "." ++ toString d ++ " " ++ String.singleton c ++ "B" :=
  FormatSize_units.2.2.2.2.2 1536 (by decide) (by decide)

/-! ## Claims on the exports -/

theorem written_cons (l : String) (t : List String) :
    written (l :: t) = l ++ "\n" ++ written t := rfl

theorem written_append (a b : List String) : written (a ++ b) = written a ++ written b := by
  induction a with
  | nil => simp [written, str_empty_append]
  | cons l t ih =>
    rw [List.cons_append, written_cons, written_cons, ih]
    simp only [String.append_assoc]

theorem spaces_succ (n : Nat) : spaces (2 * (n + 1)) = "  " ++ spaces (2 * n) := by
  apply String.ext
  simp [spaces, Nat.mul_add, List.replicate_succ]

theorem plainLineAt_single (node c : Node) (i : Nat) (h : node.Children[i]? = some c) :
    plainLineAt node [i] = "  " ++ c.Name := by
  simp [plainLineAt, nameAt, nodeAt, h, spaces]

theorem plainLineAt_cons (node c : Node) (i j : Nat) (q : List Nat)
    (h : node.Children[i]? = some c) :
    plainLineAt node (i :: j :: q) = "  " ++ plainLineAt c (j :: q) := by
  simp only [plainLineAt, nameAt, nodeAt_cons node c i (j :: q) h, List.length_cons,
    spaces_succ, String.append_assoc]

theorem renderPlainNode_eq (node : Node) (pfx : String) (skipRoot : Bool) :
    renderPlainNode node pfx skipRoot
      = (if skipRoot then "" else pfx ++ node.Name ++ "\n")
        ++ renderPlainNode.loop node.Children pfx := by
  cases node
  cases skipRoot <;> simp [renderPlainNode]

theorem renderPlainNode_loop_cons (child : Node) (tl : List Node) (pfx : String) :
    renderPlainNode.loop (child :: tl) pfx
      = renderPlainNode child (pfx ++ "  ") false ++ renderPlainNode.loop tl pfx := by
  rw [renderPlainNode.loop]

mutual
theorem renderPlainNode_loop_all (node : Node) (pfx : String) :
    renderPlainNode.loop node.Children pfx
      = written ((positions node).map (fun p => pfx ++ plainLineAt node p)) :=
  match node with
  | ⟨nm, pa, d, sl, children, sz, mt, mo⟩ => by
    have := renderPlainNode_loop_from children ⟨nm, pa, d, sl, children, sz, mt, mo⟩ 0 pfx
      (by simp)
    simpa [positions] using this
theorem renderPlainNode_loop_from (rest : List Node) (node : Node) (i : Nat) (pfx : String)
    (h : node.Children.drop i = rest) :
    renderPlainNode.loop rest pfx
      = written ((positions.from rest i).map (fun p => pfx ++ plainLineAt node p)) :=
  match rest with
  | [] => by simp [renderPlainNode.loop, positions.from, written]
  | child :: tl => by
    have hi : node.Children[i]? = some child := by
      rw [← List.head?_drop, h]; rfl
    have htl : node.Children.drop (i + 1) = tl := by
      rw [← List.drop_drop, h]; rfl
    have ih1 := renderPlainNode_loop_all child (pfx ++ "  ")
    have ih2 := renderPlainNode_loop_from tl node (i + 1) pfx htl
    rw [renderPlainNode_loop_cons, positions.from, ih2, renderPlainNode_eq, ih1]
    simp only [List.map_append, List.map_cons, List.map_map, Bool.false_eq_true, if_false,
      List.cons_append, written_cons, written_append, String.append_assoc]
    rw [plainLineAt_single node _ i hi]
    simp only [String.append_assoc]
    congr 6
    apply List.map_congr_left
    intro q hq
    have hne := positions_ne_nil _ q hq
    obtain ⟨j, r, rfl⟩ : ∃ j r, q = j :: r := by
      cases q with
      | nil => exact absurd rfl hne
      | cons j r => exact ⟨j, r, rfl⟩
    simp only [Function.comp, plainLineAt_cons node _ i j r hi, String.append_assoc]
end

/-- C12: `ExportToPlain` writes one line for every node below the root and none for the
root, in depth-first pre-order following `Children` order; the line of the node at
position `p`, whose depth is the length of `p`, is twice that many spaces followed by the
node's `Name`. -/
theorem ExportToPlain_lines (root : Node) :
    ExportToPlain root = written ((positions root).map (plainLineAt root)) ∧
    (∀ p, plainLineAt root p = spaces (2 * p.length) ++ nameAt root p) ∧
    (∀ p, p ∈ positions root ↔ p ≠ [] ∧ (nodeAt root p).isSome = true) := by
  refine ⟨?_, fun _ => rfl, ?_⟩
  · rw [ExportToPlain, renderPlainNode_eq, renderPlainNode_loop_all]
    simp [str_empty_append]
  · intro p
    exact mem_positions root p

mutual
theorem renderMarkdownNode_written (node : Node) (pfx : String) (isLast skipRoot : Bool) :
    renderMarkdownNode node pfx isLast skipRoot
      = written (Renderer.renderNode node pfx isLast skipRoot) :=
  match node with
  | ⟨nm, pa, d, sl, children, sz, mt, mo⟩ => by
    have ih := renderMarkdownNode_loop_written children 0 children.length pfx isLast skipRoot
    rw [renderMarkdownNode, Renderer.renderNode, ih, written_append]
    cases skipRoot <;> cases isLast <;>
      simp [written, TreeBranch, TreeLast, str_append_empty, str_empty_append]
theorem renderMarkdownNode_loop_written (rest : List Node) (i n : Nat) (pfx : String)
    (isLast skipRoot : Bool) :
    renderMarkdownNode.loop rest i n pfx isLast skipRoot
      = written (Renderer.renderNode.loop rest i n pfx isLast skipRoot) :=
  match rest with
  | [] => by simp [renderMarkdownNode.loop, Renderer.renderNode.loop, written]
  | child :: tl => by
    have ih1 := renderMarkdownNode_written child
      (if !skipRoot then (if isLast then pfx ++ "    " else pfx ++ "│   ") else pfx)
      (i == n - 1) false
    have ih2 := renderMarkdownNode_loop_written tl (i + 1) n pfx isLast skipRoot
    rw [renderMarkdownNode.loop, Renderer.renderNode.loop, written_append, ih1, ih2]
    rfl
end

/-- C15: the output of `ExportToMarkdown` is the heading line `# Directory Tree: ` with
the root's `Name`, an empty line, a line of three backquotes, then the lines that
`Renderer.RenderTree(root, true)` writes after its first line, the root line, unchanged
and in the same order, then a closing line of three backquotes. -/
theorem ExportToMarkdown_lines (root : Node) :
    ExportToMarkdown root
      = written (["# Directory Tree: " ++ root.Name, "", "```"]
          ++ (Renderer.RenderTree root true).tail ++ ["```"]) ∧
    (Renderer.RenderTree root true).head? = some root.Name ∧
    (Renderer.RenderTree root true).tail = (positions root).map (lineAt root) := by
  have h : Renderer.RenderTree root true = root.Name :: (positions root).map (lineAt root) :=
    RenderTree_showRoot root
  have h2 : Renderer.renderNode root "" true true = (positions root).map (lineAt root) := by
    rw [renderNode_skip]
    simp [str_empty_append]
  refine ⟨?_, by rw [h]; rfl, by rw [h]; rfl⟩
  rw [h, List.tail_cons, ExportToMarkdown, renderMarkdownNode_written, h2]
  simp only [written_append, written_cons, List.cons_append, List.nil_append]
  apply String.ext
  simp [written]

theorem nodeToJSON_loop_map (Format : String → Int → String) (rest : List Node) :
    nodeToJSON.loop Format rest = rest.map (nodeToJSON Format) := by
  induction rest with
  | nil => rw [nodeToJSON.loop]; rfl
  | cons c tl ih => rw [nodeToJSON.loop, ih]; rfl

theorem nodeToJSON_Children (Format : String → Int → String) (node : Node) :
    (nodeToJSON Format node).Children
      = if node.Children.length > 0 then some (node.Children.map (nodeToJSON Format))
        else none := by
  cases node with
  | mk nm pa d sl children sz mt mo =>
    rw [nodeToJSON, nodeToJSON_loop_map]
    cases children with
    | nil => cases sl <;> cases d <;> simp
    | cons c tl => cases sl <;> cases d <;> simp

theorem nodeToJSON_fields (Format : String → Int → String) (node : Node) :
    (nodeToJSON Format node).Name = node.Name ∧ (nodeToJSON Format node).Path = node.Path ∧
    (nodeToJSON Format node).Type_
      = (if node.IsSymlink then "symlink" else if node.IsDir then "directory" else "file") ∧
    (nodeToJSON Format node).Size
      = (if node.IsSymlink = false ∧ node.IsDir = false then node.Size else 0) ∧
    (nodeToJSON Format node).ModTime
      = (if node.IsSymlink = false ∧ node.IsDir = false then Format RFC3339 node.ModTime
          else "") := by
  cases node with
  | mk nm pa d sl children sz mt mo =>
    rw [nodeToJSON]
    cases children <;> cases sl <;> cases d <;> simp

/-- C13: for every node, the `JSONNode` that `nodeToJSON` produces has no `children`
slice (`nil`, so the key is omitted) when the node has no children, and otherwise a slice
of as many entries as the node has `Children`, the `i`-th being the conversion of the
`i`-th child; so every node of the JSON tree is the conversion of the node at the same
position of the source tree. -/
theorem nodeToJSON_children (Format : String → Int → String) (node : Node) :
    (node.Children = [] →
      (nodeToJSON Format node).Children = none ∧
      "children" ∉ (nodeToJSON Format node).keys) ∧
    (node.Children ≠ [] →
      ∃ cs, (nodeToJSON Format node).Children = some cs ∧
        cs.length = node.Children.length ∧
        (∀ i : Nat, cs[i]? = (node.Children[i]?).map (nodeToJSON Format)) ∧
        "children" ∈ (nodeToJSON Format node).keys) ∧
    (∀ p, jsonAt (nodeToJSON Format node) p = (nodeAt node p).map (nodeToJSON Format)) := by
  have hkeys : ∀ j : JSONNode, "children" ∈ j.keys ↔ ∃ c cs, j.Children = some (c :: cs) := by
    intro j
    unfold JSONNode.keys
    rcases hj : j.Children with _ | (_ | ⟨c, cs⟩) <;>
      by_cases h1 : j.Size = 0 <;> by_cases h2 : j.ModTime = "" <;> simp [h1, h2]
  refine ⟨?_, ?_, ?_⟩
  · intro h
    have hc := nodeToJSON_Children Format node
    rw [if_neg (by simp [h])] at hc
    refine ⟨hc, ?_⟩
    rw [hkeys, hc]
    simp
  · intro h
    have hc := nodeToJSON_Children Format node
    rw [if_pos (List.length_pos.2 h)] at hc
    refine ⟨_, hc, by simp, fun i => by simp, ?_⟩
    rw [hkeys, hc]
    obtain ⟨c, cs, hcs⟩ := List.exists_cons_of_ne_nil h
    exact ⟨nodeToJSON Format c, cs.map (nodeToJSON Format), by rw [hcs]; rfl⟩
  · intro p
    induction p generalizing node with
    | nil => rfl
    | cons i rest ih =>
      rw [jsonAt, nodeAt, nodeToJSON_Children]
      by_cases h : node.Children = []
      · rw [if_neg (by simp [h]), h]
        simp
      · rw [if_pos (List.length_pos.2 h)]
        simp only [List.getElem?_map]
        cases hi : node.Children[i]? with
        | none => simp
        | some c => simpa using ih c

/-- Witness for C13: the root of `root/{a.txt, sub/{b.txt}}` has a `children` slice of two
entries. -/
theorem nodeToJSON_children_witness :
    ∃ cs, (nodeToJSON fixedFormat exampleTree).Children = some cs ∧
      cs.length = exampleTree.Children.length ∧
      (∀ i : Nat, cs[i]? = (exampleTree.Children[i]?).map (nodeToJSON fixedFormat)) ∧
      "children" ∈ (nodeToJSON fixedFormat exampleTree).keys :=
  (nodeToJSON_children fixedFormat exampleTree).2.1 (by simp [exampleTree])

theorem mem_keys (j : JSONNode) :
    ("size" ∈ j.keys ↔ j.Size ≠ 0) ∧ ("modTime" ∈ j.keys ↔ j.ModTime ≠ "") := by
  unfold JSONNode.keys
  rcases hj : j.Children with _ | (_ | ⟨c, cs⟩) <;>
    by_cases h1 : j.Size = 0 <;> by_cases h2 : j.ModTime = "" <;> simp [h1, h2]

/-- C14 fails on the code: a regular file of size `0` is exported without the key `size`,
and a symbolic link to a file is exported without `size` and without `modTime`, although
neither is a directory. -/
theorem nodeToJSON_keys_emptyFile_linkToFile :
    emptyFile.IsDir = false ∧
    (nodeToJSON fixedFormat emptyFile).keys = ["name", "path", "type", "modTime"] ∧
    linkToFile.IsDir = false ∧
    (nodeToJSON fixedFormat linkToFile).keys = ["name", "path", "type"] := by
  decide

/-- C14 as amended: `modTime` is emitted exactly for the nodes that are neither a
symbolic link nor a directory (type `file`), and `size` exactly for those of them whose
size is not `0`; such a node carries its own `Size` and the RFC3339 text of its `ModTime`.
No directory and no symbolic link has either key. -/
theorem nodeToJSON_size_modTime (Format : String → Int → String) (node : Node)
    (hfmt : ∀ t, Format RFC3339 t ≠ "") :
    ("modTime" ∈ (nodeToJSON Format node).keys
      ↔ node.IsSymlink = false ∧ node.IsDir = false) ∧
    ("size" ∈ (nodeToJSON Format node).keys
      ↔ node.IsSymlink = false ∧ node.IsDir = false ∧ node.Size ≠ 0) ∧
    (node.IsSymlink = false ∧ node.IsDir = false →
      (nodeToJSON Format node).Size = node.Size ∧
      (nodeToJSON Format node).ModTime = Format RFC3339 node.ModTime) := by
  obtain ⟨_, _, _, hsize, hmod⟩ := nodeToJSON_fields Format node
  obtain ⟨k1, k2⟩ := mem_keys (nodeToJSON Format node)
  rw [k1, k2, hsize, hmod]
  by_cases h : node.IsSymlink = false ∧ node.IsDir = false
  · rw [if_pos h, if_pos h]
    exact ⟨⟨fun _ => h, fun _ => hfmt _⟩, ⟨fun hs => ⟨h.1, h.2, hs⟩, fun hs => hs.2.2⟩,
      fun _ => ⟨rfl, rfl⟩⟩
  · rw [if_neg h, if_neg h]
    exact ⟨⟨fun hc => absurd rfl hc, fun hc => absurd hc h⟩,
      ⟨fun hc => absurd rfl hc, fun hc => absurd ⟨hc.1, hc.2.1⟩ h⟩, fun hc => absurd hc h⟩

/-- Witness for the amended C14: the regular file `a.txt` of 10 bytes. -/
theorem nodeToJSON_size_modTime_witness :
    ("modTime" ∈ (nodeToJSON fixedFormat ⟨"a.txt", "/tmp/root", false, false, [], 10, 1, 420⟩).keys
      ↔ false = false ∧ false = false) ∧
    ("size" ∈ (nodeToJSON fixedFormat ⟨"a.txt", "/tmp/root", false, false, [], 10, 1, 420⟩).keys
      ↔ false = false ∧ false = false ∧ (10 : Int) ≠ 0) ∧
    (false = false ∧ false = false →
      (nodeToJSON fixedFormat ⟨"a.txt", "/tmp/root", false, false, [], 10, 1, 420⟩).Size = 10 ∧
      (nodeToJSON fixedFormat ⟨"a.txt", "/tmp/root", false, false, [], 10, 1, 420⟩).ModTime
        = fixedFormat RFC3339 1) :=
  nodeToJSON_size_modTime fixedFormat ⟨"a.txt", "/tmp/root", false, false, [], 10, 1, 420⟩
    (fun _ => by simp [fixedFormat])

/-! ## Claims on the walker -/

theorem GetDepth_loop_eq : ∀ (fuel : Nat) (p : List Nat) (depth : Nat), p.length ≤ fuel →
    GetDepth.loop fuel (parentAt p) depth = depth + p.length := by
  intro fuel
  induction fuel with
  | zero =>
    intro p depth h
    cases p with
    | nil => rfl
    | cons i r => simp at h
  | succ fuel ih =>
    intro p depth h
    cases p with
    | nil => rfl
    | cons i r =>
      rw [parentAt, GetDepth.loop, ih _ _ (by simp at h ⊢; omega)]
      simp
      omega

/-- The depth `GetDepth` counts is the length of the position. -/
theorem GetDepth_eq (p : List Nat) : GetDepth p = p.length := by
  rw [GetDepth, GetDepth_loop_eq _ _ _ (Nat.le_refl _)]
  simp

theorem entryNode_Children (dirPath : String) (type_ : Nat) (info : FileInfo)
    (evalSymlinks : Option String) (stat : Option FileInfo) :
    (entryNode dirPath type_ info evalSymlinks stat).Children = [] := by
  unfold entryNode NewNode
  dsimp only
  split
  · split
    · split <;> rfl
    · rfl
  · rfl

theorem entryNode_Name (dirPath : String) (type_ : Nat) (info : FileInfo)
    (evalSymlinks : Option String) (stat : Option FileInfo) :
    (entryNode dirPath type_ info evalSymlinks stat).Name = info.Name := by
  unfold entryNode NewNode
  dsimp only
  split
  · split
    · split <;> rfl
    · rfl
  · rfl

/-- One round of the loop of `walkDirectory`. -/
theorem walkDirectory_loop_cons (filepath : Filepath) (options : WalkerOptions)
    (name : String) (type_ : Nat) (info? : Option FileInfo) (evalSymlinks : Option String)
    (stat : Option FileInfo) (dir : Dir) (rest : List Entry) (dirPath : String)
    (currentDepth : Nat) :
    walkDirectory.loop filepath options
        (Entry.mk name type_ info? evalSymlinks stat dir :: rest) dirPath currentDepth
      = match skipHidden options name with
        | none => none
        | some true => walkDirectory.loop filepath options rest dirPath currentDepth
        | some false =>
          match info? with
          | none => walkDirectory.loop filepath options rest dirPath currentDepth
          | some info =>
            match (match descendPath (entryNode dirPath type_ info evalSymlinks stat)
                (filepath.Join dirPath name) evalSymlinks stat with
              | some path => walkDirectory filepath options dir path (currentDepth + 1)
              | none => some ([], none)) with
            | none => none
            | some (children, _) =>
              match walkDirectory.loop filepath options rest dirPath currentDepth with
              | some nodes =>
                some ({ entryNode dirPath type_ info evalSymlinks stat with
                  Children := children } :: nodes)
              | none => none := by
  cases hs : skipHidden options name with
  | none => simp only [walkDirectory.loop, hs]
  | some b =>
    cases b with
    | true => simp only [walkDirectory.loop, hs]
    | false =>
      cases info? with
      | none => simp only [walkDirectory.loop, hs]
      | some info => simp only [walkDirectory.loop, hs, entryNode_Children, List.nil_append]

theorem walkDirectory_eq (filepath : Filepath) (options : WalkerOptions) (dir : Dir)
    (dirPath : String) (currentDepth : Nat) :
    walkDirectory filepath options dir dirPath currentDepth
      = if options.MaxDepth > 0 ∧ (currentDepth : Int) ≥ options.MaxDepth then some ([], none)
        else
          match dir with
          | Dir.failed => some ([], none)
          | Dir.listing entries =>
            match walkDirectory.loop filepath options entries dirPath currentDepth with
            | some children => some (children, none)
            | none => none := by
  cases dir <;> simp only [walkDirectory]

theorem truncate_zero (n : Node) : truncate 0 n = { n with Children := [] } := rfl

theorem truncate_succ (k : Nat) (n : Node) :
    truncate (k + 1) n = { n with Children := n.Children.map (truncate k) } := rfl

/-- A tree cut below depth `k` has no node deeper than `k`, and its nodes at depth `k`
have no children. -/
theorem nodeAt_truncate : ∀ (k : Nat) (n : Node) (p : List Nat) (m : Node),
    nodeAt (truncate k n) p = some m → p.length ≤ k ∧ (p.length = k → m.Children = []) := by
  intro k
  induction k with
  | zero =>
    intro n p m h
    cases p with
    | nil =>
      simp only [nodeAt, Option.some.injEq] at h
      subst h
      exact ⟨Nat.le_refl _, fun _ => rfl⟩
    | cons i r => simp [nodeAt, truncate_zero] at h
  | succ k ih =>
    intro n p m h
    cases p with
    | nil => exact ⟨Nat.zero_le _, fun h0 => by simp at h0⟩
    | cons i r =>
      rw [nodeAt, truncate_succ] at h
      simp only [List.getElem?_map] at h
      cases hc : n.Children[i]? with
      | none => simp [hc] at h
      | some c =>
        simp only [hc, Option.map_some'] at h
        have := ih c r m h
        simp only [List.length_cons]
        exact ⟨by omega, fun hl => this.2 (by omega)⟩

/-- The error `walkDirectory` returns is `nil`. -/
theorem walkDirectory_err (filepath : Filepath) (options : WalkerOptions) (dir : Dir)
    (dirPath : String) (currentDepth : Nat) (children : List Node) (err : Option String)
    (h : walkDirectory filepath options dir dirPath currentDepth = some (children, err)) :
    err = none := by
  rw [walkDirectory_eq] at h
  split at h
  · cases h; rfl
  · split at h
    · cases h; rfl
    · split at h
      · cases h; rfl
      · cases h

/-- At or below the depth limit `walkDirectory` adds nothing. -/
theorem walkDirectory_limit (filepath : Filepath) (options : WalkerOptions) (dir : Dir)
    (dirPath : String) (currentDepth : Nat)
    (h : options.MaxDepth > 0 ∧ (currentDepth : Int) ≥ options.MaxDepth) :
    walkDirectory filepath options dir dirPath currentDepth = some ([], none) := by
  rw [walkDirectory_eq, if_pos h]

theorem truncate_fixed (k : Nat) (node : Node) (children : List Node)
    (h0 : k = 0 → children = [])
    (h1 : ∀ c ∈ children, truncate (k - 1) c = c) :
    truncate k { node with Children := children } = { node with Children := children } := by
  cases k with
  | zero => rw [truncate_zero, h0 rfl]
  | succ k =>
    rw [truncate_succ]
    simp only [Nat.add_sub_cancel] at h1
    have : children.map (truncate k) = children := by
      conv_rhs => rw [← List.map_id children]
      exact List.map_congr_left (fun c hc => h1 c hc)
    simp only [this]

mutual
/-- Under the depth limit `D` every child that `walkDirectory` adds at depth
`currentDepth` is a tree of at most `D - currentDepth - 1` further levels. -/
theorem walkDirectory_bounded (filepath : Filepath) (options : WalkerOptions) (D : Nat)
    (hD : options.MaxDepth = (D : Int)) (hD1 : 1 ≤ D) (dir : Dir) (dirPath : String)
    (currentDepth : Nat) (children : List Node) (err : Option String)
    (h : walkDirectory filepath options dir dirPath currentDepth = some (children, err)) :
    (D ≤ currentDepth → children = []) ∧
    ∀ c ∈ children, truncate (D - currentDepth - 1) c = c :=
  match dir with
  | Dir.failed => by
    rw [walkDirectory_eq] at h
    have : children = [] := by
      split at h <;> (cases h; rfl)
    subst this
    exact ⟨fun _ => rfl, fun c hc => by simp at hc⟩
  | Dir.listing entries => by
    rw [walkDirectory_eq] at h
    by_cases hlim : options.MaxDepth > 0 ∧ (currentDepth : Int) ≥ options.MaxDepth
    · rw [if_pos hlim] at h
      cases h
      exact ⟨fun _ => rfl, fun c hc => by simp at hc⟩
    · rw [if_neg hlim] at h
      have hlt : currentDepth < D := by
        rw [hD] at hlim
        omega
      cases hl : walkDirectory.loop filepath options entries dirPath currentDepth with
      | none => simp [hl] at h
      | some cs =>
        simp only [hl, Option.some.injEq, Prod.mk.injEq] at h
        obtain ⟨rfl, _⟩ := h
        exact ⟨fun hc => by omega,
          walkDirectory_loop_bounded filepath options D hD hD1 entries dirPath currentDepth hlt
            cs hl⟩
theorem walkDirectory_loop_bounded (filepath : Filepath) (options : WalkerOptions) (D : Nat)
    (hD : options.MaxDepth = (D : Int)) (hD1 : 1 ≤ D) (entries : List Entry)
    (dirPath : String) (currentDepth : Nat) (hlt : currentDepth < D) (children : List Node)
    (h : walkDirectory.loop filepath options entries dirPath currentDepth = some children) :
    ∀ c ∈ children, truncate (D - currentDepth - 1) c = c :=
  match entries with
  | [] => by
    simp only [walkDirectory.loop, Option.some.injEq] at h
    subst h
    intro c hc
    simp at hc
  | Entry.mk name type_ info? evalSymlinks stat dir :: rest => by
    have ihr := walkDirectory_loop_bounded filepath options D hD hD1 rest dirPath currentDepth hlt
    rw [walkDirectory_loop_cons] at h
    cases hs : skipHidden options name with
    | none => simp [hs] at h
    | some b =>
      cases b with
      | true =>
        simp only [hs] at h
        exact ihr children h
      | false =>
        cases info? with
        | none =>
          simp only [hs] at h
          exact ihr children h
        | some info =>
          simp only [hs] at h
          cases hsub : (match descendPath (entryNode dirPath type_ info evalSymlinks stat)
                (filepath.Join dirPath name) evalSymlinks stat with
              | some path => walkDirectory filepath options dir path (currentDepth + 1)
              | none => some ([], none)) with
          | none => simp [hsub] at h
          | some sub =>
            obtain ⟨cs, e⟩ := sub
            simp only [hsub] at h
            cases hr : walkDirectory.loop filepath options rest dirPath currentDepth with
            | none => simp [hr] at h
            | some nodes =>
              simp only [hr, Option.some.injEq] at h
              subst h
              have hcs : (D ≤ currentDepth + 1 → cs = []) ∧
                  ∀ c ∈ cs, truncate (D - (currentDepth + 1) - 1) c = c := by
                cases hp : descendPath (entryNode dirPath type_ info evalSymlinks stat)
                    (filepath.Join dirPath name) evalSymlinks stat with
                | none =>
                  simp only [hp, Option.some.injEq, Prod.mk.injEq] at hsub
                  obtain ⟨rfl, _⟩ := hsub
                  exact ⟨fun _ => rfl, fun c hc => by simp at hc⟩
                | some path =>
                  simp only [hp] at hsub
                  exact walkDirectory_bounded filepath options D hD hD1 dir path
                    (currentDepth + 1) cs e hsub
              intro c hc
              rcases List.mem_cons.1 hc with rfl | hc
              · apply truncate_fixed
                · intro h0
                  exact hcs.1 (by omega)
                · intro c' hc'
                  have := hcs.2 c' hc'
                  rwa [show D - (currentDepth + 1) - 1 = D - currentDepth - 1 - 1 by omega]
                    at this
              · exact ihr nodes hr c hc
end

theorem skipHidden_MaxDepth (options : WalkerOptions) (D : Int) (name : String) :
    skipHidden { options with MaxDepth := D } name = skipHidden options name := rfl

mutual
/-- The walk under the depth limit `D` adds the children of the unlimited walk, each cut
below the limit. -/
theorem walkDirectory_truncate (filepath : Filepath) (options : WalkerOptions) (D : Nat)
    (hD : options.MaxDepth = (D : Int)) (hD1 : 1 ≤ D) (dir : Dir) (dirPath : String)
    (currentDepth : Nat) (children : List Node) (err : Option String)
    (h : walkDirectory filepath { options with MaxDepth := 0 } dir dirPath currentDepth
      = some (children, err)) :
    walkDirectory filepath options dir dirPath currentDepth
      = some (if D ≤ currentDepth then [] else children.map (truncate (D - currentDepth - 1)),
          none) :=
  match dir with
  | Dir.failed => by
    rw [walkDirectory_eq] at h ⊢
    have : children = [] := by
      split at h <;> (cases h; rfl)
    subst this
    split <;> simp
  | Dir.listing entries => by
    rw [walkDirectory_eq] at h ⊢
    rw [if_neg (by simp)] at h
    by_cases hlim : options.MaxDepth > 0 ∧ (currentDepth : Int) ≥ options.MaxDepth
    · rw [if_pos hlim, if_pos (by rw [hD] at hlim; omega)]
    · rw [if_neg hlim]
      have hlt : currentDepth < D := by
        rw [hD] at hlim
        omega
      rw [if_neg (by omega)]
      cases hl : walkDirectory.loop filepath { options with MaxDepth := 0 } entries dirPath
          currentDepth with
      | none => simp [hl] at h
      | some cs =>
        simp only [hl, Option.some.injEq, Prod.mk.injEq] at h
        obtain ⟨rfl, _⟩ := h
        simp only [walkDirectory_loop_truncate filepath options D hD hD1 entries dirPath
          currentDepth hlt cs hl]
theorem walkDirectory_loop_truncate (filepath : Filepath) (options : WalkerOptions) (D : Nat)
    (hD : options.MaxDepth = (D : Int)) (hD1 : 1 ≤ D) (entries : List Entry)
    (dirPath : String) (currentDepth : Nat) (hlt : currentDepth < D) (children : List Node)
    (h : walkDirectory.loop filepath { options with MaxDepth := 0 } entries dirPath currentDepth
      = some children) :
    walkDirectory.loop filepath options entries dirPath currentDepth
      = some (children.map (truncate (D - currentDepth - 1))) :=
  match entries with
  | [] => by
    simp only [walkDirectory.loop, Option.some.injEq] at h
    subst h
    simp [walkDirectory.loop]
  | Entry.mk name type_ info? evalSymlinks stat dir :: rest => by
    have ihr := walkDirectory_loop_truncate filepath options D hD hD1 rest dirPath currentDepth
      hlt
    rw [walkDirectory_loop_cons] at h ⊢
    rw [skipHidden_MaxDepth] at h
    cases hs : skipHidden options name with
    | none => simp [hs] at h
    | some b =>
      cases b with
      | true =>
        simp only [hs] at h ⊢
        exact ihr children h
      | false =>
        cases info? with
        | none =>
          simp only [hs] at h ⊢
          exact ihr children h
        | some info =>
          simp only [hs] at h ⊢
          cases hp : descendPath (entryNode dirPath type_ info evalSymlinks stat)
              (filepath.Join dirPath name) evalSymlinks stat with
          | none =>
            simp only [hp] at h ⊢
            cases hr : walkDirectory.loop filepath { options with MaxDepth := 0 } rest dirPath
                currentDepth with
            | none => simp [hr] at h
            | some nodes =>
              simp only [hr, Option.some.injEq] at h
              subst h
              rw [ihr nodes hr]
              simp only [List.map_cons, Option.some.injEq, List.cons.injEq, and_true]
              exact (truncate_fixed _ _ [] (fun _ => rfl) (fun c hc => by simp at hc)).symm
          | some path =>
            simp only [hp] at h ⊢
            cases hsub : walkDirectory filepath { options with MaxDepth := 0 } dir path
                (currentDepth + 1) with
            | none => simp [hsub] at h
            | some sub =>
              obtain ⟨cs, e⟩ := sub
              simp only [hsub] at h
              rw [walkDirectory_truncate filepath options D hD hD1 dir path (currentDepth + 1)
                cs e hsub]
              cases hr : walkDirectory.loop filepath { options with MaxDepth := 0 } rest
                  dirPath currentDepth with
              | none => simp [hr] at h
              | some nodes =>
                simp only [hr, Option.some.injEq] at h
                subst h
                rw [ihr nodes hr]
                simp only [List.map_cons, Option.some.injEq, List.cons.injEq, and_true]
                by_cases hlast : D ≤ currentDepth + 1
                · rw [if_pos hlast, show D - currentDepth - 1 = 0 by omega, truncate_zero]
                · rw [if_neg hlast, show D - currentDepth - 1 = (D - (currentDepth + 1) - 1) + 1
                    by omega, truncate_succ]
end

/-- The results of `WalkTree`, by the answers for the root. -/
theorem WalkTree_cases (filepath : Filepath) (fs : FS) (rootPath : String)
    (options : WalkerOptions) :
    (∀ err, fs.Abs rootPath = Except.error err →
      WalkTree filepath fs rootPath options = some (none, some err)) ∧
    (∀ absPath err, fs.Abs rootPath = Except.ok absPath → fs.Stat absPath = Except.error err →
      WalkTree filepath fs rootPath options = some (none, some err)) ∧
    (∀ absPath info, fs.Abs rootPath = Except.ok absPath → fs.Stat absPath = Except.ok info →
      WalkTree filepath fs rootPath options
        = (walkDirectory filepath options fs.Root absPath 0).map
            (fun r => (some (rootNode filepath absPath info r.1), none))) := by
  refine ⟨?_, ?_, ?_⟩
  · intro err h
    simp only [WalkTree, h]
  · intro absPath err h1 h2
    simp only [WalkTree, h1, h2]
  · intro absPath info h1 h2
    simp only [WalkTree, h1, h2]
    cases hw : walkDirectory filepath options fs.Root absPath 0 with
    | none => rfl
    | some r =>
      obtain ⟨cs, e⟩ := r
      have := walkDirectory_err _ _ _ _ _ _ _ hw
      subst this
      simp [rootNode, NewNode]

/-- When `WalkTree` returns a node, the root was resolved and the node is the root node
with the children `walkDirectory` has added. -/
theorem WalkTree_root (filepath : Filepath) (fs : FS) (rootPath : String)
    (options : WalkerOptions) (root : Node) (err : Option String)
    (h : WalkTree filepath fs rootPath options = some (some root, err)) :
    ∃ absPath info children, fs.Abs rootPath = Except.ok absPath ∧
      fs.Stat absPath = Except.ok info ∧
      walkDirectory filepath options fs.Root absPath 0 = some (children, none) ∧
      root = rootNode filepath absPath info children ∧ err = none := by
  obtain ⟨c1, c2, c3⟩ := WalkTree_cases filepath fs rootPath options
  cases ha : fs.Abs rootPath with
  | error e => rw [c1 e ha] at h; simp at h
  | ok absPath =>
    cases hs : fs.Stat absPath with
    | error e => rw [c2 absPath e ha hs] at h; simp at h
    | ok info =>
      rw [c3 absPath info ha hs] at h
      cases hw : walkDirectory filepath options fs.Root absPath 0 with
      | none => simp [hw] at h
      | some r =>
        obtain ⟨cs, e⟩ := r
        have := walkDirectory_err _ _ _ _ _ _ _ hw
        subst this
        simp only [hw, Option.map_some', Option.some.injEq, Prod.mk.injEq] at h
        exact ⟨absPath, info, cs, rfl, hs, hw, h.1.symm, h.2.symm⟩

/-- C16: with `MaxDepth = D > 0`, every node of the tree that `WalkTree` returns has a
depth (`GetDepth`, the root at 0) of at most `D`, and the nodes at depth `D` have no
children. The tree is the one the unlimited walk returns, cut below depth `D`: every
entry down to depth `D` is present. -/
theorem WalkTree_MaxDepth (filepath : Filepath) (fs : FS) (rootPath : String)
    (options : WalkerOptions) (D : Nat) (hD : options.MaxDepth = (D : Int)) (hD1 : 1 ≤ D)
    (root : Node) (h : WalkTree filepath fs rootPath options = some (some root, none)) :
    (∀ p n, nodeAt root p = some n → GetDepth p ≤ D ∧ (GetDepth p = D → n.Children = [])) ∧
    (∀ root0, WalkTree filepath fs rootPath { options with MaxDepth := 0 }
        = some (some root0, none) → root = truncate D root0) := by
  obtain ⟨absPath, info, children, ha, hs, hw, rfl, _⟩ := WalkTree_root _ _ _ _ _ _ h
  constructor
  · have hb := walkDirectory_bounded filepath options D hD hD1 fs.Root absPath 0 children none hw
    have hfix : truncate D (rootNode filepath absPath info children)
        = rootNode filepath absPath info children := by
      exact truncate_fixed D (rootNode filepath absPath info []) children (fun h0 => by omega)
        (fun c hc => by
        have := hb.2 c hc
        rwa [Nat.sub_zero] at this)
    intro p n hn
    rw [← hfix] at hn
    rw [GetDepth_eq]
    exact nodeAt_truncate D _ p n hn
  · intro root0 h0
    obtain ⟨absPath0, info0, children0, ha0, hs0, hw0, rfl, _⟩ := WalkTree_root _ _ _ _ _ _ h0
    rw [ha] at ha0
    cases ha0
    rw [hs] at hs0
    cases hs0
    have ht := walkDirectory_truncate filepath options D hD hD1 fs.Root absPath 0 children0 none
      hw0
    rw [hw, if_neg (by omega)] at ht
    simp only [Option.some.injEq, Prod.mk.injEq, and_true] at ht
    obtain ⟨k, rfl⟩ : ∃ k, D = k + 1 := ⟨D - 1, by omega⟩
    rw [truncate_succ, ht]
    simp [rootNode]

/-- Witness for C16: the walk of `sampleFS` with `MaxDepth = 2`. -/
theorem WalkTree_MaxDepth_witness :
    (∀ p n, nodeAt sampleTree2 p = some n →
      GetDepth p ≤ 2 ∧ (GetDepth p = 2 → n.Children = [])) ∧
    (∀ root0, WalkTree slashPath sampleFS "proj" ⟨false, 0, "/home/u/proj"⟩
        = some (some root0, none) → sampleTree2 = truncate 2 root0) :=
  WalkTree_MaxDepth slashPath sampleFS "proj" ⟨false, 2, "/home/u/proj"⟩ 2 rfl (by decide)
    sampleTree2 rfl

theorem wellFormed_all_cons (name : String) (type_ : Nat) (info? : Option FileInfo)
    (evalSymlinks : Option String) (stat : Option FileInfo) (dir : Dir) (rest : List Entry)
    (h : Dir.wellFormed.all (Entry.mk name type_ info? evalSymlinks stat dir :: rest) = true) :
    (∃ b, firstByte name = some b) ∧ (∀ info, info? = some info → info.Name = name) ∧
    Dir.wellFormed dir = true ∧ Dir.wellFormed.all rest = true := by
  simp only [Dir.wellFormed.all, Bool.and_eq_true, bne_iff_ne, ne_eq] at h
  obtain ⟨⟨⟨h1, h2⟩, h3⟩, h4⟩ := h
  refine ⟨?_, ?_, h3, h4⟩
  · unfold firstByte
    cases hd : name.data with
    | nil => exact absurd (String.ext (by simpa using hd)) h1
    | cons c t => exact ⟨c, rfl⟩
  · intro info hi
    subst hi
    simpa using h2

theorem skipHidden_hide (options : WalkerOptions) (h : options.ShowHidden = false)
    (name : String) (b : Char) (hb : firstByte name = some b) :
    skipHidden options name = some (b == '.') := by
  simp [skipHidden, h, hb]

theorem skipHidden_show (options : WalkerOptions) (name : String) :
    skipHidden { options with ShowHidden := true } name = some false := by
  simp [skipHidden]

theorem IsHidden_eq (n : Node) : n.IsHidden = (firstByte n.Name == some '.') := by
  unfold Node.IsHidden firstByte
  cases hd : n.Name.data with
  | nil => simp [String.length, hd]
  | cons c t => simp [String.length, hd]

mutual
/-- Without `ShowHidden` no node that `walkDirectory` adds, at any depth, is hidden. -/
theorem walkDirectory_noHidden (filepath : Filepath) (options : WalkerOptions)
    (hsh : options.ShowHidden = false) (dir : Dir) (hwf : Dir.wellFormed dir = true)
    (dirPath : String) (currentDepth : Nat) (children : List Node) (err : Option String)
    (h : walkDirectory filepath options dir dirPath currentDepth = some (children, err)) :
    ∀ c ∈ children, ∀ p m, nodeAt c p = some m → m.IsHidden = false :=
  match dir with
  | Dir.failed => by
    rw [walkDirectory_eq] at h
    have : children = [] := by
      split at h <;> (cases h; rfl)
    subst this
    intro c hc
    simp at hc
  | Dir.listing entries => by
    rw [walkDirectory_eq] at h
    split at h
    · cases h
      intro c hc
      simp at hc
    · cases hl : walkDirectory.loop filepath options entries dirPath currentDepth with
      | none => simp [hl] at h
      | some cs =>
        simp only [hl, Option.some.injEq, Prod.mk.injEq] at h
        obtain ⟨rfl, _⟩ := h
        exact walkDirectory_loop_noHidden filepath options hsh entries
          (by simpa [Dir.wellFormed] using hwf) dirPath currentDepth cs hl
theorem walkDirectory_loop_noHidden (filepath : Filepath) (options : WalkerOptions)
    (hsh : options.ShowHidden = false) (entries : List Entry)
    (hwf : Dir.wellFormed.all entries = true) (dirPath : String) (currentDepth : Nat)
    (children : List Node)
    (h : walkDirectory.loop filepath options entries dirPath currentDepth = some children) :
    ∀ c ∈ children, ∀ p m, nodeAt c p = some m → m.IsHidden = false :=
  match entries with
  | [] => by
    simp only [walkDirectory.loop, Option.some.injEq] at h
    subst h
    intro c hc
    simp at hc
  | Entry.mk name type_ info? evalSymlinks stat dir :: rest => by
    obtain ⟨⟨b, hb⟩, hname, hwd, hwr⟩ := wellFormed_all_cons _ _ _ _ _ _ _ hwf
    have ihr := walkDirectory_loop_noHidden filepath options hsh rest hwr dirPath currentDepth
    rw [walkDirectory_loop_cons, skipHidden_hide options hsh name b hb] at h
    cases hdot : (b == '.') with
    | true =>
      simp only [hdot] at h
      exact ihr children h
    | false =>
      cases info? with
      | none =>
        simp only [hdot] at h
        exact ihr children h
      | some info =>
        simp only [hdot] at h
        cases hsub : (match descendPath (entryNode dirPath type_ info evalSymlinks stat)
              (filepath.Join dirPath name) evalSymlinks stat with
            | some path => walkDirectory filepath options dir path (currentDepth + 1)
            | none => some ([], none)) with
        | none => simp [hsub] at h
        | some sub =>
          obtain ⟨cs, e⟩ := sub
          simp only [hsub] at h
          cases hr : walkDirectory.loop filepath options rest dirPath currentDepth with
          | none => simp [hr] at h
          | some nodes =>
            simp only [hr, Option.some.injEq] at h
            subst h
            have hcs : ∀ c ∈ cs, ∀ p m, nodeAt c p = some m → m.IsHidden = false := by
              cases hp : descendPath (entryNode dirPath type_ info evalSymlinks stat)
                  (filepath.Join dirPath name) evalSymlinks stat with
              | none =>
                simp only [hp, Option.some.injEq, Prod.mk.injEq] at hsub
                obtain ⟨rfl, _⟩ := hsub
                intro c hc
                simp at hc
              | some path =>
                simp only [hp] at hsub
                exact walkDirectory_noHidden filepath options hsh dir hwd path
                  (currentDepth + 1) cs e hsub
            intro c hc
            rcases List.mem_cons.1 hc with rfl | hc
            · intro p m hm
              cases p with
              | nil =>
                simp only [nodeAt, Option.some.injEq] at hm
                subst hm
                rw [IsHidden_eq]
                simp only [entryNode_Name, hname info rfl, hb]
                simpa using hdot
              | cons i r =>
                simp only [nodeAt] at hm
                cases hi : cs[i]? with
                | none => simp [hi] at hm
                | some c' =>
                  simp only [hi] at hm
                  exact hcs c' (List.getElem?_mem hi) r m hm
            · exact ihr nodes hr c hc
end

mutual
/-- Without `ShowHidden` the walk is the walk that shows hidden entries of the file
system without its hidden entries. -/
theorem walkDirectory_dropHidden (filepath : Filepath) (options : WalkerOptions)
    (hsh : options.ShowHidden = false) (dir : Dir) (hwf : Dir.wellFormed dir = true)
    (dirPath : String) (currentDepth : Nat) :
    walkDirectory filepath options dir dirPath currentDepth
      = walkDirectory filepath { options with ShowHidden := true } (Dir.dropHidden dir) dirPath
          currentDepth :=
  match dir with
  | Dir.failed => by
    rw [walkDirectory_eq, walkDirectory_eq]
    rfl
  | Dir.listing entries => by
    rw [walkDirectory_eq, walkDirectory_eq, Dir.dropHidden]
    simp only [walkDirectory_loop_dropHidden filepath options hsh entries
      (by simpa [Dir.wellFormed] using hwf) dirPath currentDepth]
theorem walkDirectory_loop_dropHidden (filepath : Filepath) (options : WalkerOptions)
    (hsh : options.ShowHidden = false) (entries : List Entry)
    (hwf : Dir.wellFormed.all entries = true) (dirPath : String) (currentDepth : Nat) :
    walkDirectory.loop filepath options entries dirPath currentDepth
      = walkDirectory.loop filepath { options with ShowHidden := true }
          (Dir.dropHidden.all entries) dirPath currentDepth :=
  match entries with
  | [] => by
    simp only [walkDirectory.loop, Dir.dropHidden.all]
  | Entry.mk name type_ info? evalSymlinks stat dir :: rest => by
    obtain ⟨⟨b, hb⟩, _, hwd, hwr⟩ := wellFormed_all_cons _ _ _ _ _ _ _ hwf
    have ihr := walkDirectory_loop_dropHidden filepath options hsh rest hwr dirPath currentDepth
    rw [walkDirectory_loop_cons, skipHidden_hide options hsh name b hb, Dir.dropHidden.all, hb]
    cases hdot : (b == '.') with
    | true =>
      have : (some b == some '.') = true := by simpa using hdot
      simp only [this, if_true]
      exact ihr
    | false =>
      have : (some b == some '.') = false := by simpa using hdot
      simp only [this, Bool.false_eq_true, if_false]
      rw [walkDirectory_loop_cons, skipHidden_show]
      cases info? with
      | none => exact ihr
      | some info =>
        simp only
        rw [← ihr]
        cases hp : descendPath (entryNode dirPath type_ info evalSymlinks stat)
            (filepath.Join dirPath name) evalSymlinks stat with
        | none => rfl
        | some path =>
          simp only
          rw [← walkDirectory_dropHidden filepath options hsh dir hwd path (currentDepth + 1)]
end

/-- C17 fails on the code: in `proj/{.git/{config}, link -> .git}` the hidden directory
`.git` is skipped, but the symbolic link `link` is not hidden and resolves to `.git`, so
the walk descends into `/home/u/proj/.git` and the file `config` of the hidden directory
appears in the tree, below `link`. -/
theorem WalkTree_linkFS :
    Dir.wellFormed linkFS.Root = true ∧
    WalkTree slashPath linkFS "proj" ⟨false, 0, "/home/u/proj"⟩ = some (some linkTree, none) ∧
    nodeAt linkTree [0, 0] = some (fileNodeAt "/home/u/proj/.git" "config" 92) ∧
    firstByte (slashPath.Base "/home/u/proj/.git") = some '.' ∧
    ¬ (∀ p n, p ≠ [] → nodeAt linkTree p = some n →
        firstByte (slashPath.Base n.Path) ≠ some '.') := by
  refine ⟨by decide, rfl, rfl, by decide, ?_⟩
  intro h
  exact h [0, 0] (fileNodeAt "/home/u/proj/.git" "config" 92) (by simp) rfl (by decide)

/-- C17 as amended: when `WalkTree` is called with `ShowHidden = false` on a file system
whose entries have names that are not empty and agree with their `FileInfo`, no node below
the root of the returned tree has a `Name` that begins with `'.'`; every hidden entry is
skipped with all that the walk would add below it, the tree being the one the walk with
`ShowHidden = true` returns for the file system without its hidden entries (an entry that
is not hidden is kept with all the walk reaches from it, also a symbolic link that
resolves to a hidden directory); the root has the base name of the root path whatever
that is. -/
theorem WalkTree_hidden (filepath : Filepath) (fs : FS) (rootPath : String)
    (options : WalkerOptions) (hsh : options.ShowHidden = false)
    (hwf : Dir.wellFormed fs.Root = true) (root : Node)
    (h : WalkTree filepath fs rootPath options = some (some root, none)) :
    (∀ p n, p ≠ [] → nodeAt root p = some n →
      n.IsHidden = false ∧ n.Name.data.head? ≠ some '.') ∧
    WalkTree filepath fs rootPath options
      = WalkTree filepath { fs with Root := Dir.dropHidden fs.Root } rootPath
          { options with ShowHidden := true } ∧
    (∃ absPath, fs.Abs rootPath = Except.ok absPath ∧ root.Name = filepath.Base absPath) := by
  obtain ⟨absPath, info, children, ha, hs, hw, rfl, _⟩ := WalkTree_root _ _ _ _ _ _ h
  refine ⟨?_, ?_, absPath, ha, rfl⟩
  · have hn := walkDirectory_noHidden filepath options hsh fs.Root hwf absPath 0 children none hw
    intro p n hp hnode
    cases p with
    | nil => exact absurd rfl hp
    | cons i r =>
      simp only [nodeAt, rootNode] at hnode
      cases hi : children[i]? with
      | none => simp [hi] at hnode
      | some c =>
        simp only [hi] at hnode
        have := hn c (List.getElem?_mem hi) r n hnode
        refine ⟨this, ?_⟩
        rw [IsHidden_eq] at this
        simpa [firstByte] using this
  · obtain ⟨_, _, c3⟩ := WalkTree_cases filepath fs rootPath options
    obtain ⟨_, _, d3⟩ := WalkTree_cases filepath { fs with Root := Dir.dropHidden fs.Root }
      rootPath { options with ShowHidden := true }
    rw [c3 absPath info ha hs, d3 absPath info ha hs,
      walkDirectory_dropHidden filepath options hsh fs.Root hwf absPath 0]

/-- Witness for C17: the walk of `hiddenRootFS`, whose root `.config` is kept and whose
directory `.cache` is left out with the file below it. -/
theorem WalkTree_hidden_witness :
    ((∀ p n, p ≠ [] → nodeAt hiddenRootTree p = some n →
      n.IsHidden = false ∧ n.Name.data.head? ≠ some '.') ∧
    WalkTree slashPath hiddenRootFS ".config" ⟨false, 0, "/home/u/.config"⟩
      = WalkTree slashPath { hiddenRootFS with Root := Dir.dropHidden hiddenRootFS.Root }
          ".config" ⟨true, 0, "/home/u/.config"⟩ ∧
    (∃ absPath, hiddenRootFS.Abs ".config" = Except.ok absPath ∧
      hiddenRootTree.Name = slashPath.Base absPath)) ∧
    hiddenRootTree.IsHidden = true :=
  ⟨WalkTree_hidden slashPath hiddenRootFS ".config" ⟨false, 0, "/home/u/.config"⟩ rfl
    (by decide) hiddenRootTree rfl, by decide⟩

/-- The loop of `walkDirectory` handles every entry on its own: the children for a
listing are those for its first part followed by those for the rest. -/
theorem walkDirectory_loop_append (filepath : Filepath) (options : WalkerOptions)
    (dirPath : String) (currentDepth : Nat) (a b : List Entry) :
    walkDirectory.loop filepath options (a ++ b) dirPath currentDepth
      = (walkDirectory.loop filepath options a dirPath currentDepth).bind (fun x =>
          (walkDirectory.loop filepath options b dirPath currentDepth).map (fun y => x ++ y)) := by
  induction a with
  | nil =>
    simp only [List.nil_append, walkDirectory.loop, Option.some_bind]
    cases walkDirectory.loop filepath options b dirPath currentDepth <;> rfl
  | cons e a ih =>
    obtain ⟨name, type_, info?, evalSymlinks, stat, dir⟩ := e
    rw [List.cons_append, walkDirectory_loop_cons, walkDirectory_loop_cons, ih]
    cases skipHidden options name with
    | none => rfl
    | some s =>
      cases s with
      | true => rfl
      | false =>
        cases info? with
        | none => rfl
        | some info =>
          simp only
          cases (match descendPath (entryNode dirPath type_ info evalSymlinks stat)
              (filepath.Join dirPath name) evalSymlinks stat with
            | some path => walkDirectory filepath options dir path (currentDepth + 1)
            | none => some ([], none)) with
          | none => rfl
          | some sub =>
            cases walkDirectory.loop filepath options a dirPath currentDepth with
            | none => rfl
            | some x =>
              cases walkDirectory.loop filepath options b dirPath currentDepth with
              | none => rfl
              | some y => rfl

theorem skipHidden_isSome (options : WalkerOptions) (name : String)
    (h : options.ShowHidden = true ∨ ∃ b, firstByte name = some b) :
    ∃ s, skipHidden options name = some s := by
  unfold skipHidden
  cases hs : options.ShowHidden with
  | true => exact ⟨false, by simp⟩
  | false =>
    rcases h with h | ⟨b, hb⟩
    · rw [hs] at h; cases h
    · exact ⟨b == '.', by simp [hb]⟩

mutual
/-- On a file system whose entries have names that are not empty, or when hidden entries
are shown, `walkDirectory` returns, and it returns `nil`. -/
theorem walkDirectory_returns (filepath : Filepath) (options : WalkerOptions) (dir : Dir)
    (hwf : options.ShowHidden = true ∨ Dir.wellFormed dir = true) (dirPath : String)
    (currentDepth : Nat) :
    ∃ children, walkDirectory filepath options dir dirPath currentDepth
      = some (children, none) :=
  match dir with
  | Dir.failed => by
    rw [walkDirectory_eq]
    split <;> exact ⟨[], rfl⟩
  | Dir.listing entries => by
    rw [walkDirectory_eq]
    split
    · exact ⟨[], rfl⟩
    · obtain ⟨cs, hcs⟩ := walkDirectory_loop_returns filepath options entries
        (hwf.imp id (fun h => by simpa [Dir.wellFormed] using h)) dirPath currentDepth
      exact ⟨cs, by simp only [hcs]⟩
theorem walkDirectory_loop_returns (filepath : Filepath) (options : WalkerOptions)
    (entries : List Entry)
    (hwf : options.ShowHidden = true ∨ Dir.wellFormed.all entries = true) (dirPath : String)
    (currentDepth : Nat) :
    ∃ children, walkDirectory.loop filepath options entries dirPath currentDepth
      = some children :=
  match entries with
  | [] => ⟨[], by simp only [walkDirectory.loop]⟩
  | Entry.mk name type_ info? evalSymlinks stat dir :: rest => by
    have hparts : (options.ShowHidden = true ∨ ∃ b, firstByte name = some b) ∧
        (options.ShowHidden = true ∨ Dir.wellFormed dir = true) ∧
        (options.ShowHidden = true ∨ Dir.wellFormed.all rest = true) := by
      rcases hwf with h | h
      · exact ⟨Or.inl h, Or.inl h, Or.inl h⟩
      · obtain ⟨h1, _, h3, h4⟩ := wellFormed_all_cons _ _ _ _ _ _ _ h
        exact ⟨Or.inr h1, Or.inr h3, Or.inr h4⟩
    obtain ⟨nodes, hr⟩ := walkDirectory_loop_returns filepath options rest hparts.2.2 dirPath
      currentDepth
    obtain ⟨s, hs⟩ := skipHidden_isSome options name hparts.1
    rw [walkDirectory_loop_cons, hs, hr]
    cases s with
    | true => exact ⟨nodes, rfl⟩
    | false =>
      cases info? with
      | none => exact ⟨nodes, rfl⟩
      | some info =>
        simp only
        cases hp : descendPath (entryNode dirPath type_ info evalSymlinks stat)
            (filepath.Join dirPath name) evalSymlinks stat with
        | none => exact ⟨_, rfl⟩
        | some path =>
          obtain ⟨cs, hcs⟩ := walkDirectory_returns filepath options dir hparts.2.1 path
            (currentDepth + 1)
          simp only [hcs]
          exact ⟨_, rfl⟩
end

/-- On a file system that is a finite tree of answers, where the walk ends because the
tree does: `WalkTree` returns an error exactly when `filepath.Abs` or `os.Stat` fails for
the root, and that error; otherwise it returns a node. `walkDirectory` returns `nil`, and
it returns when the entry names are not empty or hidden entries are shown. A directory
whose listing fails is kept with zero children. An entry whose `Info` fails is skipped,
and the children added for the other entries of the directory are the same as without
it. -/
theorem WalkTree_finiteTree (filepath : Filepath) (fs : FS) (rootPath : String)
    (options : WalkerOptions)
    (hwf : options.ShowHidden = true ∨ Dir.wellFormed fs.Root = true) :
    (∀ err, WalkTree filepath fs rootPath options = some (none, some err)
      ↔ (fs.Abs rootPath = Except.error err ∨
          ∃ absPath, fs.Abs rootPath = Except.ok absPath ∧
            fs.Stat absPath = Except.error err)) ∧
    ((∃ root, WalkTree filepath fs rootPath options = some (some root, none))
      ↔ ∃ absPath info, fs.Abs rootPath = Except.ok absPath ∧
          fs.Stat absPath = Except.ok info) ∧
    (∃ r, WalkTree filepath fs rootPath options = some r ∧ (r.1 = none ↔ r.2 ≠ none)) ∧
    (∀ dir dirPath currentDepth children err,
      walkDirectory filepath options dir dirPath currentDepth = some (children, err) →
      err = none) ∧
    (∀ dir dirPath currentDepth,
      (options.ShowHidden = true ∨ Dir.wellFormed dir = true) →
      ∃ children, walkDirectory filepath options dir dirPath currentDepth
        = some (children, none)) ∧
    (∀ dirPath currentDepth,
      walkDirectory filepath options Dir.failed dirPath currentDepth = some ([], none)) ∧
    (∀ name type_ info evalSymlinks stat rest dirPath currentDepth,
      skipHidden options name = some false →
      walkDirectory.loop filepath options
          (Entry.mk name type_ (some info) evalSymlinks stat Dir.failed :: rest) dirPath
          currentDepth
        = (walkDirectory.loop filepath options rest dirPath currentDepth).map (fun nodes =>
            { entryNode dirPath type_ info evalSymlinks stat with Children := [] } :: nodes)) ∧
    (∀ name type_ evalSymlinks stat dir before after dirPath currentDepth,
      skipHidden options name ≠ none →
      walkDirectory.loop filepath options
          (before ++ Entry.mk name type_ none evalSymlinks stat dir :: after) dirPath
          currentDepth
        = walkDirectory.loop filepath options (before ++ after) dirPath currentDepth) := by
  obtain ⟨c1, c2, c3⟩ := WalkTree_cases filepath fs rootPath options
  have hcases : (∃ err, fs.Abs rootPath = Except.error err ∧
        WalkTree filepath fs rootPath options = some (none, some err)) ∨
      (∃ absPath err, fs.Abs rootPath = Except.ok absPath ∧
        fs.Stat absPath = Except.error err ∧
        WalkTree filepath fs rootPath options = some (none, some err)) ∨
      (∃ absPath info root, fs.Abs rootPath = Except.ok absPath ∧
        fs.Stat absPath = Except.ok info ∧
        WalkTree filepath fs rootPath options = some (some root, none)) := by
    cases ha : fs.Abs rootPath with
    | error e => exact Or.inl ⟨e, rfl, c1 e ha⟩
    | ok absPath =>
      cases hs : fs.Stat absPath with
      | error e => exact Or.inr (Or.inl ⟨absPath, e, rfl, hs, c2 absPath e ha hs⟩)
      | ok info =>
        obtain ⟨cs, hcs⟩ := walkDirectory_returns filepath options fs.Root hwf absPath 0
        exact Or.inr (Or.inr ⟨absPath, info, _, rfl, hs, by rw [c3 absPath info ha hs, hcs]; rfl⟩)
  refine ⟨?_, ?_, ?_, ?_, ?_, ?_, ?_, ?_⟩
  · intro err
    rcases hcases with ⟨e, ha, hw⟩ | ⟨a, e, ha, hs, hw⟩ | ⟨a, i, r, ha, hs, hw⟩
    · rw [hw, ha]
      simp
    · rw [hw, ha]
      simp only [Option.some.injEq, Prod.mk.injEq, true_and, false_or, Except.ok.injEq,
        reduceCtorEq]
      constructor
      · rintro rfl
        exact ⟨a, rfl, hs⟩
      · rintro ⟨a', rfl, hs'⟩
        rw [hs] at hs'
        cases hs'
        rfl
    · rw [hw, ha]
      simp only [Option.some.injEq, Prod.mk.injEq, reduceCtorEq, false_and, false_or,
        Except.ok.injEq, false_iff, not_exists, not_and]
      rintro a' rfl hs'
      rw [hs] at hs'
      cases hs'
  · rcases hcases with ⟨e, ha, hw⟩ | ⟨a, e, ha, hs, hw⟩ | ⟨a, i, r, ha, hs, hw⟩
    · rw [hw, ha]
      simp
    · rw [hw, ha]
      simp only [Option.some.injEq, Prod.mk.injEq, reduceCtorEq, false_and, exists_false,
        Except.ok.injEq, false_iff, not_exists, not_and]
      rintro a' i' rfl hs'
      rw [hs] at hs'
      cases hs'
    · rw [hw]
      exact ⟨fun _ => ⟨a, i, ha, hs⟩, fun _ => ⟨r, rfl⟩⟩
  · rcases hcases with ⟨e, ha, hw⟩ | ⟨a, e, ha, hs, hw⟩ | ⟨a, i, r, ha, hs, hw⟩
    · exact ⟨_, hw, by simp⟩
    · exact ⟨_, hw, by simp⟩
    · exact ⟨_, hw, by simp⟩
  · intro dir dirPath currentDepth children err h
    exact walkDirectory_err _ _ _ _ _ _ _ h
  · intro dir dirPath currentDepth h
    exact walkDirectory_returns filepath options dir h dirPath currentDepth
  · intro dirPath currentDepth
    rw [walkDirectory_eq]
    split <;> rfl
  · intro name type_ info evalSymlinks stat rest dirPath currentDepth hs
    rw [walkDirectory_loop_cons, hs]
    simp only
    have hsub : (match descendPath (entryNode dirPath type_ info evalSymlinks stat)
          (filepath.Join dirPath name) evalSymlinks stat with
        | some path => walkDirectory filepath options Dir.failed path (currentDepth + 1)
        | none => some ([], none)) = some ([], none) := by
      split
      · rw [walkDirectory_eq]
        split <;> rfl
      · rfl
    rw [hsub]
    cases walkDirectory.loop filepath options rest dirPath currentDepth <;> rfl
  · intro name type_ evalSymlinks stat dir before after dirPath currentDepth hs
    rw [walkDirectory_loop_append, walkDirectory_loop_append, walkDirectory_loop_cons]
    cases hsk : skipHidden options name with
    | none => exact absurd hsk hs
    | some s => cases s <;> rfl

/-- The walk of `sampleFS`, which has an entry whose `Info` fails and a directory that
cannot be read, returns a node. -/
theorem WalkTree_finiteTree_sampleFS :
    ∃ root, WalkTree slashPath sampleFS "proj" ⟨false, 0, "/home/u/proj"⟩
      = some (some root, none) :=
  (WalkTree_finiteTree slashPath sampleFS "proj" ⟨false, 0, "/home/u/proj"⟩
    (Or.inr (by decide))).2.1.2 ⟨_, _, rfl, rfl⟩

/-! ## The walk on a file system that may have cycles -/

theorem walkDirectoryOn_succ (filepath : Filepath) (os : OS) (options : WalkerOptions)
    (fuel : Nat) (dirPath : String) (currentDepth : Nat) :
    walkDirectoryOn filepath os options (fuel + 1) dirPath currentDepth
      = if options.MaxDepth > 0 ∧ (currentDepth : Int) ≥ options.MaxDepth then
          Run.returns ([], none)
        else
          match os.ReadDir dirPath with
          | none => Run.returns ([], none)
          | some entries =>
            match walkDirectoryOn.loop filepath os options
                (walkDirectoryOn filepath os options fuel) dirPath currentDepth entries with
            | Run.returns children => Run.returns (children, none)
            | Run.panics => Run.panics
            | Run.unfinished => Run.unfinished := rfl

/-- The loop of `walkDirectory` goes on to the next entry after a hidden entry and after
an entry whose `Info` fails. -/
theorem walkDirectoryOn_loop_skip (filepath : Filepath) (os : OS) (options : WalkerOptions)
    (call : String → Nat → Run (List Node × Option String)) (dirPath : String)
    (currentDepth : Nat) (entry : DirEntry) (rest : List DirEntry)
    (h : skipHidden options entry.Name = some true ∨
      (skipHidden options entry.Name = some false ∧ entry.Info = none)) :
    walkDirectoryOn.loop filepath os options call dirPath currentDepth (entry :: rest)
      = walkDirectoryOn.loop filepath os options call dirPath currentDepth rest := by
  rcases h with h | ⟨h, hi⟩
  · simp only [walkDirectoryOn.loop, h]
  · simp only [walkDirectoryOn.loop, h, hi]

theorem walkDirectoryOn_loop_panics (filepath : Filepath) (os : OS) (options : WalkerOptions)
    (call : String → Nat → Run (List Node × Option String)) (dirPath : String)
    (currentDepth : Nat) (entry : DirEntry) (rest : List DirEntry)
    (h : skipHidden options entry.Name = none) :
    walkDirectoryOn.loop filepath os options call dirPath currentDepth (entry :: rest)
      = Run.panics := by
  simp only [walkDirectoryOn.loop, h]

/-- One round of the loop of `walkDirectory` for an entry that is not skipped. -/
theorem walkDirectoryOn_loop_add (filepath : Filepath) (os : OS) (options : WalkerOptions)
    (call : String → Nat → Run (List Node × Option String)) (dirPath : String)
    (currentDepth : Nat) (entry : DirEntry) (rest : List DirEntry) (info : FileInfo)
    (h : skipHidden options entry.Name = some false) (hi : entry.Info = some info) :
    walkDirectoryOn.loop filepath os options call dirPath currentDepth (entry :: rest)
      = match walkDirectoryOn.sub filepath os call dirPath currentDepth entry info with
        | Run.panics => Run.panics
        | Run.unfinished => Run.unfinished
        | Run.returns (children, _) =>
          match walkDirectoryOn.loop filepath os options call dirPath currentDepth rest with
          | Run.returns nodes =>
            Run.returns
              ({ os.node filepath dirPath entry info with
                  Children := (os.node filepath dirPath entry info).Children ++ children }
                :: nodes)
          | Run.panics => Run.panics
          | Run.unfinished => Run.unfinished := by
  simp only [walkDirectoryOn.loop, h, hi]

/-- The cases of one round of the loop of `walkDirectory`. -/
theorem walkDirectoryOn_loop_cases (options : WalkerOptions) (entry : DirEntry) :
    skipHidden options entry.Name = none ∨
    (skipHidden options entry.Name = some true ∨
      (skipHidden options entry.Name = some false ∧ entry.Info = none)) ∨
    ∃ info, skipHidden options entry.Name = some false ∧ entry.Info = some info := by
  cases hs : skipHidden options entry.Name with
  | none => exact Or.inl rfl
  | some b =>
    cases b with
    | true => exact Or.inr (Or.inl (Or.inl rfl))
    | false =>
      cases hi : entry.Info with
      | none => exact Or.inr (Or.inl (Or.inr ⟨rfl, rfl⟩))
      | some info => exact Or.inr (Or.inr ⟨info, rfl, rfl⟩)

/-- The error `walkDirectory` returns is `nil`. -/
theorem walkDirectoryOn_err (filepath : Filepath) (os : OS) (options : WalkerOptions)
    (fuel : Nat) (dirPath : String) (currentDepth : Nat) (children : List Node)
    (err : Option String)
    (h : walkDirectoryOn filepath os options fuel dirPath currentDepth
      = Run.returns (children, err)) : err = none := by
  cases fuel with
  | zero => simp [walkDirectoryOn] at h
  | succ fuel =>
    rw [walkDirectoryOn_succ] at h
    split at h
    · simp only [Run.returns.injEq, Prod.mk.injEq] at h
      exact h.2.symm
    · split at h
      · simp only [Run.returns.injEq, Prod.mk.injEq] at h
        exact h.2.symm
      · split at h
        · simp only [Run.returns.injEq, Prod.mk.injEq] at h
          exact h.2.symm
        · cases h
        · cases h

/-- A recursive call that returns more often makes the loop return more often, with the
same children. -/
theorem walkDirectoryOn_loop_mono (filepath : Filepath) (os : OS) (options : WalkerOptions)
    (call₁ call₂ : String → Nat → Run (List Node × Option String)) (dirPath : String)
    (currentDepth : Nat)
    (hcall : ∀ path depth r, call₁ path depth = Run.returns r → call₂ path depth = Run.returns r) :
    ∀ (entries : List DirEntry) (nodes : List Node),
      walkDirectoryOn.loop filepath os options call₁ dirPath currentDepth entries
        = Run.returns nodes →
      walkDirectoryOn.loop filepath os options call₂ dirPath currentDepth entries
        = Run.returns nodes := by
  intro entries
  induction entries with
  | nil => intro nodes h; simpa [walkDirectoryOn.loop] using h
  | cons entry rest ih =>
    intro nodes h
    rcases walkDirectoryOn_loop_cases options entry with hs | hs | ⟨info, hs, hi⟩
    · rw [walkDirectoryOn_loop_panics _ _ _ _ _ _ _ _ hs] at h
      cases h
    · rw [walkDirectoryOn_loop_skip _ _ _ _ _ _ _ _ hs] at h ⊢
      exact ih nodes h
    · rw [walkDirectoryOn_loop_add _ _ _ _ _ _ _ _ info hs hi] at h ⊢
      have hsub : ∀ r, walkDirectoryOn.sub filepath os call₁ dirPath currentDepth entry info
            = Run.returns r →
          walkDirectoryOn.sub filepath os call₂ dirPath currentDepth entry info
            = Run.returns r := by
        intro r hr
        unfold walkDirectoryOn.sub at hr ⊢
        cases hd : os.descend filepath dirPath entry info with
        | none => rw [hd] at hr; exact hr
        | some path => rw [hd] at hr; exact hcall _ _ _ hr
      cases h1 : walkDirectoryOn.sub filepath os call₁ dirPath currentDepth entry info with
      | panics => rw [h1] at h; cases h
      | unfinished => rw [h1] at h; cases h
      | returns r =>
        obtain ⟨children, e⟩ := r
        rw [h1] at h
        rw [hsub _ h1]
        simp only at h ⊢
        cases h2 : walkDirectoryOn.loop filepath os options call₁ dirPath currentDepth rest with
        | panics => rw [h2] at h; cases h
        | unfinished => rw [h2] at h; cases h
        | returns ns =>
          rw [h2] at h
          rw [ih ns h2]
          exact h

/-- A larger bound on the depth of the recursion does not change what a walk returns. -/
theorem walkDirectoryOn_mono (filepath : Filepath) (os : OS) (options : WalkerOptions) :
    ∀ (fuel k : Nat) (dirPath : String) (currentDepth : Nat)
      (r : List Node × Option String), fuel ≤ k →
      walkDirectoryOn filepath os options fuel dirPath currentDepth = Run.returns r →
      walkDirectoryOn filepath os options k dirPath currentDepth = Run.returns r := by
  intro fuel
  induction fuel with
  | zero => intro k dirPath currentDepth r _ h; simp [walkDirectoryOn] at h
  | succ fuel ih =>
    intro k dirPath currentDepth r hk h
    obtain ⟨k, rfl⟩ : ∃ j, k = j + 1 := ⟨k - 1, by omega⟩
    rw [walkDirectoryOn_succ] at h ⊢
    split
    · rename_i hcut
      rw [if_pos hcut] at h
      exact h
    · rename_i hcut
      rw [if_neg hcut] at h
      cases hr : os.ReadDir dirPath with
      | none => rw [hr] at h; exact h
      | some entries =>
        rw [hr] at h
        simp only at h ⊢
        cases hl : walkDirectoryOn.loop filepath os options
            (walkDirectoryOn filepath os options fuel) dirPath currentDepth entries with
        | panics => rw [hl] at h; cases h
        | unfinished => rw [hl] at h; cases h
        | returns nodes =>
          rw [hl] at h
          rw [walkDirectoryOn_loop_mono filepath os options _ _ dirPath currentDepth
            (fun path depth r hr => ih k path depth r (by omega) hr) entries nodes hl]
          exact h

theorem skipHidden_ne_none (options : WalkerOptions) (name : String)
    (h : options.ShowHidden = true ∨ name ≠ "") : skipHidden options name ≠ none := by
  unfold skipHidden
  rcases h with h | h
  · simp [h]
  · have hd : ∃ b, firstByte name = some b := by
      obtain ⟨data⟩ := name
      cases data with
      | nil => exact absurd rfl h
      | cons c t => exact ⟨c, rfl⟩
    obtain ⟨b, hb⟩ := hd
    rw [hb]
    split <;> simp

/-- The loop of `walkDirectory` returns when the names of the entries are not empty and
every recursive call it makes returns. -/
theorem walkDirectoryOn_loop_returns (filepath : Filepath) (os : OS) (options : WalkerOptions)
    (call : String → Nat → Run (List Node × Option String)) (dirPath : String)
    (currentDepth : Nat) :
    ∀ (entries : List DirEntry),
      (options.ShowHidden = true ∨ ∀ entry ∈ entries, entry.Name ≠ "") →
      (∀ entry ∈ entries, ∀ info path, entry.Info = some info →
        os.descend filepath dirPath entry info = some path →
        ∃ r, call path (currentDepth + 1) = Run.returns r) →
      ∃ nodes, walkDirectoryOn.loop filepath os options call dirPath currentDepth entries
        = Run.returns nodes := by
  intro entries
  induction entries with
  | nil => intro _ _; exact ⟨[], rfl⟩
  | cons entry rest ih =>
    intro hnames hcall
    obtain ⟨nodes, hrest⟩ := ih
      (hnames.imp id (fun h e he => h e (List.mem_cons_of_mem _ he)))
      (fun e he => hcall e (List.mem_cons_of_mem _ he))
    rcases walkDirectoryOn_loop_cases options entry with hs | hs | ⟨info, hs, hi⟩
    · exact absurd hs (skipHidden_ne_none options entry.Name
        (hnames.imp id (fun h => h entry (List.mem_cons_self _ _))))
    · rw [walkDirectoryOn_loop_skip _ _ _ _ _ _ _ _ hs]
      exact ⟨nodes, hrest⟩
    · rw [walkDirectoryOn_loop_add _ _ _ _ _ _ _ _ info hs hi, hrest]
      have hsub : ∃ r, walkDirectoryOn.sub filepath os call dirPath currentDepth entry info
          = Run.returns r := by
        unfold walkDirectoryOn.sub
        cases hd : os.descend filepath dirPath entry info with
        | none => exact ⟨_, rfl⟩
        | some path => exact hcall entry (List.mem_cons_self _ _) info path hi hd
      obtain ⟨⟨children, e⟩, hr⟩ := hsub
      rw [hr]
      exact ⟨_, rfl⟩

/-- The walk of a directory returns once the bound on the depth of the recursion exceeds
a number that gets smaller with every recursive call. -/
theorem walkDirectoryOn_returns (filepath : Filepath) (os : OS) (options : WalkerOptions)
    (hnames : options.ShowHidden = true ∨ os.namesNotEmpty) (size : String → Nat → Nat)
    (hsize : ∀ (dirPath : String) (currentDepth : Nat) entries entry info path,
      ¬ (options.MaxDepth > 0 ∧ (currentDepth : Int) ≥ options.MaxDepth) →
      os.ReadDir dirPath = some entries → entry ∈ entries → entry.Info = some info →
      os.descend filepath dirPath entry info = some path →
      size path (currentDepth + 1) < size dirPath currentDepth) :
    ∀ (fuel : Nat) (dirPath : String) (currentDepth : Nat), size dirPath currentDepth < fuel →
      ∃ children, walkDirectoryOn filepath os options fuel dirPath currentDepth
        = Run.returns (children, none) := by
  intro fuel
  induction fuel with
  | zero => intro dirPath currentDepth h; omega
  | succ fuel ih =>
    intro dirPath currentDepth h
    rw [walkDirectoryOn_succ]
    split
    · exact ⟨[], rfl⟩
    · rename_i hcut
      cases hr : os.ReadDir dirPath with
      | none => exact ⟨[], rfl⟩
      | some entries =>
        obtain ⟨nodes, hl⟩ := walkDirectoryOn_loop_returns filepath os options
          (walkDirectoryOn filepath os options fuel) dirPath currentDepth entries
          (hnames.imp id (fun hn => hn dirPath entries hr))
          (fun entry he info path hi hd => by
            have := hsize dirPath currentDepth entries entry info path hcut hr he hi hd
            obtain ⟨cs, hcs⟩ := ih path (currentDepth + 1) (by omega)
            exact ⟨_, hcs⟩)
        simp only [hl]
        exact ⟨nodes, rfl⟩

/-- The walk of a directory ends when there is a depth limit, and it ends when no directory
is entered again from below itself: some bound on the depth of the recursion is enough,
and every larger one gives the same children. -/
theorem walkDirectoryOn_ends (filepath : Filepath) (os : OS) (options : WalkerOptions)
    (hnames : options.ShowHidden = true ∨ os.namesNotEmpty)
    (hends : options.MaxDepth > 0 ∨ ∃ rank, os.descends filepath rank)
    (dirPath : String) (currentDepth : Nat) :
    ∃ fuel children, ∀ k, fuel ≤ k →
      walkDirectoryOn filepath os options k dirPath currentDepth
        = Run.returns (children, none) := by
  have key : ∃ fuel children, walkDirectoryOn filepath os options fuel dirPath currentDepth
      = Run.returns (children, none) := by
    rcases hends with hpos | ⟨rank, hrank⟩
    · obtain ⟨cs, hcs⟩ := walkDirectoryOn_returns filepath os options hnames
        (fun _ d => options.MaxDepth.toNat - d)
        (fun dirPath d entries entry info path hcut _ _ _ _ => by
          have hlt : (d : Int) < options.MaxDepth := by
            by_contra hge
            exact hcut ⟨hpos, by omega⟩
          show options.MaxDepth.toNat - (d + 1) < options.MaxDepth.toNat - d
          omega)
        (options.MaxDepth.toNat - currentDepth + 1) dirPath currentDepth (Nat.lt_succ_self _)
      exact ⟨_, cs, hcs⟩
    · obtain ⟨cs, hcs⟩ := walkDirectoryOn_returns filepath os options hnames
        (fun p _ => rank p)
        (fun dirPath d entries entry info path _ hr he hi hd =>
          hrank dirPath entries entry info path hr he hi hd)
        (rank dirPath + 1) dirPath currentDepth (Nat.lt_succ_self _)
      exact ⟨_, cs, hcs⟩
  obtain ⟨fuel, children, h⟩ := key
  exact ⟨fuel, children, fun k hk =>
    walkDirectoryOn_mono filepath os options fuel k dirPath currentDepth _ hk h⟩

/-- The results of `WalkTree`, by the answers for the root. -/
theorem WalkTreeOn_cases (filepath : Filepath) (os : OS) (options : WalkerOptions)
    (rootPath : String) :
    (∀ err fuel, os.Abs rootPath = Except.error err →
      WalkTreeOn filepath os options fuel rootPath = Run.returns (none, some err)) ∧
    (∀ absPath err fuel, os.Abs rootPath = Except.ok absPath →
      os.Stat absPath = Except.error err →
      WalkTreeOn filepath os options fuel rootPath = Run.returns (none, some err)) ∧
    (∀ absPath info children fuel, os.Abs rootPath = Except.ok absPath →
      os.Stat absPath = Except.ok info →
      walkDirectoryOn filepath os options fuel absPath 0 = Run.returns (children, none) →
      WalkTreeOn filepath os options fuel rootPath
        = Run.returns (some (rootNode filepath absPath info children), none)) ∧
    (∀ absPath info fuel, os.Abs rootPath = Except.ok absPath →
      os.Stat absPath = Except.ok info →
      walkDirectoryOn filepath os options fuel absPath 0 = Run.unfinished →
      WalkTreeOn filepath os options fuel rootPath = Run.unfinished) := by
  refine ⟨?_, ?_, ?_, ?_⟩
  · intro err fuel h
    simp only [WalkTreeOn, h]
  · intro absPath err fuel h1 h2
    simp only [WalkTreeOn, h1, h2]
  · intro absPath info children fuel h1 h2 h3
    simp [WalkTreeOn, h1, h2, h3, rootNode, NewNode]
  · intro absPath info fuel h1 h2 h3
    simp only [WalkTreeOn, h1, h2, h3]

/-- The loop of `walkDirectory` handles every entry on its own: the children for a
listing are those for its first part followed by those for the rest. -/
theorem walkDirectoryOn_loop_append (filepath : Filepath) (os : OS) (options : WalkerOptions)
    (call : String → Nat → Run (List Node × Option String)) (dirPath : String)
    (currentDepth : Nat) (a b : List DirEntry) :
    walkDirectoryOn.loop filepath os options call dirPath currentDepth (a ++ b)
      = match walkDirectoryOn.loop filepath os options call dirPath currentDepth a with
        | Run.returns x =>
          match walkDirectoryOn.loop filepath os options call dirPath currentDepth b with
          | Run.returns y => Run.returns (x ++ y)
          | Run.panics => Run.panics
          | Run.unfinished => Run.unfinished
        | Run.panics => Run.panics
        | Run.unfinished => Run.unfinished := by
  induction a with
  | nil =>
    simp only [List.nil_append, walkDirectoryOn.loop]
    cases walkDirectoryOn.loop filepath os options call dirPath currentDepth b <;> rfl
  | cons entry a ih =>
    rw [List.cons_append]
    rcases walkDirectoryOn_loop_cases options entry with hs | hs | ⟨info, hs, hi⟩
    · rw [walkDirectoryOn_loop_panics _ _ _ _ _ _ _ _ hs,
        walkDirectoryOn_loop_panics _ _ _ _ _ _ _ _ hs]
    · rw [walkDirectoryOn_loop_skip _ _ _ _ _ _ _ _ hs,
        walkDirectoryOn_loop_skip _ _ _ _ _ _ _ _ hs, ih]
    · rw [walkDirectoryOn_loop_add _ _ _ _ _ _ _ _ info hs hi,
        walkDirectoryOn_loop_add _ _ _ _ _ _ _ _ info hs hi, ih]
      cases walkDirectoryOn.sub filepath os call dirPath currentDepth entry info with
      | panics => rfl
      | unfinished => rfl
      | returns r =>
        obtain ⟨children, e⟩ := r
        simp only
        cases walkDirectoryOn.loop filepath os options call dirPath currentDepth a with
        | panics => rfl
        | unfinished => rfl
        | returns x =>
          cases walkDirectoryOn.loop filepath os options call dirPath currentDepth b with
          | panics => rfl
          | unfinished => rfl
          | returns y => rfl

/-- On the file system whose directory holds a symbolic link to itself the walk without a
depth limit is cut off at every bound on the depth of the recursion. -/
theorem walkDirectoryOn_ringOS : ∀ (fuel currentDepth : Nat),
    walkDirectoryOn slashPath ringOS ⟨false, 0, "/home/u/ring"⟩ fuel "/home/u/ring" currentDepth
      = Run.unfinished := by
  intro fuel
  induction fuel with
  | zero => intro _; rfl
  | succ fuel ih =>
    intro currentDepth
    have hread : ringOS.ReadDir "/home/u/ring"
        = some [⟨"again", ModeSymlink, some (linkInfo "again")⟩] := rfl
    have hdesc : ringOS.descend slashPath "/home/u/ring"
        ⟨"again", ModeSymlink, some (linkInfo "again")⟩ (linkInfo "again")
        = some "/home/u/ring" := by decide
    rw [walkDirectoryOn_succ, if_neg (fun h => absurd h.1 (by decide)), hread]
    simp only
    rw [walkDirectoryOn_loop_add _ _ _ _ _ _ _ _ (linkInfo "again") (by decide) rfl]
    unfold walkDirectoryOn.sub
    rw [hdesc]
    simp only [ih]

theorem sampleOS_namesNotEmpty : sampleOS.namesNotEmpty := by
  intro dirPath entries hr entry he
  simp only [sampleOS] at hr
  split_ifs at hr <;> simp only [Option.some.injEq, reduceCtorEq] at hr <;> subst hr <;>
    simp only [List.mem_cons, List.mem_singleton, List.not_mem_nil, or_false] at he <;>
    rcases he with rfl | rfl | rfl | rfl | rfl <;> decide

theorem option_all_some {α : Type} (o : Option α) (P : α → Prop) [DecidablePred P]
    (h : o.all (fun q => decide (P q)) = true) (a : α) (ha : o = some a) : P a := by
  subst ha
  simpa using h

theorem sampleOS_descends : sampleOS.descends slashPath sampleRank := by
  intro dirPath entries entry info path hr he hi hd
  simp only [sampleOS] at hr
  split_ifs at hr with h1 h2 h3 h4 <;> simp only [Option.some.injEq, reduceCtorEq] at hr <;>
    subst hr <;>
    simp only [List.mem_cons, List.mem_singleton, List.not_mem_nil, or_false] at he <;>
    rcases he with rfl | rfl | rfl | rfl | rfl <;>
    simp only [Option.some.injEq, reduceCtorEq] at hi <;> subst hi <;>
    first
    | subst h1
    | subst h2
    | subst h3
    | subst h4
  all_goals
    exact option_all_some _ (fun q => sampleRank q < sampleRank _) (by decide) path hd

theorem ringOS_namesNotEmpty : ringOS.namesNotEmpty := by
  intro dirPath entries hr entry he
  simp only [ringOS] at hr
  split_ifs at hr
  simp only [Option.some.injEq] at hr
  subst hr
  simp only [List.mem_singleton] at he
  subst he
  decide

/-- On `sampleOS` the walk with the calls as functions of the path returns the tree that
the walk of the finite tree `sampleFS` returns, also under a depth limit. -/
theorem WalkTreeOn_sampleOS :
    WalkTreeOn slashPath sampleOS ⟨false, 0, "/home/u/proj"⟩ 3 "proj"
      = Run.returns (some sampleTree, none) ∧
    WalkTree slashPath sampleFS "proj" ⟨false, 0, "/home/u/proj"⟩
      = some (some sampleTree, none) ∧
    WalkTreeOn slashPath sampleOS ⟨false, 2, "/home/u/proj"⟩ 3 "proj"
      = Run.returns (some sampleTree2, none) ∧
    WalkTree slashPath sampleFS "proj" ⟨false, 2, "/home/u/proj"⟩
      = some (some sampleTree2, none) :=
  ⟨rfl, rfl, rfl, rfl⟩

/-- C18 fails on the code: in the directory `/home/u/ring`, whose entry `again` is a
symbolic link to the directory itself, `walkDirectory` without a depth limit calls itself
for `again` on the same path again and again. Whatever the bound on the depth of the
recursion, the walk is cut off there: `walkDirectory` does not return, and `WalkTree`
returns neither a node nor an error, although every name is not empty. -/
theorem WalkTreeOn_ringOS :
    (∀ fuel currentDepth : Nat,
      walkDirectoryOn slashPath ringOS ⟨false, 0, "/home/u/ring"⟩ fuel "/home/u/ring"
        currentDepth = Run.unfinished) ∧
    (∀ fuel : Nat,
      WalkTreeOn slashPath ringOS ⟨false, 0, "/home/u/ring"⟩ fuel "ring" = Run.unfinished) ∧
    ¬ (∃ (fuel : Nat) (r : List Node × Option String),
      walkDirectoryOn slashPath ringOS ⟨false, 0, "/home/u/ring"⟩ fuel "/home/u/ring" 0
        = Run.returns r) ∧
    ringOS.namesNotEmpty := by
  refine ⟨walkDirectoryOn_ringOS, ?_, ?_, ringOS_namesNotEmpty⟩
  · intro fuel
    exact (WalkTreeOn_cases slashPath ringOS ⟨false, 0, "/home/u/ring"⟩ "ring").2.2.2
      "/home/u/ring" (dirInfo "ring") fuel rfl rfl (walkDirectoryOn_ringOS fuel 0)
  · rintro ⟨fuel, r, h⟩
    rw [walkDirectoryOn_ringOS] at h
    cases h

/-- C18 as amended: when hidden entries are shown or no listed name is empty, and when
there is a depth limit or no directory is entered again from below itself, `WalkTree`
returns, and it returns an error exactly when `filepath.Abs` or `os.Stat` fails for the
root, that error, and a node otherwise. `walkDirectory` returns `nil` whenever it returns,
and under these conditions it returns for every directory. A directory whose listing
fails gets zero children: `walkDirectory` returns at once for it, and the entry it was
entered from is kept. An entry whose `Info` fails is skipped, and the children added for
the other entries of the directory are the same as without it. -/
theorem WalkTreeOn_errors (filepath : Filepath) (os : OS) (options : WalkerOptions)
    (rootPath : String) (hnames : options.ShowHidden = true ∨ os.namesNotEmpty)
    (hends : options.MaxDepth > 0 ∨ ∃ rank, os.descends filepath rank) :
    (∃ fuel r,
      (∀ k, fuel ≤ k → WalkTreeOn filepath os options k rootPath = Run.returns r) ∧
      (∀ err, r = (none, some err)
        ↔ (os.Abs rootPath = Except.error err ∨
            ∃ absPath, os.Abs rootPath = Except.ok absPath ∧
              os.Stat absPath = Except.error err)) ∧
      ((∃ root, r = (some root, none))
        ↔ ∃ absPath info, os.Abs rootPath = Except.ok absPath ∧
            os.Stat absPath = Except.ok info) ∧
      (r.1 = none ↔ r.2 ≠ none)) ∧
    (∀ fuel dirPath currentDepth children err,
      walkDirectoryOn filepath os options fuel dirPath currentDepth
        = Run.returns (children, err) →
      err = none) ∧
    (∀ dirPath currentDepth, ∃ fuel children, ∀ k, fuel ≤ k →
      walkDirectoryOn filepath os options k dirPath currentDepth
        = Run.returns (children, none)) ∧
    (∀ fuel dirPath currentDepth, os.ReadDir dirPath = none →
      walkDirectoryOn filepath os options (fuel + 1) dirPath currentDepth
        = Run.returns ([], none)) ∧
    (∀ fuel dirPath currentDepth entry info path rest nodes,
      skipHidden options entry.Name = some false → entry.Info = some info →
      os.descend filepath dirPath entry info = some path → os.ReadDir path = none →
      walkDirectoryOn.loop filepath os options (walkDirectoryOn filepath os options (fuel + 1))
          dirPath currentDepth rest = Run.returns nodes →
      walkDirectoryOn.loop filepath os options (walkDirectoryOn filepath os options (fuel + 1))
          dirPath currentDepth (entry :: rest)
        = Run.returns ({ os.node filepath dirPath entry info with Children := [] } :: nodes)) ∧
    (∀ call dirPath currentDepth entry before after,
      entry.Info = none → skipHidden options entry.Name ≠ none →
      walkDirectoryOn.loop filepath os options call dirPath currentDepth
          (before ++ entry :: after)
        = walkDirectoryOn.loop filepath os options call dirPath currentDepth
            (before ++ after)) := by
  obtain ⟨c1, c2, c3, _⟩ := WalkTreeOn_cases filepath os options rootPath
  have hfailed : ∀ fuel dirPath currentDepth, os.ReadDir dirPath = none →
      walkDirectoryOn filepath os options (fuel + 1) dirPath currentDepth
        = Run.returns ([], none) := by
    intro fuel dirPath currentDepth hr
    rw [walkDirectoryOn_succ, hr]
    split <;> rfl
  refine ⟨?_, ?_, ?_, hfailed, ?_, ?_⟩
  · cases ha : os.Abs rootPath with
    | error e =>
      refine ⟨0, (none, some e), fun k _ => c1 e k ha, ?_, ?_, by simp⟩
      · intro err
        simp
      · simp
    | ok absPath =>
      cases hs : os.Stat absPath with
      | error e =>
        refine ⟨0, (none, some e), fun k _ => c2 absPath e k ha hs, ?_, ?_, by simp⟩
        · intro err
          simp only [Prod.mk.injEq, Option.some.injEq, true_and, reduceCtorEq, false_or,
            Except.ok.injEq]
          constructor
          · rintro rfl
            exact ⟨absPath, rfl, hs⟩
          · rintro ⟨a, rfl, hs'⟩
            rw [hs] at hs'
            cases hs'
            rfl
        · simp only [Prod.mk.injEq, reduceCtorEq, false_and, exists_false, Except.ok.injEq,
            false_iff, not_exists, not_and]
          rintro a i rfl hs'
          rw [hs] at hs'
          cases hs'
      | ok info =>
        obtain ⟨fuel, children, hw⟩ :=
          walkDirectoryOn_ends filepath os options hnames hends absPath 0
        refine ⟨fuel, (some (rootNode filepath absPath info children), none),
          fun k hk => c3 absPath info children k ha hs (hw k hk), ?_, ?_, by simp⟩
        · intro err
          simp only [Prod.mk.injEq, reduceCtorEq, false_and, false_or, Except.ok.injEq,
            false_iff, not_exists, not_and]
          rintro a rfl hs'
          rw [hs] at hs'
          cases hs'
        · exact ⟨fun _ => ⟨absPath, info, rfl, hs⟩, fun _ => ⟨_, rfl⟩⟩
  · intro fuel dirPath currentDepth children err h
    exact walkDirectoryOn_err _ _ _ _ _ _ _ _ h
  · intro dirPath currentDepth
    exact walkDirectoryOn_ends filepath os options hnames hends dirPath currentDepth
  · intro fuel dirPath currentDepth entry info path rest nodes hs hi hd hr hrest
    have hch : (os.node filepath dirPath entry info).Children = [] :=
      entryNode_Children _ _ _ _ _
    have hsub : walkDirectoryOn.sub filepath os (walkDirectoryOn filepath os options (fuel + 1))
        dirPath currentDepth entry info = Run.returns ([], none) := by
      unfold walkDirectoryOn.sub
      rw [hd]
      exact hfailed fuel path (currentDepth + 1) hr
    rw [walkDirectoryOn_loop_add _ _ _ _ _ _ _ _ info hs hi, hrest, hsub]
    simp only [List.append_nil, hch]
  · intro call dirPath currentDepth entry before after hi hs
    rw [walkDirectoryOn_loop_append, walkDirectoryOn_loop_append filepath os options call
      dirPath currentDepth before after]
    have hskip : walkDirectoryOn.loop filepath os options call dirPath currentDepth
          (entry :: after)
        = walkDirectoryOn.loop filepath os options call dirPath currentDepth after := by
      apply walkDirectoryOn_loop_skip
      cases hsk : skipHidden options entry.Name with
      | none => exact absurd hsk hs
      | some b =>
        cases b with
        | true => exact Or.inl rfl
        | false => exact Or.inr ⟨rfl, hi⟩
    rw [hskip]

/-- Witness for the amended C18: the walk of `sampleOS` without a depth limit, where no
directory is entered again, and the walk of `ringOS`, whose directory holds a symbolic
link to itself, with the depth limit 2; both return. -/
theorem WalkTreeOn_errors_witness :
    (∃ fuel r, ∀ k, fuel ≤ k →
      WalkTreeOn slashPath sampleOS ⟨false, 0, "/home/u/proj"⟩ k "proj" = Run.returns r) ∧
    (∃ fuel r, ∀ k, fuel ≤ k →
      WalkTreeOn slashPath ringOS ⟨false, 2, "/home/u/ring"⟩ k "ring" = Run.returns r) :=
  ⟨(WalkTreeOn_errors slashPath sampleOS ⟨false, 0, "/home/u/proj"⟩ "proj"
      (Or.inr sampleOS_namesNotEmpty) (Or.inr ⟨sampleRank, sampleOS_descends⟩)).1.imp
      (fun _ h => h.imp (fun _ h => h.1)),
    (WalkTreeOn_errors slashPath ringOS ⟨false, 2, "/home/u/ring"⟩ "ring"
      (Or.inr ringOS_namesNotEmpty) (Or.inl (by decide))).1.imp
      (fun _ h => h.imp (fun _ h => h.1))⟩

/-! ## Claims on the browser -/

/-- The visible set of the initial state is the filtered result `initialModel` stores: the
root alone. -/
theorem getVisibleNodes_initialModel (filepath : Filepath) (root : Node)
    (theme : Option Theme) :
    (initialModel root theme).getVisibleNodes filepath = [root] := by
  simp [model.getVisibleNodes, initialModel]

/-- C19 fails on the code: for `root/{a.txt, sub/{b.txt}}` in `/tmp` the state built by
`initialModel` is in Navigation mode with an empty query, but its filtered result is the
root and not empty, the key it marks as expanded is the root's `Path` `/tmp` and not the
root's node key `/tmp/root`, and `getVisibleNodes` returns the root alone and not the root
followed by `a.txt` and `sub`. -/
theorem initialModel_exampleTree :
    (initialModel exampleTree none).searchMode = false ∧
    (initialModel exampleTree none).searchQuery = "" ∧
    (initialModel exampleTree none).filtered.map (fun n => n.Name) = ["root"] ∧
    (initialModel exampleTree none).expanded exampleTree.Path = true ∧
    (initialModel exampleTree none).expanded
      (slashPath.Join exampleTree.Path exampleTree.Name) = false ∧
    ((initialModel exampleTree none).getVisibleNodes slashPath).map (fun n => n.Name)
      = ["root"] ∧
    (exampleTree :: exampleTree.Children).map (fun n => n.Name) = ["root", "a.txt", "sub"] := by
  decide

theorem find_lt (selected : String) : ∀ (nodes : List Node) (k : Nat),
    model.moveSelection.find selected nodes k = -1 ∨
    ((k : Int) ≤ model.moveSelection.find selected nodes k ∧
      model.moveSelection.find selected nodes k < (k : Int) + nodes.length) := by
  intro nodes
  induction nodes with
  | nil => intro k; exact Or.inl rfl
  | cons n rest ih =>
    intro k
    rw [model.moveSelection.find]
    split
    · exact Or.inr ⟨Int.le_refl _, by simp⟩
    · rcases ih (k + 1) with h | h
      · exact Or.inl h
      · refine Or.inr ⟨by omega, ?_⟩
        simp only [List.length_cons]
        omega

/-- Among nodes of distinct `Path` the loop of `moveSelection` finds the node whose
`Path` is selected. -/
theorem find_distinct (selected : String) : ∀ (nodes : List Node) (k i : Nat) (node : Node),
    (nodes.map (fun n => n.Path)).Nodup → nodes[i]? = some node → node.Path = selected →
    model.moveSelection.find selected nodes k = (k : Int) + i := by
  intro nodes
  induction nodes with
  | nil => intro k i node _ h; simp at h
  | cons n rest ih =>
    intro k i node hnd hi hsel
    rw [model.moveSelection.find]
    rw [List.map_cons, List.nodup_cons] at hnd
    cases i with
    | zero =>
      simp only [List.getElem?_cons_zero, Option.some.injEq] at hi
      subst hi
      rw [if_pos hsel]
      simp
    | succ i =>
      simp only [List.getElem?_cons_succ] at hi
      have hne : n.Path ≠ selected := by
        intro hc
        apply hnd.1
        rw [hc, ← hsel]
        exact List.mem_map_of_mem _ (List.getElem?_mem hi)
      rw [if_neg hne, ih (k + 1) i node hnd.2 hi hsel]
      push_cast
      omega

mutual
/-- The flattening reads the state through the map `expanded` only. -/
theorem flattenTree_congr (filepath : Filepath) (m m' : model)
    (h : m.expanded = m'.expanded) (node : Node) (pfx : String) :
    m.flattenTree filepath node pfx = m'.flattenTree filepath node pfx :=
  match node with
  | ⟨name, path, isDir, isSymlink, children, size, modTime, mode⟩ => by
    simp only [model.flattenTree, h, flattenTree_loop_congr filepath m m' h children pfx]
theorem flattenTree_loop_congr (filepath : Filepath) (m m' : model)
    (h : m.expanded = m'.expanded) (rest : List Node) (pfx : String) :
    model.flattenTree.loop filepath m rest pfx = model.flattenTree.loop filepath m' rest pfx :=
  match rest with
  | [] => by simp only [model.flattenTree.loop]
  | child :: tl => by
    simp only [model.flattenTree.loop, flattenTree_congr filepath m m' h child (pfx ++ "  "),
      flattenTree_loop_congr filepath m m' h tl pfx]
end

/-- The visible set does not depend on the selection. -/
theorem getVisibleNodes_selected (filepath : Filepath) (m : model) (s : String) :
    ({ m with selected := s } : model).getVisibleNodes filepath
      = m.getVisibleNodes filepath := by
  simp only [model.getVisibleNodes]
  rw [flattenTree_congr filepath { m with selected := s } m rfl]

/-- What `moveSelection` does when no two visible nodes share their `Path`: from the
`i`-th visible entry the selection moves to the entry at `i + delta`, held within the
visible set, and the visible set stays as it is. -/
theorem moveSelection_distinct (filepath : Filepath) (m : model) (delta : Int) (i : Nat)
    (node : Node)
    (hnd : ((m.getVisibleNodes filepath).map (fun n => n.Path)).Nodup)
    (hi : (m.getVisibleNodes filepath)[i]? = some node) (hsel : m.selected = node.Path) :
    (m.moveSelection filepath delta).selected
      = pathAt (m.getVisibleNodes filepath)
          (max 0 (min ((i : Int) + delta) (((m.getVisibleNodes filepath).length : Int) - 1))) ∧
    (m.moveSelection filepath delta).getVisibleNodes filepath
      = m.getVisibleNodes filepath := by
  have hlen : i < (m.getVisibleNodes filepath).length := by
    by_contra hc
    rw [List.getElem?_eq_none (by omega)] at hi
    cases hi
  have hfind := find_distinct m.selected (m.getVisibleNodes filepath) 0 i node hnd hi hsel.symm
  unfold model.moveSelection
  simp only [hfind]
  rw [if_neg (by omega), if_neg (by omega)]
  refine ⟨?_, getVisibleNodes_selected filepath m _⟩
  simp only
  congr 1
  split_ifs <;> omega

/-- C20 fails on the code: in the browser on `proj/{a.txt, b.txt, c.txt}` with the root
expanded the visible set is `proj, a.txt, b.txt, c.txt` and the three files share their
`Path`. With that `Path` selected the selected entry is found at index 1; after the down
key it is found at index 1 again and not at index 2, the field `selected` is unchanged,
and all three files are marked as selected. -/
theorem moveSelection_flatModel :
    (flatModel.getVisibleNodes slashPath).map (fun n => n.Name)
      = ["proj", "a.txt", "b.txt", "c.txt"] ∧
    selectedIndex slashPath flatModel = 1 ∧
    selectedIndex slashPath (flatModel.moveSelection slashPath 1) = 1 ∧
    (flatModel.moveSelection slashPath 1).selected = flatModel.selected ∧
    (highlighted slashPath flatModel).map (fun n => n.Name) = ["a.txt", "b.txt", "c.txt"] := by
  decide

/-! ## Claims on the events of the browser -/

mutual
theorem preorder_positions (node : Node) :
    preorder node = (allPositions node).filterMap (nodeAt node) :=
  match node with
  | ⟨nm, pa, d, sl, children, sz, mt, mo⟩ => by
    have h := preorder_all_positions children ⟨nm, pa, d, sl, children, sz, mt, mo⟩ 0 (by simp)
    simp only [preorder, allPositions, positions, List.filterMap_cons, nodeAt, h]
theorem preorder_all_positions (rest : List Node) (node : Node) (i : Nat)
    (h : node.Children.drop i = rest) :
    preorder.all rest = (positions.from rest i).filterMap (nodeAt node) :=
  match rest with
  | [] => by simp [preorder.all, positions.from]
  | child :: tl => by
    have hi : node.Children[i]? = some child := by
      rw [← List.head?_drop, h]; rfl
    have htl : node.Children.drop (i + 1) = tl := by
      rw [← List.drop_drop, h]; rfl
    have ih1 := preorder_positions child
    have ih2 := preorder_all_positions tl node (i + 1) htl
    rw [preorder.all, positions.from, ih1, ih2]
    simp only [allPositions, List.cons_append, List.filterMap_append, List.filterMap_cons,
      List.filterMap_map]
    have h2 : (nodeAt node ∘ fun p => i :: p) = nodeAt child := by
      funext q
      exact nodeAt_cons node child i q hi
    simp only [h2, nodeAt, hi, List.cons_append]
end

/-- A node at a position of a tree is in its pre-order sequence. -/
theorem mem_preorder (root : Node) (p : List Nat) (n : Node) (h : nodeAt root p = some n) :
    n ∈ preorder root := by
  rw [preorder_positions, List.mem_filterMap]
  refine ⟨p, ?_, h⟩
  cases p with
  | nil => simp [allPositions]
  | cons i r =>
    simp only [allPositions, List.mem_cons, reduceCtorEq, false_or]
    rw [mem_positions]
    exact ⟨by simp, by simp [h]⟩

mutual
/-- The closure `search` appends the matching nodes of the subtree in pre-order. -/
theorem search_preorder (ToLower : String → String) (Contains : String → String → Bool)
    (query : String) (node : Node) (filtered : List Node) :
    model.filterTree.search ToLower Contains query node filtered
      = filtered ++ (preorder node).filter (fun n => Contains (ToLower n.Name) query) :=
  match node with
  | ⟨nm, pa, d, sl, children, sz, mt, mo⟩ => by
    rw [model.filterTree.search, preorder, search_loop_preorder ToLower Contains query children]
    by_cases h : Contains (ToLower nm) query = true
    · simp [h, List.filter_cons]
    · simp [h, List.filter_cons]
theorem search_loop_preorder (ToLower : String → String) (Contains : String → String → Bool)
    (query : String) (rest : List Node) (filtered : List Node) :
    model.filterTree.search.loop ToLower Contains query rest filtered
      = filtered ++ (preorder.all rest).filter (fun n => Contains (ToLower n.Name) query) :=
  match rest with
  | [] => by simp [model.filterTree.search.loop, preorder.all]
  | child :: tl => by
    rw [model.filterTree.search.loop, search_loop_preorder ToLower Contains query tl,
      search_preorder ToLower Contains query child, preorder.all, List.filter_append,
      List.append_assoc]
end

/-- C22: for every state in SearchInput mode with a query that is not empty, the key
`enter` sets the filtered result to the nodes of the whole tree, in depth-first pre-order
and whatever is expanded, whose lower-cased `Name` contains the lower-cased query, and
leaves SearchInput mode; the pre-order sequence holds the node of every position. When one
node alone matches, the filtered result is that node. -/
theorem Update_enter_search (filepath : Filepath) (ToLower : String → String)
    (Contains : String → String → Bool) (m : model) (hmode : m.searchMode = true)
    (hq : m.searchQuery ≠ "") :
    (m.Update filepath ToLower Contains (Msg.KeyMsg "enter")).1.filtered
      = (preorder m.treeRoot).filter (nameMatches ToLower Contains m.searchQuery) ∧
    (m.Update filepath ToLower Contains (Msg.KeyMsg "enter")).1.searchMode = false ∧
    (m.Update filepath ToLower Contains (Msg.KeyMsg "enter")).2 = none ∧
    preorder m.treeRoot = (allPositions m.treeRoot).filterMap (nodeAt m.treeRoot) ∧
    (∀ before n after, preorder m.treeRoot = before ++ n :: after →
      nameMatches ToLower Contains m.searchQuery n = true →
      (∀ x ∈ before ++ after, nameMatches ToLower Contains m.searchQuery x = false) →
      (m.Update filepath ToLower Contains (Msg.KeyMsg "enter")).1.filtered = [n]) := by
  have hu : m.Update filepath ToLower Contains (Msg.KeyMsg "enter")
      = (model.filterTree ToLower Contains { m with searchMode := false }, none) := by
    simp [model.Update, hmode]
  have hf : (model.filterTree ToLower Contains { m with searchMode := false }).filtered
      = (preorder m.treeRoot).filter (nameMatches ToLower Contains m.searchQuery) := by
    simp only [model.filterTree, if_neg hq, search_preorder, List.nil_append]
    rfl
  have hs : (model.filterTree ToLower Contains { m with searchMode := false }).searchMode
      = false := by
    simp only [model.filterTree, if_neg hq]
  rw [hu]
  refine ⟨hf, hs, rfl, preorder_positions _, ?_⟩
  intro before n after hpre hn hrest
  show (model.filterTree ToLower Contains { m with searchMode := false }).filtered = [n]
  rw [hf, hpre, List.filter_append, List.filter_cons, if_pos hn]
  have h1 : before.filter (nameMatches ToLower Contains m.searchQuery) = [] := by
    rw [List.filter_eq_nil_iff]
    intro x hx
    simp [hrest x (List.mem_append_left _ hx)]
  have h2 : after.filter (nameMatches ToLower Contains m.searchQuery) = [] := by
    rw [List.filter_eq_nil_iff]
    intro x hx
    simp [hrest x (List.mem_append_right _ hx)]
  rw [h1, h2]
  rfl

/-- Witness for C22: the query `B.T` on `proj/{a.txt, b.txt, c.txt}` finds `b.txt`. -/
theorem Update_enter_search_witness :
    (({ flatModel with searchMode := true, searchQuery := "B.T" } : model).Update slashPath
        lowerText containsText (Msg.KeyMsg "enter")).1.filtered.map (fun n => n.Name)
      = ["b.txt"] := by
  have h := (Update_enter_search slashPath lowerText containsText
    { flatModel with searchMode := true, searchQuery := "B.T" } rfl (by decide)).1
  rw [h]
  decide

theorem filterTree_fields (ToLower : String → String) (Contains : String → String → Bool)
    (m : model) :
    (model.filterTree ToLower Contains m).searchMode = m.searchMode ∧
    (model.filterTree ToLower Contains m).searchQuery = m.searchQuery ∧
    (model.filterTree ToLower Contains m).selected = m.selected ∧
    (model.filterTree ToLower Contains m).expanded = m.expanded := by
  unfold model.filterTree
  split <;> exact ⟨rfl, rfl, rfl, rfl⟩

/-- C23 fails on the code: in SearchInput mode with the query `ab` the key `/` empties the
query buffer. -/
theorem Update_slash_searchModel :
    searchModel.searchMode = true ∧ searchModel.searchQuery = "ab" ∧
    (searchModel.Update slashPath lowerText containsText (Msg.KeyMsg "/")).1.searchQuery = "" := by
  decide

/-- C23 as amended: in SearchInput mode the key `/` keeps the mode, the filtered result,
the selection and the expansion map, and empties the query buffer. -/
theorem Update_slash (filepath : Filepath) (ToLower : String → String)
    (Contains : String → String → Bool) (m : model) (hmode : m.searchMode = true) :
    (m.Update filepath ToLower Contains (Msg.KeyMsg "/")).1.searchMode = m.searchMode ∧
    (m.Update filepath ToLower Contains (Msg.KeyMsg "/")).1.searchQuery = "" ∧
    (m.Update filepath ToLower Contains (Msg.KeyMsg "/")).1.filtered = m.filtered ∧
    (m.Update filepath ToLower Contains (Msg.KeyMsg "/")).1.selected = m.selected ∧
    (m.Update filepath ToLower Contains (Msg.KeyMsg "/")).1.expanded = m.expanded ∧
    (m.Update filepath ToLower Contains (Msg.KeyMsg "/")).2 = none := by
  have hu : m.Update filepath ToLower Contains (Msg.KeyMsg "/")
      = ({ m with searchMode := true, searchQuery := "" }, none) := by
    simp [model.Update]
  rw [hu]
  exact ⟨hmode.symm, rfl, rfl, rfl, rfl, rfl⟩

/-- Witness for the amended C23: the browser in SearchInput mode with the query `ab`. -/
theorem Update_slash_witness :
    (searchModel.Update slashPath lowerText containsText (Msg.KeyMsg "/")).1.searchMode
      = searchModel.searchMode ∧
    (searchModel.Update slashPath lowerText containsText (Msg.KeyMsg "/")).1.searchQuery = "" ∧
    (searchModel.Update slashPath lowerText containsText (Msg.KeyMsg "/")).1.filtered
      = searchModel.filtered ∧
    (searchModel.Update slashPath lowerText containsText (Msg.KeyMsg "/")).1.selected
      = searchModel.selected ∧
    (searchModel.Update slashPath lowerText containsText (Msg.KeyMsg "/")).1.expanded
      = searchModel.expanded ∧
    (searchModel.Update slashPath lowerText containsText (Msg.KeyMsg "/")).2 = none :=
  Update_slash slashPath lowerText containsText searchModel rfl

/-- C24 fails on the code: in SearchInput mode with the query `ab` the key `q` leaves
SearchInput mode and empties the query, and the keys `j`, `k` and `G` leave the query as
it is. -/
theorem Update_keys_searchModel :
    searchModel.searchMode = true ∧ searchModel.searchQuery = "ab" ∧
    (searchModel.Update slashPath lowerText containsText (Msg.KeyMsg "q")).1.searchMode
      = false ∧
    (searchModel.Update slashPath lowerText containsText (Msg.KeyMsg "q")).1.searchQuery = "" ∧
    (searchModel.Update slashPath lowerText containsText (Msg.KeyMsg "j")).1.searchQuery
      = "ab" ∧
    (searchModel.Update slashPath lowerText containsText (Msg.KeyMsg "k")).1.searchQuery
      = "ab" ∧
    (searchModel.Update slashPath lowerText containsText (Msg.KeyMsg "G")).1.searchQuery
      = "ab" := by
  decide

/-- C25 fails on the code: `renderTree` calls `renderNode` with `skipRoot` set for every
visible node. In the browser on `proj/{a.txt, b.txt, c.txt}` with the root expanded the
visible set has four nodes; the text for `proj` is the three lines of its children, the
text for each file is empty, and the body has three lines that name a file and three empty
lines, none naming `proj`. With the filtered result `a.txt` the body is empty. -/
theorem renderTree_flatModel :
    (flatModel.getVisibleNodes slashPath).map (fun n => n.Name)
      = ["proj", "a.txt", "b.txt", "c.txt"] ∧
    (flatModel.getVisibleNodes slashPath).map (fun node =>
        model.renderNode slashPath letterColors lowerText (fun _ => "") paddedStyles flatModel
          node "" true true (node.Path == flatModel.selected))
      = ["  ├── a.txt\n  ├── b.txt\n  └── c.txt", "", "", ""] ∧
    model.renderTree slashPath letterColors lowerText (fun _ => "") paddedStyles flatModel
        (flatModel.getVisibleNodes slashPath)
      = "  ├── a.txt\n  ├── b.txt\n  └── c.txt\n\n\n" ∧
    (filteredModel.getVisibleNodes slashPath).map (fun n => n.Name) = ["a.txt"] ∧
    model.renderTree slashPath letterColors lowerText (fun _ => "") paddedStyles filteredModel
        (filteredModel.getVisibleNodes slashPath)
      = "" := by
  decide

theorem byteSize_go_ge (l : List Char) : l.length ≤ String.utf8ByteSize.go l := by
  induction l with
  | nil => simp [String.utf8ByteSize.go]
  | cons c t ih =>
    have := Char.utf8Size_pos c
    simp only [String.utf8ByteSize.go, List.length_cons]
    omega

theorem byteSize_go_eq (l : List Char) (h : ∀ c ∈ l, c.utf8Size = 1) :
    String.utf8ByteSize.go l = l.length := by
  induction l with
  | nil => simp [String.utf8ByteSize.go]
  | cons c t ih =>
    simp only [String.utf8ByteSize.go, List.length_cons, h c (List.mem_cons_self _ _),
      ih (fun x hx => h x (List.mem_cons_of_mem _ hx))]

/-- A key of one byte is one character of one byte. -/
theorem key_one_byte (key : String) (h : key.utf8ByteSize = 1) :
    ∃ c : Char, key.data = [c] ∧ c.utf8Size = 1 := by
  obtain ⟨l⟩ := key
  simp only [String.utf8ByteSize] at h
  match l, h with
  | [], h => simp [String.utf8ByteSize.go] at h
  | [c], h => exact ⟨c, rfl, by simpa [String.utf8ByteSize.go] using h⟩
  | c :: d :: t, h =>
    have h1 := Char.utf8Size_pos c
    have h2 := Char.utf8Size_pos d
    have h3 := byteSize_go_ge t
    simp only [String.utf8ByteSize.go] at h
    omega

/-- C24 as amended: in SearchInput mode with a query of one-byte characters, a key of one
byte other than `q`, `/`, `j`, `k` and `G` is appended to the query, the mode, the
selection and the expansion map staying as they are; the key `q` leaves SearchInput mode
and empties the query; `backspace` takes the last byte, which is the last character, off
the query and leaves an empty query empty. The query keeps consisting of one-byte
characters. -/
theorem Update_character (filepath : Filepath) (ToLower : String → String)
    (Contains : String → String → Bool) (m : model) (hmode : m.searchMode = true)
    (hq : ∀ c ∈ m.searchQuery.data, c.utf8Size = 1) :
    (∀ key : String, key.utf8ByteSize = 1 → key ≠ "q" → key ≠ "/" → key ≠ "j" → key ≠ "k" →
      key ≠ "G" →
      (m.Update filepath ToLower Contains (Msg.KeyMsg key)).1.searchMode = true ∧
      (m.Update filepath ToLower Contains (Msg.KeyMsg key)).1.searchQuery
        = m.searchQuery ++ key ∧
      (m.Update filepath ToLower Contains (Msg.KeyMsg key)).1.selected = m.selected ∧
      (m.Update filepath ToLower Contains (Msg.KeyMsg key)).1.expanded = m.expanded ∧
      (∀ c ∈ (m.Update filepath ToLower Contains (Msg.KeyMsg key)).1.searchQuery.data,
        c.utf8Size = 1)) ∧
    ((m.Update filepath ToLower Contains (Msg.KeyMsg "q")).1.searchMode = false ∧
      (m.Update filepath ToLower Contains (Msg.KeyMsg "q")).1.searchQuery = "" ∧
      (m.Update filepath ToLower Contains (Msg.KeyMsg "q")).1.selected = m.selected ∧
      (m.Update filepath ToLower Contains (Msg.KeyMsg "q")).1.expanded = m.expanded) ∧
    ((m.Update filepath ToLower Contains (Msg.KeyMsg "backspace")).1.searchMode = true ∧
      (m.Update filepath ToLower Contains (Msg.KeyMsg "backspace")).1.searchQuery.data
        = m.searchQuery.data.dropLast ∧
      (m.Update filepath ToLower Contains (Msg.KeyMsg "backspace")).1.searchQuery.utf8ByteSize
        = m.searchQuery.utf8ByteSize - 1 ∧
      (m.searchQuery = "" →
        (m.Update filepath ToLower Contains (Msg.KeyMsg "backspace")).1.searchQuery = "") ∧
      (m.Update filepath ToLower Contains (Msg.KeyMsg "backspace")).1.selected = m.selected ∧
      (m.Update filepath ToLower Contains (Msg.KeyMsg "backspace")).1.expanded = m.expanded ∧
      (∀ c ∈ (m.Update filepath ToLower Contains (Msg.KeyMsg "backspace")).1.searchQuery.data,
        c.utf8Size = 1)) := by
  refine ⟨?_, ?_, ?_⟩
  · intro key hlen h1 h2 h3 h4 h5
    have hne : ∀ s : String, s.utf8ByteSize ≠ 1 → key ≠ s := by
      rintro s hs rfl
      exact hs hlen
    have hu : m.Update filepath ToLower Contains (Msg.KeyMsg key)
        = (model.filterTree ToLower Contains { m with searchQuery := m.searchQuery ++ key },
            none) := by
      simp [model.Update, h1, h2, h3, h4, h5, hmode, hlen,
        hne "ctrl+c" (by decide), hne "esc" (by decide), hne "enter" (by decide),
        hne "down" (by decide), hne "up" (by decide), hne "gg" (by decide),
        hne "backspace" (by decide)]
    obtain ⟨f1, f2, f3, f4⟩ := filterTree_fields ToLower Contains
      { m with searchQuery := m.searchQuery ++ key }
    rw [hu]
    refine ⟨f1.trans hmode, f2, f3, f4, ?_⟩
    intro c hc
    rw [f2] at hc
    obtain ⟨k, hk, hk1⟩ := key_one_byte key hlen
    simp only [String.data_append, List.mem_append, hk, List.mem_singleton] at hc
    rcases hc with hc | rfl
    · exact hq c hc
    · exact hk1
  · have hu : m.Update filepath ToLower Contains (Msg.KeyMsg "q")
        = ({ m with searchMode := false, searchQuery := "" }, none) := by
      simp [model.Update, hmode]
    rw [hu]
    exact ⟨rfl, rfl, rfl, rfl⟩
  · by_cases hempty : m.searchQuery.utf8ByteSize > 0
    · have hu : m.Update filepath ToLower Contains (Msg.KeyMsg "backspace")
          = (model.filterTree ToLower Contains
              { m with searchQuery := dropLastByte m.searchQuery }, none) := by
        simp [model.Update, hmode, hempty]
      obtain ⟨f1, f2, f3, f4⟩ := filterTree_fields ToLower Contains
        { m with searchQuery := dropLastByte m.searchQuery }
      rw [hu]
      have hdrop : ∀ c ∈ m.searchQuery.data.dropLast, c.utf8Size = 1 :=
        fun c hc => hq c (List.mem_of_mem_dropLast hc)
      refine ⟨f1.trans hmode, by rw [f2]; rfl, ?_, ?_, f3, f4, ?_⟩
      · rw [f2]
        show String.utf8ByteSize.go m.searchQuery.data.dropLast
          = String.utf8ByteSize.go m.searchQuery.data - 1
        rw [byteSize_go_eq _ hdrop, byteSize_go_eq _ hq, List.length_dropLast]
      · intro he
        rw [he] at hempty
        exact absurd hempty (by decide)
      · intro c hc
        rw [f2] at hc
        exact hdrop c hc
    · have hu : m.Update filepath ToLower Contains (Msg.KeyMsg "backspace")
          = (model.filterTree ToLower Contains m, none) := by
        simp [model.Update, hmode, hempty]
      obtain ⟨f1, f2, f3, f4⟩ := filterTree_fields ToLower Contains m
      have hnil : m.searchQuery.data = [] := by
        have h0 : String.utf8ByteSize.go m.searchQuery.data = 0 := by
          have : m.searchQuery.utf8ByteSize = 0 := by omega
          exact this
        have := byteSize_go_ge m.searchQuery.data
        exact List.eq_nil_of_length_eq_zero (by omega)
      rw [hu]
      refine ⟨f1.trans hmode, by rw [f2, hnil]; rfl, ?_, fun he => by rw [f2, he], f3, f4, ?_⟩
      · rw [f2]
        show String.utf8ByteSize.go m.searchQuery.data
          = String.utf8ByteSize.go m.searchQuery.data - 1
        rw [hnil]
        rfl
      · intro c hc
        rw [f2] at hc
        exact hq c hc

/-- Witness for the amended C24: the key `x` in SearchInput mode with the query `ab`. -/
theorem Update_character_witness :
    (searchModel.Update slashPath lowerText containsText (Msg.KeyMsg "x")).1.searchMode = true ∧
    (searchModel.Update slashPath lowerText containsText (Msg.KeyMsg "x")).1.searchQuery
      = searchModel.searchQuery ++ "x" ∧
    (searchModel.Update slashPath lowerText containsText (Msg.KeyMsg "x")).1.selected
      = searchModel.selected ∧
    (searchModel.Update slashPath lowerText containsText (Msg.KeyMsg "x")).1.expanded
      = searchModel.expanded ∧
    (∀ c ∈ (searchModel.Update slashPath lowerText containsText
        (Msg.KeyMsg "x")).1.searchQuery.data, c.utf8Size = 1) :=
  (Update_character slashPath lowerText containsText searchModel rfl (by decide)).1 "x"
    (by decide) (by decide) (by decide) (by decide) (by decide) (by decide)

theorem flattenTree_eq (filepath : Filepath) (m : model) (node : Node) (pfx : String) :
    m.flattenTree filepath node pfx
      = if (node.IsDir && m.expanded (nodeKey filepath node)) = true then
          node :: model.flattenTree.loop filepath m node.Children pfx
        else [node] := by
  cases node with
  | mk nm pa d sl children sz mt mo =>
    simp only [model.flattenTree, nodeKey]
    cases d <;> cases m.expanded (filepath.Join pa nm) <;> simp

theorem flattenTree_loop_cons (filepath : Filepath) (m : model) (child : Node)
    (tl : List Node) (pfx : String) :
    model.flattenTree.loop filepath m (child :: tl) pfx
      = m.flattenTree filepath child (pfx ++ "  ") ++ model.flattenTree.loop filepath m tl pfx := by
  simp only [model.flattenTree.loop]

theorem shown_cons (filepath : Filepath) (m : model) (node c : Node) (i : Nat) (q : List Nat)
    (h : node.Children[i]? = some c) :
    shown filepath m node (i :: q)
      = (node.IsDir && m.expanded (nodeKey filepath node) && shown filepath m c q) := by
  simp only [shown, h]

mutual
/-- The flattening is the pre-order sequence of the nodes all of whose proper ancestors are
expanded directories. -/
theorem flattenTree_shown (filepath : Filepath) (m : model) (node : Node) (pfx : String) :
    m.flattenTree filepath node pfx
      = ((allPositions node).filter (shown filepath m node)).filterMap (nodeAt node) :=
  match node with
  | ⟨nm, pa, d, sl, children, sz, mt, mo⟩ => by
    rw [flattenTree_eq]
    by_cases hexp : ((Node.mk nm pa d sl children sz mt mo).IsDir &&
        m.expanded (nodeKey filepath ⟨nm, pa, d, sl, children, sz, mt, mo⟩)) = true
    · rw [if_pos hexp]
      have h := flattenTree_loop_shown filepath m children ⟨nm, pa, d, sl, children, sz, mt, mo⟩
        0 pfx (by simp) hexp
      simp only [allPositions, positions, List.filter_cons, shown, if_true, List.filterMap_cons,
        nodeAt]
      rw [← h]
    · rw [if_neg hexp]
      have hnone : (positions ⟨nm, pa, d, sl, children, sz, mt, mo⟩).filter
          (shown filepath m ⟨nm, pa, d, sl, children, sz, mt, mo⟩) = [] := by
        rw [List.filter_eq_nil_iff]
        intro p hp
        have hne := positions_ne_nil _ p hp
        cases p with
        | nil => exact absurd rfl hne
        | cons i r =>
          simp only [Bool.not_eq_true] at hexp
          simp only [shown, hexp, Bool.false_and, Bool.false_eq_true, not_false_eq_true]
      simp only [allPositions, List.filter_cons, shown, if_true, hnone, List.filterMap_cons,
        nodeAt, List.filterMap_nil]
theorem flattenTree_loop_shown (filepath : Filepath) (m : model) (rest : List Node)
    (node : Node) (i : Nat) (pfx : String) (h : node.Children.drop i = rest)
    (hexp : (node.IsDir && m.expanded (nodeKey filepath node)) = true) :
    model.flattenTree.loop filepath m rest pfx
      = ((positions.from rest i).filter (shown filepath m node)).filterMap (nodeAt node) :=
  match rest with
  | [] => by simp [model.flattenTree.loop, positions.from]
  | child :: tl => by
    have hi : node.Children[i]? = some child := by
      rw [← List.head?_drop, h]; rfl
    have htl : node.Children.drop (i + 1) = tl := by
      rw [← List.drop_drop, h]; rfl
    have ih1 := flattenTree_shown filepath m child (pfx ++ "  ")
    have ih2 := flattenTree_loop_shown filepath m tl node (i + 1) pfx htl hexp
    rw [flattenTree_loop_cons, positions.from, ih1, ih2]
    have h1 : shown filepath m node [i] = true := by
      rw [shown_cons filepath m node child i [] hi, hexp]
      rfl
    have h2 : (shown filepath m node ∘ fun p => i :: p) = shown filepath m child := by
      funext q
      simp only [Function.comp, shown_cons filepath m node child i q hi, hexp, Bool.true_and]
    have h3 : (nodeAt node ∘ fun p => i :: p) = nodeAt child := by
      funext q
      exact nodeAt_cons node child i q hi
    have h4 : nodeAt node [i] = some child := by simp [nodeAt, hi]
    have h5 : shown filepath m child [] = true := rfl
    have h6 : nodeAt child [] = some child := rfl
    simp only [allPositions, List.cons_append, List.filter_append, List.filter_cons, h1, if_true,
      List.filter_map, h2, List.filterMap_append, List.filterMap_cons, List.filterMap_map, h3,
      h4, h5, h6]
end

theorem flattenTree_pfx (filepath : Filepath) (m : model) (node : Node) (pfx pfx' : String) :
    m.flattenTree filepath node pfx = m.flattenTree filepath node pfx' := by
  rw [flattenTree_shown, flattenTree_shown filepath m node pfx']

theorem flattenTree_length_pos (filepath : Filepath) (m : model) (node : Node) (pfx : String) :
    0 < (m.flattenTree filepath node pfx).length := by
  rw [flattenTree_eq]
  split <;> simp

theorem preorder_eq (node : Node) : preorder node = node :: preorder.all node.Children := by
  cases node
  simp only [preorder]

theorem preorder_all_append (a b : List Node) :
    preorder.all (a ++ b) = preorder.all a ++ preorder.all b := by
  induction a with
  | nil => simp [preorder.all]
  | cons c t ih =>
    show preorder.all (c :: (t ++ b)) = preorder.all (c :: t) ++ preorder.all b
    simp only [preorder.all, ih, List.append_assoc]

theorem flattenTree_loop_append (filepath : Filepath) (m : model) (a b : List Node)
    (pfx : String) :
    model.flattenTree.loop filepath m (a ++ b) pfx
      = model.flattenTree.loop filepath m a pfx ++ model.flattenTree.loop filepath m b pfx := by
  induction a with
  | nil => simp [model.flattenTree.loop]
  | cons c t ih => simp only [List.cons_append, flattenTree_loop_cons, ih, List.append_assoc]

mutual
/-- The flattening of a subtree depends on the expansion of the keys of its nodes only. -/
theorem flattenTree_congr_on (filepath : Filepath) (m m' : model) (node : Node)
    (pfx : String)
    (h : ∀ a ∈ preorder node,
      m'.expanded (nodeKey filepath a) = m.expanded (nodeKey filepath a)) :
    m'.flattenTree filepath node pfx = m.flattenTree filepath node pfx :=
  match node with
  | ⟨nm, pa, d, sl, children, sz, mt, mo⟩ => by
    have hself := h ⟨nm, pa, d, sl, children, sz, mt, mo⟩ (by rw [preorder_eq]; simp)
    have hrest := flattenTree_loop_congr_on filepath m m' children pfx
      (fun a ha => h a (by rw [preorder_eq]; exact List.mem_cons_of_mem _ ha))
    rw [flattenTree_eq, flattenTree_eq, hself, hrest]
theorem flattenTree_loop_congr_on (filepath : Filepath) (m m' : model) (rest : List Node)
    (pfx : String)
    (h : ∀ a ∈ preorder.all rest,
      m'.expanded (nodeKey filepath a) = m.expanded (nodeKey filepath a)) :
    model.flattenTree.loop filepath m' rest pfx = model.flattenTree.loop filepath m rest pfx :=
  match rest with
  | [] => by simp only [model.flattenTree.loop]
  | child :: tl => by
    have h1 := flattenTree_congr_on filepath m m' child (pfx ++ "  ")
      (fun a ha => h a (by rw [preorder.all]; exact List.mem_append_left _ ha))
    have h2 := flattenTree_loop_congr_on filepath m m' tl pfx
      (fun a ha => h a (by rw [preorder.all]; exact List.mem_append_right _ ha))
    rw [flattenTree_loop_cons, flattenTree_loop_cons, h1, h2]
end

theorem expand_expanded (filepath : Filepath) (m : model) (d a : Node)
    (h : nodeKey filepath a ≠ nodeKey filepath d) :
    (expand filepath m d).expanded (nodeKey filepath a) = m.expanded (nodeKey filepath a) := by
  simp [expand, mapSet, h]

/-- Expanding the collapsed directory `d`, visible at position `p` of a subtree with
distinct keys, adds to the flattening of the subtree what the flattening of `d` holds
besides `d`. -/
theorem flattenTree_expand_length (filepath : Filepath) (m : model) (d : Node)
    (hdir : d.IsDir = true) (hcol : m.expanded (nodeKey filepath d) = false) :
    ∀ (p : List Nat) (node : Node) (pfx : String), nodeAt node p = some d →
      shown filepath m node p = true →
      ((preorder node).map (nodeKey filepath)).Nodup →
      ((expand filepath m d).flattenTree filepath node pfx).length
        = (m.flattenTree filepath node pfx).length
          + ((expand filepath m d).flattenTree filepath d pfx).length - 1 := by
  intro p
  induction p with
  | nil =>
    intro node pfx hn _ _
    simp only [nodeAt, Option.some.injEq] at hn
    subst hn
    rw [flattenTree_eq filepath m, hcol]
    simp
  | cons i r ih =>
    intro node pfx hn hs hnd
    cases hc : node.Children[i]? with
    | none => simp [nodeAt, hc] at hn
    | some c =>
      rw [nodeAt_cons node c i r hc] at hn
      rw [shown_cons filepath m node c i r hc] at hs
      simp only [Bool.and_eq_true] at hs
      obtain ⟨⟨hd1, hd2⟩, hsc⟩ := hs
      have hlt : i < node.Children.length := by
        by_contra hge
        rw [List.getElem?_eq_none (by omega)] at hc
        cases hc
      have hci : node.Children[i] = c := by
        rw [List.getElem?_eq_getElem hlt] at hc
        exact Option.some.inj hc
      have hsplit : node.Children = node.Children.take i ++ c :: node.Children.drop (i + 1) := by
        conv_lhs => rw [← List.take_append_drop i node.Children]
        rw [List.drop_eq_getElem_cons hlt, hci]
      have hdc : d ∈ preorder c := mem_preorder c r d hn
      rw [preorder_eq, hsplit, preorder_all_append, preorder.all, List.map_cons, List.map_append,
        List.map_append, List.nodup_cons, List.nodup_append, List.nodup_append] at hnd
      obtain ⟨_, hnd1, ⟨hndc, _, hdis2⟩, hdis1⟩ := hnd
      have hkd : nodeKey filepath d ∈ (preorder c).map (nodeKey filepath) :=
        List.mem_map_of_mem _ hdc
      have hpre : ∀ a ∈ preorder.all (node.Children.take i),
          (expand filepath m d).expanded (nodeKey filepath a)
            = m.expanded (nodeKey filepath a) := by
        intro a ha
        apply expand_expanded
        intro heq
        exact hdis1 (List.mem_map_of_mem _ ha)
          (List.mem_append_left _ (heq ▸ hkd))
      have hpost : ∀ a ∈ preorder.all (node.Children.drop (i + 1)),
          (expand filepath m d).expanded (nodeKey filepath a)
            = m.expanded (nodeKey filepath a) := by
        intro a ha
        apply expand_expanded
        intro heq
        exact hdis2 (heq ▸ hkd) (List.mem_map_of_mem _ ha)
      have hroot : (expand filepath m d).expanded (nodeKey filepath node) = true := by
        simp only [expand, mapSet]
        split
        · rfl
        · exact hd2
      have ihc := ih c (pfx ++ "  ") hn hsc hndc
      rw [flattenTree_pfx filepath (expand filepath m d) d (pfx ++ "  ") pfx] at ihc
      have hpos := flattenTree_length_pos filepath (expand filepath m d) d pfx
      rw [flattenTree_eq filepath (expand filepath m d), flattenTree_eq filepath m, hd1, hd2,
        hroot]
      simp only [Bool.and_self, if_true, List.length_cons]
      rw [hsplit, flattenTree_loop_append, flattenTree_loop_append, flattenTree_loop_cons,
        flattenTree_loop_cons,
        flattenTree_loop_congr_on filepath m (expand filepath m d) _ pfx hpre,
        flattenTree_loop_congr_on filepath m (expand filepath m d) _ pfx hpost]
      simp only [List.length_append, ihc]
      omega

/-- When the first visible node whose `Path` is selected is the collapsed directory `d`,
`toggleExpand` expands the key of `d`. -/
theorem toggleExpand_loop_expand (filepath : Filepath) (m : model) (d : Node)
    (hsel : d.Path = m.selected) (hdir : d.IsDir = true)
    (hcol : m.expanded (nodeKey filepath d) = false) (after : List Node) :
    ∀ before : List Node, (∀ x ∈ before, x.Path ≠ m.selected) →
      model.toggleExpand.loop filepath m (before ++ d :: after) = expand filepath m d := by
  intro before
  induction before with
  | nil =>
    intro _
    have hcol' : m.expanded (filepath.Join d.Path d.Name) = false := hcol
    simp only [List.nil_append, model.toggleExpand.loop, if_pos hsel, hdir, if_true, expand,
      nodeKey, hcol', Bool.not_false]
  | cons x t ih =>
    intro h
    simp only [List.cons_append, model.toggleExpand.loop,
      if_neg (h x (List.mem_cons_self _ _))]
    exact ih (fun y hy => h y (List.mem_cons_of_mem _ hy))

/-- C21: with no filter active, the visible set is the flattening of the tree, which is
the depth-first pre-order sequence of the nodes all of whose proper ancestors are
directories with an expanded key. With node keys pairwise distinct, expanding the key of a
collapsed visible directory `d` makes the visible set longer by the length of the
flattening of `d` after the expansion, less one. `toggleExpand` does this expansion when
`d` is the first visible node whose `Path` is selected. -/
theorem flattenTree_expand (filepath : Filepath) (m : model) (hfilter : m.filtered = [])
    (hkeys : ((preorder m.treeRoot).map (nodeKey filepath)).Nodup) :
    m.getVisibleNodes filepath
      = ((allPositions m.treeRoot).filter (shown filepath m m.treeRoot)).filterMap
          (nodeAt m.treeRoot) ∧
    (∀ node pfx, m.flattenTree filepath node pfx
      = ((allPositions node).filter (shown filepath m node)).filterMap (nodeAt node)) ∧
    (∀ p d, nodeAt m.treeRoot p = some d → shown filepath m m.treeRoot p = true →
      d.IsDir = true → m.expanded (nodeKey filepath d) = false →
      ((expand filepath m d).getVisibleNodes filepath).length
        = (m.getVisibleNodes filepath).length
          + ((expand filepath m d).flattenTree filepath d "").length - 1) ∧
    (∀ before d after, m.getVisibleNodes filepath = before ++ d :: after →
      (∀ x ∈ before, x.Path ≠ m.selected) → d.Path = m.selected → d.IsDir = true →
      m.expanded (nodeKey filepath d) = false →
      m.toggleExpand filepath = expand filepath m d) := by
  have hvis : ∀ m' : model, m'.filtered = [] →
      m'.getVisibleNodes filepath = m'.flattenTree filepath m'.treeRoot "" := by
    intro m' h
    simp [model.getVisibleNodes, h]
  refine ⟨?_, fun node pfx => flattenTree_shown filepath m node pfx, ?_, ?_⟩
  · rw [hvis m hfilter, flattenTree_shown]
  · intro p d hn hs hdir hcol
    rw [hvis m hfilter, hvis (expand filepath m d) hfilter]
    exact flattenTree_expand_length filepath m d hdir hcol p m.treeRoot "" hn hs hkeys
  · intro before d after hv hb hsel hdir hcol
    rw [model.toggleExpand, hv]
    exact toggleExpand_loop_expand filepath m d hsel hdir hcol after before hb

/-- Witness for C21: in the browser on `root/{a.txt, sub/{b.txt}}` with `sub` collapsed
the visible set has three nodes, and four once `sub` is expanded. -/
theorem flattenTree_expand_witness :
    (exampleModel.getVisibleNodes slashPath).length = 3 ∧
    ((expand slashPath exampleModel exampleSub).flattenTree slashPath exampleSub "").length
      = 2 ∧
    ((expand slashPath exampleModel exampleSub).getVisibleNodes slashPath).length
      = (exampleModel.getVisibleNodes slashPath).length
        + ((expand slashPath exampleModel exampleSub).flattenTree slashPath exampleSub "").length
        - 1 :=
  ⟨by decide, by decide,
    (flattenTree_expand slashPath exampleModel rfl (by decide)).2.2.1 [1] exampleSub rfl
      (by decide) rfl (by decide)⟩

/-! ## Claims on the colour renderer -/

theorem Colorize_disabled (colors : Colors) (ToLower : String → String)
    (Ext : String → String) (name : String) (isDir isSymlink : Bool) (mode : Nat) :
    Theme.Colorize colors ToLower Ext ⟨false⟩ name isDir isSymlink mode = name := by
  simp [Theme.Colorize]

theorem colorizeTree_all_length (colors : Colors) (ToLower : String → String)
    (Ext : String → String) (t : Theme) (rest : List Node) :
    (colorizeTree.all colors ToLower Ext t rest).length = rest.length := by
  induction rest with
  | nil => simp [colorizeTree.all]
  | cons c tl ih => simp [colorizeTree.all, ih]

mutual
theorem colorizeTree_disabled (colors : Colors) (ToLower : String → String)
    (Ext : String → String) (node : Node) :
    colorizeTree colors ToLower Ext ⟨false⟩ node = node :=
  match node with
  | ⟨name, path, isDir, isSymlink, children, size, modTime, mode⟩ => by
    rw [colorizeTree, Colorize_disabled, colorizeTree_all_disabled colors ToLower Ext children]
theorem colorizeTree_all_disabled (colors : Colors) (ToLower : String → String)
    (Ext : String → String) (rest : List Node) :
    colorizeTree.all colors ToLower Ext ⟨false⟩ rest = rest :=
  match rest with
  | [] => by rw [colorizeTree.all]
  | child :: tl => by
    rw [colorizeTree.all, colorizeTree_disabled colors ToLower Ext child,
      colorizeTree_all_disabled colors ToLower Ext tl]
end

mutual
/-- The colour renderer writes what the plain renderer writes for the tree with the
coloured names. -/
theorem RendererColor_renderNode_eq (colors : Colors) (ToLower : String → String)
    (Ext : String → String) (t : Theme) (node : Node) (pfx : String) (isLast skipRoot : Bool) :
    RendererColor.renderNode colors ToLower Ext t node pfx isLast skipRoot
      = Renderer.renderNode (colorizeTree colors ToLower Ext t node) pfx isLast skipRoot :=
  match node with
  | ⟨name, path, isDir, isSymlink, children, size, modTime, mode⟩ => by
    rw [RendererColor.renderNode, colorizeTree, Renderer.renderNode,
      RendererColor_renderNode_loop_eq colors ToLower Ext t children 0 children.length pfx isLast
        skipRoot, colorizeTree_all_length]
theorem RendererColor_renderNode_loop_eq (colors : Colors) (ToLower : String → String)
    (Ext : String → String) (t : Theme) (rest : List Node) (i n : Nat) (pfx : String)
    (isLast skipRoot : Bool) :
    RendererColor.renderNode.loop colors ToLower Ext t rest i n pfx isLast skipRoot
      = Renderer.renderNode.loop (colorizeTree.all colors ToLower Ext t rest) i n pfx isLast
          skipRoot :=
  match rest with
  | [] => by rw [RendererColor.renderNode.loop, colorizeTree.all, Renderer.renderNode.loop]
  | child :: tl => by
    rw [RendererColor.renderNode.loop, colorizeTree.all, Renderer.renderNode.loop,
      RendererColor_renderNode_eq colors ToLower Ext t child,
      RendererColor_renderNode_loop_eq colors ToLower Ext t tl]
end

/-- C26: with a disabled theme `Colorize` returns the name unchanged for every input, and
for every tree and both values of `showRoot` `RendererColor.RenderTree` writes the lines
that `Renderer.RenderTree` writes. With any theme, `RendererColor.RenderTree` writes what
`Renderer.RenderTree` writes for the tree in which every `Name` is replaced by its coloured
form: prefixes, connectors, the number of lines and their order are the same. -/
theorem RendererColor_RenderTree_disabled (colors : Colors) (ToLower : String → String)
    (Ext : String → String) (root : Node) (showRoot : Bool) :
    (∀ name isDir isSymlink mode,
      Theme.Colorize colors ToLower Ext (NewTheme false) name isDir isSymlink mode = name) ∧
    RendererColor.RenderTree colors ToLower Ext (NewTheme false) root showRoot
      = Renderer.RenderTree root showRoot ∧
    (∀ t : Theme, RendererColor.RenderTree colors ToLower Ext t root showRoot
      = Renderer.RenderTree (colorizeTree colors ToLower Ext t root) showRoot) := by
  have hgen : ∀ t : Theme, RendererColor.RenderTree colors ToLower Ext t root showRoot
      = Renderer.RenderTree (colorizeTree colors ToLower Ext t root) showRoot := by
    intro t
    rw [RendererColor.RenderTree, Renderer.RenderTree, RendererColor_renderNode_eq]
    cases root
    rfl
  refine ⟨fun name isDir isSymlink mode => Colorize_disabled _ _ _ _ _ _ _, ?_, hgen⟩
  rw [hgen]
  show Renderer.RenderTree (colorizeTree colors ToLower Ext ⟨false⟩ root) showRoot = _
  rw [colorizeTree_disabled]

/-! ## Claims on the unit loop -/

/-- The unit loop on the machine leaves by its exit test after at most `k + 1` rounds when
`n < 1024^(k+1)`, and no product wraps around as long as `div * 1024^k` is an `int64`. -/
theorem unitLoop64_spec : ∀ (k fuel : Nat) (n div : Int) (exp : Nat), 0 ≤ n →
    n < 1024 ^ (k + 1) → k < fuel → 0 < div → div * 1024 ^ k < 2 ^ 63 →
    ∃ j : Nat, j ≤ k ∧ unitLoop64 fuel n div exp = some (div * 1024 ^ j, exp + j) ∧
      n < 1024 ^ (j + 1) ∧ (j = 0 ∨ (1024 : Int) ^ j ≤ n) := by
  intro k
  induction k with
  | zero =>
    intro fuel n div exp h0 hn hf hd hdiv
    obtain ⟨f, rfl⟩ : ∃ f, fuel = f + 1 := ⟨fuel - 1, by omega⟩
    rw [unitLoop64, if_neg (by simpa using hn)]
    exact ⟨0, Nat.le_refl _, by simp, hn, Or.inl rfl⟩
  | succ k ih =>
    intro fuel n div exp h0 hn hf hd hdiv
    obtain ⟨f, rfl⟩ : ∃ f, fuel = f + 1 := ⟨fuel - 1, by omega⟩
    rw [unitLoop64]
    by_cases h : n ≥ 1024
    · rw [if_pos h, Int.tdiv_eq_ediv h0 (by decide)]
      have hP : (1 : Int) ≤ 1024 ^ k := one_le_pow₀ (by decide)
      have hprod : div * 1024 ^ (k + 1) = div * 1024 * 1024 ^ k := by ring
      have hw : wrap64 (div * 1024) = div * 1024 := by
        apply wrap64_id
        · have : (0 : Int) ≤ div * 1024 := by positivity
          have h63 : -(2 : Int) ^ 63 ≤ 0 := by norm_num
          omega
        · have : div * 1024 * 1 ≤ div * 1024 * 1024 ^ k :=
            mul_le_mul_of_nonneg_left hP (by positivity)
          rw [hprod] at hdiv
          omega
      rw [hw]
      obtain ⟨j, hj, hloop, hlt, hge⟩ := ih f (n / 1024) (div * 1024) (exp + 1) (by omega)
        (by rw [pow_succ] at hn; omega) (by omega) (by positivity) (by rw [← hprod]; exact hdiv)
      refine ⟨j + 1, by omega, ?_, ?_, Or.inr ?_⟩
      · rw [hloop, pow_succ, Nat.add_assoc, Nat.add_comm 1 j]
        congr 2
        ring
      · rw [pow_succ]
        omega
      · rw [pow_succ]
        rcases hge with hge | hge
        · subst hge
          simpa using h
        · omega
    · rw [if_neg h]
      exact ⟨0, Nat.zero_le _, by simp, by omega, Or.inl rfl⟩

/-- C27: for every `int64` input below `1024`, the negative ones among them, `FormatSize`
and `FormatSizeCompact` print the plain byte count. For every `int64` input of at least
`1024` the unit loop leaves by its exit test within six rounds with an exponent
`exp <= 5`, so `"KMGTPE"[exp]` is in range, and with `div = 1024^(exp+1)`, which is below
`2^63` and reached without any product wrapping around; `div <= bytes < 1024 * div`. -/
theorem unitLoop_safe :
    (∀ bytes : Int, bytes < 1024 →
      FormatSize bytes = toString bytes ++ " B" ∧
      FormatSizeCompact bytes = toString bytes ++ "B") ∧
    (∀ bytes : Int, 1024 ≤ bytes → bytes < 2 ^ 63 →
      ∃ exp : Nat, exp ≤ 5 ∧
        (∀ fuel, 6 ≤ fuel →
          unitLoop64 fuel (Int.tdiv bytes 1024) 1024 0 = some ((1024 : Int) ^ (exp + 1), exp)) ∧
        unitLoop bytes.toNat (Int.tdiv bytes 1024) 1024 0 = ((1024 : Int) ^ (exp + 1), exp) ∧
        (1024 : Int) ^ (exp + 1) ≤ bytes ∧ bytes < 1024 * 1024 ^ (exp + 1) ∧
        (1024 : Int) ^ (exp + 1) < 2 ^ 63 ∧
        ("KMGTPE".data[exp]?).isSome = true) := by
  constructor
  · intro bytes h
    rw [FormatSize, FormatSizeCompact, if_pos h, if_pos h]
    exact ⟨rfl, rfl⟩
  · intro bytes h1 h2
    obtain ⟨e, he, hloop, hlow, hhigh⟩ := unitLoop_choice bytes h1 h2
    have hpow : (1024 : Int) ^ (e + 1) < 2 ^ 63 := lt_of_le_of_lt hlow h2
    refine ⟨e, he, ?_, hloop, hlow, by rw [pow_succ] at hhigh; omega, hpow, ?_⟩
    · intro fuel hf
      have hn0 : (0 : Int) ≤ bytes / 1024 := by omega
      obtain ⟨j, hj, h64, hlt, hge⟩ := unitLoop64_spec 5 fuel (Int.tdiv bytes 1024) 1024 0
        (by rw [Int.tdiv_eq_ediv (by omega) (by decide)]; exact hn0)
        (by rw [Int.tdiv_eq_ediv (by omega) (by decide)]; norm_num at h2 ⊢; omega)
        (by omega) (by decide) (by norm_num)
      rw [Int.tdiv_eq_ediv (by omega) (by decide)] at hlt hge
      have hlow' : (1024 : Int) ^ (j + 1) ≤ bytes := by
        rw [pow_succ]
        rcases hge with hge | hge
        · subst hge
          simpa using h1
        · omega
      have hhigh' : bytes < (1024 : Int) ^ (j + 2) := by
        rw [pow_succ]
        omega
      have hje : j = e := by
        by_contra hne
        rcases Nat.lt_or_gt_of_ne hne with hlt' | hgt'
        · have : (1024 : Int) ^ (j + 2) ≤ 1024 ^ (e + 1) :=
            pow_le_pow_right₀ (by decide) (by omega)
          omega
        · have : (1024 : Int) ^ (e + 2) ≤ 1024 ^ (j + 1) :=
            pow_le_pow_right₀ (by decide) (by omega)
          omega
      subst hje
      rw [h64, pow_succ]
      simp [mul_comm]
    · interval_cases e <;> rfl

/-- Witness for C27: the largest `int64` value, `2^63 - 1`. -/
theorem unitLoop_safe_witness :
    ∃ exp : Nat, exp ≤ 5 ∧
      (∀ fuel, 6 ≤ fuel →
        unitLoop64 fuel (Int.tdiv (2 ^ 63 - 1) 1024) 1024 0
          = some ((1024 : Int) ^ (exp + 1), exp)) ∧
      unitLoop (2 ^ 63 - 1 : Int).toNat (Int.tdiv (2 ^ 63 - 1) 1024) 1024 0
        = ((1024 : Int) ^ (exp + 1), exp) ∧
      (1024 : Int) ^ (exp + 1) ≤ 2 ^ 63 - 1 ∧ (2 ^ 63 - 1 : Int) < 1024 * 1024 ^ (exp + 1) ∧
      (1024 : Int) ^ (exp + 1) < 2 ^ 63 ∧
      ("KMGTPE".data[exp]?).isSome = true :=
  unitLoop_safe.2 (2 ^ 63 - 1) (by decide) (by decide)

end Dtree
